import Mathlib

/-!
# ddb block lists (`src/lib/ddb-blocklist.c`)

A shallow embedding of the block-list module of ddb.  The C code keeps the
ranges of a list in a doubly linked list of heap cells; the embedding keeps the
cells in an explicit store (`mem`), addresses are indices into it, `malloc`
appends a cell and `free` marks a cell as released.  Dereferencing a released
or unallocated cell is a `fault` (undefined behaviour in C).  Every pointer
loop runs on fuel; `nofuel` is reported separately from `fault`.

`off_t` values are modelled by mathematical integers.  Allocation is assumed
to succeed, so `add_range` always reports 1.
-/

namespace Ddb

/-- Outcome of a piece of pointer code. -/
inductive Res (α : Type) where
  | ok (a : α)
  | fault
  | nofuel
  deriving DecidableEq, Repr

namespace Res

/-- Sequencing of outcomes. -/
def bind {α β : Type} (x : Res α) (f : α → Res β) : Res β :=
  match x with
  | ok a => f a
  | fault => fault
  | nofuel => nofuel

instance : Monad Res where
  pure := Res.ok
  bind := Res.bind

end Res

/-- The C `struct range_s`: `next` and `prev` are addresses or NULL. -/
structure range_t where
  next : Option Nat
  prev : Option Nat
  start : Int
  end_ : Int
  deriving DecidableEq, Repr

/-- The C `struct ddb_blocklist_s`, together with the heap cells it owns
(`none` is a released cell). -/
structure ddb_blocklist_t where
  mem : List (Option range_t)
  first : Option Nat
  last : Option Nat
  count : Int
  deriving DecidableEq, Repr

/-- Read the cell at address `p`. -/
def deref (m : List (Option range_t)) (p : Nat) : Res range_t :=
  match m[p]? with
  | some (some r) => Res.ok r
  | _ => Res.fault

/-- Overwrite the cell at address `p`. -/
def store (m : List (Option range_t)) (p : Nat) (r : range_t) : List (Option range_t) :=
  m.set p (some r)

/-- Release the cell at address `p`. -/
def free (m : List (Option range_t)) (p : Nat) : List (Option range_t) :=
  m.set p none

/-- The function `ddb_blocklist_new`. -/
def ddb_blocklist_new : ddb_blocklist_t :=
  { mem := [], first := none, last := none, count := 0 }

/-- The inner `while (range->next && range->next->start <= range->end + 1)`
loop of `add_range` (lines 240-256): swallow the following ranges. -/
def join_next : Nat → ddb_blocklist_t → Nat → Res ddb_blocklist_t
  | 0, _, _ => Res.nofuel
  | fuel + 1, ls, r =>
    match deref ls.mem r with
    | Res.ok R =>
      match R.next with
      | none => Res.ok ls
      | some n =>
        match deref ls.mem n with
        | Res.ok N =>
          if N.start ≤ R.end_ + 1 then
            let newend := if R.end_ < N.end_ then N.end_ else R.end_
            let count1 := ls.count + (newend - R.end_)
            let count2 := count1 - (N.end_ - N.start + 1)
            let mem1 := store ls.mem r { R with end_ := newend, next := N.next }
            match N.next with
            | some nn =>
              match deref mem1 nn with
              | Res.ok NN =>
                let mem2 := store mem1 nn { NN with prev := some r }
                join_next fuel { ls with mem := free mem2 n, count := count2 } r
              | Res.fault => Res.fault
              | Res.nofuel => Res.nofuel
            | none =>
              join_next fuel { ls with mem := free mem1 n, count := count2, last := some r } r
          else Res.ok ls
        | Res.fault => Res.fault
        | Res.nofuel => Res.nofuel
    | Res.fault => Res.fault
    | Res.nofuel => Res.nofuel

/-- The tail of `add_range` (lines 264-288): make a new range and link it
before `range`, or at the end of the list when `range` is NULL. -/
def add_range_insert (ls : ddb_blocklist_t) (range : Option Nat) (start end_ : Int) :
    Res ddb_blocklist_t :=
  let nr := ls.mem.length
  let cnt := ls.count + (end_ - start + 1)
  match range with
  | some r =>
    match deref ls.mem r with
    | Res.ok R =>
      let mem1 := ls.mem ++ [some { next := some r, prev := R.prev, start := start, end_ := end_ }]
      match R.prev with
      | some p =>
        match deref ls.mem p with
        | Res.ok P =>
          Res.ok { ls with mem := store mem1 p { P with next := some nr }, count := cnt }
        | Res.fault => Res.fault
        | Res.nofuel => Res.nofuel
      | none => Res.ok { ls with mem := mem1, first := some nr, count := cnt }
    | Res.fault => Res.fault
    | Res.nofuel => Res.nofuel
  | none =>
    match ls.last with
    | some l =>
      match deref ls.mem l with
      | Res.ok L =>
        let mem1 := ls.mem ++ [some { next := none, prev := some l, start := start, end_ := end_ }]
        Res.ok { ls with mem := store mem1 l { L with next := some nr }, last := some nr, count := cnt }
      | Res.fault => Res.fault
      | Res.nofuel => Res.nofuel
    | none =>
      Res.ok { ls with
        mem := ls.mem ++ [some { next := none, prev := none, start := start, end_ := end_ }],
        first := some nr, last := some nr, count := cnt }

/-- The outer `while (range)` loop of `add_range` (lines 215-263) followed by
the insertion; `range` is the loop variable and `start` may have been moved
by the second test. -/
def add_range_loop : Nat → ddb_blocklist_t → Option Nat → Int → Int → Res ddb_blocklist_t
  | 0, _, _, _, _ => Res.nofuel
  | _ + 1, ls, none, start, end_ => add_range_insert ls none start end_
  | fuel + 1, ls, some r, start, end_ =>
    match deref ls.mem r with
    | Res.ok R =>
      if R.start ≤ start ∧ R.end_ ≥ end_ then Res.ok ls
      else
        let c2 : Bool := decide (start < R.start ∧ end_ + 1 ≥ R.start)
        let ls1 : ddb_blocklist_t :=
          if c2 then { ls with count := ls.count + (R.start - start),
                               mem := store ls.mem r { R with start := start } }
          else ls
        let R1 : range_t := if c2 then { R with start := start } else R
        if c2 = true ∧ end_ ≤ R.end_ then Res.ok ls1
        else
          let start1 : Int := if c2 then R.end_ + 1 else start
          if start1 ≤ R1.end_ + 1 ∧ end_ ≥ R1.start then
            join_next (ls1.mem.length + 1)
              { ls1 with count := ls1.count + (end_ - R1.end_),
                         mem := store ls1.mem r { R1 with end_ := end_ } } r
          else if R1.start > end_ then add_range_insert ls1 (some r) start1 end_
          else add_range_loop fuel ls1 R1.next start1 end_
    | Res.fault => Res.fault
    | Res.nofuel => Res.nofuel

/-- The function `add_range`; the result `ok ls1` stands for "returned 1 and
left the list as `ls1`". -/
def add_range (ls : ddb_blocklist_t) (start end_ : Int) : Res ddb_blocklist_t :=
  add_range_loop (ls.mem.length + 1) ls ls.first start end_

/-- The function `ddb_blocklist_add`: the return value and the updated list. -/
def ddb_blocklist_add (ls : ddb_blocklist_t) (start end_ : Int) : Res (Int × ddb_blocklist_t) :=
  match add_range ls start end_ with
  | Res.ok ls1 => Res.ok (0, ls1)
  | Res.fault => Res.fault
  | Res.nofuel => Res.nofuel

/-- The function `ddb_blocklist_count`. -/
def ddb_blocklist_count (ls : ddb_blocklist_t) : Int := ls.count

/-- The loop of `ddb_blocklist_has`: skip the ranges that end before `block`. -/
def has_loop : Nat → List (Option range_t) → Option Nat → Int → Res Int
  | 0, _, _, _ => Res.nofuel
  | _ + 1, _, none, _ => Res.ok 0
  | fuel + 1, m, some r, block =>
    match deref m r with
    | Res.ok R =>
      if R.end_ < block then has_loop fuel m R.next block
      else if R.start ≤ block ∧ R.end_ ≥ block then Res.ok 1 else Res.ok 0
    | Res.fault => Res.fault
    | Res.nofuel => Res.nofuel

/-- The function `ddb_blocklist_has`. -/
def ddb_blocklist_has (ls : ddb_blocklist_t) (block : Int) : Res Int :=
  has_loop (ls.mem.length + 1) ls.mem ls.first block

/-- The loop of `ddb_blocklist_iterate` with a callback that records each
`(start, end)` it is given and returns 0. -/
def iterate_loop : Nat → List (Option range_t) → Option Nat → Res (List (Int × Int))
  | 0, _, _ => Res.nofuel
  | _ + 1, _, none => Res.ok []
  | fuel + 1, m, some r =>
    match deref m r with
    | Res.ok R =>
      match iterate_loop fuel m R.next with
      | Res.ok rest => Res.ok ((R.start, R.end_) :: rest)
      | Res.fault => Res.fault
      | Res.nofuel => Res.nofuel
    | Res.fault => Res.fault
    | Res.nofuel => Res.nofuel

/-- The ranges that `ddb_blocklist_iterate` visits, in order. -/
def ddb_blocklist_iterate (ls : ddb_blocklist_t) : Res (List (Int × Int)) :=
  iterate_loop (ls.mem.length + 1) ls.mem ls.first

/-- Apply `ddb_blocklist_add` for each `(start, end)` of `ops`, in order. -/
def add_all : ddb_blocklist_t → List (Int × Int) → Res ddb_blocklist_t
  | ls, [] => Res.ok ls
  | ls, (s, e) :: rest =>
    match ddb_blocklist_add ls s e with
    | Res.ok (_, ls1) => add_all ls1 rest
    | Res.fault => Res.fault
    | Res.nofuel => Res.nofuel

/-! ## `sub`, `union`, `intersect` -/

/-- The loop of `ddb_blocklist_sub` (lines 304-315): clip each range of the
argument to `[start, end]` and add what is left to `ls_new`. -/
def sub_loop : Nat → List (Option range_t) → Option Nat → Int → Int → ddb_blocklist_t →
    Res ddb_blocklist_t
  | 0, _, _, _, _, _ => Res.nofuel
  | _ + 1, _, none, _, _, ls_new => Res.ok ls_new
  | fuel + 1, m, some r, start, end_, ls_new =>
    match deref m r with
    | Res.ok R =>
      let rs : Int := if R.start < start then start else R.start
      let re : Int := if R.end_ > end_ then end_ else R.end_
      if rs ≤ re then
        match add_range ls_new rs re with
        | Res.ok ls1 => sub_loop fuel m R.next start end_ ls1
        | Res.fault => Res.fault
        | Res.nofuel => Res.nofuel
      else sub_loop fuel m R.next start end_ ls_new
    | Res.fault => Res.fault
    | Res.nofuel => Res.nofuel

/-- The function `ddb_blocklist_sub`; the argument list is only read. -/
def ddb_blocklist_sub (ls : ddb_blocklist_t) (start end_ : Int) : Res ddb_blocklist_t :=
  sub_loop (ls.mem.length + 1) ls.mem ls.first start end_ ddb_blocklist_new

/-- The inner loop of `ddb_blocklist_union` (lines 330-339): add every range of
one argument list to `ls_new`. -/
def union_ranges : Nat → List (Option range_t) → Option Nat → ddb_blocklist_t →
    Res ddb_blocklist_t
  | 0, _, _, _ => Res.nofuel
  | _ + 1, _, none, ls_new => Res.ok ls_new
  | fuel + 1, m, some r, ls_new =>
    match deref m r with
    | Res.ok R =>
      match add_range ls_new R.start R.end_ with
      | Res.ok ls1 => union_ranges fuel m R.next ls1
      | Res.fault => Res.fault
      | Res.nofuel => Res.nofuel
    | Res.fault => Res.fault
    | Res.nofuel => Res.nofuel

/-- The outer loop of `ddb_blocklist_union` (line 329) over the argument lists. -/
def union_lists : List ddb_blocklist_t → ddb_blocklist_t → Res ddb_blocklist_t
  | [], ls_new => Res.ok ls_new
  | l :: rest, ls_new =>
    match union_ranges (l.mem.length + 1) l.mem l.first ls_new with
    | Res.ok ls1 => union_lists rest ls1
    | Res.fault => Res.fault
    | Res.nofuel => Res.nofuel

/-- The function `ddb_blocklist_union`; `nls` is the length of `ls`. -/
def ddb_blocklist_union (ls : List ddb_blocklist_t) : Res ddb_blocklist_t :=
  union_lists ls ddb_blocklist_new

/-- The loop `while (ranges[n] && ranges[n]->end < rs) ranges[n] = ranges[n]->next`
of `ddb_blocklist_intersect`. -/
def skip_before : Nat → List (Option range_t) → Option Nat → Int → Res (Option Nat)
  | 0, _, _, _ => Res.nofuel
  | _ + 1, _, none, _ => Res.ok none
  | fuel + 1, m, some r, rs =>
    match deref m r with
    | Res.ok R => if R.end_ < rs then skip_before fuel m R.next rs else Res.ok (some r)
    | Res.fault => Res.fault
    | Res.nofuel => Res.nofuel

/-- The first `for` loop of `ddb_blocklist_intersect` (lines 358-367), entered
with `more = 1`: the cursors `ranges[n]`, the highest first block `rs`, the
lowest last block `max`, and `more`.  The cursors after the point where `more`
became 0 are never read; they are given as NULL. -/
def intersect_init : List ddb_blocklist_t → Int → Int →
    Res (List (Option Nat) × Int × Int × Bool)
  | [], rs, max => Res.ok ([], rs, max, true)
  | l :: rest, rs, max =>
    match l.first with
    | none => Res.ok (none :: rest.map (fun _ => none), rs, max, false)
    | some f =>
      match deref l.mem f with
      | Res.ok F =>
        let rs1 : Int := if rs < F.start then F.start else rs
        let max1 : Res Int :=
          match l.last with
          | none => Res.ok max
          | some la =>
            match deref l.mem la with
            | Res.ok La => Res.ok (if max < 0 ∨ max > La.end_ then La.end_ else max)
            | Res.fault => Res.fault
            | Res.nofuel => Res.nofuel
        match max1 with
        | Res.ok max2 =>
          match intersect_init rest rs1 max2 with
          | Res.ok (cs, rs2, max3, more) => Res.ok (some f :: cs, rs2, max3, more)
          | Res.fault => Res.fault
          | Res.nofuel => Res.nofuel
        | Res.fault => Res.fault
        | Res.nofuel => Res.nofuel
      | Res.fault => Res.fault
      | Res.nofuel => Res.nofuel

/-- The second `for` loop of `ddb_blocklist_intersect` (lines 373-383), entered
with `more = 1`: advance each cursor to the first range ending at or after
`rs` and lower `re` to the least of their ends. -/
def intersect_ends : List ddb_blocklist_t → List (Option Nat) → Int → Int →
    Res (List (Option Nat) × Int × Bool)
  | l :: rest, c :: cs, rs, re =>
    match skip_before (l.mem.length + 1) l.mem c rs with
    | Res.ok none => Res.ok (none :: cs, re, false)
    | Res.ok (some p) =>
      match deref l.mem p with
      | Res.ok P =>
        let re1 : Int := if re > P.end_ then P.end_ else re
        match intersect_ends rest cs rs re1 with
        | Res.ok (cs1, re2, more) => Res.ok (some p :: cs1, re2, more)
        | Res.fault => Res.fault
        | Res.nofuel => Res.nofuel
      | Res.fault => Res.fault
      | Res.nofuel => Res.nofuel
    | Res.fault => Res.fault
    | Res.nofuel => Res.nofuel
  | _, cs, _, re => Res.ok (cs, re, true)

/-- The third `for` loop of `ddb_blocklist_intersect` (lines 393-402), entered
with `more = 1`: advance each cursor to the first range ending at or after
`rs` and raise `rs` to its start. -/
def intersect_starts : List ddb_blocklist_t → List (Option Nat) → Int →
    Res (List (Option Nat) × Int × Bool)
  | l :: rest, c :: cs, rs =>
    match skip_before (l.mem.length + 1) l.mem c rs with
    | Res.ok none => Res.ok (none :: cs, rs, false)
    | Res.ok (some p) =>
      match deref l.mem p with
      | Res.ok P =>
        let rs1 : Int := if rs < P.start then P.start else rs
        match intersect_starts rest cs rs1 with
        | Res.ok (cs1, rs2, more) => Res.ok (some p :: cs1, rs2, more)
        | Res.fault => Res.fault
        | Res.nofuel => Res.nofuel
      | Res.fault => Res.fault
      | Res.nofuel => Res.nofuel
    | Res.fault => Res.fault
    | Res.nofuel => Res.nofuel
  | _, cs, rs => Res.ok (cs, rs, true)

/-- The `while (more && rs <= max)` loop of `ddb_blocklist_intersect`
(lines 368-403). -/
def intersect_loop : Nat → List ddb_blocklist_t → List (Option Nat) → Bool → Int → Int →
    ddb_blocklist_t → Res ddb_blocklist_t
  | 0, _, _, _, _, _, _ => Res.nofuel
  | fuel + 1, ls, cursors, more, rs, max, ls_new =>
    if more = true ∧ rs ≤ max then
      match intersect_ends ls cursors rs max with
      | Res.ok (cursors1, re, more1) =>
        let added : Res ddb_blocklist_t :=
          if more1 = true ∧ rs ≤ re then add_range ls_new rs re else Res.ok ls_new
        match added with
        | Res.ok ls1 =>
          let next : Res (List (Option Nat) × Int × Bool) :=
            if more1 = true then intersect_starts ls cursors1 (re + 1)
            else Res.ok (cursors1, re + 1, false)
          match next with
          | Res.ok (cursors2, rs2, more2) => intersect_loop fuel ls cursors2 more2 rs2 max ls1
          | Res.fault => Res.fault
          | Res.nofuel => Res.nofuel
        | Res.fault => Res.fault
        | Res.nofuel => Res.nofuel
      | Res.fault => Res.fault
      | Res.nofuel => Res.nofuel
    else Res.ok ls_new

/-- The function `ddb_blocklist_intersect`; `nls` is the length of `ls`.  Each
round of the main loop moves a cursor or ends the loop, so the number of cells
of the arguments bounds the rounds. -/
def ddb_blocklist_intersect (ls : List ddb_blocklist_t) : Res ddb_blocklist_t :=
  match ls with
  | [] => Res.ok ddb_blocklist_new
  | _ :: _ =>
    match intersect_init ls 0 (-1) with
    | Res.ok (cursors, rs, max, more) =>
      intersect_loop ((ls.map (fun l => l.mem.length)).sum + 2) ls cursors more rs max
        ddb_blocklist_new
    | Res.fault => Res.fault
    | Res.nofuel => Res.nofuel

/-! ## `save` and `load`: the binary form

A stream is the list of its bytes.  Reading from the stream cannot fail other
than by reaching its end, and writing to it cannot fail.  The integers that
`load` takes from the stream are arbitrary 64-bit patterns, so its `off_t`
arithmetic is modelled with the two's-complement wrap of the machine. -/

/-- The value of an `int64_t` computation: wrap into `[-2^63, 2^63)`. -/
def wrap64 (x : Int) : Int := (x + 2 ^ 63) % 2 ^ 64 - 2 ^ 63

/-- The `n` low-order bytes of `u`, most significant first. -/
def be_bytes : Nat → Nat → List Nat
  | 0, _ => []
  | n + 1, u => be_bytes n (u / 256) ++ [u % 256]

/-- The number whose bytes, most significant first, are `bs`. -/
def of_be_bytes (bs : List Nat) : Nat := bs.foldl (fun acc b => acc * 256 + b % 256) 0

/-- The eight bytes of `htobe64 (x)`, most significant first. -/
def be64 (x : Int) : List Nat := be_bytes 8 (x % 2 ^ 64).toNat

/-- The `int64_t` that `be64toh` gives for eight bytes, most significant first. -/
def of_be64 (bs : List Nat) : Int :=
  if of_be_bytes bs < 2 ^ 63 then (of_be_bytes bs : Int) else (of_be_bytes bs : Int) - 2 ^ 64

/-- The constant `BLOCKLIST_MAGIC`, the bytes of "BlockLst". -/
def BLOCKLIST_MAGIC : Int := 0x426c6f636b4c7374

/-- The errno value `EINVAL`. -/
def EINVAL : Int := 22

/-- The function `getlistrec`: one 16-byte record and the rest of the stream,
or nothing when fewer than 16 bytes are left. -/
def getlistrec (F : List Nat) : Option (Int × Int × List Nat) :=
  if F.length < 16 then none
  else some (of_be64 (F.take 8), of_be64 ((F.drop 8).take 8), F.drop 16)

/-- The function `sendlistrec`: the 16 bytes written for one record. -/
def sendlistrec (start end_ : Int) : List Nat := be64 start ++ be64 end_

/-- What `ddb_blocklist_load` and `ddb_blocklist_read` return: a list and the
unread rest of the stream, or NULL with an errno. -/
inductive loaded (α : Type) where
  | list (ls : ddb_blocklist_t) (rest : List α)
  | null (errno : Int)

/-- The lines by which `load` (101-112) and `read` (142-153) append a new
range after the cell `append`; gives the list and the new `append`. -/
def append_range (res : ddb_blocklist_t) (append : Option Nat) (start end_ : Int) :
    Res (ddb_blocklist_t × Option Nat) :=
  let range := res.mem.length
  let mem1 := res.mem ++ [some { next := none, prev := append, start := start, end_ := end_ }]
  let count1 := wrap64 (res.count + wrap64 (wrap64 (end_ - start) + 1))
  match append with
  | some a =>
    match deref res.mem a with
    | Res.ok A =>
      Res.ok ({ res with mem := store mem1 a { A with next := some range }, count := count1 },
        some range)
    | Res.fault => Res.fault
    | Res.nofuel => Res.nofuel
  | none => Res.ok ({ res with mem := mem1, first := some range, count := count1 }, some range)

/-- The `for (count = 0; count < nrecs; count++)` loop of `ddb_blocklist_load`;
the first argument is the number of rounds left. -/
def load_loop : Nat → List Nat → ddb_blocklist_t → Option Nat → Int →
    Res (Option (List Nat × ddb_blocklist_t × Option Nat))
  | 0, F, res, append, _ => Res.ok (some (F, res, append))
  | k + 1, F, res, append, last =>
    match getlistrec F with
    | none => Res.ok none
    | some (start, end_, F1) =>
      if start < last ∨ end_ < start then Res.ok none
      else
        match append_range res append start end_ with
        | Res.ok (res1, append1) => load_loop k F1 res1 append1 (wrap64 (end_ + 2))
        | Res.fault => Res.fault
        | Res.nofuel => Res.nofuel

/-- The function `ddb_blocklist_load`.  Every failure leaves errno at `EINVAL`
(set by `getlistrec` before each read, and at `invalid:`). -/
def ddb_blocklist_load (F : List Nat) : Res (loaded Nat) :=
  match getlistrec F with
  | none => Res.ok (loaded.null EINVAL)
  | some (magic, nrecs, F1) =>
    if magic ≠ BLOCKLIST_MAGIC then Res.ok (loaded.null EINVAL)
    else
      match load_loop nrecs.toNat F1 ddb_blocklist_new none 0 with
      | Res.ok none => Res.ok (loaded.null EINVAL)
      | Res.ok (some (F2, res, append)) =>
        match getlistrec F2 with
        | none => Res.ok (loaded.null EINVAL)
        | some (magic2, count, F3) =>
          if magic2 = BLOCKLIST_MAGIC ∧ count = nrecs then
            Res.ok (loaded.list { res with last := append } F3)
          else Res.ok (loaded.null EINVAL)
      | Res.fault => Res.fault
      | Res.nofuel => Res.nofuel

/-- The counting loop of `ddb_blocklist_save` (lines 180-183). -/
def count_ranges : Nat → List (Option range_t) → Option Nat → Int → Res Int
  | 0, _, _, _ => Res.nofuel
  | _ + 1, _, none, count => Res.ok count
  | fuel + 1, m, some r, count =>
    match deref m r with
    | Res.ok R => count_ranges fuel m R.next (wrap64 (count + 1))
    | Res.fault => Res.fault
    | Res.nofuel => Res.nofuel

/-- The writing loop of `ddb_blocklist_save` (lines 186-189). -/
def send_ranges : Nat → List (Option range_t) → Option Nat → Res (List Nat)
  | 0, _, _ => Res.nofuel
  | _ + 1, _, none => Res.ok []
  | fuel + 1, m, some r =>
    match deref m r with
    | Res.ok R =>
      match send_ranges fuel m R.next with
      | Res.ok out => Res.ok (sendlistrec R.start R.end_ ++ out)
      | Res.fault => Res.fault
      | Res.nofuel => Res.nofuel
    | Res.fault => Res.fault
    | Res.nofuel => Res.nofuel

/-- The function `ddb_blocklist_save`: the return value and the bytes written. -/
def ddb_blocklist_save (ls : ddb_blocklist_t) : Res (Int × List Nat) :=
  match count_ranges (ls.mem.length + 1) ls.mem ls.first 0 with
  | Res.ok count =>
    match send_ranges (ls.mem.length + 1) ls.mem ls.first with
    | Res.ok out =>
      Res.ok (0, sendlistrec BLOCKLIST_MAGIC count ++ out ++ sendlistrec BLOCKLIST_MAGIC count)
    | Res.fault => Res.fault
    | Res.nofuel => Res.nofuel
  | Res.fault => Res.fault
  | Res.nofuel => Res.nofuel

/-- The bytes of a sequence of range records. -/
def records : List (Int × Int) → List Nat
  | [] => []
  | r :: t => sendlistrec r.1 r.2 ++ records t

/-- The result of a load as ranges and count, for comparison. -/
def loaded_view {α : Type} (r : Res (loaded α)) : Option (List (Int × Int) × Int × List α) :=
  match r with
  | Res.ok (loaded.list ls rest) =>
    match ddb_blocklist_iterate ls with
    | Res.ok rs => some (rs, ls.count, rest)
    | _ => none
  | _ => none

/-! ## `print` and `read`: the textual form

A text stream is the list of its characters.  The C library functions
`fprintf`, `fgets` and `sscanf` are modelled for the two formats that the code
uses, `%lld` and the literal characters around it. -/

/-- The newline character. -/
def nl : Char := Char.ofNat 10

/-- The character of a decimal digit. -/
def digit_char (d : Nat) : Char := Char.ofNat (48 + d)

/-- The C function `isdigit`. -/
def isdigit (c : Char) : Bool := decide (48 ≤ c.toNat ∧ c.toNat ≤ 57)

/-- The C function `isspace` of the C locale: space, `\t`, `\n`, `\v`, `\f`, `\r`. -/
def isspace (c : Char) : Bool := decide (c.toNat = 32 ∨ (9 ≤ c.toNat ∧ c.toNat ≤ 13))

/-- The decimal digits of `n`, most significant first; `fuel` bounds their number. -/
def dec_fuel : Nat → Nat → List Char
  | 0, _ => []
  | fuel + 1, n =>
    if n < 10 then [digit_char n] else dec_fuel fuel (n / 10) ++ [digit_char (n % 10)]

/-- The decimal digits of a natural number. -/
def dec (n : Nat) : List Char := dec_fuel (n + 1) n

/-- What `%lld` prints. -/
def lld (x : Int) : List Char :=
  if x < 0 then (Char.ofNat 45) :: dec x.natAbs else dec x.natAbs

/-- The digits at the head of `s`, read as a number continuing `acc`, and what
follows them. -/
def scan_digits : List Char → Nat → Nat × List Char
  | [], acc => (acc, [])
  | c :: s, acc =>
    if isdigit c = true then scan_digits s (acc * 10 + (c.toNat - 48)) else (acc, c :: s)

/-- The value that `strtoll` gives for a decimal number: clamped to `long long`. -/
def clamp_ll (x : Int) : Int :=
  if x > 2 ^ 63 - 1 then 2 ^ 63 - 1 else if x < -2 ^ 63 then -2 ^ 63 else x

/-- What `%lld` reads: white space, an optional sign, digits; gives the value
and the unread rest, or nothing when no number is there. -/
def scan_lld (s : List Char) : Option (Int × List Char) :=
  match s.dropWhile isspace with
  | [] => none
  | c :: t =>
    if c.toNat = 45 then
      match t with
      | [] => none
      | d :: _ =>
        if isdigit d = true then some (clamp_ll (-((scan_digits t 0).1 : Int)), (scan_digits t 0).2)
        else none
    else if c.toNat = 43 then
      match t with
      | [] => none
      | d :: _ =>
        if isdigit d = true then some (clamp_ll ((scan_digits t 0).1 : Int), (scan_digits t 0).2)
        else none
    else if isdigit c = true then
      some (clamp_ll ((scan_digits (c :: t) 0).1 : Int), (scan_digits (c :: t) 0).2)
    else none

/-- The call `sscanf (line, "%lld:%lld", &start, &end)`: nothing when fewer
than one number was read, else `start` and, when two were read, `end`. -/
def sscanf_range (line : List Char) : Option (Int × Option Int) :=
  match scan_lld line with
  | none => none
  | some (start, rest) =>
    match rest with
    | [] => some (start, none)
    | c :: rest1 =>
      if c.toNat = 58 then
        match scan_lld rest1 with
        | none => some (start, none)
        | some (end_, _) => some (start, some end_)
      else some (start, none)

/-- The characters that `fgets` stores when at most `k` fit: up to and
including the first newline; and the unread rest. -/
def take_line : Nat → List Char → List Char × List Char
  | 0, F => ([], F)
  | _ + 1, [] => ([], [])
  | k + 1, c :: F =>
    if c = nl then ([c], F) else (c :: (take_line k F).1, (take_line k F).2)

/-- The call `fgets (line, size, F)`: nothing at the end of the stream. -/
def fgets (size : Nat) (F : List Char) : Option (List Char × List Char) :=
  match F with
  | [] => none
  | _ :: _ => some (take_line (size - 1) F)

/-- The `while (fgets (...))` loop of `ddb_blocklist_read` (lines 134-154); gives
nothing for `goto invalid`.  Each round takes at least one character, so the
length of the stream bounds the rounds. -/
def read_loop : Nat → List Char → ddb_blocklist_t → Option Nat → Int →
    Res (Option (ddb_blocklist_t × Option Nat))
  | 0, _, _, _, _ => Res.nofuel
  | fuel + 1, F, res, append, last =>
    match fgets 128 F with
    | none => Res.ok (some (res, append))
    | some (line, F1) =>
      match sscanf_range line with
      | none => Res.ok none
      | some (start, end0) =>
        let end_ : Int := match end0 with
          | none => start
          | some e => e
        if start < last ∨ end_ < start then Res.ok none
        else
          match append_range res append start end_ with
          | Res.ok (res1, append1) => read_loop fuel F1 res1 append1 (wrap64 (end_ + 2))
          | Res.fault => Res.fault
          | Res.nofuel => Res.nofuel

/-- The function `ddb_blocklist_read`. -/
def ddb_blocklist_read (F : List Char) : Res (loaded Char) :=
  match read_loop (F.length + 1) F ddb_blocklist_new none 0 with
  | Res.ok none => Res.ok (loaded.null EINVAL)
  | Res.ok (some (res, append)) => Res.ok (loaded.list { res with last := append } [])
  | Res.fault => Res.fault
  | Res.nofuel => Res.nofuel

/-- The line that `ddb_blocklist_print` writes for one range. -/
def print_line (start end_ : Int) : List Char :=
  if start = end_ then lld start ++ [nl]
  else lld start ++ (Char.ofNat 58) :: (lld end_ ++ [nl])

/-- The loop of `ddb_blocklist_print` (lines 197-207). -/
def print_ranges : Nat → List (Option range_t) → Option Nat → Res (List Char)
  | 0, _, _ => Res.nofuel
  | _ + 1, _, none => Res.ok []
  | fuel + 1, m, some r =>
    match deref m r with
    | Res.ok R =>
      match print_ranges fuel m R.next with
      | Res.ok out => Res.ok (print_line R.start R.end_ ++ out)
      | Res.fault => Res.fault
      | Res.nofuel => Res.nofuel
    | Res.fault => Res.fault
    | Res.nofuel => Res.nofuel

/-- The function `ddb_blocklist_print`: the return value and the text written. -/
def ddb_blocklist_print (ls : ddb_blocklist_t) : Res (Int × List Char) :=
  match print_ranges (ls.mem.length + 1) ls.mem ls.first with
  | Res.ok out => Res.ok (0, out)
  | Res.fault => Res.fault
  | Res.nofuel => Res.nofuel

/-- The text of a sequence of ranges, one line each. -/
def lines : List (Int × Int) → List Char
  | [] => []
  | r :: t => print_line r.1 r.2 ++ lines t

/-! ## Reading a list through its cells -/

/-- The cells `l` (address and content) are the ones met when following `next`
from `p`, and the `next` of the final one is `q`. -/
def Seg (m : List (Option range_t)) : Option Nat → List (Nat × range_t) → Option Nat → Prop
  | p, [], q => p = q
  | p, x :: t, q => p = some x.1 ∧ m[x.1]? = some (some x.2) ∧ Seg m x.2.next t q

/-- The `(start, end)` pairs of a sequence of cells. -/
def ranges (l : List (Nat × range_t)) : List (Int × Int) :=
  l.map (fun x => (x.2.start, x.2.end_))

/-- The addresses of a sequence of cells. -/
def addrs (l : List (Nat × range_t)) : List Nat := l.map Prod.fst

/-- A sequence of ranges is canonical: each has `start ≤ end` and consecutive
ones satisfy `R.end + 2 ≤ R1.start`. -/
def canonical (rs : List (Int × Int)) : Prop :=
  (∀ r ∈ rs, r.1 ≤ r.2) ∧ rs.Chain' (fun a b => a.2 + 2 ≤ b.1)

/-- Sum of `end - start + 1` over a sequence of ranges. -/
def total (rs : List (Int × Int)) : Int :=
  (rs.map (fun r => r.2 - r.1 + 1)).sum

/-- Membership of a block in a sequence of ranges. -/
def covers (rs : List (Int × Int)) (b : Int) : Prop := ∃ r ∈ rs, r.1 ≤ b ∧ b ≤ r.2

/-- The pointer structure of a block list: `l` is the chain of cells from
`first`, without repetition, `last` is its final cell, and no cell's `prev`
designates that cell or a later one (it may designate an earlier cell, a cell
that is no longer in the chain, or a released cell). -/
structure Linked (ls : ddb_blocklist_t) (l : List (Nat × range_t)) : Prop where
  seg : Seg ls.mem ls.first l none
  nodup : (addrs l).Nodup
  last : ls.last = (addrs l).getLast?
  prev_lt : ∀ x ∈ l, ∀ p, x.2.prev = some p → p < ls.mem.length
  prev_self : ∀ x ∈ l, x.2.prev ≠ some x.1
  prev_later : l.Pairwise (fun x y => x.2.prev ≠ some y.1)

/-- A well-formed block list: linked, with canonical ranges. -/
def WF (ls : ddb_blocklist_t) (l : List (Nat × range_t)) : Prop :=
  Linked ls l ∧ canonical (ranges l)

/-- What the inner joining loop does to the ranges: starting from end `e`,
swallow the following ranges while they start at or before `e + 1`. -/
def absorb : Int → List (Int × Int) → Int × List (Int × Int)
  | e, [] => (e, [])
  | e, r :: t => if r.1 ≤ e + 1 then absorb (if e < r.2 then r.2 else e) t else (e, r :: t)

/-- What `add_range` does to the ranges of a list whose `prev` links are those
of the forward chain. -/
def abs_add (s e : Int) : List (Int × Int) → List (Int × Int)
  | [] => [(s, e)]
  | r :: t =>
    if r.1 ≤ s ∧ r.2 ≥ e then r :: t
    else if s < r.1 ∧ e + 1 ≥ r.1 then
      if e ≤ r.2 then (s, r.2) :: t
      else (s, (absorb e t).1) :: (absorb e t).2
    else if s ≤ r.2 + 1 ∧ e ≥ r.1 then (r.1, (absorb e t).1) :: (absorb e t).2
    else if r.1 > e then (s, e) :: r :: t
    else r :: abs_add s e t

/-- The walk of `add_range` stops at a range `x` before which a new range is
to be linked: the earlier ranges all end before `s - 1` and `x` starts after
`e + 1`. -/
def stops_before (rs : List (Int × Int)) (s e : Int) : Prop :=
  ∃ pre x suf, rs = pre ++ x :: suf ∧ (∀ y ∈ pre, y.2 + 2 ≤ s) ∧ e + 1 < x.1

/-- The ranges `rs1` that may be left when the walk of `add_range` stops
before a range `x` and links the new range through `x.prev`: the list is as it
was, or the new range precedes `x` and only some first ranges `pre1` are kept
before it. -/
def stale_result (rs : List (Int × Int)) (s e : Int) (rs1 : List (Int × Int)) : Prop :=
  ∃ pre x suf, rs = pre ++ x :: suf ∧ (∀ y ∈ pre, y.2 + 2 ≤ s) ∧ e + 1 < x.1 ∧
    (rs1 = rs ∨ ∃ pre1, pre1 <+: pre ∧ rs1 = pre1 ++ (s, e) :: x :: suf)

/-- What `ddb_blocklist_sub` keeps of one range: its part inside `[s, e]`. -/
def clip (s e : Int) (r : Int × Int) : Option (Int × Int) :=
  if (if r.1 < s then s else r.1) ≤ (if r.2 > e then e else r.2) then
    some (if r.1 < s then s else r.1, if r.2 > e then e else r.2)
  else none

/-- What `ddb_blocklist_sub` does to the ranges of a list. -/
def abs_sub (s e : Int) (rs : List (Int × Int)) : List (Int × Int) :=
  rs.filterMap (clip s e)

/-- The set of blocks of a sequence of ranges. -/
def blocks (rs : List (Int × Int)) : Finset Int :=
  rs.foldr (fun r acc => Finset.Icc r.1 r.2 ∪ acc) ∅

/-- A list of two ranges, `[1, 5]` and `[10, 20]`, as `ddb_blocklist_add`
leaves it after appending each in turn. -/
def two_ranges : ddb_blocklist_t :=
  { mem := [some { next := some 1, prev := none, start := 1, end_ := 5 },
            some { next := none, prev := some 0, start := 10, end_ := 20 }],
    first := some 0, last := some 1, count := 16 }

/-- The cells of `two_ranges`. -/
def two_ranges_cells : List (Nat × range_t) :=
  [(0, { next := some 1, prev := none, start := 1, end_ := 5 }),
   (1, { next := none, prev := some 0, start := 10, end_ := 20 })]

/-! ## Sparse images (`src/lib/ddb-image.c`)

The image file is a sequence of bytes with a size.  Every call that reaches
the file (`ddb_read_block`, `ddb_write_block`, `ftruncate`, `lseek`, `fstat`,
`close`) takes its outcome from the `script` of the file: `false` makes it
fail, without effect on the file; when the script is used up every call
succeeds.  The value of `errno` is not modelled.  The linked list of
`metadata_summary_t` is the list `metadata_summary`, a pointer to one of its
nodes is the index of the node, and the array `metadata_data` is a list of
`meta_size` entries. -/

/-- The C `metadata_data_t`: the blocks `start .. end` are stored contiguously
from file position `pos`. -/
structure metadata_data_t where
  start : Int
  end_ : Int
  pos : Int
  deriving DecidableEq, Repr

/-- The C `metadata_summary_t`, without its `next` pointer. -/
structure metadata_summary_t where
  pos : Int
  first : Int
  last : Int
  deriving DecidableEq, Repr

/-- The C `header_t`. -/
structure header_t where
  total_size : Int
  total_blocks : Int
  blocks_present : Int
  data_end : Int
  metadata : Int
  block_size : Int
  last_block : Int
  mtime : Int
  meta_size : Int
  deriving DecidableEq, Repr

/-- An open file. -/
structure file_t where
  bytes : Int → Nat
  size : Int
  script : List Bool

/-- The C `image_t`, with the fields of `metadata_header` (`summary`, `next`,
`count`) in line. -/
structure image_t where
  fd : file_t
  has_metadata : Bool
  flush_file_header : Bool
  flush_metadata : Bool
  offset : Int
  header : header_t
  summary : Option Nat
  next : Int
  count : Int
  metadata_data : List metadata_data_t
  metadata_summary : List metadata_summary_t

/-- The outcome of the next call that reaches the file. -/
def io_next (f : file_t) : Bool × file_t :=
  match f.script with
  | [] => (true, f)
  | e :: s => (e, { f with script := s })

/-- The byte of the file at `i` (0 outside the file). -/
def byte_at (f : file_t) (i : Int) : Nat :=
  if 0 ≤ i ∧ i < f.size then f.bytes i else 0

/-- The `len` bytes of the file from `pos` on. -/
def file_bytes (f : file_t) (pos len : Int) : List Nat :=
  (List.range len.toNat).map (fun (k : Nat) => byte_at f (pos + (k : Int)))

/-- The file after `len` bytes of `buf` were written at `pos`. -/
def pwrite (f : file_t) (pos len : Int) (buf : List Nat) : file_t :=
  { f with
    bytes := fun i => if pos ≤ i ∧ i < pos + len then buf.getD (i - pos).toNat 0 else byte_at f i,
    size := if 0 < len ∧ f.size < pos + len then pos + len else f.size }

/-- The function `ddb_write_block`. -/
def ddb_write_block (f : file_t) (pos len : Int) (buf : List Nat) : Bool × file_t :=
  if (io_next f).1 then (true, pwrite (io_next f).2 pos len buf)
  else (false, (io_next f).2)

/-- The function `ddb_read_block`: the bytes read, or nothing when it returns 0. -/
def ddb_read_block (f : file_t) (pos len : Int) (zerofill : Bool) : Option (List Nat) × file_t :=
  if (io_next f).1 then
    if len ≤ 0 ∨ pos + len ≤ (io_next f).2.size ∨ zerofill then
      (some (file_bytes (io_next f).2 pos len), (io_next f).2)
    else (none, (io_next f).2)
  else (none, (io_next f).2)

/-- The call `ftruncate (fd, size)`: true when it succeeds. -/
def ftruncate (f : file_t) (size : Int) : Bool × file_t :=
  if (io_next f).1 then
    (true, { (io_next f).2 with
      bytes := fun i => if i < size then byte_at (io_next f).2 i else 0,
      size := size })
  else (false, (io_next f).2)

/-- The four bytes of `htobe32 (x)`, most significant first. -/
def be32 (x : Int) : List Nat := be_bytes 4 (x % 2 ^ 32).toNat

/-- The `uint32_t` that `be32toh` gives for four bytes. -/
def of_be32 (bs : List Nat) : Int := (of_be_bytes bs : Int)

/-- The `int` that `be32toh` gives for four bytes. -/
def of_be32s (bs : List Nat) : Int :=
  if of_be_bytes bs < 2 ^ 31 then (of_be_bytes bs : Int) else (of_be_bytes bs : Int) - 2 ^ 32

/-- The `len` bytes of `buf` from offset `off` on. -/
def field (buf : List Nat) (off len : Nat) : List Nat := (buf.drop off).take len

/-- The constant `version_min`. -/
def version_min : Int := 0

/-- The constant `version_max`. -/
def version_max : Int := 0

/-- The constant `magic`, the bytes of "DDB META". -/
def magic : List Nat := [68, 68, 66, 32, 77, 69, 84, 65]

/-- The size of `disk_header_t`. -/
def sizeof_disk_header : Int := 64

/-- The size of `disk_metadata_header_t`. -/
def sizeof_dmh : Int := 12

/-- The size of `disk_metadata_data_t`. -/
def sizeof_dmd : Int := 24

/-- The function `header_encode`: the bytes of the `disk_header_t`. -/
def header_encode (mh : header_t) : List Nat :=
  magic ++ be64 mh.total_size ++ be64 mh.blocks_present ++ be64 mh.data_end ++
    be32 mh.block_size ++ be32 version_max ++ be64 mh.mtime ++ be64 mh.metadata ++
    List.replicate 8 0

/-- The function `fill_derived_header`. -/
def fill_derived_header (mh : header_t) : header_t :=
  { mh with
    total_blocks :=
      if mh.total_size % mh.block_size ≠ 0 then mh.total_size / mh.block_size + 1
      else mh.total_size / mh.block_size,
    last_block :=
      if mh.total_size % mh.block_size ≠ 0 then mh.total_size % mh.block_size
      else mh.block_size,
    meta_size := (mh.block_size - sizeof_dmh) / sizeof_dmd }

/-- The function `header_decode`: the header, or nothing when it returns 0. -/
def header_decode (dh : List Nat) (mh : header_t) (file_size : Int) : Option header_t :=
  if field dh 0 8 ≠ magic then none
  else if of_be32s (field dh 36 4) < version_min ∨ of_be32s (field dh 36 4) > version_max then none
  else if of_be64 (field dh 8 8) < 1 then none
  else if of_be32 (field dh 32 4) < 512 then none
  else if of_be64 (field dh 16 8) < 0 then none
  else if of_be64 (field dh 24 8) < 0 then none
  else if of_be64 (field dh 24 8) > file_size then none
  else if of_be64 (field dh 48 8) < 0 then none
  else if of_be64 (field dh 48 8) ≥ file_size then none
  else
    let h := fill_derived_header
      { mh with total_size := of_be64 (field dh 8 8), block_size := of_be32 (field dh 32 4),
                blocks_present := of_be64 (field dh 16 8), data_end := of_be64 (field dh 24 8),
                metadata := of_be64 (field dh 48 8), mtime := of_be64 (field dh 40 8) }
    if h.blocks_present > h.total_blocks then none else some h

/-- The summary that the pointer `s` designates. -/
def summ_at (l : List metadata_summary_t) (s : Nat) : metadata_summary_t :=
  l.getD s { pos := 0, first := 0, last := 0 }

/-- The entry `data[n]`. -/
def data_at (d : List metadata_data_t) (n : Nat) : metadata_data_t :=
  d.getD n { start := 0, end_ := 0, pos := 0 }

/-- The bytes of the `disk_metadata_data_t` of an entry. -/
def encode_entry (e : metadata_data_t) : List Nat := be64 e.start ++ be64 e.end_ ++ be64 e.pos

/-- The entry held by the `disk_metadata_data_t` at the start of `src`. -/
def decode_entry (src : List Nat) : metadata_data_t :=
  { start := of_be64 (field src 0 8), end_ := of_be64 (field src 8 8),
    pos := of_be64 (field src 16 8) }

/-- The buffer that `write_metadata` fills: header, entries, and zeros up to
the block size (read as such past the end of the list). -/
def metadata_buffer (next count : Int) (data : List metadata_data_t) : List Nat :=
  be64 next ++ be32 count ++ ((List.range count.toNat).map (fun n => encode_entry (data_at data n))).flatten

/-- The zero padding that `write_metadata` writes after the file header, in
pieces of at most 4096 bytes whose outcome it ignores. -/
def pad_header : Nat → file_t → Int → Int → file_t
  | 0, f, _, _ => f
  | fuel + 1, f, pos, block_size =>
    if pos < block_size then
      pad_header fuel
        (ddb_write_block f pos (if block_size - pos > 4096 then 4096 else block_size - pos) []).2
        (pos + (if block_size - pos > 4096 then 4096 else block_size - pos)) block_size
    else f

/-- The first half of `write_metadata`: the cached metadata block. -/
def write_metadata_block (img : image_t) : Bool × image_t :=
  if img.flush_metadata then
    match img.summary with
    | none => (false, img)
    | some s =>
      if (ddb_write_block img.fd (summ_at img.metadata_summary s).pos img.header.block_size
            (metadata_buffer img.next img.count img.metadata_data)).1 then
        (true, { img with
          fd := (ddb_write_block img.fd (summ_at img.metadata_summary s).pos img.header.block_size
            (metadata_buffer img.next img.count img.metadata_data)).2,
          flush_metadata := false })
      else
        (false, { img with
          fd := (ddb_write_block img.fd (summ_at img.metadata_summary s).pos img.header.block_size
            (metadata_buffer img.next img.count img.metadata_data)).2 })
  else (true, img)

/-- The second half of `write_metadata`: the file header and its padding. -/
def write_file_header (img : image_t) : Bool × image_t :=
  if img.flush_file_header then
    let w := ddb_write_block img.fd img.offset sizeof_disk_header (header_encode img.header)
    let f := pad_header img.header.block_size.toNat w.2 (img.offset + sizeof_disk_header)
      img.header.block_size
    if w.1 then (true, { img with fd := f, flush_file_header := false })
    else (false, { img with fd := f })
  else (true, img)

/-- The function `write_metadata`: 1 or 0, and the image afterwards. -/
def write_metadata (img : image_t) : Int × image_t :=
  (if (write_metadata_block img).1 ∧ (write_file_header (write_metadata_block img).2).1 then 1 else 0,
   (write_file_header (write_metadata_block img).2).2)

/-- The entries that `read_metadata` decodes from the buffer. -/
def decode_entries (buf : List Nat) (count : Int) : List metadata_data_t :=
  (List.range count.toNat).map (fun n => decode_entry (buf.drop (12 + 24 * n)))

/-- Store `vals` in `data[0 ..]`, within the array. -/
def set_front (d vals : List metadata_data_t) : List metadata_data_t :=
  (vals ++ d.drop vals.length).take d.length

/-- The function `read_metadata` for the summary `s`: 1 or 0, and the image
afterwards. -/
def read_metadata (img : image_t) (s : Nat) : Int × image_t :=
  if img.summary = some s then (1, img)
  else if (write_metadata img).1 = 0 then (0, (write_metadata img).2)
  else
    let img1 := { (write_metadata img).2 with summary := none }
    let r := ddb_read_block img1.fd (summ_at img1.metadata_summary s).pos img1.header.block_size
      false
    match r.1 with
    | none => (0, { img1 with fd := r.2 })
    | some buf =>
      if of_be32s (field buf 8 4) < 1 then
        (0, { img1 with fd := r.2, count := of_be32s (field buf 8 4) })
      else
        (1, { img1 with
          fd := r.2, count := of_be32s (field buf 8 4), next := of_be64 (field buf 0 8),
          metadata_data :=
            set_front img1.metadata_data (decode_entries buf (of_be32s (field buf 8 4))),
          summary := some s })

/-- The loop of `read_summary`, which follows the `next` positions on disk
from `pos` and has the summaries read so far in `acc`.  It ends with 0 when a
read fails, and when the fuel is used up, as when `malloc` fails. -/
def read_summary_loop : Nat → file_t → Int → Int → List metadata_summary_t →
    Bool × file_t × List metadata_summary_t
  | 0, f, pos, _, acc => (decide (¬ pos > 0), f, acc)
  | fuel + 1, f, pos, bs, acc =>
    if pos > 0 then
      match (ddb_read_block f pos bs false).1 with
      | none => (false, (ddb_read_block f pos bs false).2, acc)
      | some buf =>
        read_summary_loop fuel (ddb_read_block f pos bs false).2 (of_be64 (field buf 0 8)) bs
          (acc ++ [{ pos := pos,
                     first := (decode_entry (buf.drop 12)).start,
                     last := (decode_entry (buf.drop
                       (12 + (if of_be32s (field buf 8 4) > 1
                              then 24 * (of_be32s (field buf 8 4) - 1).toNat else 0)))).end_ }])
    else (true, f, acc)

/-- The function `read_summary`: 1 or 0, and the image afterwards.  The chain on disk is
followed for as many blocks as the file has. -/
def read_summary (img : image_t) : Int × image_t :=
  let r := read_summary_loop (img.fd.size / img.header.block_size).toNat img.fd
    img.header.metadata img.header.block_size []
  (if r.1 then 1 else 0, { img with fd := r.2.1, metadata_summary := r.2.2 })

/-- The function `block_position`. -/
def block_position (md : metadata_data_t) (block block_size : Int) : Int :=
  (block - md.start) * block_size + md.pos

/-- The walk of `meta_block_position` over the summaries from `s` on: the
summary whose span holds `block`, if there is one. -/
def find_summary (l : List metadata_summary_t) (block : Int) : Nat → Nat → Option Nat
  | 0, _ => none
  | fuel + 1, s =>
    if s < l.length then
      if block < (summ_at l s).first then none
      else if block ≤ (summ_at l s).last then some s
      else find_summary l block fuel (s + 1)
    else none

/-- The final loop of `meta_block_position` over `data[n ..]`, with `k`
entries to go: the position of the data of `block`, or 0. -/
def find_entry (d : List metadata_data_t) (block block_size : Int) : Nat → Nat → Int
  | 0, _ => 0
  | k + 1, n =>
    if (data_at d n).start ≤ block ∧ (data_at d n).end_ ≥ block then
      block_position (data_at d n) block block_size
    else find_entry d block block_size k (n + 1)

/-- The summary from which `meta_block_position` and `add_new_block` start
their walk. -/
def walk_start (img : image_t) (block : Int) : Nat :=
  match img.summary with
  | none => 0
  | some s => if block > (summ_at img.metadata_summary s).last then s else 0

/-- The first test of `meta_block_position`: the cached metadata block is not
the one for `block`. -/
def cache_miss (img : image_t) (block : Int) : Bool :=
  match img.summary with
  | none => true
  | some s => decide (block < (summ_at img.metadata_summary s).first ∨
      block > (summ_at img.metadata_summary s).last)

/-- The summaries as `meta_block_position` and `add_new_block` get them: read
from the file when the list is empty. -/
def get_summary (img : image_t) : Int × image_t :=
  if img.metadata_summary = [] then read_summary img else (1, img)

/-- The function `meta_block_position`: the position of the data of `block`,
0 when it is absent, -1 on error; and the image afterwards. -/
def meta_block_position (img : image_t) (block : Int) : Int × image_t :=
  if cache_miss img block then
    if (get_summary img).1 = 0 then (-1, (get_summary img).2)
    else if (get_summary img).2.metadata_summary = [] then (0, (get_summary img).2)
    else
      match find_summary (get_summary img).2.metadata_summary block
          (get_summary img).2.metadata_summary.length (walk_start (get_summary img).2 block) with
      | none => (0, (get_summary img).2)
      | some s =>
        if (write_metadata (get_summary img).2).1 = 0 then
          (-1, (write_metadata (get_summary img).2).2)
        else if (read_metadata (write_metadata (get_summary img).2).2 s).1 = 0 then
          (-1, (read_metadata (write_metadata (get_summary img).2).2 s).2)
        else
          (find_entry (read_metadata (write_metadata (get_summary img).2).2 s).2.metadata_data block
             (read_metadata (write_metadata (get_summary img).2).2 s).2.header.block_size
             (read_metadata (write_metadata (get_summary img).2).2 s).2.count.toNat 0,
           (read_metadata (write_metadata (get_summary img).2).2 s).2)
  else (find_entry img.metadata_data block img.header.block_size img.count.toNat 0, img)

/-- The summary `metadata_header.summary`. -/
def cached_summary (img : image_t) : metadata_summary_t :=
  match img.summary with
  | some s => summ_at img.metadata_summary s
  | none => { pos := 0, first := 0, last := 0 }

/-- The summaries after `first` and `last` were stored in
`metadata_header.summary`. -/
def set_cached_span (img : image_t) (first last : Int) : List metadata_summary_t :=
  match img.summary with
  | some s => img.metadata_summary.set s { summ_at img.metadata_summary s with
      first := first, last := last }
  | none => img.metadata_summary

/-- The loop of `extend_metadata` over `data[n ..]`, with `k` entries to go. -/
def extend_metadata_loop (img : image_t) (block pos : Int) : Nat → Nat → Int × image_t
  | 0, _ => (0, img)
  | k + 1, n =>
    if (data_at img.metadata_data n).end_ + 1 ≠ block then
      extend_metadata_loop img block pos k (n + 1)
    else if pos ≠ block_position (data_at img.metadata_data n) block img.header.block_size then
      extend_metadata_loop img block pos k (n + 1)
    else
      (1, { img with
        metadata_data := img.metadata_data.set n
          { data_at img.metadata_data n with end_ := (data_at img.metadata_data n).end_ + 1 },
        metadata_summary :=
          if (n : Int) + 1 = img.count then
            set_cached_span img (cached_summary img).first
              ((data_at img.metadata_data n).end_ + 1)
          else img.metadata_summary,
        flush_metadata := true })

/-- The function `extend_metadata`. -/
def extend_metadata (img : image_t) (block pos : Int) : Int × image_t :=
  extend_metadata_loop img block pos img.count.toNat 0

/-- The loop `while (n > 0 && data[n - 1].end > block)` of `add_new_block`:
the final `n` and the array. -/
def shift_entries (block : Int) : Nat → List metadata_data_t → Nat × List metadata_data_t
  | 0, d => (0, d)
  | n + 1, d =>
    if (data_at d n).end_ > block then shift_entries block n (d.set (n + 1) (data_at d n))
    else (n + 1, d)

/-- The code of `add_new_block` from the label `extend_file` on. -/
def extend_file (img : image_t) (new_pos : Int) : Int × image_t :=
  if (ftruncate img.fd (new_pos + img.header.block_size)).1 then
    (new_pos, { img with
      header := { img.header with data_end := new_pos + img.header.block_size,
                                  blocks_present := img.header.blocks_present + 1 },
      flush_file_header := true,
      fd := (ftruncate img.fd (new_pos + img.header.block_size)).2 })
  else
    (-1, { img with
      header := { img.header with data_end := new_pos + img.header.block_size,
                                  blocks_present := img.header.blocks_present + 1 },
      flush_file_header := true,
      fd := (ftruncate img.fd (new_pos + img.header.block_size)).2 })

/-- The array and the summaries after the insertion at the label
`extend_block`. -/
def insert_entry (img : image_t) (block new_pos : Int) : image_t :=
  let sh := shift_entries block img.count.toNat img.metadata_data
  let d1 := sh.2.set sh.1 { start := block, end_ := block, pos := new_pos }
  { img with
    count := img.count + 1,
    metadata_data := d1,
    metadata_summary :=
      set_cached_span img (data_at d1 0).start (data_at d1 (img.count + 1 - 1).toNat).end_,
    flush_metadata := true }

/-- The code of `add_new_block` from the label `extend_block` on. -/
def extend_block (img : image_t) (block new_pos : Int) : Int × image_t :=
  extend_file (insert_entry img block new_pos) new_pos

/-- The walk `while (summ && block > summ->last && summ->next)` of
`add_new_block` from the summary `s` on. -/
def seek_summary (l : List metadata_summary_t) (block : Int) : Nat → Nat → Nat
  | 0, s => s
  | fuel + 1, s =>
    if block > (summ_at l s).last ∧ s + 1 < l.length then seek_summary l block fuel (s + 1)
    else s

/-- The list of summaries with `node` linked in after the summary `s`. -/
def insert_after (l : List metadata_summary_t) (s : Nat) (node : metadata_summary_t) :
    List metadata_summary_t :=
  l.take (s + 1) ++ node :: l.drop (s + 1)

/-- The first steps of the branch of `add_new_block` that starts a new
metadata block after the full block `summ`: the new summary is linked in after
`summ`, with the span both branches give it, and the cached block is made to
name the new block. -/
def chain_link (img : image_t) (summ : Nat) (block new_pos : Int) : image_t :=
  { img with
    metadata_summary := insert_after img.metadata_summary summ
      { pos := new_pos, first := block, last := block },
    next := new_pos, flush_metadata := true }

/-- The next steps of that branch: the new, empty metadata block becomes the
cached one. -/
def chain_cache (img : image_t) (summ : Nat) (next : Int) : image_t :=
  { img with summary := some (summ + 1), count := 0, next := next, flush_metadata := true }

/-- The branch of `add_new_block` that starts a new metadata block after the
full block `summ`, the last one that holds blocks below `block`. -/
def chain_block (img : image_t) (summ : Nat) (block new_pos : Int) : Int × image_t :=
  if (write_metadata (chain_link img summ block new_pos)).1 = 0 then
    (1, (write_metadata (chain_link img summ block new_pos)).2)
  else
    extend_block (chain_cache (write_metadata (chain_link img summ block new_pos)).2 summ img.next)
      block (new_pos + img.header.block_size)

/-- The summaries after a split of the block `summ`, whose second half goes to
`new_pos`. -/
def split_summaries (img : image_t) (summ : Nat) (new_pos : Int) : List metadata_summary_t :=
  insert_after
    (img.metadata_summary.set summ
      { summ_at img.metadata_summary summ with
        last := (data_at img.metadata_data (img.count / 2 - 1).toNat).end_ })
    summ
    { pos := new_pos, first := (data_at img.metadata_data (img.count / 2).toNat).start,
      last := (summ_at img.metadata_summary summ).last }

/-- The image as the split hands it to `write_metadata` for the second half. -/
def split_second (img : image_t) (summ : Nat) (new_pos : Int) : image_t :=
  { img with
    metadata_summary := split_summaries img summ new_pos, summary := some (summ + 1),
    count := img.count - img.count / 2,
    metadata_data := img.metadata_data.drop (img.count / 2).toNat, flush_metadata := true }

/-- The image `w` once the split has put `summary`, `count` and `metadata_data`
back to what they were in `img`. -/
def split_restore (img w : image_t) (summ : Nat) : image_t :=
  { w with summary := some summ, count := img.count, metadata_data := img.metadata_data }

/-- The image as the split hands it to `write_metadata` for the first half. -/
def split_first (img : image_t) (new_pos n1 : Int) : image_t :=
  { img with next := new_pos, count := n1, flush_metadata := true }

/-- The branch of `add_new_block` that splits the full block `summ` in two. -/
def split_block (img : image_t) (summ : Nat) (block new_pos : Int) : Int × image_t :=
  let w := write_metadata (split_second img summ new_pos)
  if w.1 = 0 then (-1, { split_restore img w.2 summ with flush_metadata := true })
  else
    let w2 := write_metadata (split_first (split_restore img w.2 summ) new_pos (img.count / 2))
    if w2.1 = 0 then (1, w2.2)
    else if (data_at w2.2.metadata_data (img.count / 2).toNat).end_ < block then
      if (read_metadata w2.2 (summ + 1)).1 = 0 then (-1, (read_metadata w2.2 (summ + 1)).2)
      else extend_block (read_metadata w2.2 (summ + 1)).2 block (new_pos + img.header.block_size)
    else extend_block w2.2 block (new_pos + img.header.block_size)

/-- The code of `add_new_block` once the summary `summ` has been read and its
block is full. -/
def add_to_full (img : image_t) (summ : Nat) (block new_pos : Int) : Int × image_t :=
  if block > (summ_at img.metadata_summary summ).last ∧ summ + 1 < img.metadata_summary.length ∧
      block ≤ (summ_at img.metadata_summary (summ + 1)).last then
    if (write_metadata img).1 = 0 then (-1, (write_metadata img).2)
    else if (write_metadata (write_metadata img).2).1 = 0 then
      (-1, (write_metadata (write_metadata img).2).2)
    else if (read_metadata (write_metadata (write_metadata img).2).2 (summ + 1)).1 = 0 then
      (-1, (read_metadata (write_metadata (write_metadata img).2).2 (summ + 1)).2)
    else
      let img1 := (read_metadata (write_metadata (write_metadata img).2).2 (summ + 1)).2
      if img1.count < img1.header.meta_size then extend_block img1 block new_pos
      else if block > (summ_at img1.metadata_summary (summ + 1)).last then
        chain_block img1 (summ + 1) block new_pos
      else split_block img1 (summ + 1) block new_pos
  else if block > (summ_at img.metadata_summary summ).last then
    chain_block img summ block new_pos
  else split_block img summ block new_pos

/-- The branch of `add_new_block` for an image without metadata blocks: the
first one is placed at `new_pos` and becomes the cached one. -/
def first_block (img : image_t) (block new_pos : Int) : image_t :=
  { img with
    metadata_summary := [{ pos := new_pos, first := block, last := block }],
    summary := some 0, count := 0, next := 0,
    header := { img.header with metadata := new_pos },
    flush_file_header := true, flush_metadata := true }

/-- The code of `add_new_block` after the attempt to extend the cached
metadata block. -/
def add_new_entry (img : image_t) (block new_pos : Int) : Int × image_t :=
  if (get_summary img).1 = 0 then (-1, (get_summary img).2)
  else if (get_summary img).2.metadata_summary = [] then
    extend_block (first_block (get_summary img).2 block new_pos) block
      (new_pos + img.header.block_size)
  else
    let summ := seek_summary (get_summary img).2.metadata_summary block
      (get_summary img).2.metadata_summary.length (walk_start (get_summary img).2 block)
    if (write_metadata (get_summary img).2).1 = 0 then
      (-1, (write_metadata (get_summary img).2).2)
    else if (read_metadata (write_metadata (get_summary img).2).2 summ).1 = 0 then
      (-1, (read_metadata (write_metadata (get_summary img).2).2 summ).2)
    else
      let img1 := (read_metadata (write_metadata (get_summary img).2).2 summ).2
      if img1.count < img1.header.meta_size then extend_block img1 block new_pos
      else add_to_full img1 summ block new_pos

/-- The first step of `add_new_block`: extend an entry of the cached metadata
block when `block` is within its span or just after it. -/
def try_extend (img : image_t) (block : Int) : Int × image_t :=
  match img.summary with
  | none => (0, img)
  | some s =>
    if block ≥ (summ_at img.metadata_summary s).first ∧
        block ≤ (summ_at img.metadata_summary s).last + 1 then
      extend_metadata img block img.header.data_end
    else (0, img)

/-- The function `add_new_block`: the position reserved for the data of
`block`, or what the code returns on error; and the image afterwards. -/
def add_new_block (img : image_t) (block : Int) : Int × image_t :=
  if (try_extend img block).1 ≠ 0 then extend_file (try_extend img block).2 img.header.data_end
  else add_new_entry (try_extend img block).2 block img.header.data_end

/-- The function `meta_has_block`. -/
def meta_has_block (img : image_t) (block : Int) : Int × image_t :=
  if (meta_block_position img block).1 < 0 then (-1, (meta_block_position img block).2)
  else if (meta_block_position img block).1 = 0 then (0, (meta_block_position img block).2)
  else (1, (meta_block_position img block).2)

/-- The C `ddb_block_t`.  `error` is 0 after a success; after a failure it is
the value of `errno`, which is not modelled. -/
structure ddb_block_t where
  block : Int
  buffer : List Nat
  result : Int
  error : Option Int
  deriving DecidableEq, Repr

/-- The length that `image_read` and `image_write` use for `block`. -/
def block_len (h : header_t) (block : Int) : Int :=
  if block = h.total_blocks - 1 then h.last_block else h.block_size

/-- The buffer after `len` bytes were stored at its start. -/
def fill_buffer (buffer bytes : List Nat) (len : Int) : List Nat :=
  bytes.take len.toNat ++ buffer.drop len.toNat

/-- The body of the loop of `image_read` for one block, for a read of data
(not of checksums); `zf` is the flag `DDB_READ_ZEROFILL`. -/
def image_read_block (img : image_t) (blk : ddb_block_t) (zf : Bool) : ddb_block_t × image_t :=
  let len := block_len img.header blk.block
  let buffer0 : List Nat :=
    if blk.block = img.header.total_blocks - 1 ∧ len < img.header.block_size then
      blk.buffer.take len.toNat ++ List.replicate (img.header.block_size - len).toNat 0 ++
        blk.buffer.drop img.header.block_size.toNat
    else blk.buffer
  let p : Int × image_t :=
    if img.has_metadata then meta_block_position img blk.block
    else (blk.block * img.header.block_size + img.offset, img)
  if img.has_metadata ∧ p.1 < 0 then
    ({ blk with buffer := buffer0, result := -1, error := none }, p.2)
  else if img.has_metadata ∧ p.1 = 0 then
    ({ blk with buffer := fill_buffer buffer0 (List.replicate len.toNat 0) len,
                result := 1, error := some 0 }, p.2)
  else
    match (ddb_read_block p.2.fd p.1 len zf).1 with
    | some bytes =>
      ({ blk with buffer := fill_buffer buffer0 bytes len, result := 1, error := some 0 },
       { p.2 with fd := (ddb_read_block p.2.fd p.1 len zf).2 })
    | none =>
      ({ blk with buffer := buffer0, result := -1, error := none },
       { p.2 with fd := (ddb_read_block p.2.fd p.1 len zf).2 })

/-- The function `image_read` for reads of data: the number of blocks read and
the blocks, and the image afterwards. -/
def image_read : image_t → List ddb_block_t → Bool → (Int × List ddb_block_t) × image_t
  | img, [], _ => ((0, []), img)
  | img, blk :: rest, zf =>
    let r := image_read_block img blk zf
    let t := image_read r.2 rest zf
    ((if r.1.result = 1 then t.1.1 + 1 else t.1.1, r.1 :: t.1.2), t.2)

/-- The body of the loop of `image_write` for one block. -/
def image_write_block (img : image_t) (blk : ddb_block_t) : ddb_block_t × image_t :=
  let len := block_len img.header blk.block
  let p : Int × image_t :=
    if img.has_metadata then
      if (meta_block_position img blk.block).1 = 0 then
        add_new_block (meta_block_position img blk.block).2 blk.block
      else meta_block_position img blk.block
    else (blk.block * img.header.block_size + img.offset, img)
  if img.has_metadata ∧ p.1 < 0 then ({ blk with result := -1, error := none }, p.2)
  else if (ddb_write_block p.2.fd p.1 len blk.buffer).1 then
    ({ blk with result := 1, error := some 0 },
     { p.2 with fd := (ddb_write_block p.2.fd p.1 len blk.buffer).2 })
  else
    ({ blk with result := -1, error := none },
     { p.2 with fd := (ddb_write_block p.2.fd p.1 len blk.buffer).2 })

/-- The function `image_write`: the number of blocks written and the blocks,
and the image afterwards. -/
def image_write : image_t → List ddb_block_t → (Int × List ddb_block_t) × image_t
  | img, [] => ((0, []), img)
  | img, blk :: rest =>
    let r := image_write_block img blk
    let t := image_write r.2 rest
    ((if r.1.result = 1 then t.1.1 + 1 else t.1.1, r.1 :: t.1.2), t.2)

/-- The function `meta_flush`. -/
def meta_flush (img : image_t) : Int × image_t :=
  if (write_metadata img).1 = 0 then (-1, (write_metadata img).2) else (0, (write_metadata img).2)

/-- The function `image_close` of an image with metadata: its value, and the
file it leaves. -/
def image_close (img : image_t) : Int × file_t :=
  let fl := meta_flush img
  let c := io_next fl.2.fd
  (if fl.1 < 0 then -1 else if c.1 then 0 else -1, c.2)

/-- The function `open_image_fd` on a regular file, with `creat` for the flag
`O_CREAT` and `now` for the value of `time (NULL)`: the image, or nothing when
it returns NULL.  The array `metadata_data` starts as zeros. -/
def open_image_fd (f : file_t) (want_metadata : Int) (block_size : Int) (creat : Bool)
    (total_size offset now : Int) : Option image_t :=
  let img0 : image_t :=
    { fd := (io_next f).2, has_metadata := false, flush_file_header := false,
      flush_metadata := false, offset := offset,
      header := { total_size := 0, total_blocks := 0, blocks_present := 0, data_end := 0,
                  metadata := 0, block_size := 0, last_block := 0, mtime := 0, meta_size := 0 },
      summary := none, next := 0, count := 0, metadata_data := [], metadata_summary := [] }
  if ¬ (io_next f).1 then none
  else if img0.fd.size ≤ offset ∧ (¬ creat ∨ total_size < 1) then none
  else
    let size0 := img0.fd.size - offset
    let created : Option (image_t × Int) :=
      if total_size ≥ 0 ∧ size0 = 0 ∧ creat then
        if want_metadata > 1 then
          if block_size < 512 then none
          else
            let w := write_metadata
              { img0 with
                header := fill_derived_header
                  { img0.header with total_size := total_size, block_size := block_size,
                                     blocks_present := 0, mtime := now,
                                     data_end := block_size + offset, metadata := 0 },
                flush_file_header := true, summary := none, flush_metadata := false }
            if w.1 = 0 then none else some (w.2, total_size)
        else
          if (ftruncate img0.fd (offset + total_size)).1 then
            some ({ img0 with fd := (ftruncate img0.fd (offset + total_size)).2 }, total_size)
          else none
      else some (img0, size0)
    match created with
    | none => none
    | some (img1, size1) =>
      if ¬ (io_next img1.fd).1 then none
      else
        let img2 := { img1 with fd := (io_next img1.fd).2, metadata_summary := [],
                                has_metadata := false }
        let rd : Option (List Nat) × file_t :=
          if size1 ≥ sizeof_disk_header then
            ddb_read_block img2.fd offset sizeof_disk_header false
          else (none, img2.fd)
        let dec : Option header_t :=
          match rd.1 with
          | some dh => header_decode dh img2.header size1
          | none => none
        match dec with
        | some h =>
          if block_size > 0 ∧ block_size ≠ h.block_size then none
          else if want_metadata < 1 then none
          else if total_size > 0 ∧ h.total_size ≠ total_size then none
          else if h.block_size < 512 then none
          else
            some { img2 with
              fd := rd.2, header := h, has_metadata := true, summary := none,
              flush_metadata := false, flush_file_header := false,
              metadata_data := List.replicate h.meta_size.toNat
                { start := 0, end_ := 0, pos := 0 } }
        | none =>
          if want_metadata > 1 then none
          else if total_size > 0 ∧ size1 ≠ total_size then none
          else if block_size < 512 then none
          else
            some { img2 with
              fd := rd.2,
              header :=
                let h := fill_derived_header
                  { img2.header with total_size := size1, block_size := block_size,
                                     mtime := now }
                { h with blocks_present := h.total_blocks, data_end := offset + size1 } }

/-- The function `ddb_device_open_image` on the file that `open` gave. -/
def ddb_device_open_image (f : file_t) (want_metadata : Int) (block_size : Int)
    (creat : Bool) (total_size now : Int) : Option image_t :=
  open_image_fd f want_metadata block_size creat total_size 0 now

/-! ## The index of a sparse image, read through the file and the cache -/

/-- A metadata block of the index: its position in the file, the span that
its summary records, the position of the next metadata block, and its
entries. -/
structure mblk where
  pos : Int
  first : Int
  last : Int
  next : Int
  ents : List metadata_data_t

/-- The summary of a metadata block. -/
def mblk.summ (B : mblk) : metadata_summary_t := { pos := B.pos, first := B.first, last := B.last }

/-- The metadata block `B` with the entries `l`, and the span they give it. -/
def mblk.with_ents (B : mblk) (l : List metadata_data_t) : mblk :=
  { pos := B.pos, first := (data_at l 0).start, last := (data_at l (l.length - 1)).end_,
    next := B.next, ents := l }

/-- The position of the first of a list of metadata blocks, `nx` for no block. -/
def head_pos : List mblk → Int → Int
  | [], nx => nx
  | B :: _, _ => B.pos

/-- Each metadata block of the list names the next one, and the last one
names `nx`. -/
def linked_to : List mblk → Int → Prop
  | [], _ => True
  | B :: t, nx => B.next = head_pos t nx ∧ linked_to t nx

/-- The number of blocks of an entry. -/
def ent_len (e : metadata_data_t) : Int := e.end_ - e.start + 1

/-- The number of blocks of a list of entries. -/
def ents_total (es : List metadata_data_t) : Int := (es.map ent_len).sum

/-- The entries of all metadata blocks, in order. -/
def all_ents (blks : List mblk) : List metadata_data_t := (blks.map mblk.ents).flatten

/-- The bytes that a write of `len` bytes from `buf` stores. -/
def block_image (buf : List Nat) (len : Int) : List Nat :=
  (List.range len.toNat).map (fun k => buf.getD k 0)

/-- The numbers that an `int64_t` field holds. -/
def fits64 (x : Int) : Prop := -2 ^ 63 ≤ x ∧ x < 2 ^ 63

/-- An entry of `es` holds `block`, stored at file position `p`. -/
def present (es : List metadata_data_t) (bs block p : Int) : Prop :=
  ∃ e ∈ es, e.start ≤ block ∧ block ≤ e.end_ ∧ p = block_position e block bs

/-- No entry of `es` holds `block`. -/
def absent (es : List metadata_data_t) (block : Int) : Prop :=
  ∀ e ∈ es, ¬ (e.start ≤ block ∧ block ≤ e.end_)

/-- The index is well formed: entries sorted, disjoint and in range, blocks
within capacity and linked, spans as the entries say, and the regions of the
file that metadata blocks and entries occupy are block-aligned, disjoint, and
fill the file from `bs` up to `front`. -/
structure Good (bs ms tb front bp : Int) (blks : List mblk) : Prop where
  sorted : (all_ents blks).Pairwise (fun a b => a.end_ < b.start)
  range : ∀ e ∈ all_ents blks, 0 ≤ e.start ∧ e.start ≤ e.end_ ∧ e.end_ < tb
  cap : ∀ B ∈ blks, (B.ents.length : Int) ≤ ms
  span : ∀ B ∈ blks, B.ents ≠ [] →
    B.first = (data_at B.ents 0).start ∧ B.last = (data_at B.ents (B.ents.length - 1)).end_
  linked : linked_to blks 0
  front_eq : front = bs * (1 + bp + blks.length)
  present_eq : bp = ents_total (all_ents blks)
  mpos : ∀ B ∈ blks, bs ∣ B.pos ∧ bs ≤ B.pos ∧ B.pos + bs ≤ front
  mnodup : (blks.map mblk.pos).Nodup
  epos : ∀ e ∈ all_ents blks, bs ∣ e.pos ∧ bs ≤ e.pos ∧ e.pos + ent_len e * bs ≤ front
  me_disj : ∀ B ∈ blks, ∀ e ∈ all_ents blks,
    B.pos + bs ≤ e.pos ∨ e.pos + ent_len e * bs ≤ B.pos
  e_disj : (all_ents blks).Pairwise
    (fun a b => a.pos + ent_len a * bs ≤ b.pos ∨ b.pos + ent_len b * bs ≤ a.pos)

/-- What never changes while an image is open: it has metadata at offset 0,
its geometry is what `fill_derived_header` gives, the numbers of its header
fit their disk fields, and the file stays below `2 ^ 63` bytes however many
blocks are written. -/
structure Static (img : image_t) : Prop where
  has_md : img.has_metadata = true
  off : img.offset = 0
  bs_min : 512 ≤ img.header.block_size
  bs_max : img.header.block_size < 2 ^ 32
  ts_min : 1 ≤ img.header.total_size
  ts_max : img.header.total_size < 2 ^ 63
  derived : fill_derived_header img.header = img.header
  mtime : -2 ^ 63 ≤ img.header.mtime ∧ img.header.mtime < 2 ^ 63
  room : img.header.block_size * (2 * img.header.total_blocks + 1) < 2 ^ 63

/-- The file holds the header `h` (when `hclean`), every metadata block of
`blks` but those at the positions `ex`, and the contents `data` of the blocks
that the entries hold. -/
structure OnDisk (f : file_t) (h : header_t) (blks : List mblk) (ex : Int → Prop)
    (hclean : Bool) (data : Int → List Nat) : Prop where
  script : f.script = []
  size_ge : h.block_size ≤ f.size
  hdr_disk : hclean = true → file_bytes f 0 sizeof_disk_header = header_encode h
  disk : ∀ B ∈ blks, ¬ ex B.pos →
    B.pos + h.block_size ≤ f.size ∧
    file_bytes f B.pos h.block_size =
      block_image (metadata_buffer B.next B.ents.length B.ents) h.block_size
  data_ok : ∀ e ∈ all_ents blks, ∀ b, e.start ≤ b → b ≤ e.end_ →
    block_position e b h.block_size + h.block_size ≤ f.size ∧
    file_bytes f (block_position e b h.block_size) (block_len h b) = data b

/-- The position of the cached metadata block when it is newer than the file. -/
def dirty_pos (img : image_t) : Option Int :=
  if img.flush_metadata then
    img.summary.map (fun s => (summ_at img.metadata_summary s).pos)
  else none

/-- The state of an open image represents the index `blks` and the block
contents `data`, with all regions of the file below `front`.  The cached
metadata block may be empty and may be newer than the file; every other
metadata block is on disk. -/
structure Rep0 (img : image_t) (blks : List mblk) (front : Int) (data : Int → List Nat) :
    Prop where
  static : Static img
  good : Good img.header.block_size img.header.meta_size img.header.total_blocks front
    img.header.blocks_present blks
  hdr_meta : img.header.metadata = head_pos blks 0
  summ : img.metadata_summary = blks.map mblk.summ ∨
    (img.metadata_summary = [] ∧ img.summary = none)
  cache_none : img.summary = none → img.flush_metadata = false
  cache : ∀ s, img.summary = some s → ∃ pre B post, blks = pre ++ B :: post ∧ pre.length = s ∧
    img.count = B.ents.length ∧ img.metadata_data.take B.ents.length = B.ents ∧
    img.next = B.next
  md_len : (img.metadata_data.length : Int) = img.header.meta_size
  ondisk : OnDisk img.fd img.header blks (fun p => dirty_pos img = some p)
    (!img.flush_file_header) data

/-- The state of an open image between two calls: it represents `blks` and
`data`, no metadata block is empty, and the file ends where the header says
the data ends. -/
structure Rep (img : image_t) (blks : List mblk) (data : Int → List Nat) : Prop where
  rep0 : Rep0 img blks img.header.data_end data
  size_eq : img.fd.size = img.header.data_end
  full : ∀ B ∈ blks, B.ents ≠ []

/-- What a successful `add_new_block` for `block` leaves: an image like `img`
that represents an index with `block` added, stored at the position returned,
and the other blocks as before.  The data of the block is where the data
ended, or one block further with a new metadata block where the data ended;
the data ends after it. -/
def AddPost (img : image_t) (blks : List mblk) (data : Int → List Nat) (block : Int)
    (r : Int × image_t) : Prop :=
  ∃ blks1 data1, Rep r.2 blks1 data1 ∧
    r.2.header.block_size = img.header.block_size ∧
    r.2.header.total_blocks = img.header.total_blocks ∧
    r.2.header.last_block = img.header.last_block ∧
    r.2.header.total_size = img.header.total_size ∧
    r.2.has_metadata = img.has_metadata ∧
    present (all_ents blks1) img.header.block_size block r.1 ∧
    (∀ b1, absent (all_ents blks1) b1 ↔ (b1 ≠ block ∧ absent (all_ents blks) b1)) ∧
    (∀ b1, b1 ≠ block → data1 b1 = data b1) ∧
    r.2.header.data_end = r.1 + img.header.block_size ∧
    ((r.1 = img.header.data_end ∧ blks1.map mblk.pos = blks.map mblk.pos) ∨
      (r.1 = img.header.data_end + img.header.block_size ∧
        (blks1.map mblk.pos).Perm (img.header.data_end :: blks.map mblk.pos)))

/-! ## Uses of a sparse image -/

/-- A file that `open` has just created: no bytes, and every call succeeds. -/
def empty_file : file_t := { bytes := fun _ => 0, size := 0, script := [] }

/-- The header that `open_image_fd` makes for a new image with metadata, at
offset 0. -/
def new_header (bs ts now : Int) : header_t :=
  fill_derived_header
    { total_size := ts, total_blocks := 0, blocks_present := 0, data_end := bs + 0,
      metadata := 0, block_size := bs, last_block := 0, mtime := now, meta_size := 0 }

/-- The image that `open_image_fd` gives for a new file, with metadata, at
offset 0: the file holds the header, padded to a block, and no metadata block
is cached. -/
def new_image (bs ts now : Int) : image_t :=
  { fd := pad_header bs.toNat
      (pwrite empty_file 0 sizeof_disk_header (header_encode (new_header bs ts now)))
      sizeof_disk_header bs,
    has_metadata := true, flush_file_header := false, flush_metadata := false, offset := 0,
    header := new_header bs ts now, summary := none, next := 0, count := 0,
    metadata_data := List.replicate (new_header bs ts now).meta_size.toNat
      { start := 0, end_ := 0, pos := 0 },
    metadata_summary := [] }

/-- One step of a use of an image: a call of `image_write` for some blocks, a
call of `meta_flush`, or `image_close` followed by `ddb_device_open_image` on
the file it leaves, with the arguments of that call. -/
inductive op where
  | write (blocks : List ddb_block_t)
  | flush
  | reopen (want_metadata block_size : Int) (creat : Bool) (total_size now : Int)

/-- The image after one step, or nothing when a call of the step fails. -/
def apply_op (img : image_t) : op → Option image_t
  | op.write blocks =>
    if (image_write img blocks).1.1 = blocks.length then some (image_write img blocks).2
    else none
  | op.flush => if (meta_flush img).1 = 0 then some (meta_flush img).2 else none
  | op.reopen want_metadata block_size creat total_size now =>
    if (image_close img).1 = 0 then
      ddb_device_open_image (image_close img).2 want_metadata block_size creat total_size now
    else none

/-- The image after the steps `ops`, or nothing when a call fails. -/
def run : image_t → List op → Option image_t
  | img, [] => some img
  | img, o :: rest =>
    match apply_op img o with
    | some img1 => run img1 rest
    | none => none

/-- The buffers last written, after the writes of `blocks` in their order. -/
def note_writes : (Int → Option (List Nat)) → List ddb_block_t → Int → Option (List Nat)
  | w, [] => w
  | w, blk :: rest => note_writes (Function.update w blk.block (some blk.buffer)) rest

/-- The buffer of the most recent write to each block in the steps `ops`,
nothing for a block that no step writes. -/
def written : (Int → Option (List Nat)) → List op → Int → Option (List Nat)
  | w, [] => w
  | w, op.write blocks :: rest => written (note_writes w blocks) rest
  | w, _ :: rest => written w rest

/-- A step that the claims about images speak of: its writes are of whole
buffers to blocks of the image, and its reopening asks for metadata and for
the block size and total size of the image, or leaves them open. -/
def valid_op (bs ts : Int) : op → Prop
  | op.write blocks => ∀ blk ∈ blocks, 0 ≤ blk.block ∧
      blk.block < (ts + bs - 1) / bs ∧ (blk.buffer.length : Int) = bs
  | op.flush => True
  | op.reopen want_metadata block_size _ total_size now =>
      1 ≤ want_metadata ∧ (block_size = 0 ∨ block_size = bs) ∧
      (total_size ≤ 0 ∨ total_size = ts) ∧ -2 ^ 63 ≤ now ∧ now < 2 ^ 63

/-- What the image holds for a block whose last written buffer is `buf`: the
bytes of the block, then zeros up to the block size. -/
def stored (h : header_t) (block : Int) (buf : List Nat) : List Nat :=
  buf.take (block_len h block).toNat ++
    List.replicate (h.block_size - block_len h block).toNat 0

/-- The image `img`, for block size `bs` and total size `ts`, holds what the
writes `w` left: invariant of the uses of an image. -/
def Holds (bs ts : Int) (img : image_t) (w : Int → Option (List Nat)) : Prop :=
  ∃ blks data, Rep img blks data ∧ img.header.block_size = bs ∧ img.header.total_size = ts ∧
    (∀ b, w b = none ↔ absent (all_ents blks) b) ∧
    (∀ b buf, w b = some buf → (buf.length : Int) = bs ∧
      data b = buf.take (block_len img.header b).toNat)

/-- The bytes that a read gives for a block whose last written buffer is
`buf`, in an image of total size `ts` in blocks of `bs` bytes: the buffer, but
for a short last block its `ts % bs` bytes followed by zeros. -/
def as_read (bs ts block : Int) (buf : List Nat) : List Nat :=
  if block = (ts + bs - 1) / bs - 1 ∧ ts % bs ≠ 0 then
    buf.take (ts % bs).toNat ++ List.replicate (bs - ts % bs).toNat 0
  else buf

/-- A use of an image of 1124 bytes in blocks of 512: a write of block 1, a
flush, a closing and reopening, and writes of the short last block 2 and of
block 1 again. -/
def sample_ops : List op :=
  [op.write [⟨1, List.replicate 512 7, 0, none⟩], op.flush, op.reopen 1 0 false 0 0,
   op.write [⟨2, List.replicate 512 9, 0, none⟩, ⟨1, List.replicate 512 8, 0, none⟩]]

/-- A header whose fields are all zero: what `header_decode` is given to fill
in. -/
def zero_header : header_t :=
  { total_size := 0, total_blocks := 0, blocks_present := 0, data_end := 0, metadata := 0,
    block_size := 0, last_block := 0, mtime := 0, meta_size := 0 }

/-- A header to encode: 1 MiB in blocks of 4096 bytes, 3 of them present. -/
def sample_header : header_t :=
  { total_size := 1048576, total_blocks := 256, blocks_present := 3, data_end := 20480,
    metadata := 4096, block_size := 4096, last_block := 4096, mtime := 1700000000,
    meta_size := 170 }

/-- The 64 bytes of a `disk_header_t` with total size 1, no block present,
`data_end` and `metadata` 0, and the bytes 80 00 00 00 as its `int32_t`
field `block_size`. -/
def negative_block_size_header : List Nat :=
  [68, 68, 66, 32, 77, 69, 84, 65,
   0, 0, 0, 0, 0, 0, 0, 1,
   0, 0, 0, 0, 0, 0, 0, 0,
   0, 0, 0, 0, 0, 0, 0, 0,
   128, 0, 0, 0,
   0, 0, 0, 0,
   0, 0, 0, 0, 0, 0, 0, 0,
   0, 0, 0, 0, 0, 0, 0, 0,
   0, 0, 0, 0, 0, 0, 0, 0]

/-! ## The blocks of a sparse image (`meta_iterate`, `meta_blocks`)

The callback of `meta_iterate` is a function of the span and of the state
behind its `arg` pointer, to the value it returns and the state it leaves. -/

/-- The `for` loop of `meta_iterate` over the entries `n ..` of the cached
metadata block: the value below 0 by which `func` stopped the iteration, if it
did, and the pending span and the state of `arg` afterwards. -/
def iterate_entries {α : Type} (func : Int → Int → α → Int × α) (md : List metadata_data_t)
    (count : Int) : Nat → Nat → Int → Int → α → Option Int × Int × Int × α
  | 0, _, start, end_, arg => (none, start, end_, arg)
  | fuel + 1, n, start, end_, arg =>
    if (n : Int) < count then
      if end_ ≥ 0 then
        if end_ + 1 = (data_at md n).start then
          iterate_entries func md count fuel (n + 1) start (data_at md n).end_ arg
        else if (func start end_ arg).1 < 0 then
          (some (func start end_ arg).1, start, end_, (func start end_ arg).2)
        else
          iterate_entries func md count fuel (n + 1) (data_at md n).start (data_at md n).end_
            (func start end_ arg).2
      else
        iterate_entries func md count fuel (n + 1) (data_at md n).start (data_at md n).end_ arg
    else (none, start, end_, arg)

/-- The `while (summ)` loop of `meta_iterate` over the summaries `l`, given by
their places in the list: the value that ends the iteration early (-1 when
`read_metadata` fails), the pending span, the state of `arg` and the image. -/
def iterate_summaries {α : Type} (func : Int → Int → α → Int × α) :
    List Nat → image_t → Int → Int → α → Option Int × Int × Int × α × image_t
  | [], img, start, end_, arg => (none, start, end_, arg, img)
  | s :: rest, img, start, end_, arg =>
    if (read_metadata img s).1 = 0 then (some (-1), start, end_, arg, (read_metadata img s).2)
    else
      match (iterate_entries func (read_metadata img s).2.metadata_data
          (read_metadata img s).2.count (read_metadata img s).2.count.toNat 0 start end_ arg).1 with
      | some v =>
        (some v, start, end_,
         (iterate_entries func (read_metadata img s).2.metadata_data
          (read_metadata img s).2.count (read_metadata img s).2.count.toNat 0 start end_
          arg).2.2.2,
         (read_metadata img s).2)
      | none =>
        iterate_summaries func rest (read_metadata img s).2
          (iterate_entries func (read_metadata img s).2.metadata_data
            (read_metadata img s).2.count (read_metadata img s).2.count.toNat 0 start end_
            arg).2.1
          (iterate_entries func (read_metadata img s).2.metadata_data
            (read_metadata img s).2.count (read_metadata img s).2.count.toNat 0 start end_
            arg).2.2.1
          (iterate_entries func (read_metadata img s).2.metadata_data
            (read_metadata img s).2.count (read_metadata img s).2.count.toNat 0 start end_
            arg).2.2.2

/-- The end of `meta_iterate`: the last span, if there is one. -/
def iterate_finish {α : Type} (func : Int → Int → α → Int × α)
    (r : Option Int × Int × Int × α × image_t) : Int × α × image_t :=
  match r.1 with
  | some v => (v, r.2.2.2.1, r.2.2.2.2)
  | none =>
    if r.2.2.1 < 0 then (0, r.2.2.2.1, r.2.2.2.2)
    else ((func r.2.1 r.2.2.1 r.2.2.2.1).1, (func r.2.1 r.2.2.1 r.2.2.2.1).2, r.2.2.2.2)

/-- The function `meta_iterate`: its value, the state of `arg` and the image
afterwards. -/
def meta_iterate {α : Type} (img : image_t) (func : Int → Int → α → Int × α) (arg : α) :
    Int × α × image_t :=
  if (write_metadata img).1 = 0 then (-1, arg, (write_metadata img).2)
  else if img.metadata_summary = [] then
    if (read_summary (write_metadata img).2).1 = 0 then
      (-1, arg, (read_summary (write_metadata img).2).2)
    else
      iterate_finish func
        (iterate_summaries func
          (List.range (read_summary (write_metadata img).2).2.metadata_summary.length)
          (read_summary (write_metadata img).2).2 (-1) (-1) arg)
  else
    iterate_finish func
      (iterate_summaries func (List.range img.metadata_summary.length)
        (write_metadata img).2 (-1) (-1) arg)

/-- The C `makelist_t`: the list to restrict to (NULL for none) and the
result so far. -/
structure makelist_t where
  list : Option ddb_blocklist_t
  res : ddb_blocklist_t

/-- The function `meta_add_range` on the outcome so far: a fault of the
pointer code stays a fault. -/
def meta_add_range (start end_ : Int) (ml : Res makelist_t) : Int × Res makelist_t :=
  match ml with
  | Res.ok m =>
    match m.list with
    | none =>
      match ddb_blocklist_add m.res start end_ with
      | Res.ok r => (r.1, Res.ok { m with res := r.2 })
      | Res.fault => (0, Res.fault)
      | Res.nofuel => (0, Res.nofuel)
    | some l =>
      match ddb_blocklist_sub l start end_ with
      | Res.ok range =>
        match ddb_blocklist_union [m.res, range] with
        | Res.ok tmp => (0, Res.ok { m with res := tmp })
        | Res.fault => (0, Res.fault)
        | Res.nofuel => (0, Res.nofuel)
      | Res.fault => (0, Res.fault)
      | Res.nofuel => (0, Res.nofuel)
  | Res.fault => (0, Res.fault)
  | Res.nofuel => (0, Res.nofuel)

/-- The function `meta_has_blocks`: the list, or NULL, and the image
afterwards. -/
def meta_has_blocks (img : image_t) (list : Option ddb_blocklist_t) :
    Res (Option ddb_blocklist_t) × image_t :=
  (match (meta_iterate img meta_add_range
      (Res.ok { list := list, res := ddb_blocklist_new })).2.1 with
    | Res.ok m =>
      if (meta_iterate img meta_add_range
          (Res.ok { list := list, res := ddb_blocklist_new })).1 ≥ 0 then Res.ok (some m.res)
      else Res.ok none
    | Res.fault => Res.fault
    | Res.nofuel => Res.nofuel,
   (meta_iterate img meta_add_range (Res.ok { list := list, res := ddb_blocklist_new })).2.2)

/-- The function `meta_blocks`. -/
def meta_blocks (img : image_t) : Res (Option ddb_blocklist_t) × image_t :=
  meta_has_blocks img none

/-- The blocks that the steps `ops` write. -/
def write_set : List op → Finset Int
  | [] => ∅
  | op.write blocks :: rest => (blocks.map (fun blk => blk.block)).toFinset ∪ write_set rest
  | _ :: rest => write_set rest

/-- What the callbacks of `meta_iterate` come to for the entries `es`, from a
pending span on: the same as `iterate_entries`, on the entries themselves. -/
def feed {α : Type} (func : Int → Int → α → Int × α) :
    List metadata_data_t → Int → Int → α → Option Int × Int × Int × α
  | [], start, end_, arg => (none, start, end_, arg)
  | e :: rest, start, end_, arg =>
    if end_ ≥ 0 then
      if end_ + 1 = e.start then feed func rest start e.end_ arg
      else if (func start end_ arg).1 < 0 then
        (some (func start end_ arg).1, start, end_, (func start end_ arg).2)
      else feed func rest e.start e.end_ (func start end_ arg).2
    else feed func rest e.start e.end_ arg

/-- What `meta_iterate` comes to for the entries `es`: the value and the
state of `arg`. -/
def feed_all {α : Type} (func : Int → Int → α → Int × α) (es : List metadata_data_t)
    (arg : α) : Int × α :=
  match (feed func es (-1) (-1) arg).1 with
  | some v => (v, (feed func es (-1) (-1) arg).2.2.2)
  | none =>
    if (feed func es (-1) (-1) arg).2.2.1 < 0 then (0, (feed func es (-1) (-1) arg).2.2.2)
    else func (feed func es (-1) (-1) arg).2.1 (feed func es (-1) (-1) arg).2.2.1
      (feed func es (-1) (-1) arg).2.2.2

/-! ## Devices, and reading a sequence (`dir_read`, `src/lib/ddb-dir.c`)

A device is seen through the calls `ddb_device_has_block`,
`ddb_device_read_multi`, `ddb_device_write_multi` and `ddb_device_flush`:
each is a function of the state behind the `ddb_device_t` and of the
arguments, to the value returned, the blocks as the call leaves them, and the
state afterwards.  A call that takes an array of `nblocks` blocks is given the
list of them. -/

/-- A device: its state, the fields `is_remote`, `num_blocks` and `mtime` of
its `info`, and what its operations do; an operation that the table `ops` of
the device leaves out is `none`.  The operations `range`, `blocks` and
`has_blocks` give a new block list or NULL (or the fault of the pointer code
that makes it), `close` the value of the call. -/
structure device_t (σ : Type) where
  state : σ
  is_remote : Bool
  num_blocks : Int
  mtime : Int
  has_block : Option (σ → Int → Int × σ)
  read : Option (σ → List ddb_block_t → Nat → (Int × List ddb_block_t) × σ)
  write : Option (σ → List ddb_block_t → (Int × List ddb_block_t) × σ)
  flush : Option (σ → Int × σ)
  range : Option (σ → Res (Option ddb_blocklist_t) × σ)
  close : Option (σ → Int)
  blocks : Option (σ → Res (Option ddb_blocklist_t) × σ) := none
  has_blocks : Option (σ → ddb_blocklist_t → Res (Option ddb_blocklist_t) × σ) := none

/-- The call `ddb_device_has_block (dev, block)`. -/
def ddb_device_has_block {σ : Type} (dev : device_t σ) (block : Int) : Int × device_t σ :=
  match dev.has_block with
  | some f => ((f dev.state block).1, { dev with state := (f dev.state block).2 })
  | none => (1, dev)

/-- The call `ddb_device_read_multi (dev, nblocks, blocks, flags)`. -/
def ddb_device_read_multi {σ : Type} (dev : device_t σ) (blocks : List ddb_block_t)
    (flags : Nat) : (Int × List ddb_block_t) × device_t σ :=
  match dev.read with
  | some f => ((f dev.state blocks flags).1, { dev with state := (f dev.state blocks flags).2 })
  | none => ((-1, blocks), dev)

/-- The call `ddb_device_write_multi (dev, nblocks, blocks)`. -/
def ddb_device_write_multi {σ : Type} (dev : device_t σ) (blocks : List ddb_block_t) :
    (Int × List ddb_block_t) × device_t σ :=
  match dev.write with
  | some f => ((f dev.state blocks).1, { dev with state := (f dev.state blocks).2 })
  | none => ((-1, blocks), dev)

/-- The call `ddb_device_flush (dev)`. -/
def ddb_device_flush {σ : Type} (dev : device_t σ) : Int × device_t σ :=
  match dev.flush with
  | some f => ((f dev.state).1, { dev with state := (f dev.state).2 })
  | none => (0, dev)

/-- The constant `DDB_CHECKSUM_LENGTH`. -/
def DDB_CHECKSUM_LENGTH : Nat := 32

/-- The flag `DDB_READ_BLOCK`. -/
def DDB_READ_BLOCK : Nat := 1

/-- The flag `DDB_READ_CHECKSUM`. -/
def DDB_READ_CHECKSUM : Nat := 2

/-- The flag `DDB_READ_MAYBE`. -/
def DDB_READ_MAYBE : Nat := 32

/-- A sequence device, as `dir_read` and `dir_write` see it: the devices
`info.devs` (their number is `info.multi_device`), the bytes of the file
`checksums`, if there is one, and the `block_size` of its `meta_t`. -/
structure dir_t (σ : Type) where
  devs : List (device_t σ)
  checksums : Option (List Nat)
  block_size : Int

/-- A block of the array of `dir_read`, `blocks[i]`. -/
def block_at (blocks : List ddb_block_t) (i : Nat) : ddb_block_t :=
  blocks.getD i { block := 0, buffer := [], result := 0, error := none }

/-- The body of the loop of `dir_read` that answers `DDB_READ_CHECKSUM` from
the file of checksums: the block afterwards.  A seek before the start of the
file fails; a read of fewer than 32 bytes stores what it read and fails with
`EINVAL`. -/
def read_checksum (sums : List Nat) (blk : ddb_block_t) : ddb_block_t :=
  if blk.block * DDB_CHECKSUM_LENGTH < 0 then { blk with result := -1, error := some EINVAL }
  else if (sums.drop (blk.block * DDB_CHECKSUM_LENGTH).toNat).length < DDB_CHECKSUM_LENGTH then
    { blk with
      buffer := sums.drop (blk.block * DDB_CHECKSUM_LENGTH).toNat ++
        blk.buffer.drop (sums.drop (blk.block * DDB_CHECKSUM_LENGTH).toNat).length,
      result := -1, error := some EINVAL }
  else
    { blk with
      buffer := (sums.drop (blk.block * DDB_CHECKSUM_LENGTH).toNat).take DDB_CHECKSUM_LENGTH ++
        blk.buffer.drop DDB_CHECKSUM_LENGTH,
      result := 1, error := some 0 }

/-- The loop `while (try > 0)` of `dir_read` for one block: the value of
`who_has[i]`, and the devices after the calls of `ddb_device_has_block`. -/
def who_has_loop {σ : Type} : Nat → List (device_t σ) → Int → Nat × List (device_t σ)
  | 0, devs, _ => (0, devs)
  | try_ + 1, devs, block =>
    match devs[try_]? with
    | some d =>
      if (ddb_device_has_block d block).1 ≠ 0 then
        (try_, devs.set try_ (ddb_device_has_block d block).2)
      else who_has_loop try_ (devs.set try_ (ddb_device_has_block d block).2) block
    | none => who_has_loop try_ devs block

/-- The first loop of `dir_read` over the blocks: the array `who_has`, and the
devices afterwards. -/
def who_has_all {σ : Type} : List ddb_block_t → List (device_t σ) →
    List Nat × List (device_t σ)
  | [], devs => ([], devs)
  | blk :: rest, devs =>
    ((who_has_loop devs.length devs blk.block).1 ::
      (who_has_all rest (who_has_loop devs.length devs blk.block).2).1,
     (who_has_all rest (who_has_loop devs.length devs blk.block).2).2)

/-- The array `source` that `dir_read` fills for the device `i`: the places
`b` with `who_has[b] == i`, in order. -/
def source_of (who : List Nat) (i : Nat) : List Nat :=
  (List.range who.length).filter (fun b => who.getD b 0 = i)

/-- The loop `blocks[source[b]] = cb[b]` of `dir_read`. -/
def scatter : List ddb_block_t → List Nat → List ddb_block_t → List ddb_block_t
  | blocks, s :: source, c :: cb => scatter (blocks.set s c) source cb
  | blocks, _, _ => blocks

/-- The second loop of `dir_read`, over the devices `i ..`: the value of
`res`, the blocks and the devices afterwards. -/
def read_layers {σ : Type} (who : List Nat) (flags : Nat) :
    List Nat → Int → List ddb_block_t → List (device_t σ) →
    Int × List ddb_block_t × List (device_t σ)
  | [], res, blocks, devs => (res, blocks, devs)
  | i :: rest, res, blocks, devs =>
    if (source_of who i).length < 1 then read_layers who flags rest res blocks devs
    else
      match devs[i]? with
      | some d =>
        read_layers who flags rest
          (res + (ddb_device_read_multi d ((source_of who i).map (block_at blocks)) flags).1.1)
          (scatter blocks (source_of who i)
            (ddb_device_read_multi d ((source_of who i).map (block_at blocks)) flags).1.2)
          (devs.set i (ddb_device_read_multi d ((source_of who i).map (block_at blocks)) flags).2)
      | none => read_layers who flags rest res blocks devs

/-- The function `dir_read`: its value, the blocks and the devices
afterwards. -/
def dir_read {σ : Type} (dev : dir_t σ) (blocks : List ddb_block_t) (flags : Nat) :
    Int × List ddb_block_t × List (device_t σ) :=
  if dev.devs.length < 1 then (-1, blocks, dev.devs)
  else
    match dev.checksums with
    | some sums =>
      if flags &&& DDB_READ_CHECKSUM ≠ 0 then
        ((((blocks.map (read_checksum sums)).filter (fun blk => blk.result = 1)).length : Int),
         blocks.map (read_checksum sums), dev.devs)
      else
        read_layers (who_has_all blocks dev.devs).1 flags (List.range dev.devs.length) 0 blocks
          (who_has_all blocks dev.devs).2
    | none =>
      read_layers (who_has_all blocks dev.devs).1 flags (List.range dev.devs.length) 0 blocks
        (who_has_all blocks dev.devs).2

/-- The layer that holds the newest version of `block`: the greatest place
`i` below `n` whose device answers `ddb_device_has_block` with a value other
than 0, and 0 when there is none. -/
def newest {σ : Type} (devs : List (device_t σ)) (block : Int) : Nat → Nat
  | 0 => 0
  | n + 1 =>
    match devs[n]? with
    | some d => if (ddb_device_has_block d block).1 ≠ 0 then n else newest devs block n
    | none => newest devs block n

/-- The newest layer of each block of a batch. -/
def newest_all {σ : Type} (devs : List (device_t σ)) (blocks : List ddb_block_t) : List Nat :=
  blocks.map (fun blk => newest devs blk.block devs.length)

/-- The device after the calls of `ddb_device_has_block` for the blocks `bs`,
in order. -/
def after_has_block {σ : Type} (d : device_t σ) : List Int → device_t σ
  | [] => d
  | b :: bs => after_has_block (ddb_device_has_block d b).2 bs

/-- The answers of `ddb_device_has_block` of a device, from the state it is
in, do not depend on the calls of `ddb_device_has_block` made before: after
such calls for any blocks `bs` the answer for a block is what it is now. -/
def stable_has_block {σ : Type} (d : device_t σ) : Prop :=
  ∀ (bs : List Int) (b : Int),
    (ddb_device_has_block (after_has_block d bs) b).1 = (ddb_device_has_block d b).1

/-- A read of a device leaves as many blocks in the array as it was given. -/
def keeps_length {σ : Type} (d : device_t σ) : Prop :=
  ∀ (s : σ) (blocks : List ddb_block_t) (flags : Nat),
    (ddb_device_read_multi { d with state := s } blocks flags).1.2.length = blocks.length

/-- The value that `dir_read` adds to `res` for the layer `i`. -/
def layer_result {σ : Type} (devs : List (device_t σ)) (who : List Nat)
    (blocks : List ddb_block_t) (flags : Nat) (i : Nat) : Int :=
  if (source_of who i).length < 1 then 0
  else
    match devs[i]? with
    | some d => (ddb_device_read_multi d ((source_of who i).map (block_at blocks)) flags).1.1
    | none => 0

/-- A full image that holds every block and an incremental that holds block 1
only; a read of the full image gives the byte 1, a read of the incremental
the byte 2. -/
def sample_dir : dir_t Unit :=
  { devs :=
      [{ state := (), is_remote := false, num_blocks := 3, mtime := 1, has_block := none,
         read := some (fun s bl _ =>
           (((bl.length : Int), bl.map (fun blk => { blk with buffer := [1], result := 1 })), s)),
         write := none, flush := none, range := none, close := none },
       { state := (), is_remote := false, num_blocks := 3, mtime := 2,
         has_block := some (fun s b => (if b = 1 then 1 else 0, s)),
         read := some (fun s bl _ =>
           (((bl.length : Int), bl.map (fun blk => { blk with buffer := [2], result := 1 })), s)),
         write := none, flush := none, range := none, close := none }],
    checksums := none, block_size := 1 }

/-- A batch of the blocks 0, 1 and 2. -/
def sample_batch : List ddb_block_t :=
  [{ block := 0, buffer := [0], result := 0, error := none },
   { block := 1, buffer := [0], result := 0, error := none },
   { block := 2, buffer := [0], result := 0, error := none }]

/-- The device `d1` is the device `d` in another state, in which
`ddb_device_has_block` answers as it does for `d`. -/
def same_dev {σ : Type} (d d1 : device_t σ) : Prop :=
  d1 = { d with state := d1.state } ∧
    ∀ b, (ddb_device_has_block d1 b).1 = (ddb_device_has_block d b).1

/-- The devices `devs1` are the devices `devs`, each in another state in which
`ddb_device_has_block` answers as before. -/
def same_devs {σ : Type} (devs devs1 : List (device_t σ)) : Prop :=
  devs1.length = devs.length ∧
    ∀ (i : Nat) (d d1 : device_t σ), devs[i]? = some d → devs1[i]? = some d1 → same_dev d d1

/-! ## Copying (`src/lib/ddb-copy.c`)

The arrays `rblocks` and `wblocks` of the copy context are lists of
`copy_block` blocks, a block carrying the contents of the buffer it points to.
What a device finds in a buffer before it reads into it is not followed: an
entry that is given a buffer of `C->buffers` carries the initial contents of
that buffer.  The calls of `W->progress_function` and the report for machines
leave the state of the copy alone and are left out, and so is the field
`progress_clear`; `malloc` does not fail; a file that the copy writes is
written in full.  The calls of `time (NULL)` that the state depends on take
their values from `W.time`, in order. -/

/-- The variable `copy_block`, the number of blocks copied in one go. -/
def copy_block : Nat := 32

/-- The constant `CHECKPOINT_MAGIC`, the bytes of "ChkPoint". -/
def CHECKPOINT_MAGIC : Int := 0x43686b506f696e74

/-- The structure `ddb_copy_t`.  A file name is `none` when the pointer is
NULL; `input_list` and `checkpoint_file` give the contents of the file, or
`none` when it cannot be opened; the other file names are kept as "is it
given"; `progress_function` is "is it other than NULL". -/
structure ddb_copy_t (σ : Type) where
  src : device_t σ
  dst : Option (device_t σ)
  write_dst : Bool
  total_size : Int
  total_blocks : Int
  block_size : Int
  input_list : Option (Option (List Char))
  max_passes : Int
  checkpoint_file : Option (Option (List Nat))
  checkpoint_interval : Int
  progress_function : Bool
  progress_interval : Int
  progress_sleep : Int
  extra_report : Bool
  machine_progress_file : Bool
  machine_progress_interval : Int
  output_list : Bool
  output_each_pass : Bool
  flush_interval : Int
  use_checksums : Bool
  skip_identical : Bool
  copied_list : Bool
  time : Nat → Int

/-- The structure `copy_context_t`, and what the copy has left outside it:
`clock` counts the calls of `time (NULL)`, and `checkpoint`, `output` and
`copied_out` are the files written last under the names `checkpoint_file`,
`output_list` and `copied_list`. -/
structure copy_context_t where
  rblocks : List ddb_block_t
  wblocks : List ddb_block_t
  buffers : List (List Nat)
  to_copy : Option ddb_blocklist_t
  to_retry : Option ddb_blocklist_t
  copied : Option ddb_blocklist_t
  total_to_copy : Int
  pass_size : Int
  blocks_read : Int
  read_errors : Int
  blocks_written : Int
  blocks_skipped : Int
  checksum_equal : Int
  write_errors : Int
  next_flush : Int
  next_report : Int
  next_checkpoint : Int
  next_machine_report : Int
  pass : Int
  rcount : Nat
  use_checksums : Bool
  clock : Nat
  checkpoint : Option (List Nat)
  output : Option (List Char)
  copied_out : Option (List Char)
  deriving DecidableEq

/-- A call of `time (NULL)`. -/
def time_now {σ : Type} (W : ddb_copy_t σ) (C : copy_context_t) : Int × copy_context_t :=
  (W.time C.clock, { C with clock := C.clock + 1 })

/-- The bytes of a `checkpoint_header_t` as `write_checkpoint` fills it. -/
def checkpoint_header {σ : Type} (W : ddb_copy_t σ) (C : copy_context_t) : List Nat :=
  be64 CHECKPOINT_MAGIC ++ be64 W.total_size ++ be64 C.pass_size ++ be64 C.blocks_read ++
    be64 C.read_errors ++ be64 C.blocks_written ++ be64 C.blocks_skipped ++
    be64 C.checksum_equal ++ be64 C.write_errors ++ be32 W.block_size ++ be32 C.pass

/-- The size of `checkpoint_header_t`. -/
def sizeof_checkpoint_header : Nat := 80

/-- A call `ddb_blocklist_save (ls, F)` on a list that may be NULL. -/
def save_list (ls : Option ddb_blocklist_t) : Res (List Nat) :=
  match ls with
  | none => Res.fault
  | some l =>
    match ddb_blocklist_save l with
    | Res.ok (_, out) => Res.ok out
    | Res.fault => Res.fault
    | Res.nofuel => Res.nofuel

/-- The function `write_checkpoint`: the context with the file written. -/
def write_checkpoint {σ : Type} (W : ddb_copy_t σ) (C : copy_context_t) :
    Res copy_context_t :=
  match save_list C.to_copy, save_list C.to_retry, save_list C.copied with
  | Res.ok a, Res.ok b, Res.ok c =>
    Res.ok { C with
      checkpoint := some (checkpoint_header W C ++ a ++ b ++ c ++ checkpoint_header W C) }
  | Res.nofuel, _, _ => Res.nofuel
  | _, Res.nofuel, _ => Res.nofuel
  | _, _, Res.nofuel => Res.nofuel
  | _, _, _ => Res.fault

/-- The three calls of `ddb_blocklist_load` of `load_checkpoint` and the
comparison of the second header with the first: the value of
`load_checkpoint` and the context. -/
def load_lists (ch : List Nat) (F : List Nat) (C : copy_context_t) : Res (Int × copy_context_t) :=
  match ddb_blocklist_load F with
  | Res.ok (loaded.list l1 F1) =>
    match ddb_blocklist_load F1 with
    | Res.ok (loaded.list l2 F2) =>
      match ddb_blocklist_load F2 with
      | Res.ok (loaded.list l3 F3) =>
        if F3.length < sizeof_checkpoint_header then
          Res.ok (-1, { C with to_copy := some l1, to_retry := some l2, copied := some l3 })
        else if F3.take sizeof_checkpoint_header ≠ ch then
          Res.ok (-1, { C with to_copy := some l1, to_retry := some l2, copied := some l3 })
        else Res.ok (1, { C with to_copy := some l1, to_retry := some l2, copied := some l3 })
      | Res.ok (loaded.null _) =>
        Res.ok (-1, { C with to_copy := some l1, to_retry := some l2, copied := none })
      | Res.fault => Res.fault
      | Res.nofuel => Res.nofuel
    | Res.ok (loaded.null _) => Res.ok (-1, { C with to_copy := some l1, to_retry := none })
    | Res.fault => Res.fault
    | Res.nofuel => Res.nofuel
  | Res.ok (loaded.null _) => Res.ok (-1, { C with to_copy := none })
  | Res.fault => Res.fault
  | Res.nofuel => Res.nofuel

/-- The value that `load_checkpoint` gives `C->pass`. -/
def loaded_pass {σ : Type} (W : ddb_copy_t σ) (ch : List Nat) : Int :=
  if of_be32s (field ch 76 4) ≥ W.max_passes then W.max_passes - 1
  else of_be32s (field ch 76 4)

/-- The function `load_checkpoint` for the contents `file` of the checkpoint
file, `none` when it cannot be opened: the value returned and the context.
The sums of the counters read from the file are sums of `off_t`, with the
two's-complement wrap of the machine. -/
def load_checkpoint {σ : Type} (W : ddb_copy_t σ) (C : copy_context_t)
    (file : Option (List Nat)) : Res (Int × copy_context_t) :=
  match file with
  | none => Res.ok (0, C)
  | some F =>
    if F.length < sizeof_checkpoint_header then Res.ok (-1, C)
    else if of_be64 (field F 0 8) ≠ CHECKPOINT_MAGIC then Res.ok (-1, C)
    else if of_be64 (field F 8 8) ≠ W.total_size then Res.ok (-1, C)
    else if of_be32 (field F 72 4) ≠ W.block_size % 2 ^ 32 then Res.ok (-1, C)
    else if of_be64 (field F 16 8) < 0 ∨ of_be64 (field F 24 8) < 0 ∨
        of_be64 (field F 32 8) < 0 ∨
        wrap64 (of_be64 (field F 24 8) + of_be64 (field F 32 8)) > W.total_blocks then
      Res.ok (-1, { C with
        pass := loaded_pass W F, pass_size := of_be64 (field F 16 8),
        blocks_read := of_be64 (field F 24 8), read_errors := of_be64 (field F 32 8) })
    else if of_be64 (field F 40 8) < 0 ∨ of_be64 (field F 48 8) < 0 ∨
        of_be64 (field F 56 8) < 0 ∨ of_be64 (field F 56 8) > of_be64 (field F 48 8) ∨
        of_be64 (field F 64 8) < 0 ∨
        wrap64 (wrap64 (of_be64 (field F 40 8) + of_be64 (field F 48 8)) +
          of_be64 (field F 64 8)) > W.total_blocks then
      Res.ok (-1, { C with
        pass := loaded_pass W F, pass_size := of_be64 (field F 16 8),
        blocks_read := of_be64 (field F 24 8), read_errors := of_be64 (field F 32 8),
        blocks_written := of_be64 (field F 40 8), blocks_skipped := of_be64 (field F 48 8),
        checksum_equal := of_be64 (field F 56 8), write_errors := of_be64 (field F 64 8) })
    else
      load_lists (F.take sizeof_checkpoint_header) (F.drop sizeof_checkpoint_header)
        { C with
          pass := loaded_pass W F, pass_size := of_be64 (field F 16 8),
          blocks_read := of_be64 (field F 24 8), read_errors := of_be64 (field F 32 8),
          blocks_written := of_be64 (field F 40 8), blocks_skipped := of_be64 (field F 48 8),
          checksum_equal := of_be64 (field F 56 8), write_errors := of_be64 (field F 64 8) }

/-- The function `write_block_list`: the text written, which is that of
`C->to_copy`. -/
def write_block_list (C : copy_context_t) : Res (List Char) :=
  match C.to_copy with
  | none => Res.fault
  | some ls =>
    match ddb_blocklist_print ls with
    | Res.ok (_, out) => Res.ok out
    | Res.fault => Res.fault
    | Res.nofuel => Res.nofuel

/-- The function `add_block`. -/
def add_block (ls : ddb_blocklist_t) (block : Int) : Res (Int × ddb_blocklist_t) :=
  match ddb_blocklist_add ls block block with
  | Res.ok (r, ls1) => if r ≥ 0 then Res.ok (1, ls1) else Res.ok (0, ls1)
  | Res.fault => Res.fault
  | Res.nofuel => Res.nofuel

/-- The call `add_block (C->to_retry, block)`. -/
def retry_block (C : copy_context_t) (block : Int) : Res (Int × copy_context_t) :=
  match C.to_retry with
  | none => Res.fault
  | some ls =>
    match add_block ls block with
    | Res.ok (r, ls1) => Res.ok (r, { C with to_retry := some ls1 })
    | Res.fault => Res.fault
    | Res.nofuel => Res.nofuel

/-- The entries `off .. off + n - 1` of an array of blocks. -/
def slice_blocks (arr : List ddb_block_t) (off n : Nat) : List ddb_block_t :=
  (arr.drop off).take n

/-- The array after a device call has left `res` in the entries from `off`
on. -/
def store_blocks : List ddb_block_t → Nat → List ddb_block_t → List ddb_block_t
  | arr, _, [] => arr
  | arr, off, b :: rest => store_blocks (arr.set off b) (off + 1) rest

/-- The call `ddb_device_read_multi (W->src, n, &C->rblocks[0], flags)`. -/
def read_src_rblocks {σ : Type} (W : ddb_copy_t σ) (C : copy_context_t) (n flags : Nat) :
    ddb_copy_t σ × copy_context_t :=
  let r := ddb_device_read_multi W.src (slice_blocks C.rblocks 0 n) flags
  ({ W with src := r.2 }, { C with rblocks := store_blocks C.rblocks 0 (r.1.2.take n) })

/-- The call `ddb_device_read_multi (W->src, n, &C->wblocks[off], flags)`. -/
def read_src_wblocks {σ : Type} (W : ddb_copy_t σ) (C : copy_context_t) (off n flags : Nat) :
    ddb_copy_t σ × copy_context_t :=
  let r := ddb_device_read_multi W.src (slice_blocks C.wblocks off n) flags
  ({ W with src := r.2 }, { C with wblocks := store_blocks C.wblocks off (r.1.2.take n) })

/-- The call `ddb_device_read_multi (W->dst, n, &C->rblocks[0], flags)`. -/
def read_dst_rblocks {σ : Type} (W : ddb_copy_t σ) (C : copy_context_t) (n flags : Nat) :
    Res (ddb_copy_t σ × copy_context_t) :=
  match W.dst with
  | none => Res.fault
  | some d =>
    let r := ddb_device_read_multi d (slice_blocks C.rblocks 0 n) flags
    Res.ok ({ W with dst := some r.2 },
      { C with rblocks := store_blocks C.rblocks 0 (r.1.2.take n) })

/-- The call `ddb_device_read_multi (W->dst, n, &C->wblocks[0], flags)`. -/
def read_dst_wblocks {σ : Type} (W : ddb_copy_t σ) (C : copy_context_t) (n flags : Nat) :
    Res (ddb_copy_t σ × copy_context_t) :=
  match W.dst with
  | none => Res.fault
  | some d =>
    let r := ddb_device_read_multi d (slice_blocks C.wblocks 0 n) flags
    Res.ok ({ W with dst := some r.2 },
      { C with wblocks := store_blocks C.wblocks 0 (r.1.2.take n) })

/-- The call `ddb_device_write_multi (W->dst, n, C->wblocks)`. -/
def write_dst_wblocks {σ : Type} (W : ddb_copy_t σ) (C : copy_context_t) (n : Nat) :
    Res (ddb_copy_t σ × copy_context_t) :=
  match W.dst with
  | none => Res.fault
  | some d =>
    let r := ddb_device_write_multi d (slice_blocks C.wblocks 0 n)
    Res.ok ({ W with dst := some r.2 },
      { C with wblocks := store_blocks C.wblocks 0 (r.1.2.take n) })

/-- The part of `copy_blocks` from the label `finish` on. -/
def copy_blocks_finish {σ : Type} (W : ddb_copy_t σ) (C : copy_context_t) :
    Res (Int × ddb_copy_t σ × copy_context_t) :=
  let C1 := (time_now W C).2
  let now1 := (time_now W C).1
  let report := decide (W.progress_interval > 0 ∧ now1 ≥ C1.next_report)
  let C2 := if report ∧ W.progress_sleep > 0 then (time_now W C1).2 else C1
  let now := if report ∧ W.progress_sleep > 0 then (time_now W C1).1 else now1
  let C3 := if report then { C2 with next_report := now + W.progress_interval } else C2
  let flushing := decide (W.dst.isSome ∧ W.write_dst ∧ now ≥ C3.next_flush)
  let C4 := if flushing then { C3 with next_flush := now + W.flush_interval } else C3
  let fl : Int := match W.dst with
    | some d => if flushing then (ddb_device_flush d).1 else 0
    | none => 0
  let W1 : ddb_copy_t σ := match W.dst with
    | some d => if flushing then { W with dst := some (ddb_device_flush d).2 } else W
    | none => W
  if fl < 0 then Res.ok (0, W1, C4)
  else
    let C5 := if W.machine_progress_file ∧ W.machine_progress_interval > 0 ∧
        now ≥ C4.next_machine_report then
      { C4 with next_machine_report := now + W.machine_progress_interval } else C4
    if W.checkpoint_file.isSome ∧ now ≥ C4.next_checkpoint then
      match write_checkpoint W { C4 with next_checkpoint := now + W.checkpoint_interval } with
      | Res.ok C6 =>
        Res.ok (1, W1, { C6 with next_machine_report := C5.next_machine_report, rcount := 0 })
      | Res.fault => Res.fault
      | Res.nofuel => Res.nofuel
    else Res.ok (1, W1, { C5 with rcount := 0 })

/-- The loop after `ddb_device_write_multi` in `copy_blocks`: `n` entries are
left, from `bnum` on; the flag is false when `copy_blocks` returns 0. -/
def count_written : Nat → Nat → copy_context_t → Res (Bool × copy_context_t)
  | 0, _, C => Res.ok (true, C)
  | n + 1, bnum, C =>
    if (block_at C.wblocks bnum).result > 0 then
      count_written n (bnum + 1) { C with blocks_written := C.blocks_written + 1 }
    else
      match retry_block { C with write_errors := C.write_errors + 1 }
          (block_at C.wblocks bnum).block with
      | Res.ok (r, C1) => if r = 0 then Res.ok (false, C1) else count_written n (bnum + 1) C1
      | Res.fault => Res.fault
      | Res.nofuel => Res.nofuel

/-- The part of `copy_blocks` from the label `write_dst` on, with `wcount`
blocks to write. -/
def copy_blocks_write {σ : Type} (W : ddb_copy_t σ) (C : copy_context_t) (wcount : Nat) :
    Res (Int × ddb_copy_t σ × copy_context_t) :=
  if ¬ W.write_dst then
    copy_blocks_finish W { C with blocks_written := C.blocks_written + wcount }
  else
    match write_dst_wblocks W C wcount with
    | Res.ok (W1, C1) =>
      match count_written wcount 0 C1 with
      | Res.ok (true, C2) => copy_blocks_finish W1 C2
      | Res.ok (false, C2) => Res.ok (0, W1, C2)
      | Res.fault => Res.fault
      | Res.nofuel => Res.nofuel
    | Res.fault => Res.fault
    | Res.nofuel => Res.nofuel

/-- The loop of `copy_blocks` after the read of the full blocks from the
source: `n` entries of `rblocks` are left, from `bnum` on; `own` says that an
entry of `wblocks` gets its own buffer.  Gives the flag (false when
`copy_blocks` returns 0), `wcount`, `cmpmap` and the context. -/
def gather_read (own : Bool) : Nat → Nat → Nat → List Nat → copy_context_t →
    Res (Bool × Nat × List Nat × copy_context_t)
  | 0, _, wcount, cmpmap, C => Res.ok (true, wcount, cmpmap, C)
  | n + 1, bnum, wcount, cmpmap, C =>
    if (block_at C.rblocks bnum).result > 0 then
      gather_read own n (bnum + 1) (wcount + 1) (cmpmap.set wcount bnum)
        { C with
          wblocks := C.wblocks.set wcount
            { block_at C.wblocks wcount with
              block := (block_at C.rblocks bnum).block,
              buffer := if own then C.buffers.getD wcount []
                else (block_at C.rblocks bnum).buffer },
          blocks_read := C.blocks_read + 1 }
    else
      match retry_block { C with read_errors := C.read_errors + 1 }
          (block_at C.rblocks bnum).block with
      | Res.ok (r, C1) =>
        if r = 0 then Res.ok (false, wcount, cmpmap, C1)
        else gather_read own n (bnum + 1) wcount cmpmap C1
      | Res.fault => Res.fault
      | Res.nofuel => Res.nofuel

/-- The loop of `copy_blocks` that compares what was read from the
destination with what was read from the source: gives `diff`. -/
def compare_data (block_size : Int) (cmpmap : List Nat) :
    Nat → Nat → Nat → copy_context_t → Nat × copy_context_t
  | 0, _, diff, C => (diff, C)
  | n + 1, bnum, diff, C =>
    if (block_at C.wblocks bnum).result > 0 ∧
        (block_at C.wblocks bnum).buffer.take block_size.toNat =
          (block_at C.rblocks (cmpmap.getD bnum 0)).buffer.take block_size.toNat then
      compare_data block_size cmpmap n (bnum + 1) diff
        { C with blocks_skipped := C.blocks_skipped + 1 }
    else
      compare_data block_size cmpmap n (bnum + 1) (diff + 1)
        { C with
          wblocks := C.wblocks.set diff
            { block_at C.wblocks diff with
              block := (block_at C.rblocks (cmpmap.getD bnum 0)).block,
              buffer := (block_at C.rblocks (cmpmap.getD bnum 0)).buffer } }

/-- The part of `copy_blocks` from the comment "any remaining block will need
to be copied in full" on. -/
def copy_blocks_main {σ : Type} (W : ddb_copy_t σ) (C : copy_context_t) :
    Res (Int × ddb_copy_t σ × copy_context_t) :=
  let own := decide (¬ C.use_checksums ∧ (W.skip_identical ∨ ¬ W.write_dst))
  match gather_read own C.rcount 0 0 (List.replicate copy_block 0)
      (read_src_rblocks W C C.rcount DDB_READ_BLOCK).2 with
  | Res.ok (false, _, _, C1) => Res.ok (0, (read_src_rblocks W C C.rcount DDB_READ_BLOCK).1, C1)
  | Res.ok (true, wcount, cmpmap, C1) =>
    if wcount < 1 then copy_blocks_finish (read_src_rblocks W C C.rcount DDB_READ_BLOCK).1 C1
    else if W.dst.isNone then
      copy_blocks_finish (read_src_rblocks W C C.rcount DDB_READ_BLOCK).1 C1
    else if own then
      match read_dst_wblocks (read_src_rblocks W C C.rcount DDB_READ_BLOCK).1 C1 wcount
          DDB_READ_BLOCK with
      | Res.ok (W2, C2) =>
        if (compare_data W.block_size cmpmap wcount 0 0 C2).1 < 1 then
          copy_blocks_finish W2 (compare_data W.block_size cmpmap wcount 0 0 C2).2
        else
          copy_blocks_write W2 (compare_data W.block_size cmpmap wcount 0 0 C2).2
            (compare_data W.block_size cmpmap wcount 0 0 C2).1
      | Res.fault => Res.fault
      | Res.nofuel => Res.nofuel
    else copy_blocks_write (read_src_rblocks W C C.rcount DDB_READ_BLOCK).1 C1 wcount
  | Res.fault => Res.fault
  | Res.nofuel => Res.nofuel

/-- The first loop of `copy_blocks` when both devices are asked for
checksums: the entries of `wblocks` get the numbers of the blocks. -/
def prepare_sums : Nat → Nat → copy_context_t → copy_context_t
  | 0, _, C => C
  | n + 1, bnum, C =>
    prepare_sums n (bnum + 1)
      { C with
        wblocks := C.wblocks.set bnum
          { block_at C.wblocks bnum with
            block := (block_at C.rblocks bnum).block,
            buffer := C.buffers.getD bnum [] } }

/-- The loop of `copy_blocks` that compares the checksums of the source with
those of the destination: gives the flag (false when `copy_blocks` returns
0), `wcount` and the context. -/
def compare_sums : Nat → Nat → Nat → copy_context_t → Res (Bool × Nat × copy_context_t)
  | 0, _, wcount, C => Res.ok (true, wcount, C)
  | n + 1, bnum, wcount, C =>
    if (block_at C.rblocks bnum).result > 0 then
      if (block_at C.wblocks bnum).result > 0 ∧
          (block_at C.rblocks bnum).buffer.take DDB_CHECKSUM_LENGTH =
            (block_at C.wblocks bnum).buffer.take DDB_CHECKSUM_LENGTH then
        compare_sums n (bnum + 1) wcount
          { C with
            blocks_skipped := C.blocks_skipped + 1,
            checksum_equal := C.checksum_equal + 1,
            blocks_read := C.blocks_read + 1 }
      else
        compare_sums n (bnum + 1) (wcount + 1)
          { C with
            rblocks := C.rblocks.set wcount
              { block_at C.rblocks wcount with block := (block_at C.rblocks bnum).block } }
    else
      match retry_block { C with read_errors := C.read_errors + 1 }
          (block_at C.rblocks bnum).block with
      | Res.ok (r, C1) =>
        if r = 0 then Res.ok (false, wcount, C1) else compare_sums n (bnum + 1) wcount C1
      | Res.fault => Res.fault
      | Res.nofuel => Res.nofuel

/-- The part of `copy_blocks` that reads the checksums from both the source
and the destination, up to the read of the full blocks. -/
def copy_blocks_sums {σ : Type} (W : ddb_copy_t σ) (C : copy_context_t) :
    Res (Int × ddb_copy_t σ × copy_context_t) :=
  let C1 := prepare_sums C.rcount 0 C
  let WC2 := read_src_rblocks W C1 C.rcount DDB_READ_CHECKSUM
  match read_dst_wblocks WC2.1 WC2.2 C.rcount DDB_READ_CHECKSUM with
  | Res.ok (W3, C3) =>
    match compare_sums C.rcount 0 0 C3 with
    | Res.ok (false, _, C4) => Res.ok (0, W3, C4)
    | Res.ok (true, wcount, C4) =>
      if wcount < 1 then copy_blocks_finish W3 { C4 with rcount := wcount }
      else copy_blocks_main W3 { C4 with rcount := wcount }
    | Res.fault => Res.fault
    | Res.nofuel => Res.nofuel
  | Res.fault => Res.fault
  | Res.nofuel => Res.nofuel

/-- The loop of `copy_blocks` that collects, for a remote source, the blocks
whose checksum the destination could not give: gives `wcount`. -/
def gather_failed : Nat → Nat → Nat → copy_context_t → Nat × copy_context_t
  | 0, _, wcount, C => (wcount, C)
  | n + 1, bnum, wcount, C =>
    if (block_at C.rblocks bnum).result > 0 then gather_failed n (bnum + 1) wcount C
    else
      gather_failed n (bnum + 1) (wcount + 1)
        { C with
          wblocks := C.wblocks.set wcount
            { block_at C.wblocks wcount with
              block := (block_at C.rblocks bnum).block,
              buffer := C.buffers.getD wcount [] } }

/-- The loop of `copy_blocks` over the blocks read in full from a remote
source: the blocks read are moved to the front of `wblocks`. -/
def keep_read : Nat → Nat → Nat → copy_context_t → Res (Bool × Nat × copy_context_t)
  | 0, _, wcount, C => Res.ok (true, wcount, C)
  | n + 1, bnum, wcount, C =>
    if (block_at C.wblocks bnum).result ≤ 0 then
      match retry_block { C with read_errors := C.read_errors + 1 }
          (block_at C.wblocks bnum).block with
      | Res.ok (r, C1) =>
        if r = 0 then Res.ok (false, wcount, C1) else keep_read n (bnum + 1) wcount C1
      | Res.fault => Res.fault
      | Res.nofuel => Res.nofuel
    else
      keep_read n (bnum + 1) (wcount + 1)
        { C with wblocks := C.wblocks.set wcount (block_at C.wblocks bnum) }

/-- The loop of `copy_blocks` that puts the blocks whose checksum the
destination gave after the others in `wblocks`: gives `wend`. -/
def gather_sums : Nat → Nat → Nat → copy_context_t → Nat × copy_context_t
  | 0, _, wend, C => (wend, C)
  | n + 1, bnum, wend, C =>
    if (block_at C.rblocks bnum).result ≤ 0 then gather_sums n (bnum + 1) wend C
    else
      gather_sums n (bnum + 1) (wend + 1)
        { C with wblocks := C.wblocks.set wend (block_at C.rblocks bnum) }

/-- The loop of `copy_blocks` over the answers of a remote source to the
checksums of the destination. -/
def keep_differing : Nat → Nat → Nat → copy_context_t → Res (Bool × Nat × copy_context_t)
  | 0, _, wcount, C => Res.ok (true, wcount, C)
  | n + 1, bnum, wcount, C =>
    if (block_at C.wblocks bnum).result < 0 then
      match retry_block { C with read_errors := C.read_errors + 1 }
          (block_at C.wblocks bnum).block with
      | Res.ok (r, C1) =>
        if r = 0 then Res.ok (false, wcount, C1) else keep_differing n (bnum + 1) wcount C1
      | Res.fault => Res.fault
      | Res.nofuel => Res.nofuel
    else if (block_at C.wblocks bnum).result = 0 then
      keep_differing n (bnum + 1) wcount
        { C with
          blocks_skipped := C.blocks_skipped + 1,
          checksum_equal := C.checksum_equal + 1,
          blocks_read := C.blocks_read + 1 }
    else
      keep_differing n (bnum + 1) (wcount + 1)
        { C with
          wblocks := C.wblocks.set wcount (block_at C.wblocks bnum),
          blocks_read := C.blocks_read + 1 }

/-- The end of the part of `copy_blocks` for a remote source, from
`wend = wcount` on. -/
def copy_blocks_remote_end {σ : Type} (W : ddb_copy_t σ) (C : copy_context_t) (wcount : Nat) :
    Res (Int × ddb_copy_t σ × copy_context_t) :=
  let wend := (gather_sums C.rcount 0 wcount C).1
  let C1 := (gather_sums C.rcount 0 wcount C).2
  if wend > wcount then
    let WC2 := read_src_wblocks W C1 wcount (wend - wcount) (DDB_READ_BLOCK ||| DDB_READ_MAYBE)
    match keep_differing (wend - wcount) wcount wcount WC2.2 with
    | Res.ok (false, _, C3) => Res.ok (0, WC2.1, C3)
    | Res.ok (true, wcount1, C3) =>
      if wcount1 < 1 then copy_blocks_finish WC2.1 C3
      else if ¬ W.write_dst then copy_blocks_finish WC2.1 C3
      else copy_blocks_write WC2.1 C3 wcount1
    | Res.fault => Res.fault
    | Res.nofuel => Res.nofuel
  else if wcount < 1 then copy_blocks_finish W C1
  else if ¬ W.write_dst then copy_blocks_finish W C1
  else copy_blocks_write W C1 wcount

/-- The part of `copy_blocks` for a remote source when checksums are used. -/
def copy_blocks_remote {σ : Type} (W : ddb_copy_t σ) (C : copy_context_t) :
    Res (Int × ddb_copy_t σ × copy_context_t) :=
  match read_dst_rblocks W C C.rcount DDB_READ_CHECKSUM with
  | Res.ok (W1, C1) =>
    let wprev := (gather_failed C.rcount 0 0 C1).1
    let C2 := (gather_failed C.rcount 0 0 C1).2
    if wprev > 0 then
      let WC3 := read_src_wblocks W1 C2 0 wprev DDB_READ_BLOCK
      match keep_read wprev 0 0 WC3.2 with
      | Res.ok (false, _, C4) => Res.ok (0, WC3.1, C4)
      | Res.ok (true, wcount, C4) => copy_blocks_remote_end WC3.1 C4 wcount
      | Res.fault => Res.fault
      | Res.nofuel => Res.nofuel
    else copy_blocks_remote_end W1 C2 0
  | Res.fault => Res.fault
  | Res.nofuel => Res.nofuel

/-- The function `copy_blocks`: the value returned, and `W` and `C`
afterwards. -/
def copy_blocks {σ : Type} (W : ddb_copy_t σ) (C : copy_context_t) :
    Res (Int × ddb_copy_t σ × copy_context_t) :=
  if C.rcount < 1 then copy_blocks_finish W C
  else if C.use_checksums then
    if W.src.is_remote then copy_blocks_remote W C else copy_blocks_sums W C
  else copy_blocks_main W C

/-- The loop of `copy_range`, with `n` blocks left from `start` on. -/
def copy_range_loop {σ : Type} : Nat → Int → ddb_copy_t σ → copy_context_t →
    Res (Int × ddb_copy_t σ × copy_context_t)
  | 0, _, W, C => Res.ok (0, W, C)
  | n + 1, start, W, C =>
    if C.rcount + 1 ≥ copy_block then
      match copy_blocks W
          { C with
            rblocks := C.rblocks.set C.rcount
              { block_at C.rblocks C.rcount with block := start, result := 0, error := some 0 },
            rcount := C.rcount + 1 } with
      | Res.ok (r, W1, C1) =>
        if r = 0 then Res.ok (-1, W1, C1) else copy_range_loop n (start + 1) W1 C1
      | Res.fault => Res.fault
      | Res.nofuel => Res.nofuel
    else
      copy_range_loop n (start + 1) W
        { C with
          rblocks := C.rblocks.set C.rcount
            { block_at C.rblocks C.rcount with block := start, result := 0, error := some 0 },
          rcount := C.rcount + 1 }

/-- The function `copy_range`. -/
def copy_range {σ : Type} (start end_ : Int) (W : ddb_copy_t σ) (C : copy_context_t) :
    Res (Int × ddb_copy_t σ × copy_context_t) :=
  copy_range_loop (end_ - start + 1).toNat start W C

/-- The call `ddb_blocklist_iterate (C.to_copy, copy_range, &C)` for the
ranges that the iteration visits; `copy_range` leaves `C.to_copy` alone. -/
def copy_ranges {σ : Type} : List (Int × Int) → ddb_copy_t σ → copy_context_t →
    Res (Int × ddb_copy_t σ × copy_context_t)
  | [], W, C => Res.ok (0, W, C)
  | r :: rest, W, C =>
    match copy_range r.1 r.2 W C with
    | Res.ok (v, W1, C1) => if v < 0 then Res.ok (v, W1, C1) else copy_ranges rest W1 C1
    | Res.fault => Res.fault
    | Res.nofuel => Res.nofuel

/-- The function `all_blocks` of `ddb-device.c`. -/
def all_blocks {σ : Type} (dev : device_t σ) : Res (Option ddb_blocklist_t) :=
  match ddb_blocklist_add ddb_blocklist_new 0 (dev.num_blocks - 1) with
  | Res.ok (r, ls) => if r ≥ 0 then Res.ok (some ls) else Res.ok none
  | Res.fault => Res.fault
  | Res.nofuel => Res.nofuel

/-- The function `ddb_device_copy_blocks`: the list, or NULL, and the device
afterwards. -/
def ddb_device_copy_blocks {σ : Type} (dev : device_t σ) :
    Res (Option ddb_blocklist_t × device_t σ) :=
  match dev.range with
  | some f =>
    match (f dev.state).1 with
    | Res.ok ls => Res.ok (ls, { dev with state := (f dev.state).2 })
    | Res.fault => Res.fault
    | Res.nofuel => Res.nofuel
  | none =>
    match all_blocks dev with
    | Res.ok ls => Res.ok (ls, dev)
    | Res.fault => Res.fault
    | Res.nofuel => Res.nofuel

/-- The context of `ddb_copy` before it looks for the blocks to copy. -/
def new_context {σ : Type} (W : ddb_copy_t σ) : copy_context_t :=
  { rblocks := List.replicate copy_block
      { block := 0, buffer := List.replicate W.block_size.toNat 0, result := 0, error := none },
    wblocks := List.replicate copy_block { block := 0, buffer := [], result := 0, error := none },
    buffers := List.replicate copy_block (List.replicate W.block_size.toNat 0),
    to_copy := none, to_retry := none, copied := some ddb_blocklist_new,
    total_to_copy := 0, pass_size := 0, blocks_read := 0, read_errors := 0,
    blocks_written := 0, blocks_skipped := 0, checksum_equal := 0, write_errors := 0,
    next_flush := 0, next_report := 0, next_checkpoint := 0, next_machine_report := 0,
    pass := 0, rcount := 0,
    use_checksums := W.dst.isSome && W.skip_identical && W.use_checksums &&
      (W.src.is_remote || (match W.dst with
        | some d => d.is_remote
        | none => false)),
    clock := 0, checkpoint := none, output := none, copied_out := none }

/-- The blocks to copy of `ddb_copy`: the list, or NULL when `ddb_copy` goes
to `out`, and the source afterwards. -/
def blocks_to_copy {σ : Type} (W : ddb_copy_t σ) : Res (Option ddb_blocklist_t × device_t σ) :=
  match W.input_list with
  | some none => Res.ok (none, W.src)
  | some (some F) =>
    match ddb_blocklist_read F with
    | Res.ok (loaded.list ls _) => Res.ok (some ls, W.src)
    | Res.ok (loaded.null _) => Res.ok (none, W.src)
    | Res.fault => Res.fault
    | Res.nofuel => Res.nofuel
  | none => ddb_device_copy_blocks W.src

/-- The count of a list that may be NULL. -/
def count_of (ls : Option ddb_blocklist_t) : Res Int :=
  match ls with
  | some l => Res.ok (ddb_blocklist_count l)
  | none => Res.fault

/-- The body of the loop of passes of `ddb_copy` up to the end of the calls
of `copy_range` and `copy_blocks`: the flag is false when `ddb_copy` goes to
`out`. -/
def copy_pass {σ : Type} (resuming : Bool) (count_to_copy : Int) (W : ddb_copy_t σ)
    (C : copy_context_t) : Res (Bool × ddb_copy_t σ × copy_context_t) :=
  let C1 := if C.to_retry.isNone then { C with to_retry := some ddb_blocklist_new } else C
  let C2 :=
    if W.progress_function then
      { (time_now W C1).2 with
        pass := if resuming then C1.pass else C1.pass + 1,
        pass_size := count_to_copy,
        next_report := (time_now W C1).1 + W.progress_interval }
    else C1
  match C2.to_copy with
  | none => Res.fault
  | some ls =>
    match ddb_blocklist_iterate ls with
    | Res.ok ranges =>
      match copy_ranges ranges W { C2 with rcount := 0 } with
      | Res.ok (v, W3, C3) =>
        if v < 0 then Res.ok (false, W3, C3)
        else if C3.rcount > 0 then
          match copy_blocks W3 C3 with
          | Res.ok (r, W4, C4) => Res.ok (decide (r ≠ 0), W4, C4)
          | Res.fault => Res.fault
          | Res.nofuel => Res.nofuel
        else Res.ok (true, W3, C3)
      | Res.fault => Res.fault
      | Res.nofuel => Res.nofuel
    | Res.fault => Res.fault
    | Res.nofuel => Res.nofuel

/-- The end of the body of the loop of passes, "and prepare for next pass":
the new `count_to_copy` and the context. -/
def next_pass {σ : Type} (W : ddb_copy_t σ) (C : copy_context_t) : Res (Int × copy_context_t) :=
  match count_of C.to_retry with
  | Res.ok count =>
    let C1 : copy_context_t :=
      { C with
        to_copy := C.to_retry, to_retry := none,
        blocks_read := 0, read_errors := 0, blocks_written := 0,
        blocks_skipped := 0, checksum_equal := 0, write_errors := 0 }
    if W.output_list ∧ W.output_each_pass then
      match write_block_list C1 with
      | Res.ok out => Res.ok (count, { C1 with output := some out })
      | Res.fault => Res.fault
      | Res.nofuel => Res.nofuel
    else Res.ok (count, C1)
  | Res.fault => Res.fault
  | Res.nofuel => Res.nofuel

/-- The end of `ddb_copy`, after the loop of passes: the value returned and
the context. -/
def copy_end {σ : Type} (count_to_copy : Int) (W : ddb_copy_t σ) (C : copy_context_t) :
    Res (Int × ddb_copy_t σ × copy_context_t) :=
  match write_block_list C with
  | Res.ok out =>
    Res.ok (if count_to_copy ≠ 0 then 0 else 1, W,
      { C with
        output := if W.output_list ∧ ¬ W.output_each_pass then some out else C.output,
        copied_out := if W.copied_list then some out else C.copied_out })
  | Res.fault => if W.output_list ∧ ¬ W.output_each_pass ∨ W.copied_list then Res.fault
    else Res.ok (if count_to_copy ≠ 0 then 0 else 1, W, C)
  | Res.nofuel => Res.nofuel

/-- The loop `while (C.pass < W->max_passes && count_to_copy > 0)` of
`ddb_copy` and what follows it; the first argument bounds the number of
passes that the model follows, and the result is `nofuel` when the loop wants
more. -/
def copy_passes {σ : Type} : Nat → Bool → Int → ddb_copy_t σ → copy_context_t →
    Res (Int × ddb_copy_t σ × copy_context_t)
  | 0, _, count_to_copy, W, C =>
    if C.pass < W.max_passes ∧ count_to_copy > 0 then Res.nofuel
    else copy_end count_to_copy W C
  | fuel + 1, resuming, count_to_copy, W, C =>
    if C.pass < W.max_passes ∧ count_to_copy > 0 then
      match copy_pass resuming count_to_copy W C with
      | Res.ok (false, W1, C1) => Res.ok (-1, W1, C1)
      | Res.ok (true, W1, C1) =>
        match next_pass W1 C1 with
        | Res.ok (count, C2) => copy_passes fuel resuming count W1 C2
        | Res.fault => Res.fault
        | Res.nofuel => Res.nofuel
      | Res.fault => Res.fault
      | Res.nofuel => Res.nofuel
    else copy_end count_to_copy W C

/-- The part of `ddb_copy` before the loop of passes: `W` and the context,
with `resuming` and `count_to_copy`, or with `none` when `ddb_copy` goes to
`out` from there. -/
def copy_start {σ : Type} (W : ddb_copy_t σ) :
    Res (Option (Bool × Int) × ddb_copy_t σ × copy_context_t) :=
  match blocks_to_copy W with
  | Res.ok (none, src) => Res.ok (none, { W with src := src }, new_context W)
  | Res.ok (some ls, src) =>
    let C0 : copy_context_t :=
      { new_context W with to_copy := some ls, total_to_copy := ddb_blocklist_count ls }
    match W.checkpoint_file with
    | some file =>
      match load_checkpoint W C0 file with
      | Res.ok (loaded, C1) =>
        if loaded < 0 then Res.ok (none, { W with src := src }, C1)
        else
          let C2 : copy_context_t :=
            { (time_now W C1).2 with
              next_checkpoint := (time_now W C1).1 + W.checkpoint_interval }
          let C3 : copy_context_t :=
            { (time_now W C2).2 with next_flush := (time_now W C2).1 + W.flush_interval }
          let C4 : copy_context_t :=
            { (time_now W C3).2 with
              next_machine_report := (time_now W C3).1 + W.machine_progress_interval }
          Res.ok (some (decide (loaded ≠ 0), ddb_blocklist_count ls), { W with src := src }, C4)
      | Res.fault => Res.fault
      | Res.nofuel => Res.nofuel
    | none =>
      let C3 : copy_context_t :=
        { (time_now W C0).2 with next_flush := (time_now W C0).1 + W.flush_interval }
      let C4 : copy_context_t :=
        { (time_now W C3).2 with
          next_machine_report := (time_now W C3).1 + W.machine_progress_interval }
      Res.ok (some (false, ddb_blocklist_count ls), { W with src := src }, C4)
  | Res.fault => Res.fault
  | Res.nofuel => Res.nofuel

/-- The function `ddb_copy`, following at most `fuel` passes: the value
returned, and `W` and the context as they are at the label `out`. -/
def ddb_copy {σ : Type} (fuel : Nat) (W : ddb_copy_t σ) :
    Res (Int × ddb_copy_t σ × copy_context_t) :=
  match copy_start W with
  | Res.ok (none, W1, C1) => Res.ok (-1, W1, C1)
  | Res.ok (some (resuming, count_to_copy), W1, C1) =>
    copy_passes fuel resuming count_to_copy W1 C1
  | Res.fault => Res.fault
  | Res.nofuel => Res.nofuel

/-- The number of times that the loop of passes of `ddb_copy` runs its body,
among the first `fuel` ones. -/
def count_passes {σ : Type} : Nat → Bool → Int → ddb_copy_t σ → copy_context_t → Nat
  | 0, _, _, _, _ => 0
  | fuel + 1, resuming, count_to_copy, W, C =>
    if C.pass < W.max_passes ∧ count_to_copy > 0 then
      match copy_pass resuming count_to_copy W C with
      | Res.ok (true, W1, C1) =>
        match next_pass W1 C1 with
        | Res.ok (count, C2) => count_passes fuel resuming count W1 C2 + 1
        | _ => 1
      | _ => 1
    else 0

/-- The number of passes that `ddb_copy` makes, among the first `fuel`
ones. -/
def passes_run {σ : Type} (fuel : Nat) (W : ddb_copy_t σ) : Nat :=
  match copy_start W with
  | Res.ok (some (resuming, count_to_copy), W1, C1) =>
    count_passes fuel resuming count_to_copy W1 C1
  | _ => 0

/-- The state of the sample devices: the number of calls of read or write
made so far, and the blocks stored. -/
structure store_t where
  calls : Nat
  data : List (Int × List Nat)
  deriving DecidableEq

/-- The block `b` of a store: what was written last, zeros when nothing
was. -/
def store_t.get (s : store_t) (size : Nat) (b : Int) : List Nat :=
  match s.data.find? (fun e => e.1 = b) with
  | some e => e.2
  | none => List.replicate size 0

/-- A read of the blocks of a batch from a store, where the blocks for which
`bad` holds fail with `EIO`. -/
def store_read (size : Nat) (bad : Nat → Int → Bool) (s : store_t) (blocks : List ddb_block_t)
    (_ : Nat) : (Int × List ddb_block_t) × store_t :=
  (((blocks.filter (fun blk => ¬ bad s.calls blk.block)).length,
    blocks.map (fun blk =>
      if bad s.calls blk.block then { blk with result := -1, error := some 5 }
      else { blk with buffer := s.get size blk.block, result := 1, error := some 0 })),
   { s with calls := s.calls + 1 })

/-- A write of the blocks of a batch to a store, where the blocks for which
`bad` holds fail with `EIO`. -/
def store_write (bad : Nat → Int → Bool) (s : store_t) (blocks : List ddb_block_t) :
    (Int × List ddb_block_t) × store_t :=
  (((blocks.filter (fun blk => ¬ bad s.calls blk.block)).length,
    blocks.map (fun blk =>
      if bad s.calls blk.block then { blk with result := -1, error := some 5 }
      else { blk with result := 1, error := some 0 })),
   { calls := s.calls + 1,
     data := (blocks.filter (fun blk => ¬ bad s.calls blk.block)).reverse.map
       (fun blk => (blk.block, blk.buffer)) ++ s.data })

/-- A device of `num_blocks` blocks of `size` bytes kept in a store, whose
reads fail where `rbad` holds and whose writes fail where `wbad` holds. -/
def store_device (size : Nat) (num_blocks : Int) (rbad wbad : Nat → Int → Bool)
    (data : List (Int × List Nat)) : device_t store_t :=
  { state := { calls := 0, data := data }, is_remote := false, num_blocks := num_blocks,
    mtime := 1, has_block := none, read := some (store_read size rbad),
    write := some (store_write wbad), flush := none, range := none, close := none }

/-- A copy of `src` to `dst` that writes every block read, with no lists, no
checkpoint and no reports at intervals. -/
def plain_copy (src : device_t store_t) (dst : Option (device_t store_t)) (block_size : Int)
    (max_passes : Int) (progress : Bool) : ddb_copy_t store_t :=
  { src := src, dst := dst, write_dst := true, total_size := block_size * src.num_blocks,
    total_blocks := src.num_blocks, block_size := block_size, input_list := none,
    max_passes := max_passes, checkpoint_file := none, checkpoint_interval := 0,
    progress_function := progress, progress_interval := 0, progress_sleep := 0,
    extra_report := false, machine_progress_file := false, machine_progress_interval := 0,
    output_list := false, output_each_pass := false, flush_interval := 120,
    use_checksums := false, skip_identical := false, copied_list := false,
    time := fun _ => 0 }

/-- A source of 11 blocks of 4 bytes, block `b` holding the byte `b + 1` four
times, whose first read fails for block 10. -/
def sample_source : device_t store_t :=
  store_device 4 11 (fun calls b => decide (calls = 0 ∧ b = 10)) (fun _ _ => false)
    ((List.range 11).map (fun (b : Nat) => ((b : Int), List.replicate 4 (b + 1))))

/-- An empty destination of 11 blocks of 4 bytes whose first write fails for
the blocks 5 and 7. -/
def sample_destination : device_t store_t :=
  store_device 4 11 (fun _ _ => false) (fun calls b => decide (calls = 0 ∧ (b = 5 ∨ b = 7))) []

/-- The ranges of the list `to_copy` at the end of a copy, the value
returned, and the blocks 5, 7 and 10 of the destination. -/
def copy_outcome (r : Res (Int × ddb_copy_t store_t × copy_context_t)) :
    Option (Int × List (Int × Int) × List (List Nat)) :=
  match r with
  | Res.ok (v, W, C) =>
    match C.to_copy, W.dst with
    | some ls, some d =>
      match ddb_blocklist_iterate ls with
      | Res.ok rs => some (v, rs, [d.state.get 4 5, d.state.get 4 7, d.state.get 4 10])
      | _ => none
    | _, _ => none
  | _ => none

/-! ## Joining the first incremental into the full image (`action_join`)

The directory of the sequence is seen through the calls that `action_join`
makes: each of them is given by what it returns. -/

/-- The contents of the file `meta` of a sequence. -/
structure seq_meta where
  block_size : Int
  total_size : Int
  full_mtime : Int
  deriving DecidableEq, Repr

/-- The directory of a sequence as `action_join` finds it: the value of
`check_name`; the names that `scandir` gives with `scan_filter` and
`scan_sort`, the incrementals from the newest to the oldest, or `none` when it
fails; the contents of `meta`, or `none` when `load_meta` fails; the devices
that `ddb_device_open_image` gives for the first incremental (made sparse)
and for `full`, or `none`; whether `save_meta` and `rename` succeed; and the
values of `time (NULL)`. -/
structure join_dir (σ : Type) where
  check_name : Int
  scandir : Option (List String)
  load_meta : Option seq_meta
  incr : Option (device_t σ)
  full : Option (device_t σ)
  save_meta : Bool
  rename : Bool
  time : Nat → Int

/-- The call `ddb_device_close (dev)` of a device that has no devices
inside. -/
def ddb_device_close {σ : Type} (dev : device_t σ) : Int :=
  match dev.close with
  | some f => f dev.state
  | none => 0

/-- The `ddb_copy_t` that `action_join` fills in; it leaves
`machine_progress_file` and `machine_progress_interval` as they are on the
stack, taken here as NULL and 0. -/
def join_copy {σ : Type} (dir : join_dir σ) (m : seq_meta) (incr full : device_t σ)
    (freq : Int) (report : Bool) : ddb_copy_t σ :=
  { src := incr, dst := some full, write_dst := true, total_size := m.total_size,
    total_blocks := incr.num_blocks, block_size := m.block_size, input_list := none,
    max_passes := 2, checkpoint_file := none, checkpoint_interval := 0,
    progress_function := report, progress_interval := freq, progress_sleep := 0,
    extra_report := true, machine_progress_file := false, machine_progress_interval := 0,
    output_list := false, output_each_pass := false, flush_interval := 120,
    use_checksums := false, skip_identical := false, copied_list := false,
    time := dir.time }

/-- The call `ddb_device_close (full)` of `action_join`, after the copy. -/
def close_full {σ : Type} (W : ddb_copy_t σ) : Int :=
  match W.dst with
  | some d => ddb_device_close d
  | none => 0

/-- The function `action_join`, with `ddb_copy` following at most `fuel`
passes: the value returned, the name of the incremental that it has removed
with `unlink`, if any, and the contents that it has given `meta` with
`save_meta` and `rename`, if any. -/
def action_join {σ : Type} (fuel : Nat) (dir : join_dir σ) (freq : Int) (report : Bool) :
    Res (Int × Option String × Option seq_meta) :=
  if dir.check_name = 0 ∨ dir.check_name < 2 then Res.ok (-1, none, none)
  else
    match dir.scandir with
    | none => Res.ok (-1, none, none)
    | some namelist =>
      if namelist.length < 1 then Res.ok (-1, none, none)
      else
        match dir.load_meta, dir.incr, dir.full with
        | some m, some incr, some full =>
          match ddb_copy fuel (join_copy dir m incr full freq report) with
          | Res.ok (v, W, _) =>
            if v = 0 then Res.ok (-1, none, none)
            else if close_full W < 0 then Res.ok (-1, none, none)
            else if ¬ (dir.save_meta ∧ dir.rename) then Res.ok (-1, none, none)
            else if ddb_device_close W.src < 0 then
              Res.ok (-1, none, some { m with full_mtime := W.src.mtime })
            else Res.ok (0, namelist.getLast?, some { m with full_mtime := W.src.mtime })
          | Res.fault => Res.fault
          | Res.nofuel => Res.nofuel
        | _, _, _ => Res.ok (-1, none, none)

/-- A first incremental of 4 blocks whose list of blocks cannot be read: its
operation `range` (`meta_blocks`) returns NULL. -/
def unreadable_incremental : device_t store_t :=
  { store_device 4 4 (fun _ _ => false) (fun _ _ => false) [] with
    mtime := 7, range := some (fun s => (Res.ok none, s)) }

/-- A sequence with two incrementals, the first of which is
`unreadable_incremental`. -/
def sample_join : join_dir store_t :=
  { check_name := 2, scandir := some ["incr-2018-01-02:00:00:00", "incr-2018-01-01:00:00:00"],
    load_meta := some { block_size := 4, total_size := 16, full_mtime := 3 },
    incr := some unreadable_incremental,
    full := some (store_device 4 4 (fun _ _ => false) (fun _ _ => false) []),
    save_meta := true, rename := true, time := fun _ => 0 }

/-- A source of one block whose every read fails. -/
def stuck_source : device_t store_t :=
  store_device 4 1 (fun _ b => decide (b = 0)) (fun _ _ => false) []

/-- The copy of `stuck_source` with no destination, `max_passes = 1` and
`progress_function = NULL`, after `k` reads of the source. -/
def stuck_W (k : Nat) : ddb_copy_t store_t :=
  plain_copy { stuck_source with state := { calls := k, data := [] } } none 4 1 false

/-- The list that holds block 0 only, as `ddb_blocklist_add` makes it. -/
def stuck_list : ddb_blocklist_t :=
  { mem := [some { next := none, prev := none, start := 0, end_ := 0 }], first := some 0,
    last := some 0, count := 1 }

/-- The context of the copy of `stuck_source` at the start of a pass. -/
def stuck_C (c : Nat) (rb wb : List ddb_block_t) : copy_context_t :=
  { new_context (stuck_W 0) with
    rblocks := rb, wblocks := wb, to_copy := some stuck_list, total_to_copy := 1,
    next_flush := 120, clock := c }

/-- The checkpoint that `write_checkpoint` writes in the first pass of a copy
of `stuck_source` that reports its progress. -/
def stuck_checkpoint : List Nat :=
  match write_checkpoint (plain_copy stuck_source none 4 1 true)
      { stuck_C 0 [] [] with pass := 1, pass_size := 1, to_retry := some ddb_blocklist_new } with
  | Res.ok C => C.checkpoint.getD []
  | _ => []

/-- The copy of `stuck_source` with `max_passes = 1` that reports its progress
and resumes from `stuck_checkpoint`. -/
def resumed_copy : ddb_copy_t store_t :=
  { plain_copy stuck_source none 4 1 true with checkpoint_file := some (some stuck_checkpoint) }

/-! ## The links of a block list, and the lists that a copy writes -/

/-- Follow `next` from the cell `p`, whose predecessor in the chain is `prev`,
checking that each cell's `prev` designates its predecessor: gives the final
cell of the chain, or `none` when a link is wrong (or the walk leaves the
heap). -/
def check_links : Nat → List (Option range_t) → Option Nat → Option Nat → Option (Option Nat)
  | 0, _, _, _ => none
  | _ + 1, _, prev, none => some prev
  | fuel + 1, m, prev, some r =>
    match m[r]? with
    | some (some R) => if R.prev = prev then check_links fuel m (some r) R.next else none
    | _ => none

/-- The doubly linked list of ranges is consistent: `first->prev` is NULL,
`r->next->prev` is `r` for every range `r` of the chain that has a next one,
and `last` is the final range of the chain. -/
def links_consistent (ls : ddb_blocklist_t) : Bool :=
  decide (check_links (ls.mem.length + 1) ls.mem none ls.first = some ls.last)

/-- A source of 11 blocks of 4 bytes, block `b` holding the byte `b + 1` four
times, whose block 10 cannot be read. -/
def damaged_source : device_t store_t :=
  store_device 4 11 (fun _ b => decide (b = 10)) (fun _ _ => false)
    ((List.range 11).map (fun (b : Nat) => ((b : Int), List.replicate 4 (b + 1))))

/-- The copy of `damaged_source` to an empty destination in one pass, with a
list of the blocks left and a list of the blocks copied asked for. -/
def listing_copy : ddb_copy_t store_t :=
  { plain_copy damaged_source
      (some (store_device 4 11 (fun _ _ => false) (fun _ _ => false) [])) 4 1 true with
    output_list := true, copied_list := true }

/-- The ranges of a list that may be NULL. -/
def ranges_of (ls : Option ddb_blocklist_t) : Option (List (Int × Int)) :=
  match ls with
  | some l =>
    match ddb_blocklist_iterate l with
    | Res.ok rs => some rs
    | _ => none
  | none => none

/-- The lists at the end of a copy: the value returned, the ranges of
`to_copy` and of `copied`, the blocks that the destination holds, and the
files written under the names `output_list` and `copied_list`. -/
def copy_lists (r : Res (Int × ddb_copy_t store_t × copy_context_t)) :
    Option (Int × Option (List (Int × Int)) × Option (List (Int × Int)) × List Int ×
      Option (List Char) × Option (List Char)) :=
  match r with
  | Res.ok (v, W, C) =>
    some (v, ranges_of C.to_copy, ranges_of C.copied,
      (match W.dst with
        | some d => d.state.data.reverse.map Prod.fst
        | none => []),
      C.output, C.copied_out)
  | _ => none

/-! ## What a checkpoint carries over -/

/-- A list whose chain from `first` reaches NULL with the canonical ranges
`rs` of non-negative blocks that fit `off_t`, fewer than `2 ^ 63` blocks in
all; nothing is asked of its count. -/
def good_list (S : ddb_blocklist_t) (rs : List (Int × Int)) : Prop :=
  ∃ l, Seg S.mem S.first l none ∧ ranges l = rs ∧ canonical rs ∧
    (∀ r ∈ rs, 0 ≤ r.1 ∧ r.2 < 2 ^ 63) ∧ total rs < 2 ^ 63

/-- The list that `ddb_blocklist_add` leaves after the calls for the blocks
10, 5 and 7 on a new list: the ranges `[7, 7]` and `[10, 10]`, with the count
3. -/
def drifted_list : ddb_blocklist_t :=
  match add_all ddb_blocklist_new [(10, 10), (5, 5), (7, 7)] with
  | Res.ok L => L
  | _ => ddb_blocklist_new

/-- The counters of a copy pass the tests of `load_checkpoint`, and the sizes
and the pass number fit their fields in the checkpoint. -/
def valid_counters {σ : Type} (W : ddb_copy_t σ) (C : copy_context_t) : Prop :=
  0 ≤ C.pass_size ∧ C.pass_size < 2 ^ 63 ∧
  0 ≤ C.blocks_read ∧ 0 ≤ C.read_errors ∧ C.blocks_read + C.read_errors ≤ W.total_blocks ∧
  0 ≤ C.blocks_written ∧ 0 ≤ C.blocks_skipped ∧ 0 ≤ C.checksum_equal ∧
  C.checksum_equal ≤ C.blocks_skipped ∧ 0 ≤ C.write_errors ∧
  C.blocks_written + C.blocks_skipped + C.write_errors ≤ W.total_blocks ∧
  W.total_blocks < 2 ^ 63 ∧ -2 ^ 63 ≤ W.total_size ∧ W.total_size < 2 ^ 63 ∧
  0 ≤ C.pass ∧ C.pass < 2 ^ 31

/-- The list that holds the blocks 4 to 10. -/
def sample_list : ddb_blocklist_t :=
  { mem := [some { next := none, prev := none, start := 4, end_ := 10 }],
    first := some 0, last := some 0, count := 7 }

/-- The context of `listing_copy` in its first pass, with the blocks 0 to 3
read, the blocks 4 to 10 still in `to_copy` and nothing to retry. -/
def sample_context : copy_context_t :=
  { new_context listing_copy with
    to_copy := some sample_list, to_retry := some ddb_blocklist_new,
    total_to_copy := 11, pass_size := 11, blocks_read := 4, blocks_written := 4, pass := 1 }

/-- The context `sample_context` with `drifted_list` as the blocks to retry:
its count, 3, is not the number of the blocks of its ranges, 2. -/
def retry_context : copy_context_t :=
  { sample_context with to_retry := some drifted_list }

/-- A checkpoint with the counters `blocks_read = 2^63 - 1` and
`read_errors = 1` and three empty lists, for a copy of 11 blocks. -/
def overflow_checkpoint : List Nat :=
  match write_checkpoint listing_copy
      { new_context listing_copy with
        to_copy := some ddb_blocklist_new, to_retry := some ddb_blocklist_new,
        blocks_read := 2 ^ 63 - 1, read_errors := 1 } with
  | Res.ok C => C.checkpoint.getD []
  | _ => []

/-! ## Sample images with a full metadata block -/

/-- Writes of 512 bytes to the 20 blocks 0, 2, .., 38, block `2 k` holding the
byte `k + 1`. -/
def even_blocks : List ddb_block_t :=
  (List.range 20).map (fun (k : Nat) =>
    { block := 2 * (k : Int), buffer := List.replicate 512 (k + 1), result := 0, error := none })

/-- The image with the outcomes `s` for its next calls that reach the file. -/
def with_script (img : image_t) (s : List Bool) : image_t :=
  { img with fd := { img.fd with script := s } }

/-- A new sparse image of 41 blocks of 512 bytes after the writes
`even_blocks`, which fill its one metadata block of 20 entries, and with the
file failing the fourth call from then on that reaches it: what
`add_new_block` returns for block 40, and the result, the end of the data and
the first four bytes of the file after `image_write` of block 40 with the
bytes 99. -/
def failed_chain : Option (Int × Int × Int × Int × List Nat) :=
  (run (new_image 512 20992 0) [op.write even_blocks]).map (fun img =>
    ((add_new_block (with_script img [true, true, true, false]) 40).1,
     (image_write_block (with_script img [true, true, true, false])
        { block := 40, buffer := List.replicate 512 99, result := 0, error := none }).1.result,
     img.header.data_end,
     (image_write_block (with_script img [true, true, true, false])
        { block := 40, buffer := List.replicate 512 99, result := 0, error := none }).2.header.data_end,
     file_bytes (image_write_block (with_script img [true, true, true, false])
        { block := 40, buffer := List.replicate 512 99, result := 0, error := none }).2.fd 0 4))

/-! ## The blocks of a device, and a sparse image as a device -/

/-- The function `ddb_device_blocks`. -/
def ddb_device_blocks {σ : Type} (dev : device_t σ) :
    Res (Option ddb_blocklist_t) × device_t σ :=
  match dev.blocks with
  | some f => ((f dev.state).1, { dev with state := (f dev.state).2 })
  | none => (all_blocks dev, dev)

/-- The function `ddb_device_has_blocks`. -/
def ddb_device_has_blocks {σ : Type} (dev : device_t σ) (blocks : ddb_blocklist_t) :
    Res (Option ddb_blocklist_t) × device_t σ :=
  match dev.has_blocks with
  | some f => ((f dev.state blocks).1, { dev with state := (f dev.state blocks).2 })
  | none =>
    match (ddb_device_blocks dev).1 with
    | Res.ok (some r1) =>
      (match ddb_blocklist_intersect [r1, blocks] with
        | Res.ok r2 => Res.ok (some r2)
        | Res.fault => Res.fault
        | Res.nofuel => Res.nofuel,
       (ddb_device_blocks dev).2)
    | Res.ok none => (Res.ok none, (ddb_device_blocks dev).2)
    | Res.fault => (Res.fault, (ddb_device_blocks dev).2)
    | Res.nofuel => (Res.nofuel, (ddb_device_blocks dev).2)

/-- The flag `DDB_READ_ZEROFILL`. -/
def DDB_READ_ZEROFILL : Nat := 16

/-- The 32 bytes that `ddb_checksum_block` stores for the bytes `bytes`, with
`sha` for the function `SHA256` of the library it calls. -/
def ddb_checksum_block (sha : List Nat → List Nat) (bytes : List Nat) : List Nat :=
  (sha bytes ++ List.replicate DDB_CHECKSUM_LENGTH 0).take DDB_CHECKSUM_LENGTH

/-- The body of the loop of `image_read` for one block, for a read of
checksums: after a read that succeeds, the checksum of the `len` bytes read
takes the first 32 bytes of the buffer. -/
def image_sum_block (sha : List Nat → List Nat) (img : image_t) (blk : ddb_block_t)
    (zf : Bool) : ddb_block_t × image_t :=
  if (image_read_block img blk zf).1.result = 1 then
    ({ (image_read_block img blk zf).1 with
        buffer := ddb_checksum_block sha
            ((image_read_block img blk zf).1.buffer.take (block_len img.header blk.block).toNat) ++
          (image_read_block img blk zf).1.buffer.drop DDB_CHECKSUM_LENGTH },
     (image_read_block img blk zf).2)
  else image_read_block img blk zf

/-- The function `image_read` for reads of checksums. -/
def image_read_sums (sha : List Nat → List Nat) :
    image_t → List ddb_block_t → Bool → (Int × List ddb_block_t) × image_t
  | img, [], _ => ((0, []), img)
  | img, blk :: rest, zf =>
    let r := image_sum_block sha img blk zf
    let t := image_read_sums sha r.2 rest zf
    ((if r.1.result = 1 then t.1.1 + 1 else t.1.1, r.1 :: t.1.2), t.2)

/-- The function `image_read`, for every value of `flags`. -/
def image_read_flags (sha : List Nat → List Nat) (img : image_t) (blocks : List ddb_block_t)
    (flags : Nat) : (Int × List ddb_block_t) × image_t :=
  if flags &&& (DDB_READ_BLOCK ||| DDB_READ_CHECKSUM) = DDB_READ_CHECKSUM then
    image_read_sums sha img blocks (decide (flags &&& DDB_READ_ZEROFILL ≠ 0))
  else image_read img blocks (decide (flags &&& DDB_READ_ZEROFILL ≠ 0))

/-- An open image with metadata as a device, with the operations of the table
`sparse_ops`. -/
def sparse_device (sha : List Nat → List Nat) (img : image_t) : device_t image_t :=
  { state := img, is_remote := false, num_blocks := img.header.total_blocks,
    mtime := img.header.mtime, has_block := some meta_has_block,
    read := some (image_read_flags sha), write := some image_write,
    flush := some meta_flush, range := some meta_blocks,
    close := some (fun s => (image_close s).1), blocks := some meta_blocks,
    has_blocks := some (fun s l => meta_has_blocks s (some l)) }

/-- Writes of 512 bytes to block 1 and to the blocks 10 to 20. -/
def gap_blocks : List ddb_block_t :=
  { block := 1, buffer := List.replicate 512 1, result := 0, error := none } ::
    (List.range 11).map (fun (k : Nat) =>
      { block := 10 + (k : Int), buffer := List.replicate 512 (k + 2), result := 0,
        error := none })

/-- For a new sparse image of 21 blocks of 512 bytes after the writes
`gap_blocks`, and the list of the blocks 5 to 15: the ranges of the blocks of
the device, of the list that `ddb_device_has_blocks` returns, of
`ddb_blocklist_intersect` of the blocks of the device and the list, and of the
list that `ddb_device_has_blocks` returns for the same device without the
operation `has_blocks`. -/
def has_blocks_outcome :
    Option (Option (List (Int × Int)) × Option (List (Int × Int)) ×
      Option (List (Int × Int)) × Option (List (Int × Int))) :=
  match run (new_image 512 10752 0) [op.write gap_blocks],
      add_all ddb_blocklist_new [(5, 15)] with
  | some img, Res.ok L =>
    match (ddb_device_blocks (sparse_device id img)).1,
        (ddb_device_has_blocks (sparse_device id img) L).1,
        (ddb_device_has_blocks { sparse_device id img with has_blocks := none } L).1 with
    | Res.ok (some B), Res.ok H, Res.ok D =>
      some (ranges_of (some B), ranges_of H,
        (match ddb_blocklist_intersect [B, L] with
          | Res.ok I => ranges_of (some I)
          | _ => none),
        ranges_of D)
    | _, _, _ => none
  | _, _ => none

/-! ## Writing to a sequence (`dir_write`) -/

/-- The stream after `fseeko` to `off` and `fwrite` of `bytes`: a gap between
the end of the stream and `off` reads as zeros. -/
def file_put (f : List Nat) (off : Nat) (bytes : List Nat) : List Nat :=
  (f ++ List.replicate (off - f.length) 0).take off ++ bytes ++ f.drop (off + bytes.length)

/-- The loop of `dir_write` that updates the file of checksums: the value of
`ok`, the blocks and the file afterwards.  A seek before the start of the file
fails. -/
def write_checksums (sha : List Nat → List Nat) (block_size : Int) :
    List ddb_block_t → Int → List Nat → Int × List ddb_block_t × List Nat
  | [], ok, sums => (ok, [], sums)
  | blk :: rest, ok, sums =>
    if blk.result < 1 then
      ((write_checksums sha block_size rest ok sums).1,
       blk :: (write_checksums sha block_size rest ok sums).2.1,
       (write_checksums sha block_size rest ok sums).2.2)
    else if blk.block * DDB_CHECKSUM_LENGTH ≥ 0 then
      ((write_checksums sha block_size rest ok
          (file_put sums (blk.block * DDB_CHECKSUM_LENGTH).toNat
            (ddb_checksum_block sha (blk.buffer.take block_size.toNat)))).1,
       blk :: (write_checksums sha block_size rest ok
          (file_put sums (blk.block * DDB_CHECKSUM_LENGTH).toNat
            (ddb_checksum_block sha (blk.buffer.take block_size.toNat)))).2.1,
       (write_checksums sha block_size rest ok
          (file_put sums (blk.block * DDB_CHECKSUM_LENGTH).toNat
            (ddb_checksum_block sha (blk.buffer.take block_size.toNat)))).2.2)
    else
      ((write_checksums sha block_size rest (ok - 1) sums).1,
       { blk with result := -1, error := some EINVAL } ::
         (write_checksums sha block_size rest (ok - 1) sums).2.1,
       (write_checksums sha block_size rest (ok - 1) sums).2.2)

/-- The function `dir_write`: its value, the blocks, and the devices and the
file of checksums afterwards. -/
def dir_write {σ : Type} (sha : List Nat → List Nat) (dev : dir_t σ)
    (blocks : List ddb_block_t) :
    Int × List ddb_block_t × List (device_t σ) × Option (List Nat) :=
  if dev.devs.length < 1 then (-1, blocks, dev.devs, dev.checksums)
  else
    match dev.devs[dev.devs.length - 1]? with
    | none => (-1, blocks, dev.devs, dev.checksums)
    | some d =>
      if (ddb_device_write_multi d blocks).1.1 < 0 then
        ((ddb_device_write_multi d blocks).1.1, (ddb_device_write_multi d blocks).1.2,
         dev.devs.set (dev.devs.length - 1) (ddb_device_write_multi d blocks).2, dev.checksums)
      else
        match dev.checksums with
        | none =>
          ((ddb_device_write_multi d blocks).1.1, (ddb_device_write_multi d blocks).1.2,
           dev.devs.set (dev.devs.length - 1) (ddb_device_write_multi d blocks).2, none)
        | some sums =>
          ((write_checksums sha dev.block_size (ddb_device_write_multi d blocks).1.2
              (ddb_device_write_multi d blocks).1.1 sums).1,
           (write_checksums sha dev.block_size (ddb_device_write_multi d blocks).1.2
              (ddb_device_write_multi d blocks).1.1 sums).2.1,
           dev.devs.set (dev.devs.length - 1) (ddb_device_write_multi d blocks).2,
           some (write_checksums sha dev.block_size (ddb_device_write_multi d blocks).1.2
              (ddb_device_write_multi d blocks).1.1 sums).2.2)

/-- A sequence of 1124 bytes in blocks of 512 bytes, whose block 2 has 100
bytes, with one new sparse image as its layer and a file of checksums of three
times 32 zeros. -/
def short_sequence (sha : List Nat → List Nat) : dir_t image_t :=
  { devs := [sparse_device sha (new_image 512 1124 0)],
    checksums := some (List.replicate 96 0), block_size := 512 }

/-- For `short_sequence`, after `dir_write` of block 2 from a buffer of 512
bytes 7: the value of `dir_write`, the 32 bytes at offset `2 * 32` of the file
of checksums, and the first 32 bytes that a read of checksums of block 2
through the layers (without the file of checksums, as `action_checksum` makes
it) leaves in the buffer. -/
def short_block_sums (sha : List Nat → List Nat) : Int × List Nat × List Nat :=
  let w := dir_write sha (short_sequence sha)
    [{ block := 2, buffer := List.replicate 512 7, result := 0, error := none }]
  let r := dir_read { devs := w.2.2.1, checksums := none, block_size := 512 }
    [{ block := 2, buffer := List.replicate 512 0, result := 0, error := none }]
    DDB_READ_CHECKSUM
  (w.1, ((w.2.2.2.getD []).drop 64).take 32, (block_at r.2.1 0).buffer.take 32)

/-- A stand-in for the hash function that tells the lengths of its inputs
apart: the two bytes of the length of the input. -/
def length_sha (b : List Nat) : List Nat := [b.length / 256, b.length % 256]

/-! ## Opening a directory sequence (`parse_name`, `check_name`, `ddb_device_open_dir`) -/

/-- The table `ts_components` up to its terminating entry: the separator
before each component of a timestamp (`none` for the byte 0) and the length of
the component. -/
def ts_components : List (Option Char × Nat) :=
  [(none, 4), (some '-', 2), (some '-', 2), (some ':', 2), (some ':', 2), (some ':', 2)]

/-- The function `strcmp` on strings without the byte 0: the difference of the
first bytes that differ, the end of a string counting as the byte 0. -/
def strcmp : List Char → List Char → Int
  | [], [] => 0
  | [], b :: _ => - (b.toNat : Int)
  | a :: _, [] => (a.toNat : Int)
  | a :: as, b :: bs => if a = b then strcmp as bs else (a.toNat : Int) - (b.toNat : Int)

/-- The function `rindex`: the characters before and after the last `c` of the
string, when there is one. -/
def rindex (name : List Char) (c : Char) : Option (List Char × List Char) :=
  match name.reverse.span (fun x => x != c) with
  | (_, []) => none
  | (after, _ :: before) => some (before.reverse, after.reverse)

/-- The filling of the components from `cs` on with the digit 9 that ends the
first branch of `parse_name`, `com` being the index of the first of them: the
separator is written before every component but the one of index 0. -/
def nines_after (com : Nat) : List (Option Char × Nat) → List Char
  | [] => []
  | (sep, n) :: cs =>
    (if com ≠ 0 then [sep.getD (Char.ofNat 0)] else []) ++ List.replicate n '9' ++
      nines_after (com + 1) cs

/-- The filling of all the components with the digit 9 after the label
`not_ts` of `parse_name`: the separator is written when it is not the byte
0. -/
def nines_all : List (Option Char × Nat) → List Char
  | [] => []
  | (sep, n) :: cs => sep.toList ++ List.replicate n '9' ++ nines_all cs

/-- The number of leading digits of `s`, at most `n`: the inner loop of
`parse_name`. -/
def count_digits (s : List Char) (n : Nat) : Nat :=
  ((s.take n).takeWhile isdigit).length

/-- The loop of `parse_name` over the components of a timestamp, from the
component of index `com` on, with `slash` the rest of the name and `ts` the
characters written so far: `none` is the jump to `not_ts`, otherwise the
timestamp completed with the digit 9. -/
def parse_ts (com : Nat) : List (Option Char × Nat) → List Char → List Char →
    Option (List Char)
  | [], slash, ts => if slash = [] then some ts else none
  | (sep, n) :: cs, slash, ts =>
    if slash = [] then some (ts ++ nines_after com ((sep, n) :: cs))
    else
      let after := match sep with
        | none => some slash
        | some c => if slash.head? = some c then some slash.tail else none
      match after with
      | none => none
      | some s =>
        if count_digits s n < 1 then none
        else
          parse_ts (com + 1) cs (s.drop (count_digits s n))
            (ts ++ sep.toList ++ List.replicate (n - count_digits s n) '0' ++
              s.take (count_digits s n))

/-- The function `parse_name`, for `ts` and `last` null or not (`want_ts`,
`want_last`): the values left in `*has_type` and `*len`, the string left in
`ts` when it is written, and `*last`. -/
def parse_name (name : List Char) (has_type : Bool) (want_ts want_last : Bool) :
    Bool × Nat × Option (List Char) × Bool :=
  let ts0 : Option (List Char) := if want_ts then some [] else none
  let full : Option (List Char) := if want_ts then some (nines_all ts_components) else none
  match rindex name '/' with
  | none => (has_type, name.length, ts0, false)
  | some (before, slash) =>
    if slash = [] then
      if want_ts then (true, name.length, full, false)
      else (true, before.length, ts0, false)
    else if want_last && decide (strcmp slash ['l', 'a', 's', 't'] = 0) then
      (has_type, before.length, ts0, true)
    else if want_ts then
      match parse_ts 0 ts_components slash [] with
      | some ts => (has_type, before.length, some ts, false)
      | none => (has_type, name.length, full, false)
    else (has_type, name.length, ts0, false)

/-- A directory tree as `stat` and `scandir` see it: for a path, whether it is
a directory (`some true`), another file (`some false`) or absent, and the names
in a directory. -/
structure tree_t where
  kind : List Char → Option Bool
  names : List Char → List (List Char)

/-- One try of `check_name` for a sequence that is not packed, with `dn` the
name without the timestamp: 1 when a sequence is to be created, 2 when `dn` is
a directory with the regular files `meta` and `full`, and 0 to go on to the
next try. -/
def check_try (t : tree_t) (dn : List Char) (has_type creating : Bool) : Nat :=
  match t.kind dn with
  | none => if creating && has_type then 1 else 0
  | some false => 0
  | some true =>
    if t.kind (dn ++ ['/', 'm', 'e', 't', 'a']) = some false ∧
        t.kind (dn ++ ['/', 'f', 'u', 'l', 'l']) = some false then 2 else 0

/-- The function `check_name` for a sequence that is not packed: its value,
`dn` (of length `*len`), the string in `ts` afterwards (`ts` is the string
there before, `none` when `ts` is null) and `*last`.  The second try, made
when `ts` is not null, calls `parse_name` with a null `ts`, so that the string
of the first try stays. -/
def check_name (t : tree_t) (name : List Char) (has_type creating : Bool)
    (ts : Option (List Char)) (want_last : Bool) :
    Nat × List Char × Option (List Char) × Bool :=
  let p := parse_name name has_type ts.isSome want_last
  if check_try t (name.take p.2.1) p.1 creating ≠ 0 then
    (check_try t (name.take p.2.1) p.1 creating, name.take p.2.1, p.2.2.1, p.2.2.2)
  else if ts.isSome then
    let q := parse_name name p.1 false want_last
    (check_try t (name.take q.2.1) q.1 creating, name.take q.2.1, p.2.2.1, q.2.2.2)
  else (0, name.take p.2.1, p.2.2.1, p.2.2.2)

/-- The check of the components of a timestamp in `scan_filter`, `com` being
the index of the first of `cs`: a separator before every component but the one
of index 0, then digits; it does not look at what follows. -/
def scan_components (com : Nat) : List (Option Char × Nat) → List Char → Bool
  | [], _ => true
  | (sep, n) :: cs, s =>
    let s1 := if com ≠ 0 then s.tail else s
    (com = 0 || s.head? = some (sep.getD (Char.ofNat 0))) &&
      ((s1.take n).all isdigit && decide ((s1.take n).length = n)) &&
      scan_components (com + 1) cs (s1.drop n)

/-- The function `scan_filter`: whether a name in the directory is the name of
an incremental image. -/
def scan_filter (name : List Char) : Bool :=
  if name.head? = none ∨ name.head? = some '.' then false
  else if name.length ≠ 24 then false
  else if name.take 5 ≠ ['i', 'n', 'c', 'r', '-'] then false
  else scan_components 0 ts_components (name.drop 5)

/-- The place of a name in a list in the order of `scan_sort`, in which a name
comes before the names that `strcmp` makes smaller. -/
def scan_insert (x : List Char) : List (List Char) → List (List Char)
  | [] => [x]
  | y :: ys => if strcmp y x < 0 then x :: y :: ys else y :: scan_insert x ys

/-- The call `scandir (dn, &namelist, scan_filter, scan_sort)`: the names that
`scan_filter` keeps, in the order of `scan_sort`. -/
def scandir (t : tree_t) (dn : List Char) : List (List Char) :=
  ((t.names dn).filter scan_filter).foldr scan_insert []

/-- The loop of `ddb_device_open_dir` over `namelist`, from its last name to
its first: the names of the incremental images it opens, those that `strcmp`
does not put after `tslimit` when there is one. -/
def open_loop (tslimit : Option (List Char)) (namelist : List (List Char)) :
    List (List Char) :=
  namelist.reverse.filter (fun name =>
    match tslimit with
    | none => true
    | some l => !decide (strcmp name l > 0))

/-- The function `ddb_device_open_dir` for a read-only open of a sequence that
is not packed, in a tree where `meta` loads and every image opens: the paths
of the images that become the layers `sub[0]`, `sub[1]`, ... of the device, or
`none` when the open fails with `EINVAL`. -/
def ddb_device_open_dir (t : tree_t) (path : List Char) (has_type : Bool) :
    Option (List (List Char)) :=
  let c := check_name t path has_type false (some []) false
  let tslimit := ['i', 'n', 'c', 'r', '-'] ++ c.2.2.1.getD []
  if c.1 = 0 then none
  else if c.1 < 2 then none
  else
    some ((c.2.1 ++ ['/', 'f', 'u', 'l', 'l']) ::
      (open_loop (some tslimit) (scandir t c.2.1)).map (fun name => c.2.1 ++ '/' :: name))

/-- A tree with the directory `home`, which is not a sequence, and in it the
sequences `seq` and `2020`, each with the incremental images of the first days
of 2019, 2020 and 2021 and with files that are not images. -/
def sample_tree : tree_t :=
  let dirs : List String := ["home", "home/seq", "home/2020", "seq"]
  let files : List String := ["meta", "full", "checksum", "incr-2019-01-01:00:00:00",
    "incr-2021-01-01:00:00:00", "incr-2020-01-01:00:00:00", "incr-2020-01-01", ".",
    "incr-2020-01-01:00:00:0x", "incr+2020-01-01:00:00:00", "incr-2020:01-01:00:00:00"]
  let seqs : List String := ["home/seq", "home/2020", "seq"]
  { kind := fun p =>
      if dirs.any (fun d => d.toList = p) then some true
      else if seqs.any (fun d => files.any (fun f => d.toList ++ '/' :: f.toList = p)) then
        some false
      else none,
    names := fun p =>
      if seqs.any (fun d => d.toList = p) then files.map String.toList
      else if p = "home".toList then ["seq".toList, "2020".toList]
      else [] }

/-- The layers of a read-only open of `path` in `sample_tree`, as strings. -/
def sample_layers (path : String) : Option (List String) :=
  (ddb_device_open_dir sample_tree path.toList false).map (fun l => l.map String.mk)

/-! ## The runs of present blocks -/

/-- The runs of consecutive blocks of the entries `es`, after a run `start` to
`end_` that is still open. -/
def runs_from : List metadata_data_t → Int → Int → List (Int × Int)
  | [], start, end_ => [(start, end_)]
  | e :: rest, start, end_ =>
    if end_ + 1 = e.start then runs_from rest start e.end_
    else (start, end_) :: runs_from rest e.start e.end_

/-- The runs of consecutive blocks of the entries `es`. -/
def runs : List metadata_data_t → List (Int × Int)
  | [] => []
  | e :: rest => runs_from rest e.start e.end_

/-- One call of `func` for each of the spans `rs`, in order, each on the state
that the call before left: the value and the state of the first call whose
value is negative, or else of the last call; 0 when there is no span. -/
def call_runs {α : Type} (func : Int → Int → α → Int × α) : List (Int × Int) → α → Int × α
  | [], arg => (0, arg)
  | r :: rest, arg =>
    if (func r.1 r.2 arg).1 < 0 ∨ rest = [] then func r.1 r.2 arg
    else call_runs func rest (func r.1 r.2 arg).2

/-- The end of `feed_all`: the value and the state that the outcome `r` of the
callbacks for the entries comes to. -/
def feed_end {α : Type} (func : Int → Int → α → Int × α) (r : Option Int × Int × Int × α) :
    Int × α :=
  match r.1 with
  | some v => (v, r.2.2.2)
  | none => if r.2.2.1 < 0 then (0, r.2.2.2) else func r.2.1 r.2.2.1 r.2.2.2

/-- A callback for `meta_iterate` that notes the spans it is called with and
stops, with the value -1, at a span beyond block 1. -/
def note_span (start end_ : Int) (l : List (Int × Int)) : Int × List (Int × Int) :=
  (if start > 1 then -1 else 0, l ++ [(start, end_)])

/-! ## The split of a full metadata block -/

/-- What `add_new_block` leaves when it splits the full metadata block `B`,
between the blocks `pre` and `post` of the index, to add the block `b`, for an
image whose header was `h`: the position returned is one block after the old
end of the data; the index is `pre`, then `B1` in the place of `B` with the
first half of its entries, then `N` at the old end of the data with the other
half, then `post`; `B1` names `N` as the next block and `N` names what `B`
named; the entry of `b` alone, with the position returned, stands between the
entries before `b` and those after `b` of the first half when `b` is before
the second half, and of the second half when `b` is after the first entry of
it; the data of the other blocks are as before, and each block that the index
held is held still, with the same position for its data. -/
def SplitShape (h : header_t) (pre : List mblk) (B : mblk) (post : List mblk)
    (data : Int → List Nat) (b : Int) (r : Int × image_t) : Prop :=
  r.1 = h.data_end + h.block_size ∧
  ∃ (B1 N : mblk) (l1 l2 : List metadata_data_t) (data1 : Int → List Nat),
    Rep r.2 (pre ++ B1 :: N :: post) data1 ∧
    B1.pos = B.pos ∧ N.pos = h.data_end ∧ B1.next = h.data_end ∧ N.next = B.next ∧
    (∀ e ∈ l1, e.end_ < b) ∧ (∀ e ∈ l2, b < e.start) ∧
    ((b < (data_at B.ents (B.ents.length / 2)).start ∧
        B.ents.take (B.ents.length / 2) = l1 ++ l2 ∧
        B1.ents = l1 ++ { start := b, end_ := b, pos := h.data_end + h.block_size } :: l2 ∧
        N.ents = B.ents.drop (B.ents.length / 2)) ∨
      ((data_at B.ents (B.ents.length / 2)).end_ < b ∧
        B.ents.drop (B.ents.length / 2) = l1 ++ l2 ∧
        B1.ents = B.ents.take (B.ents.length / 2) ∧
        N.ents = l1 ++ { start := b, end_ := b, pos := h.data_end + h.block_size } :: l2)) ∧
    r.2.header = { h with data_end := h.data_end + h.block_size + h.block_size,
                          blocks_present := h.blocks_present + 1 } ∧
    (∀ b1, b1 ≠ b → data1 b1 = data b1) ∧
    (∀ b1 p, present (all_ents (pre ++ B :: post)) h.block_size b1 p →
      present (all_ents (pre ++ B1 :: N :: post)) h.block_size b1 p)

/-- Writes of 512 bytes to the 19 blocks 0, 10, .., 180 and then to block 5:
20 entries of one block each, the last written being that of block 5. -/
def tens_and_five : List ddb_block_t :=
  (List.range 19).map (fun (k : Nat) =>
    { block := 10 * (k : Int), buffer := List.replicate 512 1, result := 0, error := none }) ++
  [{ block := 5, buffer := List.replicate 512 1, result := 0, error := none }]

/-- A new sparse image of 200 blocks of 512 bytes after the writes
`tens_and_five`, which fill its one metadata block of 20 entries: the size of
a metadata block, the cached summary, the number of entries, the summaries
and the end of the data. -/
def full_image_state : Option (Int × Option Nat × Int × List metadata_summary_t × Int) :=
  (run (new_image 512 102400 0) [op.write tens_and_five]).map (fun img =>
    (img.header.meta_size, img.summary, img.count, img.metadata_summary, img.header.data_end))

/-- For the image of `full_image_state`, what `add_new_block` gives for block
6, which is not beyond the last block of the full metadata block: the value
returned, the number of entries of the cached block, the number of metadata
blocks, and the second entry of the cached block. -/
def extended_full_block : Option (Int × Int × Nat × Int × Int × Int) :=
  (run (new_image 512 102400 0) [op.write tens_and_five]).map (fun img =>
    ((add_new_block img 6).1, (add_new_block img 6).2.count,
     (add_new_block img 6).2.metadata_summary.length,
     (data_at (add_new_block img 6).2.metadata_data 1).start,
     (data_at (add_new_block img 6).2.metadata_data 1).end_,
     (data_at (add_new_block img 6).2.metadata_data 1).pos))

/-! ## `add_range` with the sums of `off_t`

The definitions `join_next`, `add_range_loop` and `add_range` compute the sums
`end + 1` and `range->end + 1` and the count in the integers; they are what
the code computes as long as no sum leaves the range of `off_t`.  The
definitions below compute every sum as the machine does, in 64 bits with the
two's-complement wrap `wrap64`. -/

/-- The inner `while (range->next && range->next->start <= range->end + 1)`
loop of `add_range` (lines 240-256), with the sums of `off_t`. -/
def join_next64 : Nat → ddb_blocklist_t → Nat → Res ddb_blocklist_t
  | 0, _, _ => Res.nofuel
  | fuel + 1, ls, r =>
    match deref ls.mem r with
    | Res.ok R =>
      match R.next with
      | none => Res.ok ls
      | some n =>
        match deref ls.mem n with
        | Res.ok N =>
          if N.start ≤ wrap64 (R.end_ + 1) then
            let newend := if R.end_ < N.end_ then N.end_ else R.end_
            let count1 := wrap64 (ls.count + (newend - R.end_))
            let count2 := wrap64 (count1 - (N.end_ - N.start + 1))
            let mem1 := store ls.mem r { R with end_ := newend, next := N.next }
            match N.next with
            | some nn =>
              match deref mem1 nn with
              | Res.ok NN =>
                let mem2 := store mem1 nn { NN with prev := some r }
                join_next64 fuel { ls with mem := free mem2 n, count := count2 } r
              | Res.fault => Res.fault
              | Res.nofuel => Res.nofuel
            | none =>
              join_next64 fuel { ls with mem := free mem1 n, count := count2, last := some r } r
          else Res.ok ls
        | Res.fault => Res.fault
        | Res.nofuel => Res.nofuel
    | Res.fault => Res.fault
    | Res.nofuel => Res.nofuel

/-- The tail of `add_range` (lines 264-288), with the count as a sum of
`off_t`. -/
def add_range_insert64 (ls : ddb_blocklist_t) (range : Option Nat) (start end_ : Int) :
    Res ddb_blocklist_t :=
  match add_range_insert ls range start end_ with
  | Res.ok ls1 => Res.ok { ls1 with count := wrap64 ls1.count }
  | Res.fault => Res.fault
  | Res.nofuel => Res.nofuel

/-- The outer `while (range)` loop of `add_range` (lines 215-263) followed by
the insertion, with the sums of `off_t`. -/
def add_range_loop64 : Nat → ddb_blocklist_t → Option Nat → Int → Int → Res ddb_blocklist_t
  | 0, _, _, _, _ => Res.nofuel
  | _ + 1, ls, none, start, end_ => add_range_insert64 ls none start end_
  | fuel + 1, ls, some r, start, end_ =>
    match deref ls.mem r with
    | Res.ok R =>
      if R.start ≤ start ∧ R.end_ ≥ end_ then Res.ok ls
      else
        let c2 : Bool := decide (start < R.start ∧ wrap64 (end_ + 1) ≥ R.start)
        let ls1 : ddb_blocklist_t :=
          if c2 then { ls with count := wrap64 (ls.count + (R.start - start)),
                               mem := store ls.mem r { R with start := start } }
          else ls
        let R1 : range_t := if c2 then { R with start := start } else R
        if c2 = true ∧ end_ ≤ R.end_ then Res.ok ls1
        else
          let start1 : Int := if c2 then wrap64 (R.end_ + 1) else start
          if start1 ≤ wrap64 (R1.end_ + 1) ∧ end_ ≥ R1.start then
            join_next64 (ls1.mem.length + 1)
              { ls1 with count := wrap64 (ls1.count + (end_ - R1.end_)),
                         mem := store ls1.mem r { R1 with end_ := end_ } } r
          else if R1.start > end_ then add_range_insert64 ls1 (some r) start1 end_
          else add_range_loop64 fuel ls1 R1.next start1 end_
    | Res.fault => Res.fault
    | Res.nofuel => Res.nofuel

/-- The function `add_range`, with the sums of `off_t`. -/
def add_range64 (ls : ddb_blocklist_t) (start end_ : Int) : Res ddb_blocklist_t :=
  add_range_loop64 (ls.mem.length + 1) ls ls.first start end_

/-- Apply `ddb_blocklist_add`, with the sums of `off_t`, for each
`(start, end)` of `ops`, in order; every call returns 0 when the outcome is a
list. -/
def add_all64 : ddb_blocklist_t → List (Int × Int) → Res ddb_blocklist_t
  | ls, [] => Res.ok ls
  | ls, (s, e) :: rest =>
    match add_range64 ls s e with
    | Res.ok ls1 => add_all64 ls1 rest
    | Res.fault => Res.fault
    | Res.nofuel => Res.nofuel

/-! ## A sequence of two sparse images -/

/-- The writes that make the incremental image of `two_layers`: block 2 with
the bytes 5. -/
def incr_ops : List op :=
  [op.write [{ block := 2, buffer := List.replicate 512 5, result := 0, error := none }]]

/-- A sequence without a file of checksums whose layers are two sparse images,
`full` and the newer `incr`, of blocks of 512 bytes. -/
def two_layers (full incr : image_t) : dir_t image_t :=
  { devs := [sparse_device id full, sparse_device id incr], checksums := none,
    block_size := 512 }

/-- A batch of the blocks 0, 1 and 2 with buffers of 512 zeros. -/
def zero_batch : List ddb_block_t :=
  [{ block := 0, buffer := List.replicate 512 0, result := 0, error := none },
   { block := 1, buffer := List.replicate 512 0, result := 0, error := none },
   { block := 2, buffer := List.replicate 512 0, result := 0, error := none }]

/-- For the sequence of 1124 bytes whose full image is a new sparse image
after `sample_ops` (block 1 holds the bytes 8 and block 2 the bytes 9) and
whose incremental is a new sparse image after `incr_ops` (block 2 holds the
bytes 5): the value of `dir_read` of `zero_batch`, and the block number, the
result and the first two bytes of each block it leaves. -/
def two_layers_read : Option (Int × List (Int × Int × List Nat)) :=
  match run (new_image 512 1124 0) sample_ops, run (new_image 512 1124 0) incr_ops with
  | some full, some incr =>
    some ((dir_read (two_layers full incr) zero_batch DDB_READ_BLOCK).1,
      (dir_read (two_layers full incr) zero_batch DDB_READ_BLOCK).2.1.map
        (fun blk => (blk.block, blk.result, blk.buffer.take 2)))
  | _, _ => none

/-! ## Cells and chains -/

theorem deref_eq_ok {m : List (Option range_t)} {p : Nat} {R : range_t} :
    deref m p = Res.ok R ↔ m[p]? = some (some R) := by
  unfold deref
  split
  · rename_i r h; rw [h]; constructor
    · intro h1; injection h1 with h1; rw [h1]
    · intro h1; injection h1 with h1; injection h1 with h1; rw [h1]
  · rename_i h; constructor
    · intro h1; cases h1
    · intro h1; exact absurd h1 (h R)

theorem deref_of_get {m : List (Option range_t)} {p : Nat} {R : range_t}
    (h : m[p]? = some (some R)) : deref m p = Res.ok R := deref_eq_ok.2 h

theorem get_lt {m : List (Option range_t)} {p : Nat} {v : Option range_t}
    (h : m[p]? = some v) : p < m.length := by
  rcases List.getElem?_eq_some.1 h with ⟨h1, _⟩; exact h1

theorem get_store_self {m : List (Option range_t)} {p : Nat} (R : range_t)
    (h : p < m.length) : (store m p R)[p]? = some (some R) := by
  unfold store; rw [List.getElem?_set]; simp [h]

theorem get_store_ne {m : List (Option range_t)} {p q : Nat} (R : range_t)
    (h : p ≠ q) : (store m p R)[q]? = m[q]? := by
  unfold store; rw [List.getElem?_set]; simp [h]

theorem get_free_ne {m : List (Option range_t)} {p q : Nat}
    (h : p ≠ q) : (free m p)[q]? = m[q]? := by
  unfold free; rw [List.getElem?_set]; simp [h]

theorem get_append_of_get {m t : List (Option range_t)} {p : Nat} {v : Option range_t}
    (h : m[p]? = some v) : (m ++ t)[p]? = some v := by
  rw [List.getElem?_append_left (get_lt h)]; exact h

theorem length_store (m : List (Option range_t)) (p : Nat) (R : range_t) :
    (store m p R).length = m.length := by
  unfold store; simp

theorem length_free (m : List (Option range_t)) (p : Nat) :
    (free m p).length = m.length := by
  unfold free; simp

theorem Seg.addr_lt {m : List (Option range_t)} :
    ∀ {l : List (Nat × range_t)} {p q : Option Nat}, Seg m p l q → ∀ a ∈ addrs l, a < m.length
  | [], _, _, _ => by simp [addrs]
  | x :: t, p, q, h => by
    obtain ⟨_, h2, h3⟩ := h
    intro a ha
    simp only [addrs, List.map_cons, List.mem_cons] at ha
    rcases ha with ha | ha
    · rw [ha]; exact get_lt h2
    · exact Seg.addr_lt h3 a ha

theorem Seg.get {m : List (Option range_t)} :
    ∀ {l : List (Nat × range_t)} {p q : Option Nat}, Seg m p l q →
      ∀ x ∈ l, m[x.1]? = some (some x.2)
  | [], _, _, _ => by simp
  | y :: t, p, q, h => by
    obtain ⟨_, h2, h3⟩ := h
    intro x hx
    simp only [List.mem_cons] at hx
    rcases hx with hx | hx
    · rw [hx]; exact h2
    · exact Seg.get h3 x hx

/-- Writing a cell outside a segment leaves the segment in place. -/
theorem Seg.set_frame {m : List (Option range_t)} {a : Nat} {v : Option range_t} :
    ∀ {l : List (Nat × range_t)} {p q : Option Nat}, Seg m p l q → a ∉ addrs l →
      Seg (m.set a v) p l q
  | [], _, _, h, _ => h
  | x :: t, p, q, h, ha => by
    obtain ⟨h1, h2, h3⟩ := h
    simp only [addrs, List.map_cons, List.mem_cons, not_or] at ha
    refine ⟨h1, ?_, Seg.set_frame h3 ha.2⟩
    rw [List.getElem?_set]; simp [ha.1, h2]

/-- Allocating a cell leaves every segment in place. -/
theorem Seg.append_frame {m t : List (Option range_t)} :
    ∀ {l : List (Nat × range_t)} {p q : Option Nat}, Seg m p l q → Seg (m ++ t) p l q
  | [], _, _, h => h
  | _ :: _, _, _, h => by
    obtain ⟨h1, h2, h3⟩ := h
    exact ⟨h1, get_append_of_get h2, Seg.append_frame h3⟩

theorem Seg.append_iff {m : List (Option range_t)} :
    ∀ {l1 l2 : List (Nat × range_t)} {p q : Option Nat},
      Seg m p (l1 ++ l2) q ↔ ∃ mid, Seg m p l1 mid ∧ Seg m mid l2 q
  | [], l2, p, q => by
    constructor
    · intro h; exact ⟨p, rfl, h⟩
    · rintro ⟨mid, h1, h2⟩; have h1 : p = mid := h1; rw [h1]; exact h2
  | x :: t, l2, p, q => by
    constructor
    · intro h
      obtain ⟨h1, h2, h3⟩ := h
      obtain ⟨mid, h4, h5⟩ := Seg.append_iff.1 h3
      exact ⟨mid, ⟨h1, h2, h4⟩, h5⟩
    · rintro ⟨mid, ⟨h1, h2, h4⟩, h5⟩
      exact ⟨h1, h2, Seg.append_iff.2 ⟨mid, h4, h5⟩⟩

/-- A chain of distinct cells is no longer than the store. -/
theorem length_le_of_nodup {n : Nat} {as : List Nat} (hn : as.Nodup)
    (hlt : ∀ a ∈ as, a < n) : as.length ≤ n := by
  have h1 : as.toFinset ⊆ Finset.range n := by
    intro a ha
    rw [List.mem_toFinset] at ha
    exact Finset.mem_range.2 (hlt a ha)
  have h2 := Finset.card_le_card h1
  rw [List.toFinset_card_of_nodup hn, Finset.card_range] at h2
  exact h2

theorem Linked.length_le {ls : ddb_blocklist_t} {l : List (Nat × range_t)} (h : Linked ls l) :
    l.length ≤ ls.mem.length := by
  have := length_le_of_nodup h.nodup (Seg.addr_lt h.seg)
  simpa [addrs] using this

/-! ## Reading: `iterate` and `has` -/

theorem iterate_loop_spec {m : List (Option range_t)} :
    ∀ (l : List (Nat × range_t)) (p : Option Nat) (fuel : Nat), Seg m p l none →
      l.length < fuel → iterate_loop fuel m p = Res.ok (ranges l)
  | [], p, fuel, h, hf => by
    have h : p = none := h
    cases fuel with
    | zero => simp at hf
    | succ k => rw [h]; rfl
  | x :: t, p, fuel, h, hf => by
    obtain ⟨h1, h2, h3⟩ := h
    cases fuel with
    | zero => simp at hf
    | succ k =>
      have hk : t.length < k := by simpa using hf
      rw [h1]
      simp only [iterate_loop, deref_of_get h2, iterate_loop_spec t _ k h3 hk]
      simp [ranges]

theorem iterate_spec {ls : ddb_blocklist_t} {l : List (Nat × range_t)} (h : Linked ls l) :
    ddb_blocklist_iterate ls = Res.ok (ranges l) :=
  iterate_loop_spec l _ _ h.seg (Nat.lt_succ_of_le h.length_le)

theorem has_loop_spec {m : List (Option range_t)} (b : Int) :
    ∀ (l : List (Nat × range_t)) (p : Option Nat) (fuel : Nat), Seg m p l none →
      l.length < fuel → (ranges l).Pairwise (fun x y => x.2 + 2 ≤ y.1) →
      (∀ r ∈ ranges l, r.1 ≤ r.2) →
      (covers (ranges l) b → has_loop fuel m p b = Res.ok 1) ∧
      (¬ covers (ranges l) b → has_loop fuel m p b = Res.ok 0)
  | [], p, fuel, h, hf, _, _ => by
    have h : p = none := h
    cases fuel with
    | zero => simp at hf
    | succ k =>
      rw [h]
      constructor
      · rintro ⟨r, hr, _⟩; simp [ranges] at hr
      · intro _; rfl
  | x :: t, p, fuel, h, hf, hg, hv => by
    obtain ⟨h1, h2, h3⟩ := h
    cases fuel with
    | zero => simp at hf
    | succ k =>
      have hk : t.length < k := by simpa using hf
      simp only [ranges, List.map_cons, List.pairwise_cons] at hg
      have hv2 : ∀ r ∈ ranges t, r.1 ≤ r.2 := fun r hr => hv r (by simp [ranges] at hr ⊢; right; exact hr)
      have ih := has_loop_spec b t _ k h3 hk hg.2 hv2
      rw [h1]
      simp only [has_loop, deref_of_get h2]
      by_cases hlt : x.2.end_ < b
      · simp only [hlt, if_true]
        have hc : covers (ranges (x :: t)) b ↔ covers (ranges t) b := by
          constructor
          · rintro ⟨r, hr, hr1, hr2⟩
            simp only [ranges, List.map_cons, List.mem_cons] at hr
            rcases hr with hr | hr
            · rw [hr] at hr2; simp only at hr2; omega
            · exact ⟨r, hr, hr1, hr2⟩
          · rintro ⟨r, hr, hr1, hr2⟩
            exact ⟨r, by simp only [ranges, List.map_cons, List.mem_cons]; right; exact hr, hr1, hr2⟩
        rw [hc]; exact ih
      · simp only [hlt, if_false]
        by_cases hin : x.2.start ≤ b ∧ x.2.end_ ≥ b
        · simp only [hin, and_self, if_true]
          constructor
          · intro _; trivial
          · intro hn; exfalso; apply hn
            exact ⟨(x.2.start, x.2.end_), by simp [ranges], hin.1, hin.2⟩
        · simp only [hin, if_false]
          constructor
          · rintro ⟨r, hr, hr1, hr2⟩
            exfalso
            simp only [ranges, List.map_cons, List.mem_cons] at hr
            rcases hr with hr | hr
            · rw [hr] at hr1 hr2; simp only at hr1 hr2; exact hin ⟨hr1, hr2⟩
            · have := hg.1 r hr
              simp only at this
              have hx := hv (x.2.start, x.2.end_) (by simp [ranges])
              simp only at hx
              have : x.2.start ≤ b := by omega
              exact hin ⟨this, by omega⟩
          · intro _; trivial

/-! ## The joining loop of `add_range` -/

theorem Linked.split {ls : ddb_blocklist_t} {pre suf : List (Nat × range_t)} {x : Nat × range_t}
    (h : Linked ls (pre ++ x :: suf)) :
    Seg ls.mem ls.first pre (some x.1) ∧ ls.mem[x.1]? = some (some x.2) ∧
      Seg ls.mem x.2.next suf none := by
  obtain ⟨mid, h1, h2, h3, h4⟩ := Seg.append_iff.1 h.seg
  rw [h2] at h1
  exact ⟨h1, h3, h4⟩

theorem nodup_split_iff {pre suf : List (Nat × range_t)} {x : Nat × range_t} :
    (addrs (pre ++ x :: suf)).Nodup ↔
    ((addrs pre).Nodup ∧ (addrs suf).Nodup ∧ x.1 ∉ addrs pre ∧ x.1 ∉ addrs suf ∧
      ∀ a ∈ addrs pre, a ∉ addrs suf) := by
  simp only [addrs, List.map_append, List.map_cons, List.nodup_append, List.nodup_cons]
  constructor
  · rintro ⟨h1, ⟨h2, h3⟩, h4⟩
    refine ⟨h1, h3, ?_, h2, ?_⟩
    · intro hx; exact h4 hx (List.mem_cons_self _ _)
    · intro a ha ha2; exact h4 ha (List.mem_cons_of_mem _ ha2)
  · rintro ⟨h1, h2, h3, h4, h5⟩
    refine ⟨h1, ⟨h4, h2⟩, ?_⟩
    intro a ha ha2
    rcases List.mem_cons.1 ha2 with ha2 | ha2
    · rw [ha2] at ha; exact h3 ha
    · exact h5 a ha ha2

theorem nodup_split {pre suf : List (Nat × range_t)} {x : Nat × range_t}
    (h : (addrs (pre ++ x :: suf)).Nodup) :
    (addrs pre).Nodup ∧ (addrs suf).Nodup ∧ x.1 ∉ addrs pre ∧ x.1 ∉ addrs suf ∧
      ∀ a ∈ addrs pre, a ∉ addrs suf := nodup_split_iff.1 h

theorem join_step_last {ls : ddb_blocklist_t} {pre : List (Nat × range_t)} {r n : Nat}
    {R N : range_t} (h : Linked ls (pre ++ (r, R) :: [(n, N)])) (e1 : Int) (c : Int) :
    Linked { ls with mem := free (store ls.mem r { R with end_ := e1, next := N.next }) n,
                     count := c, last := some r }
      (pre ++ [(r, { R with end_ := e1, next := N.next })]) := by
  obtain ⟨s1, s2, s3⟩ := h.split
  obtain ⟨s4, s5, s6⟩ := s3
  have s6 : N.next = none := s6
  obtain ⟨n1, n2, n3, n4, n5⟩ := nodup_split h.nodup
  simp only [addrs, List.map_cons, List.map_nil, List.mem_singleton] at n3 n4
  have hn_pre : n ∉ addrs pre := fun hx => n5 n hx (by simp [addrs])
  have hpl := h.prev_lt
  have hps := h.prev_self
  have hpp := h.prev_later
  simp only [List.pairwise_append, List.pairwise_cons, List.mem_append, List.mem_cons,
    List.mem_singleton, List.not_mem_nil, false_implies, implies_true, List.Pairwise.nil,
    and_true, forall_eq_or_imp, or_false, forall_eq] at hpp hps hpl
  refine ⟨?_, ?_, ?_, ?_, ?_, ?_⟩
  · refine Seg.append_iff.2 ⟨some r, ?_, rfl, ?_, ?_⟩
    · exact Seg.set_frame (Seg.set_frame s1 n3) hn_pre
    · show (free (store ls.mem r _) n)[r]? = _
      rw [get_free_ne (Ne.symm n4), get_store_self _ (get_lt s2)]
    · show N.next = none
      exact s6
  · refine nodup_split_iff.2 ⟨n1, by simp [addrs], n3, by simp [addrs], ?_⟩
    intro a _; simp [addrs]
  · simp [addrs]
  · intro x hx p hp
    simp only [length_free, length_store]
    simp only [List.mem_append, List.mem_singleton] at hx
    rcases hx with hx | hx
    · exact hpl x (Or.inl hx) p hp
    · rw [hx] at hp; exact hpl (r, R) (Or.inr (Or.inl rfl)) p hp
  · intro x hx
    simp only [List.mem_append, List.mem_singleton] at hx
    rcases hx with hx | hx
    · exact hps x (Or.inl hx)
    · rw [hx]; exact hps (r, R) (Or.inr (Or.inl rfl))
  · simp only [List.pairwise_append, List.pairwise_cons, List.mem_singleton, List.not_mem_nil,
      false_implies, implies_true, List.Pairwise.nil, and_true, forall_eq, true_and]
    refine ⟨hpp.1, ?_⟩
    intro a ha
    exact (hpp.2.2 a ha).1

theorem getLast_addrs_skip (pre suf : List (Nat × range_t)) (a b c : Nat × range_t)
    (a1 c1 : Nat × range_t) (hc : c1.1 = c.1) :
    (addrs (pre ++ a :: b :: c :: suf)).getLast? = (addrs (pre ++ a1 :: c1 :: suf)).getLast? := by
  simp only [addrs, List.map_append, List.map_cons]
  rw [List.getLast?_append_of_ne_nil _ (by simp), List.getLast?_append_of_ne_nil _ (by simp)]
  simp only [List.getLast?_cons_cons, hc]

theorem join_step_mid {ls : ddb_blocklist_t} {pre suf : List (Nat × range_t)} {r n nn : Nat}
    {R N NN : range_t} (h : Linked ls (pre ++ (r, R) :: (n, N) :: (nn, NN) :: suf))
    (e1 : Int) (c : Int) :
    Linked { ls with
        mem := free (store (store ls.mem r { R with end_ := e1, next := N.next }) nn
                      { NN with prev := some r }) n,
        count := c }
      (pre ++ (r, { R with end_ := e1, next := N.next }) :: (nn, { NN with prev := some r }) :: suf)
    := by
  obtain ⟨s1, s2, s3⟩ := h.split
  obtain ⟨s4, s5, s6⟩ := s3
  obtain ⟨s7, s8, s9⟩ := s6
  simp only at s2 s4 s5 s7 s8 s9
  obtain ⟨n1, n2, n3, n4, n5⟩ := nodup_split h.nodup
  have n2a := n2
  simp only [addrs, List.map_cons, List.nodup_cons, List.mem_cons, not_or] at n2a n4
  obtain ⟨⟨n6, n7⟩, n8, n9⟩ := n2a
  have hn_pre : n ∉ addrs pre := fun hx => n5 n hx (by simp [addrs])
  have hnn_pre : nn ∉ addrs pre := fun hx => n5 nn hx (by simp [addrs])
  have hpl := h.prev_lt
  have hps := h.prev_self
  have hpp := h.prev_later
  simp only [List.pairwise_append, List.pairwise_cons, List.mem_append, List.mem_cons,
    forall_eq_or_imp] at hpp
  have hfr : ∀ {l : List (Nat × range_t)} {p q : Option Nat}, Seg ls.mem p l q →
      r ∉ addrs l → nn ∉ addrs l → n ∉ addrs l →
      Seg (free (store (store ls.mem r { R with end_ := e1, next := N.next }) nn
                      { NN with prev := some r }) n) p l q :=
    fun hs h1 h2 h3 => Seg.set_frame (Seg.set_frame (Seg.set_frame hs h1) h2) h3
  refine ⟨?_, ?_, ?_, ?_, ?_, ?_⟩
  · refine Seg.append_iff.2 ⟨some r, hfr s1 n3 hnn_pre hn_pre, rfl, ?_, s7, ?_, ?_⟩
    · show (free (store (store ls.mem r _) nn _) n)[r]? = _
      rw [get_free_ne (Ne.symm n4.1), get_store_ne _ (Ne.symm n4.2.1),
        get_store_self _ (get_lt s2)]
    · show (free (store (store ls.mem r _) nn _) n)[nn]? = _
      rw [get_free_ne n6, get_store_self _ (by rw [length_store]; exact get_lt s8)]
    · exact hfr s9 n4.2.2 n8 n7
  · refine nodup_split_iff.2 ⟨n1, ?_, n3, ?_, ?_⟩
    · simp only [addrs, List.map_cons, List.nodup_cons]; exact ⟨n8, n9⟩
    · simp only [addrs, List.map_cons, List.mem_cons, not_or]; exact ⟨n4.2.1, n4.2.2⟩
    · intro a ha ha2
      simp only [addrs, List.map_cons, List.mem_cons] at ha2
      exact n5 a ha (by simp only [addrs, List.map_cons, List.mem_cons]; right; exact ha2)
  · show ls.last = _
    rw [h.last]
    exact getLast_addrs_skip pre suf _ _ _ _ _ rfl
  · intro x hx p hp
    simp only [length_free, length_store]
    simp only [List.mem_append, List.mem_cons] at hx
    rcases hx with hx | hx | hx | hx
    · exact hpl x (by simp [hx]) p hp
    · rw [hx] at hp; exact hpl (r, R) (by simp) p hp
    · rw [hx] at hp; simp only [Option.some.injEq] at hp; rw [← hp]; exact get_lt s2
    · exact hpl x (by simp [hx]) p hp
  · intro x hx
    simp only [List.mem_append, List.mem_cons] at hx
    rcases hx with hx | hx | hx | hx
    · exact hps x (by simp [hx])
    · rw [hx]; exact hps (r, R) (by simp)
    · rw [hx]; simp only [ne_eq, Option.some.injEq]; exact n4.2.1
    · exact hps x (by simp [hx])
  · simp only [List.pairwise_append, List.pairwise_cons, List.mem_cons, forall_eq_or_imp]
    obtain ⟨p1, ⟨p2, p3, p4⟩, p5⟩ := hpp
    refine ⟨p1, ⟨⟨?_, ?_⟩, ?_, ?_⟩, ?_⟩
    · exact p2.2.1
    · intro a ha; exact p2.2.2 a ha
    · intro a ha
      simp only [ne_eq, Option.some.injEq]
      intro hra
      apply n4.2.2
      rw [hra]; simp only [addrs, List.mem_map]; exact ⟨a, ha, rfl⟩
    · exact p4.2
    · intro a ha
      have := p5 a ha
      exact ⟨this.1, this.2.2.1, fun b hb => this.2.2.2 b hb⟩

theorem join_next_spec : ∀ (fuel : Nat) (ls : ddb_blocklist_t) (pre suf : List (Nat × range_t))
    (r : Nat) (R : range_t), Linked ls (pre ++ (r, R) :: suf) → suf.length < fuel →
    ∃ ls1 R1 suf1, join_next fuel ls r = Res.ok ls1 ∧ Linked ls1 (pre ++ (r, R1) :: suf1) ∧
      R1.start = R.start ∧ R1.end_ = (absorb R.end_ (ranges suf)).1 ∧
      ranges suf1 = (absorb R.end_ (ranges suf)).2 ∧
      ls1.count = ls.count + (R1.end_ - R.end_) - (total (ranges suf) - total (ranges suf1)) ∧
      ls1.mem.length = ls.mem.length
  | 0, _, _, _, _, _, _, hf => by simp at hf
  | fuel + 1, ls, pre, suf, r, R, h, hf => by
    obtain ⟨s1, s2, s3⟩ := h.split
    simp only at s2 s3
    match suf, h, hf, s3 with
    | [], h, _, s3 =>
      have s3 : R.next = none := s3
      refine ⟨ls, R, [], ?_, h, rfl, ?_, ?_, ?_, rfl⟩
      · simp only [join_next, deref_of_get s2, s3]
      · simp [absorb, ranges]
      · simp [absorb, ranges]
      · simp
    | [(n, N)], h, hf, s3 =>
      obtain ⟨s4, s5, s6⟩ := s3
      simp only at s4 s5 s6
      have s6 : N.next = none := s6
      by_cases hc : N.start ≤ R.end_ + 1
      · have hl := join_step_last h (if R.end_ < N.end_ then N.end_ else R.end_)
          (ls.count + ((if R.end_ < N.end_ then N.end_ else R.end_) - R.end_) - (N.end_ - N.start + 1))
        have hf1 : ([] : List (Nat × range_t)).length < fuel := by simp at hf ⊢; omega
        obtain ⟨ls1, R1, suf1, e1, e2, e3, e4, e5, e6, e7⟩ :=
          join_next_spec fuel _ pre [] r _ hl hf1
        refine ⟨ls1, R1, suf1, ?_, e2, e3, ?_, ?_, ?_, ?_⟩
        · simp only [join_next, deref_of_get s2, s4, deref_of_get s5, hc, if_true, s6]
          rw [s6] at e1
          exact e1
        · rw [e4]; simp [absorb, ranges, hc]
        · rw [e5]; simp [absorb, ranges, hc]
        · rw [e6, e4, e5]; simp [absorb, ranges, total]
        · rw [e7]; simp [length_free, length_store]
      · refine ⟨ls, R, [(n, N)], ?_, h, rfl, ?_, ?_, ?_, rfl⟩
        · simp only [join_next, deref_of_get s2, s4, deref_of_get s5, hc, if_false]
        · simp [absorb, ranges, hc]
        · simp [absorb, ranges, hc]
        · simp
    | (n, N) :: (nn, NN) :: suf3, h, hf, s3 =>
      obtain ⟨s4, s5, s6⟩ := s3
      obtain ⟨s7, s8, s9⟩ := s6
      simp only at s4 s5 s7 s8 s9
      by_cases hc : N.start ≤ R.end_ + 1
      · have hl := join_step_mid h (if R.end_ < N.end_ then N.end_ else R.end_)
          (ls.count + ((if R.end_ < N.end_ then N.end_ else R.end_) - R.end_) - (N.end_ - N.start + 1))
        have hf1 : ((nn, { NN with prev := some r }) :: suf3).length < fuel := by
          simp at hf ⊢; omega
        obtain ⟨ls1, R1, suf1, e1, e2, e3, e4, e5, e6, e7⟩ :=
          join_next_spec fuel _ pre _ r _ hl hf1
        obtain ⟨n1, n2, n3, n4, n5⟩ := nodup_split h.nodup
        simp only [addrs, List.map_cons, List.mem_cons, not_or] at n4
        have hnn : ∀ (e1 : Int) (nx : Option Nat),
            (store ls.mem r { R with end_ := e1, next := nx })[nn]? = some (some NN) := by
          intro e1 nx; rw [get_store_ne _ (n4.2.1)]; exact s8
        refine ⟨ls1, R1, suf1, ?_, e2, e3, ?_, ?_, ?_, ?_⟩
        · simp only [join_next, deref_of_get s2, s4, deref_of_get s5, hc, if_true, s7,
            deref_of_get (hnn _ _)]
          rw [s7] at e1
          exact e1
        · rw [e4]; simp [absorb, ranges, hc]
        · rw [e5]; simp [absorb, ranges, hc]
        · rw [e6, e4, e5]; simp [absorb, ranges, total, hc]; ring
        · rw [e7]; simp [length_free, length_store]
      · refine ⟨ls, R, (n, N) :: (nn, NN) :: suf3, ?_, h, rfl, ?_, ?_, ?_, rfl⟩
        · simp only [join_next, deref_of_get s2, s4, deref_of_get s5, hc, if_false]
        · simp [absorb, ranges, hc]
        · simp [absorb, ranges, hc]
        · simp

/-! ## The insertion step of `add_range` -/

theorem Linked.nil_iff {ls : ddb_blocklist_t} (h : Linked ls []) :
    ls.first = none ∧ ls.last = none := by
  refine ⟨h.seg, ?_⟩
  rw [h.last]; rfl

/-- Appending at the end of the list (`range == NULL`). -/
theorem insert_end_spec {ls : ddb_blocklist_t} {l : List (Nat × range_t)} (h : Linked ls l)
    (s e : Int) :
    ∃ ls1 l1, add_range_insert ls none s e = Res.ok ls1 ∧ Linked ls1 l1 ∧
      ranges l1 = ranges l ++ [(s, e)] ∧ ls1.count = ls.count + (e - s + 1) := by
  rcases List.eq_nil_or_concat l with hl | ⟨l0, x, hl⟩
  · subst hl
    obtain ⟨h1, h2⟩ := h.nil_iff
    refine ⟨{ ls with
        mem := ls.mem ++ [some { next := none, prev := none, start := s, end_ := e }],
        first := some ls.mem.length, last := some ls.mem.length,
        count := ls.count + (e - s + 1) },
      [(ls.mem.length, { next := none, prev := none, start := s, end_ := e })], ?_, ?_, ?_, ?_⟩
    · simp only [add_range_insert, h2]
    · refine ⟨?_, ?_, ?_, ?_, ?_, ?_⟩
      · refine ⟨rfl, ?_, rfl⟩
        simp
      · simp [addrs]
      · simp [addrs]
      · intro y hy p hp
        simp only [List.mem_singleton] at hy
        rw [hy] at hp; simp at hp
      · intro y hy
        simp only [List.mem_singleton] at hy
        rw [hy]; simp
      · simp
    · simp [ranges]
    · rfl
  · subst hl
    obtain ⟨xa, X⟩ := x
    have h' : Linked ls (l0 ++ (xa, X) :: []) := by simpa using h
    obtain ⟨s1, s2, s3⟩ := h'.split
    simp only at s1 s2 s3
    have s3 : X.next = none := s3
    have hlast : ls.last = some xa := by
      rw [h.last]; simp [addrs]
    obtain ⟨n1, n2, n3, n4, n5⟩ := nodup_split h'.nodup
    simp only at n3
    have hxa : xa < ls.mem.length := get_lt s2
    have hpl := h'.prev_lt
    have hps := h'.prev_self
    have hpp := h'.prev_later
    simp only [List.pairwise_append, List.pairwise_cons, List.mem_append, List.mem_cons,
      List.mem_singleton, List.not_mem_nil, false_implies, implies_true, List.Pairwise.nil,
      and_true, forall_eq_or_imp, or_false, forall_eq] at hpp
    have hfresh : ls.mem.length ∉ addrs l0 := by
      intro hm
      have := Seg.addr_lt s1 _ hm
      omega
    refine ⟨{ ls with
        mem := store (ls.mem ++ [some { next := none, prev := some xa, start := s, end_ := e }])
                 xa { X with next := some ls.mem.length },
        last := some ls.mem.length, count := ls.count + (e - s + 1) },
      l0 ++ (xa, { X with next := some ls.mem.length }) ::
        [(ls.mem.length, { next := none, prev := some xa, start := s, end_ := e })], ?_, ?_, ?_, ?_⟩
    · simp only [add_range_insert, hlast, deref_of_get s2]
    · refine ⟨?_, ?_, ?_, ?_, ?_, ?_⟩
      · refine Seg.append_iff.2 ⟨some xa, ?_, rfl, ?_, rfl, ?_, rfl⟩
        · exact Seg.set_frame (Seg.append_frame s1) n3
        · show (store (ls.mem ++ _) xa _)[xa]? = _
          rw [get_store_self _ (by simp; omega)]
        · show (store (ls.mem ++ _) xa _)[ls.mem.length]? = _
          rw [get_store_ne _ (by omega)]
          simp
      · refine nodup_split_iff.2 ⟨n1, by simp [addrs], n3, ?_, ?_⟩
        · simp only [addrs, List.map_cons, List.map_nil, List.mem_singleton]; omega
        · intro a ha
          simp only [addrs, List.map_cons, List.map_nil, List.mem_singleton]
          intro hq; rw [hq] at ha; exact hfresh ha
      · simp [addrs]
      · intro y hy p hp
        simp only [length_store, List.length_append, List.length_singleton]
        simp only [List.mem_append, List.mem_cons, List.mem_singleton, List.not_mem_nil,
          or_false] at hy
        rcases hy with hy | hy | hy
        · exact Nat.lt_succ_of_lt (hpl y (by simp [hy]) p hp)
        · rw [hy] at hp; exact Nat.lt_succ_of_lt (hpl (xa, X) (by simp) p hp)
        · rw [hy] at hp; simp only [Option.some.injEq] at hp; omega
      · intro y hy
        simp only [List.mem_append, List.mem_cons, List.mem_singleton, List.not_mem_nil,
          or_false] at hy
        rcases hy with hy | hy | hy
        · exact hps y (by simp [hy])
        · rw [hy]; exact hps (xa, X) (by simp)
        · rw [hy]; simp only [ne_eq, Option.some.injEq]; omega
      · simp only [List.pairwise_append, List.pairwise_cons, List.mem_cons, List.mem_singleton,
          List.not_mem_nil, false_implies, implies_true, List.Pairwise.nil, and_true,
          forall_eq_or_imp, forall_eq]
        refine ⟨hpp.1, ?_, ?_⟩
        · intro hq
          have := hpl (xa, X) (by simp) _ hq
          omega
        · intro a ha
          refine ⟨hpp.2.2 a ha, ?_⟩
          intro hq
          have := hpl a (by simp [ha]) _ hq
          omega
    · simp [ranges]
    · rfl

theorem getLast_addrs_suffix (pre suf : List (Nat × range_t)) (x : Nat × range_t) :
    (addrs (pre ++ x :: suf)).getLast? = (addrs (x :: suf)).getLast? := by
  simp only [addrs, List.map_append, List.map_cons]
  rw [List.getLast?_append_of_ne_nil _ (by simp)]

/-- Linking the new range before `x` when `x.prev` is NULL: the new range
becomes the first one and the ranges before `x` leave the chain. -/
theorem insert_first_linked {ls : ddb_blocklist_t} {pre suf : List (Nat × range_t)} {x : Nat}
    {X : range_t} (h : Linked ls (pre ++ (x, X) :: suf)) (hX : X.prev = none) (s e c : Int) :
    Linked { ls with
        mem := ls.mem ++ [some { next := some x, prev := X.prev, start := s, end_ := e }],
        first := some ls.mem.length, count := c }
      ((ls.mem.length, { next := some x, prev := X.prev, start := s, end_ := e }) :: (x, X) :: suf)
    := by
  obtain ⟨s1, s2, s3⟩ := h.split
  simp only at s1 s2 s3
  obtain ⟨n1, n2, n3, n4, n5⟩ := nodup_split h.nodup
  simp only at n3 n4
  have hpl := h.prev_lt
  have hps := h.prev_self
  have hpp := h.prev_later
  simp only [List.pairwise_append, List.pairwise_cons] at hpp
  have hsuf : Seg ls.mem (some x) ((x, X) :: suf) none := ⟨rfl, s2, s3⟩
  have hlt := Seg.addr_lt hsuf
  refine ⟨?_, ?_, ?_, ?_, ?_, ?_⟩
  · refine ⟨rfl, ?_, ?_⟩
    · show (ls.mem ++ _)[ls.mem.length]? = _
      simp
    · exact Seg.append_frame hsuf
  · have : (addrs ([] ++ (ls.mem.length, ({ next := some x, prev := X.prev, start := s, end_ := e } : range_t)) :: ((x, X) :: suf))).Nodup := by
      refine nodup_split_iff.2 ⟨by simp [addrs], ?_, by simp [addrs], ?_, by simp [addrs]⟩
      · simp only [addrs, List.map_cons, List.nodup_cons]; exact ⟨n4, n2⟩
      · intro hm; have := hlt _ hm; simp at this
    simpa using this
  · show ls.last = _
    rw [h.last, getLast_addrs_suffix]
    simp [addrs]
  · intro y hy p hp
    simp only [List.length_append, List.length_singleton]
    simp only [List.mem_cons] at hy
    rcases hy with hy | hy | hy
    · rw [hy] at hp; simp only at hp; rw [hX] at hp; cases hp
    · rw [hy] at hp; exact Nat.lt_succ_of_lt (hpl (x, X) (by simp) p hp)
    · exact Nat.lt_succ_of_lt (hpl y (by simp [hy]) p hp)
  · intro y hy
    simp only [List.mem_cons] at hy
    rcases hy with hy | hy | hy
    · rw [hy]; simp [hX]
    · rw [hy]; exact hps (x, X) (by simp)
    · exact hps y (by simp [hy])
  · simp only [List.pairwise_cons, List.mem_cons, forall_eq_or_imp]
    refine ⟨⟨by simp [hX], fun a _ => by simp [hX]⟩, hpp.2.1.1, hpp.2.1.2⟩

/-- Linking the new range before `x` when `x.prev` is a live cell outside the
chain: the chain is left as it was. -/
theorem insert_lost_linked {ls : ddb_blocklist_t} {l : List (Nat × range_t)} {p : Nat}
    (h : Linked ls l) (hp : p ∉ addrs l) (NR P : range_t) (c : Int) :
    Linked { ls with mem := store (ls.mem ++ [some NR]) p P, count := c } l := by
  refine ⟨?_, h.nodup, h.last, ?_, h.prev_self, h.prev_later⟩
  · exact Seg.set_frame (Seg.append_frame h.seg) hp
  · intro y hy q hq
    simp only [length_store, List.length_append, List.length_singleton]
    exact Nat.lt_succ_of_lt (h.prev_lt y hy q hq)

/-- Linking the new range before `x` when `x.prev` is an earlier cell `p` of
the chain: the new range follows `p`, and the cells between `p` and `x` leave
the chain. -/
theorem insert_mid_linked {ls : ddb_blocklist_t} {pre1 pre2 suf : List (Nat × range_t)}
    {x p : Nat} {X P : range_t}
    (h : Linked ls (pre1 ++ (p, P) :: (pre2 ++ (x, X) :: suf))) (s e c : Int) :
    Linked { ls with
        mem := store (ls.mem ++ [some { next := some x, prev := some p, start := s, end_ := e }])
                 p { P with next := some ls.mem.length },
        count := c }
      (pre1 ++ (p, { P with next := some ls.mem.length }) ::
        (ls.mem.length, { next := some x, prev := some p, start := s, end_ := e }) ::
        (x, X) :: suf) := by
  obtain ⟨s1, s2, s3⟩ := h.split
  simp only at s1 s2 s3
  obtain ⟨mid, s4, s5⟩ := Seg.append_iff.1 s3
  obtain ⟨s6, s7, s8⟩ := s5
  simp only at s6 s7 s8
  obtain ⟨n1, n2, n3, n4, n5⟩ := nodup_split h.nodup
  obtain ⟨m1, m2, m3, m4, m5⟩ := nodup_split n2
  simp only at n3 n4 m3 m4
  have hpx : p ≠ x := by
    intro hq; apply n4; rw [hq]; simp [addrs]
  have hp_suf : p ∉ addrs suf := by
    intro hq; apply n4
    simp only [addrs, List.map_append, List.map_cons, List.mem_append, List.mem_cons]
    right; right; exact hq
  have hpl := h.prev_lt
  have hps := h.prev_self
  have hpp := h.prev_later
  simp only [List.pairwise_append, List.pairwise_cons, List.mem_append, List.mem_cons] at hpp
  have hall := Seg.addr_lt h.seg
  have hfresh : ∀ a ∈ addrs (pre1 ++ (p, P) :: (pre2 ++ (x, X) :: suf)), a ≠ ls.mem.length := by
    intro a ha hq; have := hall a ha; omega
  have hplt : p < ls.mem.length := get_lt s2
  have hxlt : x < ls.mem.length := get_lt s7
  refine ⟨?_, ?_, ?_, ?_, ?_, ?_⟩
  · refine Seg.append_iff.2 ⟨some p, ?_, rfl, ?_, rfl, ?_, rfl, ?_, ?_⟩
    · exact Seg.set_frame (Seg.append_frame s1) n3
    · show (store (ls.mem ++ _) p _)[p]? = _
      rw [get_store_self _ (by simp; omega)]
    · show (store (ls.mem ++ _) p _)[ls.mem.length]? = _
      rw [get_store_ne _ (by omega)]; simp
    · show (store (ls.mem ++ _) p _)[x]? = _
      rw [get_store_ne _ hpx]; exact get_append_of_get s7
    · exact Seg.set_frame (Seg.append_frame s8) hp_suf
  · refine nodup_split_iff.2 ⟨n1, ?_, n3, ?_, ?_⟩
    · have : (addrs ([] ++ (ls.mem.length, ({ next := some x, prev := some p, start := s, end_ := e } : range_t)) :: ((x, X) :: suf))).Nodup := by
        refine nodup_split_iff.2 ⟨by simp [addrs], ?_, by simp [addrs], ?_, by simp [addrs]⟩
        · simp only [addrs, List.map_cons, List.nodup_cons]; exact ⟨m4, m2⟩
        · intro hm
          simp only [addrs, List.map_cons, List.mem_cons] at hm
          rcases hm with hm | hm
          · omega
          · have hm2 : ls.mem.length ∈ addrs (pre1 ++ (p, P) :: (pre2 ++ (x, X) :: suf)) := by
              simp only [addrs, List.map_append, List.map_cons, List.mem_append, List.mem_cons]
              right; right; right; right; exact hm
            exact hfresh _ hm2 rfl
      simpa using this
    · simp only [addrs, List.map_cons, List.mem_cons, not_or]
      exact ⟨by omega, hpx, hp_suf⟩
    · intro a ha hq
      simp only [addrs, List.map_cons, List.mem_cons] at hq
      rcases hq with hq | hq | hq
      · exact hfresh a (by simp only [addrs, List.map_append, List.mem_append]; left; exact ha) hq
      · apply n5 a ha; rw [hq]; simp [addrs]
      · apply n5 a ha
        simp only [addrs, List.map_append, List.map_cons, List.mem_append, List.mem_cons]
        right; right; exact hq
  · show ls.last = _
    rw [h.last]
    have e1 : pre1 ++ (p, P) :: (pre2 ++ (x, X) :: suf) = (pre1 ++ (p, P) :: pre2) ++ (x, X) :: suf := by
      simp
    have e2 : pre1 ++ (p, { P with next := some ls.mem.length }) ::
        (ls.mem.length, ({ next := some x, prev := some p, start := s, end_ := e } : range_t)) ::
        (x, X) :: suf =
        (pre1 ++ (p, { P with next := some ls.mem.length }) ::
        [(ls.mem.length, ({ next := some x, prev := some p, start := s, end_ := e } : range_t))]) ++
        (x, X) :: suf := by simp
    rw [e1, e2, getLast_addrs_suffix, getLast_addrs_suffix]
  · intro y hy q hq
    simp only [length_store, List.length_append, List.length_singleton]
    simp only [List.mem_append, List.mem_cons] at hy
    rcases hy with hy | hy | hy | hy | hy
    · exact Nat.lt_succ_of_lt (hpl y (by simp [hy]) q hq)
    · rw [hy] at hq; exact Nat.lt_succ_of_lt (hpl (p, P) (by simp) q hq)
    · rw [hy] at hq; simp only [Option.some.injEq] at hq; omega
    · rw [hy] at hq; exact Nat.lt_succ_of_lt (hpl (x, X) (by simp) q hq)
    · exact Nat.lt_succ_of_lt (hpl y (by simp [hy]) q hq)
  · intro y hy
    simp only [List.mem_append, List.mem_cons] at hy
    rcases hy with hy | hy | hy | hy | hy
    · exact hps y (by simp [hy])
    · rw [hy]; exact hps (p, P) (by simp)
    · rw [hy]; simp only [ne_eq, Option.some.injEq]; omega
    · rw [hy]; exact hps (x, X) (by simp)
    · exact hps y (by simp [hy])
  · have hne : ∀ y ∈ pre1 ++ (p, P) :: (pre2 ++ (x, X) :: suf), y.2.prev ≠ some ls.mem.length := by
      intro y hy hq
      have := hpl y hy _ hq
      omega
    simp only [List.pairwise_append, List.pairwise_cons, List.mem_cons, forall_eq_or_imp]
    obtain ⟨p1, ⟨p2, p3, p4, p5⟩, p6⟩ := hpp
    refine ⟨p1, ⟨⟨?_, ?_, ?_⟩, ⟨?_, ?_⟩, p4.1, p4.2⟩, ?_⟩
    · exact hne (p, P) (by simp)
    · exact p2 (x, X) (Or.inr (Or.inl rfl))
    · intro a ha; exact p2 a (Or.inr (Or.inr ha))
    · simp only [ne_eq, Option.some.injEq]; exact hpx
    · intro a ha
      simp only [ne_eq, Option.some.injEq]
      intro hq; apply hp_suf; rw [hq]; simp only [addrs, List.mem_map]; exact ⟨a, ha, rfl⟩
    · intro a ha
      refine ⟨p6 a ha (p, P) (Or.inl rfl), hne a (by simp [ha]), ?_, ?_⟩
      · exact p6 a ha (x, X) (Or.inr (Or.inr (Or.inl rfl)))
      · intro b hb; exact p6 a ha b (Or.inr (Or.inr (Or.inr hb)))

/-- Linking a new range `[s, e]` before the cell `x` of the chain.  The cell
is found through `x.prev`, which the list does not keep up to date: the new
range is linked after an earlier cell (dropping the cells in between), or as
the first cell (dropping every earlier cell), or outside the chain, or the
step faults on a released cell. -/
theorem insert_before_spec {ls : ddb_blocklist_t} {pre suf : List (Nat × range_t)} {x : Nat}
    {X : range_t} (h : Linked ls (pre ++ (x, X) :: suf)) (s e : Int) :
    add_range_insert ls (some x) s e = Res.fault ∨
    ∃ ls1 l1, add_range_insert ls (some x) s e = Res.ok ls1 ∧ Linked ls1 l1 ∧
      ls1.count = ls.count + (e - s + 1) ∧
      (ranges l1 = ranges (pre ++ (x, X) :: suf) ∨
        ∃ pre1, pre1 <+: pre ∧ ranges l1 = ranges pre1 ++ (s, e) :: ranges ((x, X) :: suf)) := by
  obtain ⟨s1, s2, s3⟩ := h.split
  simp only at s1 s2 s3
  cases hX : X.prev with
  | none =>
    right
    refine ⟨_, _, ?_, insert_first_linked h hX s e (ls.count + (e - s + 1)), rfl, Or.inr ⟨[], ?_, ?_⟩⟩
    · simp only [add_range_insert, deref_of_get s2, hX]
    · exact List.nil_prefix
    · simp [ranges]
  | some p =>
    cases hP : deref ls.mem p with
    | fault => left; simp only [add_range_insert, deref_of_get s2, hX, hP]
    | nofuel => exfalso; unfold deref at hP; split at hP <;> cases hP
    | ok P =>
      right
      have hget := deref_eq_ok.1 hP
      have hps := h.prev_self (x, X) (by simp)
      have hpp := h.prev_later
      simp only [List.pairwise_append, List.pairwise_cons] at hpp
      have hpx : p ≠ x := by
        intro hq; apply hps; rw [hX, hq]
      have hp_suf : p ∉ addrs suf := by
        intro hq
        simp only [addrs, List.mem_map] at hq
        obtain ⟨y, hy, hy2⟩ := hq
        exact hpp.2.1.1 y hy (by rw [hX, hy2])
      by_cases hin : p ∈ addrs pre
      · simp only [addrs, List.mem_map] at hin
        obtain ⟨y, hy, hy2⟩ := hin
        obtain ⟨pre1, pre2, hsplit⟩ := List.append_of_mem hy
        have hy3 : y = (p, P) := by
          have := Seg.get s1 y hy
          rw [hy2, hget] at this
          simp only [Option.some.injEq] at this
          exact Prod.ext hy2 this.symm
        rw [hy3] at hsplit
        have h2 : Linked ls (pre1 ++ (p, P) :: (pre2 ++ (x, X) :: suf)) := by
          rw [hsplit] at h; simpa using h
        have h3 := insert_mid_linked h2 s e (ls.count + (e - s + 1))
        refine ⟨_, _, ?_, h3, rfl, Or.inr ⟨pre1 ++ [(p, P)], ?_, ?_⟩⟩
        · simp only [add_range_insert, deref_of_get s2, hX, hP]
        · rw [hsplit]
          exact ⟨pre2, by simp⟩
        · simp [ranges]
      · have hnot : p ∉ addrs (pre ++ (x, X) :: suf) := by
          simp only [addrs, List.map_append, List.map_cons, List.mem_append, List.mem_cons, not_or]
          exact ⟨hin, hpx, hp_suf⟩
        refine ⟨_, _, ?_, insert_lost_linked h hnot
          { next := some x, prev := some p, start := s, end_ := e }
          { P with next := some ls.mem.length } (ls.count + (e - s + 1)), rfl, Or.inl rfl⟩
        simp only [add_range_insert, deref_of_get s2, hX, hP]

/-! ## The walk of `add_range` -/

/-- Changing `start` or `end` of a cell of the chain keeps the chain. -/
theorem update_linked {ls : ddb_blocklist_t} {pre suf : List (Nat × range_t)} {r : Nat}
    {R : range_t} (h : Linked ls (pre ++ (r, R) :: suf)) (R1 : range_t)
    (hn : R1.next = R.next) (hp : R1.prev = R.prev) (c : Int) :
    Linked { ls with mem := store ls.mem r R1, count := c } (pre ++ (r, R1) :: suf) := by
  obtain ⟨s1, s2, s3⟩ := h.split
  simp only at s1 s2 s3
  obtain ⟨n1, n2, n3, n4, n5⟩ := nodup_split h.nodup
  simp only at n3 n4
  have hpl := h.prev_lt
  have hps := h.prev_self
  have hpp := h.prev_later
  simp only [List.pairwise_append, List.pairwise_cons, List.mem_cons, forall_eq_or_imp] at hpp
  refine ⟨?_, ?_, ?_, ?_, ?_, ?_⟩
  · refine Seg.append_iff.2 ⟨some r, Seg.set_frame s1 n3, rfl, ?_, ?_⟩
    · show (store ls.mem r _)[r]? = _
      rw [get_store_self _ (get_lt s2)]
    · show Seg (store ls.mem r R1) R1.next suf none
      rw [hn]; exact Seg.set_frame s3 n4
  · exact nodup_split_iff.2 ⟨n1, n2, n3, n4, n5⟩
  · show ls.last = _
    rw [h.last]
    simp [addrs]
  · intro y hy q hq
    simp only [length_store]
    simp only [List.mem_append, List.mem_cons] at hy
    rcases hy with hy | hy | hy
    · exact hpl y (by simp [hy]) q hq
    · rw [hy] at hq; simp only at hq; rw [hp] at hq; exact hpl (r, R) (by simp) q hq
    · exact hpl y (by simp [hy]) q hq
  · intro y hy
    simp only [List.mem_append, List.mem_cons] at hy
    rcases hy with hy | hy | hy
    · exact hps y (by simp [hy])
    · rw [hy]; simp only; rw [hp]; exact hps (r, R) (by simp)
    · exact hps y (by simp [hy])
  · simp only [List.pairwise_append, List.pairwise_cons, List.mem_cons, forall_eq_or_imp]
    refine ⟨hpp.1, ⟨?_, hpp.2.1.2⟩, ?_⟩
    · rw [hp]; exact hpp.2.1.1
    · intro a ha; exact hpp.2.2 a ha

/-- One round of the walk at a cell that does not already contain `[s, e]`. -/
theorem add_range_loop_step (s e : Int) (r : Nat) (R : range_t) (ls0 : ddb_blocklist_t) (k : Nat)
    (hg : ls0.mem[r]? = some (some R)) (c1 : ¬ (R.start ≤ s ∧ R.end_ ≥ e)) :
    add_range_loop (k + 1) ls0 (some r) s e =
      (let c2 : Bool := decide (s < R.start ∧ e + 1 ≥ R.start)
       let ls1 : ddb_blocklist_t :=
         if c2 then { ls0 with count := ls0.count + (R.start - s),
                               mem := store ls0.mem r { R with start := s } }
         else ls0
       let R1 : range_t := if c2 then { R with start := s } else R
       if c2 = true ∧ e ≤ R.end_ then Res.ok ls1
       else
         let start1 : Int := if c2 then R.end_ + 1 else s
         if start1 ≤ R1.end_ + 1 ∧ e ≥ R1.start then
           join_next (ls1.mem.length + 1)
             { ls1 with count := ls1.count + (e - R1.end_),
                        mem := store ls1.mem r { R1 with end_ := e } } r
         else if R1.start > e then add_range_insert ls1 (some r) start1 e
         else add_range_loop k ls1 R1.next start1 e) := by
  simp only [add_range_loop, deref_of_get hg]
  rw [if_neg c1]

theorem add_range_loop_spec (s e : Int) (hse : s ≤ e) :
    ∀ (suf pre : List (Nat × range_t)) (ls : ddb_blocklist_t) (fuel : Nat) (p : Option Nat),
      Linked ls (pre ++ suf) → Seg ls.mem ls.first pre p → Seg ls.mem p suf none →
      (∀ y ∈ ranges (pre ++ suf), y.1 ≤ y.2) → (∀ y ∈ ranges pre, y.2 + 2 ≤ s) →
      suf.length < fuel →
      (∃ ls1 l1, add_range_loop fuel ls p s e = Res.ok ls1 ∧ Linked ls1 l1 ∧
          ranges l1 = ranges pre ++ abs_add s e (ranges suf) ∧
          ls1.count = ls.count + total (abs_add s e (ranges suf)) - total (ranges suf)) ∨
      (stops_before (ranges (pre ++ suf)) s e ∧
        (add_range_loop fuel ls p s e = Res.fault ∨
          ∃ ls1 l1, add_range_loop fuel ls p s e = Res.ok ls1 ∧ Linked ls1 l1 ∧
            ls1.count = ls.count + (e - s + 1) ∧
            stale_result (ranges (pre ++ suf)) s e (ranges l1)))
  | [], pre, ls, fuel, p, h, _, hs, _, _, hf => by
    left
    have hp : p = none := hs
    cases fuel with
    | zero => simp at hf
    | succ k =>
      obtain ⟨ls1, l1, e1, e2, e3, e4⟩ := insert_end_spec h s e
      refine ⟨ls1, l1, ?_, e2, ?_, ?_⟩
      · rw [hp]; simp only [add_range_loop]; exact e1
      · rw [e3]; simp [ranges, abs_add]
      · rw [e4]; simp [ranges, abs_add, total]
  | (r, R) :: t, pre, ls, fuel, p, h, hpre, hs, hv, hpass, hf => by
    obtain ⟨hp, s2, s3⟩ := hs
    simp only at hp s2 s3
    cases fuel with
    | zero => simp at hf
    | succ k =>
      have hk : t.length < k := by simpa using hf
      have hR : R.start ≤ R.end_ := hv (R.start, R.end_) (by simp [ranges])
      rw [hp]
      by_cases c1 : R.start ≤ s ∧ R.end_ ≥ e
      · left
        refine ⟨ls, pre ++ (r, R) :: t, ?_, h, ?_, ?_⟩
        · simp only [add_range_loop, deref_of_get s2, c1, and_self, if_true]
        · simp [ranges, abs_add, c1]
        · simp [ranges, abs_add, c1]
      · rw [add_range_loop_step s e r R ls k s2 c1]
        by_cases c2 : s < R.start ∧ e + 1 ≥ R.start
        · have hd : decide (s < R.start ∧ e + 1 ≥ R.start) = true := decide_eq_true c2
          simp only [hd, if_true, true_and]
          left
          have h1 := update_linked h { R with start := s } rfl rfl (ls.count + (R.start - s))
          by_cases c2b : e ≤ R.end_
          · rw [if_pos c2b]
            have habs : abs_add s e (ranges ((r, R) :: t)) = (s, R.end_) :: ranges t := by
              simp only [ranges, List.map_cons, abs_add]
              rw [if_neg c1, if_pos c2, if_pos c2b]
            refine ⟨_, _, rfl, h1, ?_, ?_⟩
            · rw [habs]; simp [ranges]
            · rw [habs]; simp [ranges, total]; ring
          · rw [if_neg c2b]
            have c3 : R.end_ + 1 ≤ R.end_ + 1 ∧ e ≥ s := ⟨le_refl _, hse⟩
            rw [if_pos c3]
            have h2 := update_linked h1 { R with start := s, end_ := e } rfl rfl
              (ls.count + (R.start - s) + (e - R.end_))
            have hlen := h2.length_le
            have hfj : t.length < (store ls.mem r { R with start := s }).length + 1 := by
              simp only [List.length_append, List.length_cons, length_store] at hlen ⊢
              omega
            obtain ⟨ls1, R1, suf1, e1, e2, e3, e4, e5, e6, e7⟩ :=
              join_next_spec _ _ pre t r _ h2 hfj
            have habs : abs_add s e (ranges ((r, R) :: t)) =
                (s, (absorb e (ranges t)).1) :: (absorb e (ranges t)).2 := by
              simp only [ranges, List.map_cons, abs_add]
              rw [if_neg c1, if_pos c2, if_neg c2b]
            refine ⟨ls1, _, e1, e2, ?_, ?_⟩
            · rw [habs]
              simp only [ranges, List.map_append, List.map_cons] at e5 ⊢
              rw [e3, e4, e5]
              rfl
            · rw [habs, e6, e4]
              simp only [ranges, List.map_cons, total, List.sum_cons] at e5 ⊢
              rw [e5]
              ring
        · have hd : decide (s < R.start ∧ e + 1 ≥ R.start) = false := decide_eq_false c2
          simp only [hd, if_false, false_and, Bool.false_eq_true]
          by_cases c3 : s ≤ R.end_ + 1 ∧ e ≥ R.start
          · rw [if_pos c3]
            left
            have h2 := update_linked h { R with end_ := e } rfl rfl (ls.count + (e - R.end_))
            have hlen := h2.length_le
            have hfj : t.length < ls.mem.length + 1 := by
              simp only [List.length_append, List.length_cons, length_store] at hlen ⊢
              omega
            obtain ⟨ls1, R1, suf1, e1, e2, e3, e4, e5, e6, e7⟩ :=
              join_next_spec _ _ pre t r _ h2 hfj
            have habs : abs_add s e (ranges ((r, R) :: t)) =
                (R.start, (absorb e (ranges t)).1) :: (absorb e (ranges t)).2 := by
              simp only [ranges, List.map_cons, abs_add]
              rw [if_neg c1, if_neg c2, if_pos c3]
            refine ⟨ls1, _, e1, e2, ?_, ?_⟩
            · rw [habs]
              simp only [ranges, List.map_append, List.map_cons] at e5 ⊢
              rw [e3, e4, e5]
              rfl
            · rw [habs, e6, e4]
              simp only [ranges, List.map_cons, total, List.sum_cons] at e5 ⊢
              rw [e5]
              ring
          · rw [if_neg c3]
            by_cases c4 : R.start > e
            · rw [if_pos c4]
              right
              have hgap : e + 1 < R.start := by
                by_contra hq
                exact c2 ⟨by omega, by omega⟩
              have hstop : ∀ y ∈ ranges pre, y.2 + 2 ≤ s := hpass
              refine ⟨⟨ranges pre, (R.start, R.end_), ranges t, by simp [ranges], hstop, hgap⟩, ?_⟩
              rcases insert_before_spec h s e with hfault | ⟨ls1, l1, e1, e2, e3, e4⟩
              · left; exact hfault
              · right
                refine ⟨ls1, l1, e1, e2, e3, ranges pre, (R.start, R.end_), ranges t,
                  by simp [ranges], hstop, hgap, ?_⟩
                rcases e4 with e4 | ⟨pre1, hp1, e4⟩
                · left; exact e4
                · right
                  refine ⟨ranges pre1, ?_, ?_⟩
                  · obtain ⟨u, hu⟩ := hp1
                    exact ⟨ranges u, by rw [← hu]; simp [ranges]⟩
                  · rw [e4]; simp [ranges]
            · rw [if_neg c4]
              have hpassR : R.end_ + 2 ≤ s := by
                by_contra hq
                exact c3 ⟨by omega, by omega⟩
              have h' : Linked ls ((pre ++ [(r, R)]) ++ t) := by simpa using h
              have hpre' : Seg ls.mem ls.first (pre ++ [(r, R)]) R.next := by
                refine Seg.append_iff.2 ⟨p, hpre, ?_⟩
                exact ⟨hp, s2, rfl⟩
              have hv' : ∀ y ∈ ranges ((pre ++ [(r, R)]) ++ t), y.1 ≤ y.2 := by
                simpa using hv
              have hpass' : ∀ y ∈ ranges (pre ++ [(r, R)]), y.2 + 2 ≤ s := by
                intro y hy
                simp only [ranges, List.map_append, List.map_cons, List.map_nil, List.mem_append,
                  List.mem_singleton] at hy
                rcases hy with hy | hy
                · exact hpass y hy
                · rw [hy]; exact hpassR
              have habs : abs_add s e (ranges ((r, R) :: t)) =
                  (R.start, R.end_) :: abs_add s e (ranges t) := by
                simp only [ranges, List.map_cons, abs_add]
                rw [if_neg c1, if_neg c2, if_neg c3, if_neg c4]
              have hl : pre ++ (r, R) :: t = (pre ++ [(r, R)]) ++ t := by simp
              rcases add_range_loop_spec s e hse t (pre ++ [(r, R)]) ls k R.next h' hpre' s3 hv'
                hpass' hk with ⟨ls1, l1, e1, e2, e3, e4⟩ | hstale
              · left
                refine ⟨ls1, l1, e1, e2, ?_, ?_⟩
                · rw [e3, habs]; simp [ranges]
                · rw [e4, habs]; simp [ranges, total]; ring
              · right
                rw [hl]; exact hstale

/-- What `add_range` does to a linked list with valid ranges: either it
computes `abs_add`, or the walk stops before a range and the new range is
linked through that range's `prev`. -/
theorem add_range_spec {ls : ddb_blocklist_t} {l : List (Nat × range_t)} (h : Linked ls l)
    (hv : ∀ y ∈ ranges l, y.1 ≤ y.2) {s e : Int} (hse : s ≤ e) :
    (∃ ls1 l1, add_range ls s e = Res.ok ls1 ∧ Linked ls1 l1 ∧
        ranges l1 = abs_add s e (ranges l) ∧
        ls1.count = ls.count + total (abs_add s e (ranges l)) - total (ranges l)) ∨
    (stops_before (ranges l) s e ∧
      (add_range ls s e = Res.fault ∨
        ∃ ls1 l1, add_range ls s e = Res.ok ls1 ∧ Linked ls1 l1 ∧
          ls1.count = ls.count + (e - s + 1) ∧ stale_result (ranges l) s e (ranges l1))) := by
  have h0 : Linked ls ([] ++ l) := by simpa using h
  have hv0 : ∀ y ∈ ranges ([] ++ l), y.1 ≤ y.2 := by simpa using hv
  have := add_range_loop_spec s e hse l [] ls (ls.mem.length + 1) ls.first h0 rfl h.seg hv0
    (by simp [ranges]) (Nat.lt_succ_of_le h.length_le)
  simpa [add_range, ranges] using this

/-! ## Canonical sequences of ranges -/

theorem canonical_iff (rs : List (Int × Int)) :
    canonical rs ↔ (∀ r ∈ rs, r.1 ≤ r.2) ∧ rs.Pairwise (fun a b => a.2 + 2 ≤ b.1) := by
  unfold canonical
  constructor
  · rintro ⟨hv, hc⟩
    refine ⟨hv, ?_⟩
    induction rs with
    | nil => exact List.Pairwise.nil
    | cons a t ih =>
      have hv2 : ∀ r ∈ t, r.1 ≤ r.2 := fun r hr => hv r (List.mem_cons_of_mem _ hr)
      have hc2 : t.Chain' (fun a b => a.2 + 2 ≤ b.1) := List.Chain'.tail hc
      have ih2 := ih hv2 hc2
      refine List.pairwise_cons.2 ⟨?_, ih2⟩
      intro y hy
      cases t with
      | nil => simp at hy
      | cons b u =>
        have hab : a.2 + 2 ≤ b.1 := (List.chain'_cons.1 hc).1
        rcases List.mem_cons.1 hy with hy | hy
        · rw [hy]; exact hab
        · have := (List.pairwise_cons.1 ih2).1 y hy
          have hb := hv b (by simp)
          omega
  · rintro ⟨hv, hp⟩
    exact ⟨hv, hp.chain'⟩

theorem canonical_nil : canonical [] := by
  unfold canonical; simp

theorem absorb_spec : ∀ (rs : List (Int × Int)) (e : Int),
    (∀ r ∈ rs, r.1 ≤ r.2) → rs.Pairwise (fun a b => a.2 + 2 ≤ b.1) →
    (absorb e rs).2 <:+ rs ∧ e ≤ (absorb e rs).1 ∧ ∀ y ∈ (absorb e rs).2, (absorb e rs).1 + 2 ≤ y.1
  | [], e, _, _ => by simp [absorb]
  | r :: t, e, hv, hp => by
    have hv2 : ∀ r ∈ t, r.1 ≤ r.2 := fun r hr => hv r (List.mem_cons_of_mem _ hr)
    have hp2 := List.pairwise_cons.1 hp
    by_cases hc : r.1 ≤ e + 1
    · have ih := absorb_spec t (if e < r.2 then r.2 else e) hv2 hp2.2
      simp only [absorb, hc, if_true]
      refine ⟨ih.1.trans (List.suffix_cons r t), ?_, ih.2.2⟩
      have := ih.2.1
      split_ifs at this <;> omega
    · simp only [absorb, hc, if_false]
      refine ⟨List.suffix_refl _, le_refl _, ?_⟩
      intro y hy
      rcases List.mem_cons.1 hy with hy | hy
      · rw [hy]; omega
      · have := hp2.1 y hy
        have := hv r (by simp)
        omega

theorem abs_add_spec (s e : Int) (hse : s ≤ e) : ∀ (rs : List (Int × Int)),
    (∀ r ∈ rs, r.1 ≤ r.2) → rs.Pairwise (fun a b => a.2 + 2 ≤ b.1) →
    (∀ r ∈ abs_add s e rs, r.1 ≤ r.2) ∧ (abs_add s e rs).Pairwise (fun a b => a.2 + 2 ≤ b.1) ∧
      ∀ lo : Int, (∀ y ∈ rs, lo ≤ y.1) → lo ≤ s → ∀ y ∈ abs_add s e rs, lo ≤ y.1
  | [], _, _ => by
    simp only [abs_add]
    refine ⟨?_, by simp, ?_⟩
    · intro r hr; simp only [List.mem_singleton] at hr; rw [hr]; exact hse
    · intro lo _ hlo y hy; simp only [List.mem_singleton] at hy; rw [hy]; exact hlo
  | r :: t, hv, hp => by
    have hr : r.1 ≤ r.2 := hv r (by simp)
    have hv2 : ∀ r ∈ t, r.1 ≤ r.2 := fun r hr => hv r (List.mem_cons_of_mem _ hr)
    have hp2 := List.pairwise_cons.1 hp
    obtain ⟨a1, a2, a3⟩ := absorb_spec t e hv2 hp2.2
    have hsub : ∀ y ∈ (absorb e t).2, y ∈ t := fun y hy => a1.subset hy
    have hpa : (absorb e t).2.Pairwise (fun a b => a.2 + 2 ≤ b.1) := hp2.2.sublist a1.sublist
    simp only [abs_add]
    by_cases c1 : r.1 ≤ s ∧ r.2 ≥ e
    · rw [if_pos c1]
      refine ⟨hv, hp, ?_⟩
      intro lo h1 _ y hy; exact h1 y hy
    · rw [if_neg c1]
      by_cases c2 : s < r.1 ∧ e + 1 ≥ r.1
      · rw [if_pos c2]
        by_cases c2b : e ≤ r.2
        · rw [if_pos c2b]
          refine ⟨?_, ?_, ?_⟩
          · intro y hy
            rcases List.mem_cons.1 hy with hy | hy
            · rw [hy]; simp only; omega
            · exact hv2 y hy
          · exact List.pairwise_cons.2 ⟨fun y hy => hp2.1 y hy, hp2.2⟩
          · intro lo h1 h2 y hy
            rcases List.mem_cons.1 hy with hy | hy
            · rw [hy]; exact h2
            · exact h1 y (List.mem_cons_of_mem _ hy)
        · rw [if_neg c2b]
          refine ⟨?_, ?_, ?_⟩
          · intro y hy
            rcases List.mem_cons.1 hy with hy | hy
            · rw [hy]; simp only; omega
            · exact hv2 y (hsub y hy)
          · exact List.pairwise_cons.2 ⟨fun y hy => a3 y hy, hpa⟩
          · intro lo h1 h2 y hy
            rcases List.mem_cons.1 hy with hy | hy
            · rw [hy]; exact h2
            · exact h1 y (List.mem_cons_of_mem _ (hsub y hy))
      · rw [if_neg c2]
        by_cases c3 : s ≤ r.2 + 1 ∧ e ≥ r.1
        · rw [if_pos c3]
          refine ⟨?_, ?_, ?_⟩
          · intro y hy
            rcases List.mem_cons.1 hy with hy | hy
            · rw [hy]; simp only; omega
            · exact hv2 y (hsub y hy)
          · exact List.pairwise_cons.2 ⟨fun y hy => a3 y hy, hpa⟩
          · intro lo h1 h2 y hy
            rcases List.mem_cons.1 hy with hy | hy
            · rw [hy]; exact h1 r (by simp)
            · exact h1 y (List.mem_cons_of_mem _ (hsub y hy))
        · rw [if_neg c3]
          by_cases c4 : r.1 > e
          · rw [if_pos c4]
            have hgap : e + 1 < r.1 := by
              by_contra hq; exact c2 ⟨by omega, by omega⟩
            refine ⟨?_, ?_, ?_⟩
            · intro y hy
              rcases List.mem_cons.1 hy with hy | hy
              · rw [hy]; exact hse
              · exact hv y hy
            · refine List.pairwise_cons.2 ⟨?_, hp⟩
              intro y hy
              rcases List.mem_cons.1 hy with hy | hy
              · rw [hy]; simp only; omega
              · have := hp2.1 y hy
                simp only; omega
            · intro lo h1 h2 y hy
              rcases List.mem_cons.1 hy with hy | hy
              · rw [hy]; exact h2
              · exact h1 y hy
          · rw [if_neg c4]
            have hpass : r.2 + 2 ≤ s := by
              by_contra hq; exact c3 ⟨by omega, by omega⟩
            obtain ⟨b1, b2, b3⟩ := abs_add_spec s e hse t hv2 hp2.2
            refine ⟨?_, ?_, ?_⟩
            · intro y hy
              rcases List.mem_cons.1 hy with hy | hy
              · rw [hy]; exact hr
              · exact b1 y hy
            · refine List.pairwise_cons.2 ⟨?_, b2⟩
              exact b3 (r.2 + 2) (fun y hy => hp2.1 y hy) hpass
            · intro lo h1 h2 y hy
              rcases List.mem_cons.1 hy with hy | hy
              · rw [hy]; exact h1 r (by simp)
              · exact b3 lo (fun y hy => h1 y (List.mem_cons_of_mem _ hy)) h2 y hy

theorem abs_add_canonical {s e : Int} (hse : s ≤ e) {rs : List (Int × Int)}
    (h : canonical rs) : canonical (abs_add s e rs) := by
  rw [canonical_iff] at h ⊢
  obtain ⟨a, b, _⟩ := abs_add_spec s e hse rs h.1 h.2
  exact ⟨a, b⟩

theorem stale_result_canonical {s e : Int} (hse : s ≤ e) {rs rs1 : List (Int × Int)}
    (h : canonical rs) (hst : stale_result rs s e rs1) : canonical rs1 := by
  obtain ⟨pre, x, suf, h1, h2, h3, h4⟩ := hst
  rcases h4 with h4 | ⟨pre1, hp1, h4⟩
  · rw [h4]; exact h
  · rw [canonical_iff] at h ⊢
    obtain ⟨hv, hp⟩ := h
    rw [h1] at hv hp
    rw [h4]
    have hsub : ∀ y ∈ pre1, y ∈ pre := fun y hy => hp1.subset hy
    obtain ⟨p1, p2, p3⟩ := List.pairwise_append.1 hp
    have p2' := List.pairwise_cons.1 p2
    constructor
    · intro y hy
      simp only [List.mem_append, List.mem_cons] at hy
      rcases hy with hy | hy | hy | hy
      · exact hv y (by simp [hsub y hy])
      · rw [hy]; exact hse
      · exact hv y (by simp [hy])
      · exact hv y (by simp [hy])
    · refine List.pairwise_append.2 ⟨p1.sublist hp1.sublist, ?_, ?_⟩
      · refine List.pairwise_cons.2 ⟨?_, p2⟩
        intro y hy
        rcases List.mem_cons.1 hy with hy | hy
        · rw [hy]; simp only; omega
        · have := p2'.1 y hy
          have := hv x (by simp)
          simp only; omega
      · intro a ha b hb
        rcases List.mem_cons.1 hb with hb | hb
        · rw [hb]; exact h2 a (hsub a ha)
        · exact p3 a (hsub a ha) b hb

theorem total_append (a b : List (Int × Int)) : total (a ++ b) = total a + total b := by
  simp only [total, List.map_append, List.sum_append]

/-- Past every range of the list, `add_range` appends. -/
theorem abs_add_append (s e : Int) : ∀ (rs : List (Int × Int)),
    (∀ r ∈ rs, r.1 ≤ r.2) → (∀ r ∈ rs, r.2 + 2 ≤ s) → s ≤ e → abs_add s e rs = rs ++ [(s, e)]
  | [], _, _, _ => rfl
  | r :: t, hv, hp, hse => by
    have hr := hv r (by simp)
    have hpr := hp r (by simp)
    have ih := abs_add_append s e t (fun y hy => hv y (List.mem_cons_of_mem _ hy))
      (fun y hy => hp y (List.mem_cons_of_mem _ hy)) hse
    simp only [abs_add]
    rw [if_neg (by omega), if_neg (by omega), if_neg (by omega), if_neg (by omega), ih]
    rfl

theorem not_stops_before_of_passed {s e : Int} {rs : List (Int × Int)}
    (hv : ∀ r ∈ rs, r.1 ≤ r.2) (hp : ∀ r ∈ rs, r.2 + 2 ≤ s) (hse : s ≤ e) :
    ¬ stops_before rs s e := by
  rintro ⟨pre, x, suf, h1, _, h3⟩
  have hx : x ∈ rs := by rw [h1]; simp
  have := hv x hx
  have := hp x hx
  omega

/-- Adding a range past every range of a linked list appends it. -/
theorem add_range_append {ls : ddb_blocklist_t} {l : List (Nat × range_t)} (h : Linked ls l)
    (hv : ∀ y ∈ ranges l, y.1 ≤ y.2) {s e : Int} (hp : ∀ y ∈ ranges l, y.2 + 2 ≤ s)
    (hse : s ≤ e) :
    ∃ ls1 l1, add_range ls s e = Res.ok ls1 ∧ Linked ls1 l1 ∧
      ranges l1 = ranges l ++ [(s, e)] ∧ ls1.count = ls.count + (e - s + 1) := by
  rcases add_range_spec h hv hse with ⟨ls1, l1, e1, e2, e3, e4⟩ | ⟨hst, _⟩
  · rw [abs_add_append s e _ hv hp hse] at e3 e4
    refine ⟨ls1, l1, e1, e2, e3, ?_⟩
    rw [e4, total_append]; simp only [total, List.map_cons, List.map_nil, List.sum_cons,
      List.sum_nil]
    ring
  · exact absurd hst (not_stops_before_of_passed hv hp hse)

/-! ## Lists built by `ddb_blocklist_add` -/

theorem linked_new : Linked ddb_blocklist_new [] := by
  refine ⟨rfl, ?_, rfl, ?_, ?_, ?_⟩ <;> simp [addrs]

theorem wf_new : WF ddb_blocklist_new [] := ⟨linked_new, canonical_nil⟩

/-- One `add_range` on a well-formed list: a well-formed list or a fault, never
a lack of fuel. -/
theorem add_range_wf {ls : ddb_blocklist_t} {l : List (Nat × range_t)} (h : WF ls l)
    {s e : Int} (hse : s ≤ e) :
    add_range ls s e = Res.fault ∨ ∃ ls1 l1, add_range ls s e = Res.ok ls1 ∧ WF ls1 l1 := by
  obtain ⟨hl, hc⟩ := h
  have hv := ((canonical_iff _).1 hc).1
  rcases add_range_spec hl hv hse with ⟨ls1, l1, e1, e2, e3, _⟩ | ⟨_, hf | ⟨ls1, l1, e1, e2, _, e4⟩⟩
  · right; exact ⟨ls1, l1, e1, e2, by rw [e3]; exact abs_add_canonical hse hc⟩
  · left; exact hf
  · right; exact ⟨ls1, l1, e1, e2, stale_result_canonical hse hc e4⟩

theorem add_all_wf : ∀ (ops : List (Int × Int)) (ls : ddb_blocklist_t) (l : List (Nat × range_t)),
    WF ls l → (∀ op ∈ ops, op.1 ≤ op.2) →
    add_all ls ops ≠ Res.nofuel ∧ ∀ L, add_all ls ops = Res.ok L → ∃ l1, WF L l1
  | [], ls, l, h, _ => by
    refine ⟨by simp [add_all], ?_⟩
    intro L hL
    simp only [add_all, Res.ok.injEq] at hL
    rw [← hL]; exact ⟨l, h⟩
  | (s, e) :: rest, ls, l, h, hops => by
    have hse : s ≤ e := hops (s, e) (by simp)
    have hrest : ∀ op ∈ rest, op.1 ≤ op.2 := fun op hop => hops op (List.mem_cons_of_mem _ hop)
    rcases add_range_wf h hse with hf | ⟨ls1, l1, e1, e2⟩
    · simp [add_all, ddb_blocklist_add, hf]
    · have ih := add_all_wf rest ls1 l1 e2 hrest
      simp only [add_all, ddb_blocklist_add, e1]
      exact ih

theorem stops_before_cons {r : Int × Int} {t : List (Int × Int)} {s e : Int}
    (h : stops_before (r :: t) s e) : e + 1 < r.1 ∨ (r.2 + 2 ≤ s ∧ stops_before t s e) := by
  obtain ⟨pre, x, suf, h1, h2, h3⟩ := h
  cases pre with
  | nil =>
    simp only [List.nil_append, List.cons.injEq] at h1
    left; rw [h1.1]; exact h3
  | cons y pre1 =>
    simp only [List.cons_append, List.cons.injEq] at h1
    right
    refine ⟨by rw [h1.1]; exact h2 y (by simp), pre1, x, suf, h1.2, ?_, h3⟩
    intro z hz; exact h2 z (List.mem_cons_of_mem _ hz)

theorem abs_add_pass (s e : Int) (rest : List (Int × Int)) : ∀ (pre : List (Int × Int)),
    (∀ r ∈ pre, r.1 ≤ r.2 ∧ r.2 + 2 ≤ s) → s ≤ e → abs_add s e (pre ++ rest) = pre ++ abs_add s e rest
  | [], _, _ => rfl
  | r :: t, hp, hse => by
    have hr := hp r (by simp)
    have ih := abs_add_pass s e rest t (fun y hy => hp y (List.mem_cons_of_mem _ hy)) hse
    show abs_add s e (r :: (t ++ rest)) = r :: (t ++ abs_add s e rest)
    rw [← ih]
    simp only [abs_add]
    rw [if_neg (by omega), if_neg (by omega), if_neg (by omega), if_neg (by omega)]

/-- Adding `[s, e]` between a range that ends at `s - 1` and a range that
starts at `e + 1` leaves one range in place of the two. -/
theorem abs_add_touch_both {pre post : List (Int × Int)} {a b s e : Int}
    (h : canonical (pre ++ (a, s - 1) :: (e + 1, b) :: post)) (hse : s ≤ e) :
    abs_add s e (pre ++ (a, s - 1) :: (e + 1, b) :: post) = pre ++ (a, b) :: post ∧
    ¬ stops_before (pre ++ (a, s - 1) :: (e + 1, b) :: post) s e := by
  rw [canonical_iff] at h
  obtain ⟨hv, hp⟩ := h
  obtain ⟨p1, p2, p3⟩ := List.pairwise_append.1 hp
  have ha := hv (a, s - 1) (by simp)
  have hb := hv (e + 1, b) (by simp)
  simp only at ha hb
  have hpre : ∀ r ∈ pre, r.1 ≤ r.2 ∧ r.2 + 2 ≤ s := by
    intro r hr
    have h1 := hv r (by simp [hr])
    have h2 := p3 r hr (a, s - 1) (by simp)
    simp only at h2
    exact ⟨h1, by omega⟩
  constructor
  · rw [abs_add_pass s e _ pre hpre hse]
    congr 1
    simp only [abs_add]
    rw [if_neg (by omega), if_neg (by omega), if_pos (by constructor <;> omega)]
    have hab : absorb e ((e + 1, b) :: post) = (b, post) := by
      simp only [absorb, le_refl, if_true]
      rw [if_pos (by omega)]
      cases post with
      | nil => rfl
      | cons q u =>
        have p2' := List.pairwise_cons.1 (List.pairwise_cons.1 p2).2
        have := p2'.1 q (by simp)
        simp only at this
        simp only [absorb]
        rw [if_neg (by omega)]
    rw [hab]
  · have key : ∀ (pre : List (Int × Int)), (∀ r ∈ pre, r.1 ≤ r.2 ∧ r.2 + 2 ≤ s) →
        ¬ stops_before (pre ++ (a, s - 1) :: (e + 1, b) :: post) s e := by
      intro pre
      induction pre with
      | nil =>
        intro _ hst
        rcases stops_before_cons hst with h1 | ⟨h1, _⟩
        · simp only at h1; omega
        · simp only at h1; omega
      | cons r t ih =>
        intro hpr hst
        have hr := hpr r (by simp)
        rcases stops_before_cons hst with h1 | ⟨_, h2⟩
        · omega
        · exact ih (fun y hy => hpr y (List.mem_cons_of_mem _ hy)) h2
    exact key pre hpre

/-! ## Chains that reach NULL -/

theorem Seg.functional {m : List (Option range_t)} :
    ∀ {l1 l2 : List (Nat × range_t)} {p : Option Nat}, Seg m p l1 none → Seg m p l2 none → l1 = l2
  | [], [], _, _, _ => rfl
  | [], y :: _, p, h1, h2 => by
    have h1 : p = none := h1
    obtain ⟨h3, _, _⟩ := h2
    rw [h1] at h3; cases h3
  | x :: _, [], p, h1, h2 => by
    have h2 : p = none := h2
    obtain ⟨h3, _, _⟩ := h1
    rw [h2] at h3; cases h3
  | x :: t1, y :: t2, p, h1, h2 => by
    obtain ⟨a1, a2, a3⟩ := h1
    obtain ⟨b1, b2, b3⟩ := h2
    rw [a1] at b1
    simp only [Option.some.injEq] at b1
    rw [← b1, a2] at b2
    simp only [Option.some.injEq] at b2
    have hxy : x = y := Prod.ext b1 b2
    rw [← b2] at b3
    rw [hxy, Seg.functional a3 b3]

/-- A chain that reaches NULL visits no cell twice. -/
theorem Seg.nodup {m : List (Option range_t)} :
    ∀ {l : List (Nat × range_t)} {p : Option Nat}, Seg m p l none → (addrs l).Nodup
  | [], _, _ => by simp [addrs]
  | x :: t, p, h => by
    obtain ⟨h1, h2, h3⟩ := h
    have ih := Seg.nodup h3
    simp only [addrs, List.map_cons, List.nodup_cons]
    refine ⟨?_, ih⟩
    intro hx
    simp only [List.mem_map] at hx
    obtain ⟨y, hy, hy2⟩ := hx
    obtain ⟨t1, t2, ht⟩ := List.append_of_mem hy
    rw [ht] at h3
    obtain ⟨mid, _, h5⟩ := Seg.append_iff.1 h3
    have h5' := h5
    obtain ⟨h6, _, _⟩ := h5'
    have h7 : Seg m (some x.1) (x :: t) none := ⟨rfl, h2, by rw [ht]; exact h3⟩
    rw [h6, hy2] at h5
    have := Seg.functional h5 h7
    have hlen := congrArg List.length this
    rw [ht] at hlen
    simp at hlen
    omega

theorem Seg.length_lt {m : List (Option range_t)} {l : List (Nat × range_t)} {p : Option Nat}
    (h : Seg m p l none) : l.length < m.length + 1 := by
  have := length_le_of_nodup (Seg.nodup h) (Seg.addr_lt h)
  simp only [addrs, List.length_map] at this
  omega

/-- The function `ddb_blocklist_has` on a chain with canonical ranges. -/
theorem has_spec {ls : ddb_blocklist_t} {l : List (Nat × range_t)}
    (h : Seg ls.mem ls.first l none) (hc : canonical (ranges l)) (b : Int) :
    (covers (ranges l) b → ddb_blocklist_has ls b = Res.ok 1) ∧
    (¬ covers (ranges l) b → ddb_blocklist_has ls b = Res.ok 0) := by
  rw [canonical_iff] at hc
  exact has_loop_spec b l _ _ h (Seg.length_lt h) hc.2 hc.1

theorem has_eq_one_iff {ls : ddb_blocklist_t} {l : List (Nat × range_t)}
    (h : Seg ls.mem ls.first l none) (hc : canonical (ranges l)) (b : Int) :
    ddb_blocklist_has ls b = Res.ok 1 ↔ covers (ranges l) b := by
  obtain ⟨h1, h2⟩ := has_spec h hc b
  constructor
  · intro h3
    by_contra hn
    rw [h2 hn] at h3
    cases h3
  · exact h1

/-! ## `ddb_blocklist_sub` -/

theorem clip_some {s e : Int} {r q : Int × Int} (h : clip s e r = some q) :
    q.1 = max r.1 s ∧ q.2 = min r.2 e ∧ q.1 ≤ q.2 := by
  unfold clip at h
  by_cases hle : (if r.1 < s then s else r.1) ≤ (if r.2 > e then e else r.2)
  · rw [if_pos hle] at h
    simp only [Option.some.injEq] at h
    rw [← h]
    refine ⟨?_, ?_, hle⟩
    · show (if r.1 < s then s else r.1) = max r.1 s
      split_ifs <;> omega
    · show (if r.2 > e then e else r.2) = min r.2 e
      split_ifs <;> omega
  · rw [if_neg hle] at h
    cases h

theorem clip_none {s e : Int} {r : Int × Int} (h : clip s e r = none) :
    min r.2 e < max r.1 s := by
  unfold clip at h
  by_cases hle : (if r.1 < s then s else r.1) ≤ (if r.2 > e then e else r.2)
  · rw [if_pos hle] at h
    cases h
  · split_ifs at hle <;> omega

theorem sub_loop_spec (s e : Int) {m : List (Option range_t)} :
    ∀ (l : List (Nat × range_t)) (p : Option Nat) (fuel : Nat) (ls_new : ddb_blocklist_t)
      (acc : List (Nat × range_t)),
      Seg m p l none → l.length < fuel →
      (∀ r ∈ ranges l, r.1 ≤ r.2) → (ranges l).Pairwise (fun a b => a.2 + 2 ≤ b.1) →
      Linked ls_new acc → (∀ r ∈ ranges acc, r.1 ≤ r.2) →
      (∀ y ∈ ranges acc, ∀ x ∈ ranges l, y.2 + 2 ≤ x.1) →
      ∃ L1 l1, sub_loop fuel m p s e ls_new = Res.ok L1 ∧ Linked L1 l1 ∧
        ranges l1 = ranges acc ++ abs_sub s e (ranges l) ∧
        L1.count = ls_new.count + total (abs_sub s e (ranges l))
  | [], p, fuel, ls_new, acc, h, hf, _, _, hl, _, _ => by
    have h : p = none := h
    cases fuel with
    | zero => simp at hf
    | succ k =>
      rw [h]
      exact ⟨ls_new, acc, rfl, hl, by simp [abs_sub, ranges], by simp [abs_sub, ranges, total]⟩
  | x :: t, p, fuel, ls_new, acc, h, hf, hv, hp, hl, hva, hgap => by
    obtain ⟨h1, h2, h3⟩ := h
    cases fuel with
    | zero => simp at hf
    | succ k =>
      have hk : t.length < k := by simpa using hf
      have hx : x.2.start ≤ x.2.end_ := hv (x.2.start, x.2.end_) (by simp [ranges])
      have hv2 : ∀ r ∈ ranges t, r.1 ≤ r.2 := fun r hr => hv r (by
        simp only [ranges, List.map_cons, List.mem_cons]; right; exact hr)
      simp only [ranges, List.map_cons, List.pairwise_cons] at hp
      rw [h1]
      simp only [sub_loop, deref_of_get h2]
      by_cases hc : (if x.2.start < s then s else x.2.start) ≤ (if x.2.end_ > e then e else x.2.end_)
      · rw [if_pos hc]
        have hclip : clip s e (x.2.start, x.2.end_) =
            some (if x.2.start < s then s else x.2.start, if x.2.end_ > e then e else x.2.end_) := by
          simp only [clip]; rw [if_pos hc]
        have hpast : ∀ y ∈ ranges acc, y.2 + 2 ≤ (if x.2.start < s then s else x.2.start) := by
          intro y hy
          have := hgap y hy (x.2.start, x.2.end_) (by simp [ranges])
          simp only at this
          split_ifs <;> omega
        obtain ⟨ls1, l1, e1, e2, e3, e4⟩ := add_range_append hl hva hpast hc
        have hva1 : ∀ r ∈ ranges l1, r.1 ≤ r.2 := by
          intro r hr
          rw [e3] at hr
          rcases List.mem_append.1 hr with hr | hr
          · exact hva r hr
          · simp only [List.mem_singleton] at hr; rw [hr]; exact hc
        have hgap1 : ∀ y ∈ ranges l1, ∀ z ∈ ranges t, y.2 + 2 ≤ z.1 := by
          intro y hy z hz
          rw [e3] at hy
          rcases List.mem_append.1 hy with hy | hy
          · exact hgap y hy z (by simp only [ranges, List.map_cons, List.mem_cons]; right; exact hz)
          · simp only [List.mem_singleton] at hy
            have := hp.1 z hz
            rw [hy]; simp only
            split_ifs <;> omega
        obtain ⟨L1, l2, f1, f2, f3, f4⟩ :=
          sub_loop_spec s e t _ k ls1 l1 h3 hk hv2 hp.2 e2 hva1 hgap1
        refine ⟨L1, l2, ?_, f2, ?_, ?_⟩
        · rw [e1]; exact f1
        · rw [f3, e3]
          simp only [abs_sub, ranges, List.map_cons, List.filterMap_cons, hclip, List.append_assoc,
            List.singleton_append]
        · rw [f4, e4]
          simp only [abs_sub, ranges, List.map_cons, List.filterMap_cons, hclip, total,
            List.sum_cons]
          ring
      · rw [if_neg hc]
        have hclip : clip s e (x.2.start, x.2.end_) = none := by
          simp only [clip]; rw [if_neg hc]
        have hgap1 : ∀ y ∈ ranges acc, ∀ z ∈ ranges t, y.2 + 2 ≤ z.1 := by
          intro y hy z hz
          exact hgap y hy z (by simp only [ranges, List.map_cons, List.mem_cons]; right; exact hz)
        obtain ⟨L1, l2, f1, f2, f3, f4⟩ :=
          sub_loop_spec s e t _ k ls_new acc h3 hk hv2 hp.2 hl hva hgap1
        refine ⟨L1, l2, f1, f2, ?_, ?_⟩
        · rw [f3]
          simp only [abs_sub, ranges, List.map_cons, List.filterMap_cons, hclip]
        · rw [f4]
          simp only [abs_sub, ranges, List.map_cons, List.filterMap_cons, hclip]

/-- The function `ddb_blocklist_sub` on a chain with canonical ranges returns
a linked list whose ranges are the clipped ranges of the argument. -/
theorem sub_spec {A : ddb_blocklist_t} {l : List (Nat × range_t)}
    (h : Seg A.mem A.first l none) (hc : canonical (ranges l)) (s e : Int) :
    ∃ S l1, ddb_blocklist_sub A s e = Res.ok S ∧ Linked S l1 ∧
      ranges l1 = abs_sub s e (ranges l) ∧ S.count = total (abs_sub s e (ranges l)) := by
  rw [canonical_iff] at hc
  obtain ⟨L1, l1, e1, e2, e3, e4⟩ := sub_loop_spec s e l _ _ ddb_blocklist_new [] h
    (Seg.length_lt h) hc.1 hc.2 linked_new (by simp [ranges]) (by simp [ranges])
  refine ⟨L1, l1, e1, e2, ?_, ?_⟩
  · rw [e3]; simp [ranges]
  · rw [e4]; simp [ddb_blocklist_new]

theorem abs_sub_canonical {rs : List (Int × Int)} (h : canonical rs) (s e : Int) :
    canonical (abs_sub s e rs) := by
  rw [canonical_iff] at h ⊢
  constructor
  · intro q hq
    simp only [abs_sub, List.mem_filterMap] at hq
    obtain ⟨r, _, hr⟩ := hq
    exact (clip_some hr).2.2
  · simp only [abs_sub]
    rw [List.pairwise_filterMap]
    refine h.2.imp ?_
    intro a a1 haa q hq q1 hq1
    have h1 := clip_some (Option.mem_def.1 hq)
    have h2 := clip_some (Option.mem_def.1 hq1)
    rw [h1.2.1, h2.1]
    omega

theorem covers_abs_sub (rs : List (Int × Int)) (s e b : Int) :
    covers (abs_sub s e rs) b ↔ covers rs b ∧ s ≤ b ∧ b ≤ e := by
  constructor
  · rintro ⟨q, hq, hq1, hq2⟩
    simp only [abs_sub, List.mem_filterMap] at hq
    obtain ⟨r, hr, hc⟩ := hq
    have h1 := clip_some hc
    rw [h1.1] at hq1
    rw [h1.2.1] at hq2
    exact ⟨⟨r, hr, by omega, by omega⟩, by omega, by omega⟩
  · rintro ⟨⟨r, hr, hr1, hr2⟩, hs, he⟩
    cases hc : clip s e r with
    | none =>
      have := clip_none hc
      omega
    | some q =>
      have h1 := clip_some hc
      refine ⟨q, ?_, ?_, ?_⟩
      · simp only [abs_sub, List.mem_filterMap]; exact ⟨r, hr, hc⟩
      · rw [h1.1]; omega
      · rw [h1.2.1]; omega

theorem mem_blocks (rs : List (Int × Int)) (b : Int) : b ∈ blocks rs ↔ covers rs b := by
  induction rs with
  | nil => simp [blocks, covers]
  | cons r t ih =>
    have hb : blocks (r :: t) = Finset.Icc r.1 r.2 ∪ blocks t := rfl
    rw [hb, Finset.mem_union, Finset.mem_Icc, ih]
    constructor
    · rintro (h | ⟨y, hy, h1, h2⟩)
      · exact ⟨r, by simp, h.1, h.2⟩
      · exact ⟨y, List.mem_cons_of_mem _ hy, h1, h2⟩
    · rintro ⟨y, hy, h1, h2⟩
      rcases List.mem_cons.1 hy with hy | hy
      · left; rw [hy] at h1 h2; exact ⟨h1, h2⟩
      · right; exact ⟨y, hy, h1, h2⟩

/-- For canonical ranges the sum of the lengths is the number of blocks. -/
theorem card_blocks {rs : List (Int × Int)} (h : canonical rs) :
    ((blocks rs).card : Int) = total rs := by
  rw [canonical_iff] at h
  obtain ⟨hv, hp⟩ := h
  induction rs with
  | nil => simp [blocks, total]
  | cons r t ih =>
    have hb : blocks (r :: t) = Finset.Icc r.1 r.2 ∪ blocks t := rfl
    have hp2 := List.pairwise_cons.1 hp
    have hr := hv r (by simp)
    have hdisj : Disjoint (Finset.Icc r.1 r.2) (blocks t) := by
      rw [Finset.disjoint_left]
      intro b hb1 hb2
      rw [Finset.mem_Icc] at hb1
      obtain ⟨y, hy, h1, _⟩ := (mem_blocks t b).1 hb2
      have := hp2.1 y hy
      omega
    rw [hb, Finset.card_union_of_disjoint hdisj, Int.card_Icc]
    have ih2 := ih (fun y hy => hv y (List.mem_cons_of_mem _ hy)) hp2.2
    push_cast
    rw [ih2, Int.toNat_of_nonneg (by omega)]
    simp only [total, List.map_cons, List.sum_cons]
    ring

/-! ## The claims about `add`, `sub`, `union`, `intersect` -/

/-- C1 (defect in `add_range`): the list holding `[5, 5]` and `[10, 10]`, built
by adding `[10, 10]` and then `[5, 5]`, contains block 5; adding `[7, 7]`
returns 0 and afterwards the list no longer contains block 5.  The new range
is linked before `[10, 10]` through that range's `prev`, which was not set
when `[5, 5]` was linked before it. -/
theorem add_drops_present_block :
    ∃ L L1, add_all ddb_blocklist_new [(10, 10), (5, 5)] = Res.ok L ∧
      ddb_blocklist_has L 5 = Res.ok 1 ∧
      ddb_blocklist_add L 7 7 = Res.ok (0, L1) ∧
      ddb_blocklist_has L1 5 = Res.ok 0 ∧
      ddb_blocklist_iterate L1 = Res.ok [(7, 7), (10, 10)] :=
  ⟨_, _, rfl, rfl, rfl, rfl, rfl⟩

/-- What `add_range` keeps when its sums stay within `off_t` (`add_range`
computes them in the integers) and no call follows the `prev` of a range to a
released range: after a sequence of `ddb_blocklist_add` calls with `s ≤ e`
from the empty list, the run never lacks fuel, and whenever it returns a list
the ranges visited from `first` through `next` are canonical; and on such a
list, adding `[s, e]` between a range ending at `s - 1` and a range starting
at `e + 1` returns 0 and leaves the single range from the start of the one to
the end of the other in their place. -/
theorem add_keeps_ranges_canonical (ops : List (Int × Int)) (hops : ∀ op ∈ ops, op.1 ≤ op.2) :
    add_all ddb_blocklist_new ops ≠ Res.nofuel ∧
    ∀ L, add_all ddb_blocklist_new ops = Res.ok L →
      (∃ rs, ddb_blocklist_iterate L = Res.ok rs ∧ canonical rs) ∧
      (∀ (pre post : List (Int × Int)) (a b s e : Int), s ≤ e →
        ddb_blocklist_iterate L = Res.ok (pre ++ (a, s - 1) :: (e + 1, b) :: post) →
        ∃ L1, ddb_blocklist_add L s e = Res.ok (0, L1) ∧
          ddb_blocklist_iterate L1 = Res.ok (pre ++ (a, b) :: post)) := by
  obtain ⟨h1, h2⟩ := add_all_wf ops ddb_blocklist_new [] wf_new hops
  refine ⟨h1, ?_⟩
  intro L hL
  obtain ⟨l, hl, hc⟩ := h2 L hL
  refine ⟨⟨ranges l, iterate_spec hl, hc⟩, ?_⟩
  intro pre post a b s e hse hit
  rw [iterate_spec hl] at hit
  simp only [Res.ok.injEq] at hit
  have hv := ((canonical_iff _).1 hc).1
  rw [hit] at hc
  obtain ⟨t1, t2⟩ := abs_add_touch_both hc hse
  rcases add_range_spec hl hv hse with ⟨ls1, l1, e1, e2, e3, _⟩ | ⟨hst, _⟩
  · refine ⟨ls1, ?_, ?_⟩
    · simp only [ddb_blocklist_add, e1]
    · rw [iterate_spec e2, e3, hit, t1]
  · rw [hit] at hst
    exact absurd hst t2

/-- The calls of the unit test up to the join of three ranges. -/
theorem add_keeps_ranges_canonical_witness :
    (∀ op ∈ [((42 : Int), (99 : Int)), (3, 16), (135, 142)], op.1 ≤ op.2) ∧
    (add_all ddb_blocklist_new [(42, 99), (3, 16), (135, 142)] ≠ Res.nofuel ∧
    ∀ L, add_all ddb_blocklist_new [(42, 99), (3, 16), (135, 142)] = Res.ok L →
      (∃ rs, ddb_blocklist_iterate L = Res.ok rs ∧ canonical rs) ∧
      (∀ (pre post : List (Int × Int)) (a b s e : Int), s ≤ e →
        ddb_blocklist_iterate L = Res.ok (pre ++ (a, s - 1) :: (e + 1, b) :: post) →
        ∃ L1, ddb_blocklist_add L s e = Res.ok (0, L1) ∧
          ddb_blocklist_iterate L1 = Res.ok (pre ++ (a, b) :: post))) :=
  ⟨by decide, add_keeps_ranges_canonical [(42, 99), (3, 16), (135, 142)] (by decide)⟩

/-- C3 (defect in `add_range`, the one of C1): after adding `[10, 10]`,
`[5, 5]` and `[7, 7]` the count is 3 while the ranges visited by
`ddb_blocklist_iterate` are `[7, 7]` and `[10, 10]`, whose lengths sum to 2. -/
theorem add_count_exceeds_ranges :
    ∃ L, add_all ddb_blocklist_new [(10, 10), (5, 5), (7, 7)] = Res.ok L ∧
      ddb_blocklist_iterate L = Res.ok [(7, 7), (10, 10)] ∧
      ddb_blocklist_count L = 3 ∧ total [(7, 7), (10, 10)] = 2 :=
  ⟨_, rfl, rfl, rfl, rfl⟩

/-- C4 (defect in `ddb_blocklist_intersect`): for `A` holding `[1, 1]` and
`[10, 20]` and `B` holding `[5, 15]`, the intersection is the single range
`[5, 15]`: it contains block 5, which `A` does not contain.  The cursor of `A`
is advanced to `[10, 20]` and only the ends of the cursors are compared. -/
theorem intersect_contains_foreign_block :
    ∃ A B I, add_all ddb_blocklist_new [(1, 1), (10, 20)] = Res.ok A ∧
      add_all ddb_blocklist_new [(5, 15)] = Res.ok B ∧
      ddb_blocklist_iterate A = Res.ok [(1, 1), (10, 20)] ∧
      ddb_blocklist_iterate B = Res.ok [(5, 15)] ∧
      ddb_blocklist_intersect [A, B] = Res.ok I ∧
      ddb_blocklist_iterate I = Res.ok [(5, 15)] ∧
      ddb_blocklist_has I 5 = Res.ok 1 ∧
      ddb_blocklist_has A 5 = Res.ok 0 ∧
      ddb_blocklist_has B 5 = Res.ok 1 :=
  ⟨_, _, _, rfl, rfl, rfl, rfl, rfl, rfl, rfl, rfl, rfl⟩

/-- C5 (defect in `add_range`, the one of C1): for `L1` holding `[10, 10]` and
`L2` holding `[5, 5]` and `[7, 7]`, the union holds `[7, 7]` and `[10, 10]`
only: it does not contain block 5, which `L2` contains. -/
theorem union_drops_block :
    ∃ L1 L2 U, add_all ddb_blocklist_new [(10, 10)] = Res.ok L1 ∧
      add_all ddb_blocklist_new [(5, 5), (7, 7)] = Res.ok L2 ∧
      ddb_blocklist_iterate L2 = Res.ok [(5, 5), (7, 7)] ∧
      ddb_blocklist_union [L1, L2] = Res.ok U ∧
      ddb_blocklist_iterate U = Res.ok [(7, 7), (10, 10)] ∧
      ddb_blocklist_has U 5 = Res.ok 0 ∧
      ddb_blocklist_has L2 5 = Res.ok 1 :=
  ⟨_, _, _, rfl, rfl, rfl, rfl, rfl, rfl, rfl⟩

/-- C6: for a list `A` whose chain from `first` reaches NULL with canonical
ranges, and all `s`, `e`: `ddb_blocklist_sub` returns a list `S` that contains
a block exactly when `A` contains it and `s ≤ b ≤ e`; the ranges of `S` are
canonical and its count is the number of such blocks.  The argument is a value
that the function only reads. -/
theorem sub_is_restriction (A : ddb_blocklist_t) (l : List (Nat × range_t))
    (hA : Seg A.mem A.first l none) (hc : canonical (ranges l)) (s e : Int) :
    ∃ S rs, ddb_blocklist_sub A s e = Res.ok S ∧
      (∀ b, ddb_blocklist_has S b = Res.ok 1 ↔
        (ddb_blocklist_has A b = Res.ok 1 ∧ s ≤ b ∧ b ≤ e)) ∧
      (∀ b, ddb_blocklist_has S b = Res.ok 1 ∨ ddb_blocklist_has S b = Res.ok 0) ∧
      ddb_blocklist_iterate S = Res.ok rs ∧ canonical rs ∧
      ∃ F : Finset Int, (∀ b, b ∈ F ↔ (ddb_blocklist_has A b = Res.ok 1 ∧ s ≤ b ∧ b ≤ e)) ∧
        ddb_blocklist_count S = (F.card : Int) := by
  obtain ⟨S, l1, e1, e2, e3, e4⟩ := sub_spec hA hc s e
  have hc1 : canonical (ranges l1) := by rw [e3]; exact abs_sub_canonical hc s e
  have hhas : ∀ b, ddb_blocklist_has S b = Res.ok 1 ↔
      (ddb_blocklist_has A b = Res.ok 1 ∧ s ≤ b ∧ b ≤ e) := by
    intro b
    rw [has_eq_one_iff e2.seg hc1, has_eq_one_iff hA hc, e3, covers_abs_sub]
  refine ⟨S, ranges l1, e1, hhas, ?_, iterate_spec e2, hc1, blocks (ranges l1), ?_, ?_⟩
  · intro b
    by_cases hcov : covers (ranges l1) b
    · left; exact (has_spec e2.seg hc1 b).1 hcov
    · right; exact (has_spec e2.seg hc1 b).2 hcov
  · intro b
    rw [mem_blocks, ← has_eq_one_iff e2.seg hc1]
    exact hhas b
  · rw [card_blocks hc1, e3]
    exact e4

/-- C6 at the list `two_ranges` and the window `[3, 12]`. -/
theorem sub_is_restriction_witness :
    (Seg two_ranges.mem two_ranges.first two_ranges_cells none ∧
      canonical (ranges two_ranges_cells)) ∧
    ∃ S rs, ddb_blocklist_sub two_ranges 3 12 = Res.ok S ∧
      (∀ b, ddb_blocklist_has S b = Res.ok 1 ↔
        (ddb_blocklist_has two_ranges b = Res.ok 1 ∧ 3 ≤ b ∧ b ≤ 12)) ∧
      (∀ b, ddb_blocklist_has S b = Res.ok 1 ∨ ddb_blocklist_has S b = Res.ok 0) ∧
      ddb_blocklist_iterate S = Res.ok rs ∧ canonical rs ∧
      ∃ F : Finset Int, (∀ b, b ∈ F ↔
          (ddb_blocklist_has two_ranges b = Res.ok 1 ∧ 3 ≤ b ∧ b ≤ 12)) ∧
        ddb_blocklist_count S = (F.card : Int) :=
  ⟨⟨⟨rfl, rfl, rfl, rfl, rfl⟩, by simp [canonical, ranges, two_ranges_cells]⟩,
    sub_is_restriction two_ranges two_ranges_cells ⟨rfl, rfl, rfl, rfl, rfl⟩
      (by simp [canonical, ranges, two_ranges_cells]) 3 12⟩

/-! ## The binary form -/

theorem be_bytes_length : ∀ (n u : Nat), (be_bytes n u).length = n
  | 0, _ => rfl
  | n + 1, u => by simp [be_bytes, be_bytes_length n]

theorem of_be_bytes_be_bytes : ∀ (n u : Nat), of_be_bytes (be_bytes n u) = u % 256 ^ n
  | 0, u => by simp [be_bytes, of_be_bytes, Nat.mod_one]
  | n + 1, u => by
    have ih := of_be_bytes_be_bytes n (u / 256)
    unfold of_be_bytes at ih ⊢
    simp only [be_bytes, List.foldl_append, List.foldl_cons, List.foldl_nil, ih]
    rw [pow_succ, Nat.mul_comm (256 ^ n) 256, Nat.mod_mul, Nat.mod_mod]
    ring

theorem be64_length (x : Int) : (be64 x).length = 8 := be_bytes_length 8 _

theorem of_be64_be64 (x : Int) (h1 : -2 ^ 63 ≤ x) (h2 : x < 2 ^ 63) : of_be64 (be64 x) = x := by
  have hu : ((x % 2 ^ 64).toNat : Int) = x % 2 ^ 64 :=
    Int.toNat_of_nonneg (Int.emod_nonneg _ (by norm_num))
  have hlt : (x % 2 ^ 64).toNat < 2 ^ 64 := by
    have : x % 2 ^ 64 < 2 ^ 64 := Int.emod_lt_of_pos _ (by norm_num)
    omega
  have hfold : of_be_bytes (be64 x) = (x % 2 ^ 64).toNat := by
    unfold be64
    rw [of_be_bytes_be_bytes]
    exact Nat.mod_eq_of_lt (by norm_num at hlt ⊢; exact hlt)
  unfold of_be64
  rw [hfold]
  split_ifs with hc
  · omega
  · omega

theorem wrap64_id {x : Int} (h1 : -2 ^ 63 ≤ x) (h2 : x < 2 ^ 63) : wrap64 x = x := by
  unfold wrap64
  omega

theorem getlistrec_sendlistrec (a b : Int) (rest : List Nat)
    (ha1 : -2 ^ 63 ≤ a) (ha2 : a < 2 ^ 63) (hb1 : -2 ^ 63 ≤ b) (hb2 : b < 2 ^ 63) :
    getlistrec (sendlistrec a b ++ rest) = some (a, b, rest) := by
  have hlen : (sendlistrec a b ++ rest).length = 16 + rest.length := by
    simp only [sendlistrec, List.length_append, be64_length]
  have h1 : (sendlistrec a b ++ rest).take 8 = be64 a := by
    simp only [sendlistrec, List.append_assoc]
    rw [List.take_append_of_le_length (by simp [be64_length])]
    exact List.take_of_length_le (by simp [be64_length])
  have h2 : ((sendlistrec a b ++ rest).drop 8).take 8 = be64 b := by
    simp only [sendlistrec, List.append_assoc]
    rw [List.drop_append_of_le_length (by simp [be64_length])]
    rw [List.drop_of_length_le (by simp [be64_length]), List.nil_append]
    rw [List.take_append_of_le_length (by simp [be64_length])]
    exact List.take_of_length_le (by simp [be64_length])
  have h3 : (sendlistrec a b ++ rest).drop 16 = rest := by
    have : (sendlistrec a b).length = 16 := by simp [sendlistrec, be64_length]
    rw [← this, List.drop_left]
  unfold getlistrec
  rw [if_neg (by omega), h1, h2, h3, of_be64_be64 a ha1 ha2, of_be64_be64 b hb1 hb2]

theorem count_ranges_spec {m : List (Option range_t)} :
    ∀ (l : List (Nat × range_t)) (p : Option Nat) (fuel : Nat) (c : Int), Seg m p l none →
      l.length < fuel → 0 ≤ c → c + l.length < 2 ^ 63 →
      count_ranges fuel m p c = Res.ok (c + l.length)
  | [], p, fuel, c, h, hf, _, _ => by
    have h : p = none := h
    cases fuel with
    | zero => simp at hf
    | succ k => rw [h]; simp [count_ranges]
  | x :: t, p, fuel, c, h, hf, hc, hb => by
    obtain ⟨h1, h2, h3⟩ := h
    cases fuel with
    | zero => simp at hf
    | succ k =>
      have hk : t.length < k := by simpa using hf
      simp only [List.length_cons, Nat.cast_add, Nat.cast_one] at hb
      rw [h1]
      simp only [count_ranges, deref_of_get h2]
      rw [wrap64_id (by omega) (by omega),
        count_ranges_spec t _ k (c + 1) h3 hk (by omega) (by omega)]
      simp only [List.length_cons, Nat.cast_add, Nat.cast_one]
      congr 1; ring

theorem send_ranges_spec {m : List (Option range_t)} :
    ∀ (l : List (Nat × range_t)) (p : Option Nat) (fuel : Nat), Seg m p l none →
      l.length < fuel → send_ranges fuel m p = Res.ok (records (ranges l))
  | [], p, fuel, h, hf => by
    have h : p = none := h
    cases fuel with
    | zero => simp at hf
    | succ k => rw [h]; rfl
  | x :: t, p, fuel, h, hf => by
    obtain ⟨h1, h2, h3⟩ := h
    cases fuel with
    | zero => simp at hf
    | succ k =>
      have hk : t.length < k := by simpa using hf
      rw [h1]
      simp only [send_ranges, deref_of_get h2, send_ranges_spec t _ k h3 hk]
      simp [ranges, records]

theorem length_le_total : ∀ (rs : List (Int × Int)), (∀ r ∈ rs, r.1 ≤ r.2) →
    (rs.length : Int) ≤ total rs
  | [], _ => by simp [total]
  | r :: t, hv => by
    have := length_le_total t (fun y hy => hv y (List.mem_cons_of_mem _ hy))
    have := hv r (by simp)
    simp only [total, List.map_cons, List.sum_cons, List.length_cons, Nat.cast_add,
      Nat.cast_one] at *
    omega

theorem total_nonneg : ∀ (rs : List (Int × Int)), (∀ r ∈ rs, r.1 ≤ r.2) → 0 ≤ total rs
  | [], _ => by simp [total]
  | r :: t, hv => by
    have := total_nonneg t (fun y hy => hv y (List.mem_cons_of_mem _ hy))
    have := hv r (by simp)
    simp only [total, List.map_cons, List.sum_cons] at *
    omega

theorem Linked.of_count {ls : ddb_blocklist_t} {l : List (Nat × range_t)} (h : Linked ls l)
    (c : Int) : Linked { ls with count := c } l :=
  ⟨h.seg, h.nodup, h.last, h.prev_lt, h.prev_self, h.prev_later⟩

/-- Appending a range after the cell `append`, which is the final cell of the
chain built so far. -/
theorem append_range_spec {res : ddb_blocklist_t} {append : Option Nat}
    {acc : List (Nat × range_t)} (h : Linked { res with last := append } acc) (s e : Int) :
    ∃ res1 a1 l1, append_range res append s e = Res.ok (res1, a1) ∧
      Linked { res1 with last := a1 } l1 ∧ ranges l1 = ranges acc ++ [(s, e)] ∧
      res1.count = wrap64 (res.count + wrap64 (wrap64 (e - s) + 1)) := by
  obtain ⟨ls1, l1, e1, e2, e3, _⟩ := insert_end_spec h s e
  cases happ : append with
  | none =>
    rw [happ] at e1
    simp only [add_range_insert] at e1
    simp only [Res.ok.injEq] at e1
    refine ⟨{ res with
        mem := res.mem ++ [some { next := none, prev := none, start := s, end_ := e }],
        first := some res.mem.length,
        count := wrap64 (res.count + wrap64 (wrap64 (e - s) + 1)) },
      some res.mem.length, l1, by simp only [append_range], ?_, e3, rfl⟩
    rw [← e1] at e2
    exact e2.of_count _
  | some a =>
    rw [happ] at e1
    simp only [add_range_insert] at e1
    cases hd : deref res.mem a with
    | ok A =>
      rw [hd] at e1
      simp only [Res.ok.injEq] at e1
      refine ⟨{ res with
          mem := store (res.mem ++ [some { next := none, prev := some a, start := s, end_ := e }])
                   a { A with next := some res.mem.length },
          count := wrap64 (res.count + wrap64 (wrap64 (e - s) + 1)) },
        some res.mem.length, l1, by simp only [append_range, hd], ?_, e3, rfl⟩
      rw [← e1] at e2
      exact e2.of_count _
    | fault => rw [hd] at e1; cases e1
    | nofuel => rw [hd] at e1; cases e1

theorem load_loop_spec (rest : List Nat) :
    ∀ (rs : List (Int × Int)) (res : ddb_blocklist_t) (append : Option Nat)
      (acc : List (Nat × range_t)) (last : Int),
      Linked { res with last := append } acc →
      (∀ r ∈ rs, 0 ≤ r.1 ∧ r.1 ≤ r.2 ∧ r.2 < 2 ^ 63) →
      rs.Pairwise (fun a b => a.2 + 2 ≤ b.1) → (∀ r ∈ rs, last ≤ r.1) →
      0 ≤ res.count → res.count + total rs < 2 ^ 63 →
      ∃ res1 a1 l1, load_loop rs.length (records rs ++ rest) res append last =
          Res.ok (some (rest, res1, a1)) ∧
        Linked { res1 with last := a1 } l1 ∧ ranges l1 = ranges acc ++ rs ∧
        res1.count = res.count + total rs
  | [], res, append, acc, last, h, _, _, _, _, _ => by
    exact ⟨res, append, acc, rfl, h, by simp, by simp [total]⟩
  | r :: t, res, append, acc, last, h, hb, hp, hl, hc, hfit => by
    obtain ⟨hr0, hr1, hr2⟩ := hb r (by simp)
    have hbt : ∀ y ∈ t, 0 ≤ y.1 ∧ y.1 ≤ y.2 ∧ y.2 < 2 ^ 63 :=
      fun y hy => hb y (List.mem_cons_of_mem _ hy)
    have hp2 := List.pairwise_cons.1 hp
    have htot : 0 ≤ total t := total_nonneg t (fun y hy => (hbt y hy).2.1)
    have hsum : total (r :: t) = (r.2 - r.1 + 1) + total t := by
      simp only [total, List.map_cons, List.sum_cons]
    rw [hsum] at hfit
    obtain ⟨res1, a1, l1, e1, e2, e3, e4⟩ := append_range_spec h r.1 r.2
    have hcount : res1.count = res.count + (r.2 - r.1 + 1) := by
      rw [e4, wrap64_id (x := r.2 - r.1) (by omega) (by omega),
        wrap64_id (x := r.2 - r.1 + 1) (by omega) (by omega),
        wrap64_id (by omega) (by omega)]
    have hlast : ∀ y ∈ t, wrap64 (r.2 + 2) ≤ y.1 := by
      intro y hy
      have h1 := hp2.1 y hy
      have h2 := hbt y hy
      rw [wrap64_id (by omega) (by omega)]
      exact h1
    obtain ⟨res2, a2, l2, f1, f2, f3, f4⟩ :=
      load_loop_spec rest t res1 a1 l1 (wrap64 (r.2 + 2)) e2 hbt hp2.2 hlast
        (by omega) (by omega)
    refine ⟨res2, a2, l2, ?_, f2, ?_, ?_⟩
    · have hrec : records (r :: t) ++ rest = sendlistrec r.1 r.2 ++ (records t ++ rest) := by
        simp [records]
      have hnot : ¬ (r.1 < last ∨ r.2 < r.1) := by
        have := hl r (by simp)
        omega
      simp only [List.length_cons, load_loop]
      rw [hrec, getlistrec_sendlistrec r.1 r.2 _ (by omega) (by omega) (by omega) hr2]
      simp only [hnot, if_false, e1]
      exact f1
    · rw [f3, e3]; simp
    · rw [f4, hcount, hsum]; ring

/-- The function `ddb_blocklist_save` on a chain that reaches NULL. -/
theorem save_spec {S : ddb_blocklist_t} {l : List (Nat × range_t)}
    (h : Seg S.mem S.first l none) (hlen : (l.length : Int) < 2 ^ 63) :
    ddb_blocklist_save S = Res.ok (0, sendlistrec BLOCKLIST_MAGIC l.length ++ records (ranges l) ++
      sendlistrec BLOCKLIST_MAGIC l.length) := by
  have hf := Seg.length_lt h
  unfold ddb_blocklist_save
  rw [count_ranges_spec l _ _ 0 h hf (le_refl _) (by omega), send_ranges_spec l _ _ h hf]
  simp

theorem magic_fits : -2 ^ 63 ≤ BLOCKLIST_MAGIC ∧ BLOCKLIST_MAGIC < 2 ^ 63 := by
  unfold BLOCKLIST_MAGIC; constructor <;> norm_num

/-- Loading the bytes of a saved canonical list of non-negative ranges. -/
theorem load_records_spec (rs : List (Int × Int)) (rest : List Nat)
    (hc : canonical rs) (hb : ∀ r ∈ rs, 0 ≤ r.1 ∧ r.2 < 2 ^ 63) (hfit : total rs < 2 ^ 63) :
    ∃ L l1, ddb_blocklist_load (sendlistrec BLOCKLIST_MAGIC rs.length ++ records rs ++
        sendlistrec BLOCKLIST_MAGIC rs.length ++ rest) = Res.ok (loaded.list L rest) ∧
      Linked L l1 ∧ ranges l1 = rs ∧ L.count = total rs := by
  rw [canonical_iff] at hc
  have hlen : (rs.length : Int) ≤ total rs := length_le_total rs hc.1
  have hb2 : ∀ r ∈ rs, 0 ≤ r.1 ∧ r.1 ≤ r.2 ∧ r.2 < 2 ^ 63 :=
    fun r hr => ⟨(hb r hr).1, hc.1 r hr, (hb r hr).2⟩
  have h0 : Linked { ddb_blocklist_new with last := none } [] := linked_new
  obtain ⟨res1, a1, l1, e1, e2, e3, e4⟩ :=
    load_loop_spec (sendlistrec BLOCKLIST_MAGIC rs.length ++ rest) rs ddb_blocklist_new none [] 0
      h0 hb2 hc.2 (fun r hr => (hb r hr).1) (le_refl _) (by simp [ddb_blocklist_new]; exact hfit)
  refine ⟨{ res1 with last := a1 }, l1, ?_, e2, by simpa [ranges] using e3, ?_⟩
  · have hs1 : sendlistrec BLOCKLIST_MAGIC rs.length ++ records rs ++
        sendlistrec BLOCKLIST_MAGIC rs.length ++ rest =
        sendlistrec BLOCKLIST_MAGIC rs.length ++
          (records rs ++ (sendlistrec BLOCKLIST_MAGIC rs.length ++ rest)) := by
      simp
    unfold ddb_blocklist_load
    rw [hs1, getlistrec_sendlistrec _ _ _ magic_fits.1 magic_fits.2 (by omega) (by omega)]
    simp only [ne_eq, not_true_eq_false, if_false, Int.toNat_ofNat, e1]
    rw [getlistrec_sendlistrec _ _ _ magic_fits.1 magic_fits.2 (by omega) (by omega)]
    simp
  · show res1.count = total rs
    rw [e4]; simp [ddb_blocklist_new]

/-! ## The claims about `save` and `load` -/

/-- Saving and loading: for a list `S` whose chain from `first` reaches NULL
with canonical ranges of non-negative blocks that fit `off_t`, fewer than
`2 ^ 63` blocks in all, whatever its count: `ddb_blocklist_save` returns 0 and
writes the record (`BLOCKLIST_MAGIC`, n), the n ranges in list order, and
(`BLOCKLIST_MAGIC`, n) again, every integer as eight big-endian bytes;
`ddb_blocklist_load` on these bytes (followed by any further bytes `rest`)
returns a list with the same ranges and leaves `rest` unread; the count of the
list returned is the number of blocks of the ranges, which is the count of `S`
when the count of `S` is the number of its blocks. -/
theorem load_of_save (S : ddb_blocklist_t) (l : List (Nat × range_t)) (rest : List Nat)
    (hS : Seg S.mem S.first l none) (hc : canonical (ranges l))
    (hb : ∀ r ∈ ranges l, 0 ≤ r.1 ∧ r.2 < 2 ^ 63)
    (htot : total (ranges l) < 2 ^ 63) :
    ∃ bytes L, ddb_blocklist_save S = Res.ok (0, bytes) ∧
      bytes = be64 BLOCKLIST_MAGIC ++ be64 l.length ++ records (ranges l) ++
        (be64 BLOCKLIST_MAGIC ++ be64 l.length) ∧
      ddb_blocklist_load (bytes ++ rest) = Res.ok (loaded.list L rest) ∧
      ddb_blocklist_iterate S = Res.ok (ranges l) ∧
      ddb_blocklist_iterate L = Res.ok (ranges l) ∧
      ddb_blocklist_count L = total (ranges l) ∧
      (ddb_blocklist_count S = total (ranges l) →
        ddb_blocklist_count L = ddb_blocklist_count S) := by
  have hv := ((canonical_iff _).1 hc).1
  have hlen : ((ranges l).length : Int) ≤ total (ranges l) := length_le_total _ hv
  have hlen2 : (ranges l).length = l.length := by simp [ranges]
  rw [hlen2] at hlen
  obtain ⟨L, l1, e1, e2, e3, e4⟩ := load_records_spec (ranges l) rest hc hb htot
  rw [hlen2] at e1
  refine ⟨_, L, save_spec hS (by omega), ?_, e1, ?_, ?_, e4, ?_⟩
  · simp [sendlistrec]
  · exact iterate_loop_spec l _ _ hS (Seg.length_lt hS)
  · rw [iterate_spec e2, e3]
  · intro h
    show L.count = S.count
    rw [e4]
    exact h.symm

/-- Saving and loading the list `two_ranges`, followed by three further
bytes. -/
theorem load_of_save_witness :
    (Seg two_ranges.mem two_ranges.first two_ranges_cells none ∧
      canonical (ranges two_ranges_cells) ∧
      (∀ r ∈ ranges two_ranges_cells, 0 ≤ r.1 ∧ r.2 < 2 ^ 63) ∧
      total (ranges two_ranges_cells) < 2 ^ 63) ∧
    ∃ bytes L, ddb_blocklist_save two_ranges = Res.ok (0, bytes) ∧
      bytes = be64 BLOCKLIST_MAGIC ++ be64 two_ranges_cells.length ++
        records (ranges two_ranges_cells) ++
        (be64 BLOCKLIST_MAGIC ++ be64 two_ranges_cells.length) ∧
      ddb_blocklist_load (bytes ++ [1, 2, 3]) = Res.ok (loaded.list L [1, 2, 3]) ∧
      ddb_blocklist_iterate two_ranges = Res.ok (ranges two_ranges_cells) ∧
      ddb_blocklist_iterate L = Res.ok (ranges two_ranges_cells) ∧
      ddb_blocklist_count L = total (ranges two_ranges_cells) ∧
      (ddb_blocklist_count two_ranges = total (ranges two_ranges_cells) →
        ddb_blocklist_count L = ddb_blocklist_count two_ranges) :=
  ⟨⟨⟨rfl, rfl, rfl, rfl, rfl⟩, by simp [canonical, ranges, two_ranges_cells],
      by simp [ranges, two_ranges_cells], by simp [total, ranges, two_ranges_cells]⟩,
    load_of_save two_ranges two_ranges_cells [1, 2, 3] ⟨rfl, rfl, rfl, rfl, rfl⟩
      (by simp [canonical, ranges, two_ranges_cells]) (by simp [ranges, two_ranges_cells])
      (by simp [total, ranges, two_ranges_cells])⟩

set_option maxRecDepth 100000 in
/-- C9 (defect in `ddb_blocklist_load`): the stream (`BLOCKLIST_MAGIC`, 2),
(2^63 - 2, 2^63 - 2), (0, 0), (`BLOCKLIST_MAGIC`, 2) is accepted although the
second range starts below the end of the first plus 2, and the list returned
holds the ranges `[2^63 - 2, 2^63 - 2]` and `[0, 0]` in this order, which is
not canonical.  The assignment `last = end + 2` leaves the range of `off_t` and
wraps to `-2^63`, so the test `start < last` lets every later start through. -/
theorem load_accepts_unsorted_ranges :
    loaded_view (ddb_blocklist_load
      [66, 108, 111, 99, 107, 76, 115, 116, 0, 0, 0, 0, 0, 0, 0, 2,
       127, 255, 255, 255, 255, 255, 255, 254, 127, 255, 255, 255, 255, 255, 255, 254,
       0, 0, 0, 0, 0, 0, 0, 0, 0, 0, 0, 0, 0, 0, 0, 0,
       66, 108, 111, 99, 107, 76, 115, 116, 0, 0, 0, 0, 0, 0, 0, 2]) =
      some ([(9223372036854775806, 9223372036854775806), (0, 0)], 2, []) ∧
    ¬ canonical [(9223372036854775806, 9223372036854775806), (0, 0)] := by
  refine ⟨by rfl, ?_⟩
  simp [canonical]

/-! ## The textual form -/

theorem digit_char_toNat {d : Nat} (h : d < 10) : (digit_char d).toNat = 48 + d := by
  interval_cases d <;> rfl

theorem isdigit_digit_char {d : Nat} (h : d < 10) : isdigit (digit_char d) = true := by
  interval_cases d <;> rfl

theorem isspace_of_isdigit {c : Char} (h : isdigit c = true) : isspace c = false := by
  unfold isdigit at h
  unfold isspace
  simp only [decide_eq_true_eq, decide_eq_false_iff_not] at h ⊢
  omega

theorem not_sign_of_isdigit {c : Char} (h : isdigit c = true) : c.toNat ≠ 45 ∧ c.toNat ≠ 43 := by
  unfold isdigit at h
  simp only [decide_eq_true_eq] at h
  omega

theorem scan_digits_dec_fuel : ∀ (fuel n : Nat) (rest : List Char) (k : Nat), n < fuel →
    scan_digits (dec_fuel fuel n ++ rest) k =
      scan_digits rest (k * 10 ^ (dec_fuel fuel n).length + n)
  | 0, _, _, _, h => by omega
  | fuel + 1, n, rest, k, h => by
    unfold dec_fuel
    by_cases hn : n < 10
    · rw [if_pos hn]
      simp only [List.singleton_append, List.length_singleton, pow_one, scan_digits,
        isdigit_digit_char hn, if_true, digit_char_toNat hn]
      congr 1
      omega
    · rw [if_neg hn]
      have hlt : n / 10 < fuel := by omega
      have hmod : n % 10 < 10 := Nat.mod_lt _ (by norm_num)
      rw [List.append_assoc, scan_digits_dec_fuel fuel (n / 10) _ k hlt]
      simp only [List.singleton_append, scan_digits, isdigit_digit_char hmod, if_true,
        digit_char_toNat hmod, List.length_append, List.length_singleton, pow_succ]
      congr 1
      have := Nat.div_add_mod n 10
      have e1 : 48 + n % 10 - 48 = n % 10 := by omega
      rw [e1]
      generalize 10 ^ (dec_fuel fuel (n / 10)).length = P
      calc (k * P + n / 10) * 10 + n % 10 = k * (P * 10) + (10 * (n / 10) + n % 10) := by ring
        _ = k * (P * 10) + n := by rw [this]

theorem dec_fuel_digits : ∀ (fuel n : Nat), ∀ c ∈ dec_fuel fuel n, isdigit c = true
  | 0, _, c, hc => by simp [dec_fuel] at hc
  | fuel + 1, n, c, hc => by
    unfold dec_fuel at hc
    by_cases hn : n < 10
    · rw [if_pos hn] at hc
      simp only [List.mem_singleton] at hc
      rw [hc]; exact isdigit_digit_char hn
    · rw [if_neg hn] at hc
      rcases List.mem_append.1 hc with hc | hc
      · exact dec_fuel_digits fuel _ c hc
      · simp only [List.mem_singleton] at hc
        rw [hc]; exact isdigit_digit_char (Nat.mod_lt _ (by norm_num))

theorem dec_fuel_ne_nil : ∀ (fuel n : Nat), n < fuel → dec_fuel fuel n ≠ []
  | 0, _, h => by omega
  | fuel + 1, n, _ => by
    unfold dec_fuel
    split_ifs <;> simp

theorem dec_fuel_length : ∀ (k fuel n : Nat), n < fuel → n < 10 ^ (k + 1) →
    (dec_fuel fuel n).length ≤ k + 1
  | _, 0, _, h, _ => by omega
  | 0, fuel + 1, n, _, h2 => by
    unfold dec_fuel
    rw [if_pos (by simpa using h2)]
    simp
  | k + 1, fuel + 1, n, h1, h2 => by
    unfold dec_fuel
    by_cases hn : n < 10
    · rw [if_pos hn]; simp
    · rw [if_neg hn]
      have hlt : n / 10 < fuel := by omega
      have h3 : n / 10 < 10 ^ (k + 1) := by
        rw [pow_succ] at h2
        exact Nat.div_lt_of_lt_mul (by rw [Nat.mul_comm]; exact h2)
      have := dec_fuel_length k fuel (n / 10) hlt h3
      simp only [List.length_append, List.length_singleton]
      omega

theorem dec_digits (n : Nat) : ∀ c ∈ dec n, isdigit c = true := dec_fuel_digits _ _

theorem dec_ne_nil (n : Nat) : dec n ≠ [] := dec_fuel_ne_nil _ _ (Nat.lt_succ_self n)

theorem dec_length (n : Nat) (h : n < 2 ^ 63) : (dec n).length ≤ 19 := by
  apply dec_fuel_length 18 _ _ (Nat.lt_succ_self n)
  calc n < 2 ^ 63 := h
    _ ≤ 10 ^ (18 + 1) := by norm_num

theorem scan_digits_stop (rest : List Char) (k : Nat)
    (h : ∀ c ∈ rest.head?, isdigit c = false) : scan_digits rest k = (k, rest) := by
  cases rest with
  | nil => rfl
  | cons c t =>
    have := h c (by simp)
    simp [scan_digits, this]

/-- Reading back with `%lld` what `%lld` printed, for a non-negative value. -/
theorem scan_lld_lld (x : Int) (rest : List Char) (h0 : 0 ≤ x) (h1 : x < 2 ^ 63)
    (hrest : ∀ c ∈ rest.head?, isdigit c = false) :
    scan_lld (lld x ++ rest) = some (x, rest) := by
  have hx : ¬ x < 0 := by omega
  unfold lld
  rw [if_neg hx]
  have hne := dec_ne_nil x.natAbs
  have hsc := scan_digits_dec_fuel (x.natAbs + 1) x.natAbs rest 0 (Nat.lt_succ_self _)
  rw [scan_digits_stop rest _ hrest] at hsc
  simp only [Nat.zero_mul, Nat.zero_add] at hsc
  have hdig := dec_digits x.natAbs
  change scan_digits (dec x.natAbs ++ rest) 0 = (x.natAbs, rest) at hsc
  cases hd : dec x.natAbs with
  | nil => exact absurd hd hne
  | cons c t =>
    rw [hd] at hsc hdig
    have hc : isdigit c = true := hdig c (by simp)
    have hsp := isspace_of_isdigit hc
    have hsg := not_sign_of_isdigit hc
    unfold scan_lld
    simp only [List.cons_append, List.dropWhile_cons, hsp, Bool.false_eq_true, if_false]
    rw [if_neg hsg.1, if_neg hsg.2, if_pos hc]
    simp only [List.cons_append] at hsc
    rw [hsc]
    have habs : ((x.natAbs : Nat) : Int) = x := Int.natAbs_of_nonneg h0
    simp only [habs]
    unfold clamp_ll
    rw [if_neg (by omega), if_neg (by omega)]

theorem take_line_spec : ∀ (body : List Char) (k : Nat) (rest : List Char),
    (∀ c ∈ body, c ≠ nl) → body.length < k →
    take_line k (body ++ nl :: rest) = (body ++ [nl], rest)
  | [], k, rest, _, hk => by
    cases k with
    | zero => simp at hk
    | succ k => simp [take_line]
  | c :: t, k, rest, hb, hk => by
    cases k with
    | zero => simp at hk
    | succ k =>
      have hc : c ≠ nl := hb c (by simp)
      have ih := take_line_spec t k rest (fun d hd => hb d (List.mem_cons_of_mem _ hd))
        (by simpa using hk)
      show take_line (k + 1) (c :: (t ++ nl :: rest)) = (c :: (t ++ [nl]), rest)
      simp only [take_line, hc, if_false, ih]

theorem isdigit_nl : isdigit nl = false := rfl

theorem isdigit_colon : isdigit (Char.ofNat 58) = false := rfl

theorem ne_nl_of_isdigit {c : Char} (h : isdigit c = true) : c ≠ nl := by
  intro hc
  rw [hc, isdigit_nl] at h
  cases h

theorem lld_nonneg_chars {x : Int} (h0 : 0 ≤ x) : ∀ c ∈ lld x, isdigit c = true := by
  unfold lld
  rw [if_neg (by omega)]
  exact dec_digits _

theorem lld_nonneg_length {x : Int} (h0 : 0 ≤ x) (h1 : x < 2 ^ 63) : (lld x).length ≤ 19 := by
  unfold lld
  rw [if_neg (by omega)]
  apply dec_length
  omega

/-- The body of a printed line (without the newline). -/
theorem print_line_body {s e : Int} (hs : 0 ≤ s) (he : 0 ≤ e) (hs1 : s < 2 ^ 63)
    (he1 : e < 2 ^ 63) :
    ∃ body, print_line s e = body ++ [nl] ∧ (∀ c ∈ body, c ≠ nl) ∧ body.length < 127 := by
  have ls := lld_nonneg_length hs hs1
  have le := lld_nonneg_length he he1
  unfold print_line
  by_cases hse : s = e
  · rw [if_pos hse]
    exact ⟨lld s, rfl, fun c hc => ne_nl_of_isdigit (lld_nonneg_chars hs c hc), by omega⟩
  · rw [if_neg hse]
    refine ⟨lld s ++ (Char.ofNat 58) :: lld e, by simp, ?_, ?_⟩
    · intro c hc
      simp only [List.mem_append, List.mem_cons] at hc
      rcases hc with hc | hc | hc
      · exact ne_nl_of_isdigit (lld_nonneg_chars hs c hc)
      · rw [hc]; decide
      · exact ne_nl_of_isdigit (lld_nonneg_chars he c hc)
    · simp only [List.length_append, List.length_cons]
      omega

theorem fgets_print_line {s e : Int} (hs : 0 ≤ s) (he : 0 ≤ e) (hs1 : s < 2 ^ 63)
    (he1 : e < 2 ^ 63) (rest : List Char) :
    fgets 128 (print_line s e ++ rest) = some (print_line s e, rest) := by
  obtain ⟨body, h1, h2, h3⟩ := print_line_body hs he hs1 he1
  rw [h1]
  have hshape : body ++ [nl] ++ rest = body ++ nl :: rest := by simp
  rw [hshape]
  have := take_line_spec body 127 rest h2 h3
  cases hb : body ++ nl :: rest with
  | nil => simp at hb
  | cons c t =>
    rw [hb] at this
    simp only [fgets]
    rw [this]

theorem sscanf_print_line {s e : Int} (hs : 0 ≤ s) (he : 0 ≤ e) (hs1 : s < 2 ^ 63)
    (he1 : e < 2 ^ 63) :
    sscanf_range (print_line s e) = some (s, if s = e then none else some e) := by
  unfold print_line sscanf_range
  by_cases hse : s = e
  · rw [if_pos hse, if_pos hse,
      scan_lld_lld s [nl] hs hs1 (by intro c hc; simp at hc; rw [← hc]; exact isdigit_nl)]
    rfl
  · rw [if_neg hse, if_neg hse,
      scan_lld_lld s _ hs hs1 (by intro c hc; simp at hc; rw [← hc]; exact isdigit_colon)]
    simp only []
    rw [if_pos (by rfl),
      scan_lld_lld e [nl] he he1 (by intro c hc; simp at hc; rw [← hc]; exact isdigit_nl)]

theorem print_line_ne_nil (s e : Int) : 1 ≤ (print_line s e).length := by
  unfold print_line
  split_ifs
  · simp
  · simp only [List.length_append, List.length_cons]; omega

theorem length_le_lines : ∀ (rs : List (Int × Int)), rs.length ≤ (lines rs).length
  | [] => by simp
  | r :: t => by
    have := length_le_lines t
    have := print_line_ne_nil r.1 r.2
    simp only [lines, List.length_cons, List.length_append]
    omega

theorem print_ranges_spec {m : List (Option range_t)} :
    ∀ (l : List (Nat × range_t)) (p : Option Nat) (fuel : Nat), Seg m p l none →
      l.length < fuel → print_ranges fuel m p = Res.ok (lines (ranges l))
  | [], p, fuel, h, hf => by
    have h : p = none := h
    cases fuel with
    | zero => simp at hf
    | succ k => rw [h]; rfl
  | x :: t, p, fuel, h, hf => by
    obtain ⟨h1, h2, h3⟩ := h
    cases fuel with
    | zero => simp at hf
    | succ k =>
      have hk : t.length < k := by simpa using hf
      rw [h1]
      simp only [print_ranges, deref_of_get h2, print_ranges_spec t _ k h3 hk]
      simp [ranges, lines]

theorem read_loop_spec :
    ∀ (rs : List (Int × Int)) (fuel : Nat) (res : ddb_blocklist_t) (append : Option Nat)
      (acc : List (Nat × range_t)) (last : Int),
      rs.length < fuel →
      Linked { res with last := append } acc →
      (∀ r ∈ rs, 0 ≤ r.1 ∧ r.1 ≤ r.2 ∧ r.2 < 2 ^ 63) →
      rs.Pairwise (fun a b => a.2 + 2 ≤ b.1) → (∀ r ∈ rs, last ≤ r.1) →
      0 ≤ res.count → res.count + total rs < 2 ^ 63 →
      ∃ res1 a1 l1, read_loop fuel (lines rs) res append last = Res.ok (some (res1, a1)) ∧
        Linked { res1 with last := a1 } l1 ∧ ranges l1 = ranges acc ++ rs ∧
        res1.count = res.count + total rs
  | [], fuel, res, append, acc, last, hf, h, _, _, _, _, _ => by
    cases fuel with
    | zero => simp at hf
    | succ k => exact ⟨res, append, acc, rfl, h, by simp, by simp [total]⟩
  | r :: t, fuel, res, append, acc, last, hf, h, hb, hp, hl, hc, hfit => by
    cases fuel with
    | zero => simp at hf
    | succ k =>
      have hk : t.length < k := by simpa using hf
      obtain ⟨hr0, hr1, hr2⟩ := hb r (by simp)
      have hbt : ∀ y ∈ t, 0 ≤ y.1 ∧ y.1 ≤ y.2 ∧ y.2 < 2 ^ 63 :=
        fun y hy => hb y (List.mem_cons_of_mem _ hy)
      have hp2 := List.pairwise_cons.1 hp
      have htot : 0 ≤ total t := total_nonneg t (fun y hy => (hbt y hy).2.1)
      have hsum : total (r :: t) = (r.2 - r.1 + 1) + total t := by
        simp only [total, List.map_cons, List.sum_cons]
      rw [hsum] at hfit
      obtain ⟨res1, a1, l1, e1, e2, e3, e4⟩ := append_range_spec h r.1 r.2
      have hcount : res1.count = res.count + (r.2 - r.1 + 1) := by
        rw [e4, wrap64_id (x := r.2 - r.1) (by omega) (by omega),
          wrap64_id (x := r.2 - r.1 + 1) (by omega) (by omega),
          wrap64_id (by omega) (by omega)]
      have hlast : ∀ y ∈ t, wrap64 (r.2 + 2) ≤ y.1 := by
        intro y hy
        have h1 := hp2.1 y hy
        have h2 := hbt y hy
        rw [wrap64_id (by omega) (by omega)]
        exact h1
      obtain ⟨res2, a2, l2, f1, f2, f3, f4⟩ :=
        read_loop_spec t k res1 a1 l1 (wrap64 (r.2 + 2)) hk e2 hbt hp2.2 hlast
          (by omega) (by omega)
      refine ⟨res2, a2, l2, ?_, f2, ?_, ?_⟩
      · have hend : (match (if r.1 = r.2 then (none : Option Int) else some r.2) with
            | none => r.1
            | some e => e) = r.2 := by
          by_cases hse : r.1 = r.2
          · rw [if_pos hse]; exact hse
          · rw [if_neg hse]
        have hnot : ¬ (r.1 < last ∨ r.2 < r.1) := by
          have := hl r (by simp)
          omega
        simp only [lines, read_loop]
        rw [fgets_print_line hr0 (by omega) (by omega) hr2]
        simp only [sscanf_print_line hr0 (by omega) (by omega) hr2, hend, hnot, if_false, e1]
        exact f1
      · rw [f3, e3]; simp
      · rw [f4, hcount, hsum]; ring

/-- Printing and reading: for a list `S` whose chain from `first` reaches NULL
with canonical ranges of non-negative blocks that fit `off_t`, fewer than
`2 ^ 63` blocks in all, whatever its count: `ddb_blocklist_print` returns 0
and writes one line per range, in list order, the number alone when
`start = end` and `start:end` otherwise; `ddb_blocklist_read` on this text
returns a list with the same ranges; the count of the list returned is the
number of blocks of the ranges, which is the count of `S` when the count of
`S` is the number of its blocks. -/
theorem read_of_print (S : ddb_blocklist_t) (l : List (Nat × range_t))
    (hS : Seg S.mem S.first l none) (hc : canonical (ranges l))
    (hb : ∀ r ∈ ranges l, 0 ≤ r.1 ∧ r.2 < 2 ^ 63)
    (htot : total (ranges l) < 2 ^ 63) :
    ∃ text L, ddb_blocklist_print S = Res.ok (0, text) ∧
      text = lines (ranges l) ∧
      (∀ s e : Int, print_line s e =
        if s = e then lld s ++ [nl] else lld s ++ (Char.ofNat 58) :: (lld e ++ [nl])) ∧
      ddb_blocklist_read text = Res.ok (loaded.list L []) ∧
      ddb_blocklist_iterate S = Res.ok (ranges l) ∧
      ddb_blocklist_iterate L = Res.ok (ranges l) ∧
      ddb_blocklist_count L = total (ranges l) ∧
      (ddb_blocklist_count S = total (ranges l) →
        ddb_blocklist_count L = ddb_blocklist_count S) := by
  have hcan := (canonical_iff _).1 hc
  have hb2 : ∀ r ∈ ranges l, 0 ≤ r.1 ∧ r.1 ≤ r.2 ∧ r.2 < 2 ^ 63 :=
    fun r hr => ⟨(hb r hr).1, hcan.1 r hr, (hb r hr).2⟩
  have h0 : Linked { ddb_blocklist_new with last := none } [] := linked_new
  have hfuel : (ranges l).length < (lines (ranges l)).length + 1 :=
    Nat.lt_succ_of_le (length_le_lines _)
  obtain ⟨res1, a1, l1, e1, e2, e3, e4⟩ :=
    read_loop_spec (ranges l) _ ddb_blocklist_new none [] 0 hfuel h0 hb2 hcan.2
      (fun r hr => (hb r hr).1) (le_refl _)
      (by simp only [ddb_blocklist_new, zero_add]; omega)
  have hcnt : res1.count = total (ranges l) := by
    rw [e4]; simp [ddb_blocklist_new]
  refine ⟨lines (ranges l), { res1 with last := a1 }, ?_, rfl, fun _ _ => rfl, ?_, ?_, ?_,
    hcnt, ?_⟩
  · unfold ddb_blocklist_print
    rw [print_ranges_spec l _ _ hS (Seg.length_lt hS)]
  · unfold ddb_blocklist_read
    rw [e1]
  · exact iterate_loop_spec l _ _ hS (Seg.length_lt hS)
  · rw [iterate_spec e2, e3]; simp [ranges]
  · intro h
    show res1.count = S.count
    rw [hcnt]
    exact h.symm

/-- Printing and reading the list `two_ranges`. -/
theorem read_of_print_witness :
    (Seg two_ranges.mem two_ranges.first two_ranges_cells none ∧
      canonical (ranges two_ranges_cells) ∧
      (∀ r ∈ ranges two_ranges_cells, 0 ≤ r.1 ∧ r.2 < 2 ^ 63) ∧
      total (ranges two_ranges_cells) < 2 ^ 63) ∧
    ∃ text L, ddb_blocklist_print two_ranges = Res.ok (0, text) ∧
      text = lines (ranges two_ranges_cells) ∧
      (∀ s e : Int, print_line s e =
        if s = e then lld s ++ [nl] else lld s ++ (Char.ofNat 58) :: (lld e ++ [nl])) ∧
      ddb_blocklist_read text = Res.ok (loaded.list L []) ∧
      ddb_blocklist_iterate two_ranges = Res.ok (ranges two_ranges_cells) ∧
      ddb_blocklist_iterate L = Res.ok (ranges two_ranges_cells) ∧
      ddb_blocklist_count L = total (ranges two_ranges_cells) ∧
      (ddb_blocklist_count two_ranges = total (ranges two_ranges_cells) →
        ddb_blocklist_count L = ddb_blocklist_count two_ranges) :=
  ⟨⟨⟨rfl, rfl, rfl, rfl, rfl⟩, by simp [canonical, ranges, two_ranges_cells],
      by simp [ranges, two_ranges_cells], by simp [total, ranges, two_ranges_cells]⟩,
    read_of_print two_ranges two_ranges_cells ⟨rfl, rfl, rfl, rfl, rfl⟩
      (by simp [canonical, ranges, two_ranges_cells]) (by simp [ranges, two_ranges_cells])
      (by simp [total, ranges, two_ranges_cells])⟩

/-! ## The file -/

theorem io_next_nil {f : file_t} (h : f.script = []) : io_next f = (true, f) := by
  unfold io_next
  rw [h]

theorem ddb_write_block_ok {f : file_t} (h : f.script = []) (pos len : Int) (buf : List Nat) :
    ddb_write_block f pos len buf = (true, pwrite f pos len buf) := by
  unfold ddb_write_block
  rw [io_next_nil h]
  rfl

theorem pwrite_script (f : file_t) (pos len : Int) (buf : List Nat) :
    (pwrite f pos len buf).script = f.script := rfl

theorem pwrite_size (f : file_t) (pos len : Int) (buf : List Nat) :
    (pwrite f pos len buf).size = if 0 < len ∧ f.size < pos + len then pos + len else f.size :=
  rfl

theorem pwrite_size_of_le {f : file_t} {pos len : Int} (buf : List Nat)
    (h : pos + len ≤ f.size) : (pwrite f pos len buf).size = f.size := by
  rw [pwrite_size, if_neg]
  omega

theorem byte_at_pwrite (f : file_t) {pos : Int} (len : Int) (buf : List Nat) (i : Int)
    (hpos : 0 ≤ pos) :
    byte_at (pwrite f pos len buf) i =
      if pos ≤ i ∧ i < pos + len then buf.getD (i - pos).toNat 0 else byte_at f i := by
  unfold byte_at pwrite
  simp only
  by_cases hin : pos ≤ i ∧ i < pos + len
  · rw [if_pos hin, if_pos, if_pos hin]
    refine ⟨by omega, ?_⟩
    split_ifs <;> omega
  · rw [if_neg hin]
    by_cases hr : 0 ≤ i ∧ i < (if 0 < len ∧ f.size < pos + len then pos + len else f.size)
    · rw [if_pos hr, if_neg hin]
      rfl
    · rw [if_neg hr, if_neg hin, if_neg]
      intro hc
      apply hr
      refine ⟨hc.1, ?_⟩
      split_ifs <;> omega

theorem file_bytes_pwrite_same (f : file_t) {pos : Int} (len : Int) (buf : List Nat)
    (hpos : 0 ≤ pos) : file_bytes (pwrite f pos len buf) pos len = block_image buf len := by
  unfold file_bytes block_image
  apply List.map_congr_left
  intro k hk
  rw [List.mem_range] at hk
  rw [byte_at_pwrite f len buf _ hpos, if_pos (by omega)]
  congr 1
  omega

theorem file_bytes_congr {f g : file_t} {pos len : Int}
    (h : ∀ i, pos ≤ i → i < pos + len → byte_at f i = byte_at g i) :
    file_bytes f pos len = file_bytes g pos len := by
  unfold file_bytes
  apply List.map_congr_left
  intro k hk
  rw [List.mem_range] at hk
  apply h <;> omega

theorem file_bytes_pwrite_other (f : file_t) {pos q l : Int} (len : Int) (buf : List Nat)
    (hpos : 0 ≤ pos) (h : q + l ≤ pos ∨ pos + len ≤ q) :
    file_bytes (pwrite f pos len buf) q l = file_bytes f q l := by
  apply file_bytes_congr
  intro i h1 h2
  rw [byte_at_pwrite f len buf _ hpos, if_neg]
  omega

theorem file_bytes_length (f : file_t) (pos len : Int) :
    (file_bytes f pos len).length = len.toNat := by
  simp [file_bytes]

theorem ftruncate_ok {f : file_t} (h : f.script = []) (n : Int) :
    ftruncate f n = (true, { f with bytes := fun i => if i < n then byte_at f i else 0,
                                    size := n }) := by
  unfold ftruncate
  rw [io_next_nil h]
  rfl

theorem byte_at_truncated (f : file_t) (n i : Int) :
    byte_at { f with bytes := fun i => if i < n then byte_at f i else 0, size := n } i =
      if i < n then byte_at f i else 0 := by
  unfold byte_at
  simp only
  by_cases h1 : i < n
  · by_cases h0 : 0 ≤ i
    · simp [h0, h1]
    · simp [h0, h1]
  · simp [h1]

theorem file_bytes_truncated (f : file_t) {n q l : Int} (h : q + l ≤ n) :
    file_bytes { f with bytes := fun i => if i < n then byte_at f i else 0, size := n } q l =
      file_bytes f q l := by
  apply file_bytes_congr
  intro i h1 h2
  rw [byte_at_truncated, if_pos (by omega)]

theorem ddb_read_block_ok {f : file_t} (h : f.script = []) {pos len : Int}
    (hs : pos + len ≤ f.size) (zf : Bool) :
    ddb_read_block f pos len zf = (some (file_bytes f pos len), f) := by
  unfold ddb_read_block
  rw [io_next_nil h]
  simp [hs]

/-- The padding after the file header leaves the rest of the file alone. -/
theorem pad_header_spec : ∀ (fuel : Nat) (f : file_t) (pos bs : Int), f.script = [] → 0 ≤ pos →
    (pad_header fuel f pos bs).script = [] ∧
    (∀ i, (i < pos ∨ bs ≤ i) → byte_at (pad_header fuel f pos bs) i = byte_at f i) ∧
    (bs ≤ f.size → (pad_header fuel f pos bs).size = f.size) ∧
    f.size ≤ (pad_header fuel f pos bs).size ∧
    (bs ≤ pos + fuel → pos ≤ bs → pos ≤ f.size →
      (pad_header fuel f pos bs).size = if f.size < bs then bs else f.size)
  | 0, f, pos, bs, hs, _ => by
    refine ⟨hs, fun _ _ => rfl, fun _ => rfl, le_refl _, ?_⟩
    intro h1 h2 h3
    simp only [pad_header]
    rw [if_neg]
    simp at h1
    omega
  | fuel + 1, f, pos, bs, hs, hpos => by
    unfold pad_header
    by_cases hlt : pos < bs
    · rw [if_pos hlt, ddb_write_block_ok hs]
      simp only
      generalize hd : (if bs - pos > 4096 then (4096 : Int) else bs - pos) = d
      have hd1 : 0 < d ∧ pos + d ≤ bs := by
        rw [← hd]; split_ifs <;> omega
      have ih := pad_header_spec fuel (pwrite f pos d []) (pos + d) bs
        (by rw [pwrite_script]; exact hs) (by omega)
      obtain ⟨i1, i2, i3, i4, i5⟩ := ih
      refine ⟨i1, ?_, ?_, ?_, ?_⟩
      · intro i hi
        rw [i2 i (by omega), byte_at_pwrite f d [] i hpos, if_neg (by omega)]
      · intro hb
        rw [i3 (by rw [pwrite_size]; split_ifs <;> omega), pwrite_size, if_neg (by omega)]
      · refine le_trans ?_ i4
        rw [pwrite_size]; split_ifs <;> omega
      · intro h1 h2 h3
        by_cases hf : fuel = 0
        · subst hf
          simp only [pad_header]
          rw [pwrite_size]
          simp at h1
          split_ifs <;> omega
        · by_cases h4 : d = 4096
          · rw [i5 (by push_cast at h1 ⊢; omega) (by omega)
              (by rw [pwrite_size]; split_ifs <;> omega), pwrite_size]
            split_ifs <;> omega
          · have hd2 : pos + d = bs := by
              rw [← hd] at h4 ⊢; split_ifs at h4 ⊢ <;> omega
            obtain ⟨k, rfl⟩ : ∃ k, fuel = k + 1 := ⟨fuel - 1, by omega⟩
            rw [hd2]
            unfold pad_header
            rw [if_neg (by omega), pwrite_size]
            split_ifs <;> omega
    · rw [if_neg hlt]
      refine ⟨hs, fun _ _ => rfl, fun _ => rfl, le_refl _, ?_⟩
      intro h1 h2 h3
      rw [if_neg]; omega

/-! ## The disk form of a metadata block -/

theorem field_append_mid (pre x post : List Nat) :
    field (pre ++ (x ++ post)) pre.length x.length = x := by
  simp [field]

theorem field_zero (x post : List Nat) : field (x ++ post) 0 x.length = x :=
  field_append_mid [] x post

theorem block_image_eq (buf : List Nat) (len : Int) (h : buf.length ≤ len.toNat) :
    block_image buf len = buf ++ List.replicate (len.toNat - buf.length) 0 := by
  unfold block_image
  apply List.ext_getElem
  · simp; omega
  · intro i h1 h2
    simp only [List.getElem_map, List.getElem_range]
    by_cases hi : i < buf.length
    · rw [List.getElem_append_left hi, List.getD_eq_getElem _ _ hi]
    · rw [List.getElem_append_right (by omega), List.getElem_replicate,
        List.getD_eq_default _ _ (by omega)]

theorem block_image_length (buf : List Nat) (len : Int) : (block_image buf len).length = len.toNat := by
  simp [block_image]

theorem encode_entry_length (e : metadata_data_t) : (encode_entry e).length = 24 := by
  simp [encode_entry, be64_length]

theorem decode_encode_entry (e : metadata_data_t) (rest : List Nat)
    (h1 : fits64 e.start) (h2 : fits64 e.end_) (h3 : fits64 e.pos) :
    decode_entry (encode_entry e ++ rest) = e := by
  have a1 : field (encode_entry e ++ rest) 0 8 = be64 e.start := by
    have := field_append_mid [] (be64 e.start) (be64 e.end_ ++ be64 e.pos ++ rest)
    simpa [encode_entry, be64_length, List.append_assoc] using this
  have a2 : field (encode_entry e ++ rest) 8 8 = be64 e.end_ := by
    have := field_append_mid (be64 e.start) (be64 e.end_) (be64 e.pos ++ rest)
    simpa [encode_entry, be64_length, List.append_assoc] using this
  have a3 : field (encode_entry e ++ rest) 16 8 = be64 e.pos := by
    have := field_append_mid (be64 e.start ++ be64 e.end_) (be64 e.pos) rest
    simpa [encode_entry, be64_length, List.append_assoc] using this
  unfold decode_entry
  rw [a1, a2, a3, of_be64_be64 _ h1.1 h1.2, of_be64_be64 _ h2.1 h2.2, of_be64_be64 _ h3.1 h3.2]

theorem be32_length (x : Int) : (be32 x).length = 4 := be_bytes_length 4 _

theorem of_be_bytes_be32 (x : Int) (h1 : 0 ≤ x) (h2 : x < 2 ^ 32) :
    of_be_bytes (be32 x) = x.toNat := by
  unfold be32
  rw [of_be_bytes_be_bytes, Int.emod_eq_of_lt h1 h2]
  apply Nat.mod_eq_of_lt
  have : (x.toNat : Int) = x := Int.toNat_of_nonneg h1
  norm_num
  omega

theorem of_be32_be32 (x : Int) (h1 : 0 ≤ x) (h2 : x < 2 ^ 32) : of_be32 (be32 x) = x := by
  unfold of_be32
  rw [of_be_bytes_be32 x h1 h2]
  exact Int.toNat_of_nonneg h1

theorem of_be32s_be32 (x : Int) (h1 : 0 ≤ x) (h2 : x < 2 ^ 31) : of_be32s (be32 x) = x := by
  unfold of_be32s
  rw [of_be_bytes_be32 x h1 (by omega)]
  have : (x.toNat : Int) = x := Int.toNat_of_nonneg h1
  rw [if_pos (by omega)]
  exact this

theorem range_map_data_at (es rest : List metadata_data_t) :
    (List.range es.length).map (fun n => data_at (es ++ rest) n) = es := by
  apply List.ext_getElem
  · simp
  · intro i h1 h2
    simp only [List.getElem_map, List.getElem_range, data_at]
    rw [List.getD_eq_getElem _ _ (by simp; omega), List.getElem_append_left h2]

/-- The buffer of `write_metadata` for the entries `es`. -/
theorem metadata_buffer_eq (next : Int) (data es : List metadata_data_t)
    (h : data.take es.length = es) :
    metadata_buffer next es.length data =
      be64 next ++ (be32 es.length ++ (es.map encode_entry).flatten) := by
  unfold metadata_buffer
  have hd : data = es ++ data.drop es.length := by
    conv_lhs => rw [← List.take_append_drop es.length data, h]
  rw [hd]
  simp only [Int.toNat_ofNat, List.append_assoc]
  have := range_map_data_at es (data.drop es.length)
  rw [show (List.map (fun n => encode_entry (data_at (es ++ List.drop es.length data) n))
      (List.range es.length)) = List.map encode_entry
        ((List.range es.length).map (fun n => data_at (es ++ List.drop es.length data) n)) by
    rw [List.map_map]; rfl, this]

theorem flatten_encode_length (es : List metadata_data_t) :
    ((es.map encode_entry).flatten).length = 24 * es.length := by
  induction es with
  | nil => rfl
  | cons e t ih => simp [encode_entry_length, ih]; ring

theorem drop_flatten_encode : ∀ (es : List metadata_data_t) (n : Nat) (rest : List Nat),
    n ≤ es.length → ((es.map encode_entry).flatten ++ rest).drop (24 * n) =
      ((es.drop n).map encode_entry).flatten ++ rest
  | es, 0, rest, _ => by simp
  | [], n + 1, rest, h => by simp at h
  | e :: t, n + 1, rest, h => by
    have := drop_flatten_encode t n rest (by simpa using h)
    simp only [List.map_cons, List.flatten_cons, List.append_assoc, List.drop_succ_cons]
    rw [show 24 * (n + 1) = (encode_entry e).length + 24 * n by rw [encode_entry_length]; ring]
    rw [← List.drop_drop, List.drop_left]
    exact this

theorem drop_buffer (nxt : Int) (es : List metadata_data_t) (rest : List Nat) (n : Nat)
    (hn : n ≤ es.length) :
    ((be64 nxt ++ (be32 es.length ++ (es.map encode_entry).flatten)) ++ rest).drop (12 + 24 * n) =
      ((es.drop n).map encode_entry).flatten ++ rest := by
  have h12 : (be64 nxt ++ be32 (es.length : Int)).length = 12 := by
    simp [be64_length, be32_length]
  rw [show (be64 nxt ++ (be32 es.length ++ (es.map encode_entry).flatten)) ++ rest =
      (be64 nxt ++ be32 (es.length : Int)) ++ ((es.map encode_entry).flatten ++ rest) by
    simp [List.append_assoc]]
  rw [← List.drop_drop, ← h12, List.drop_left]
  exact drop_flatten_encode es n rest hn

/-- Reading back a metadata block that was written from `es`. -/
theorem decode_block (nxt : Int) (es : List metadata_data_t) (bs : Int) (buf : List Nat)
    (hbuf : buf = block_image (metadata_buffer nxt es.length es) bs)
    (hcap : 12 + 24 * (es.length : Int) ≤ bs) (hbs : bs < 2 ^ 32) (hn : fits64 nxt)
    (hes : ∀ e ∈ es, fits64 e.start ∧ fits64 e.end_ ∧ fits64 e.pos) :
    of_be64 (field buf 0 8) = nxt ∧ of_be32s (field buf 8 4) = es.length ∧
    (∀ n, n < es.length → decode_entry (buf.drop (12 + 24 * n)) = data_at es n) ∧
    decode_entries buf es.length = es := by
  have hm := metadata_buffer_eq nxt es es (List.take_length es)
  have hlen : (metadata_buffer nxt es.length es).length = 12 + 24 * es.length := by
    rw [hm, List.length_append, List.length_append, be64_length, be32_length,
      flatten_encode_length]
    omega
  have hb : buf = (be64 nxt ++ (be32 es.length ++ (es.map encode_entry).flatten)) ++
      List.replicate (bs.toNat - (12 + 24 * es.length)) 0 := by
    rw [hbuf, block_image_eq _ _ (by rw [hlen]; omega), hlen, hm]
  have hent : ∀ n, n < es.length → decode_entry (buf.drop (12 + 24 * n)) = data_at es n := by
    intro n h
    rw [hb, drop_buffer nxt es _ n (le_of_lt h)]
    have hd : es.drop n = data_at es n :: es.drop (n + 1) := by
      rw [data_at, List.getD_eq_getElem _ _ h]
      exact List.drop_eq_getElem_cons h
    rw [hd, List.map_cons, List.flatten_cons, List.append_assoc]
    have hm := hes (data_at es n) (by
      rw [data_at, List.getD_eq_getElem _ _ h]; exact List.getElem_mem _)
    exact decode_encode_entry _ _ hm.1 hm.2.1 hm.2.2
  refine ⟨?_, ?_, hent, ?_⟩
  · have : field buf 0 8 = be64 nxt := by
      have := field_zero (be64 nxt) ((be32 es.length ++ (es.map encode_entry).flatten) ++
        List.replicate (bs.toNat - (12 + 24 * es.length)) 0)
      rw [be64_length] at this
      rw [hb]; simpa [List.append_assoc] using this
    rw [this, of_be64_be64 _ hn.1 hn.2]
  · have : field buf 8 4 = be32 es.length := by
      have := field_append_mid (be64 nxt) (be32 es.length) ((es.map encode_entry).flatten ++
        List.replicate (bs.toNat - (12 + 24 * es.length)) 0)
      rw [be64_length, be32_length] at this
      rw [hb]; simpa [List.append_assoc] using this
    rw [this, of_be32s_be32 _ (by omega) (by omega)]
  · unfold decode_entries
    apply List.ext_getElem
    · simp
    · intro i h1 h2
      simp only [List.getElem_map, List.getElem_range, Int.toNat_ofNat]
      rw [hent i h2, data_at, List.getD_eq_getElem _ _ h2]

/-! ## The index: lists of metadata blocks -/

theorem all_ents_nil : all_ents [] = [] := rfl

theorem all_ents_cons (B : mblk) (t : List mblk) : all_ents (B :: t) = B.ents ++ all_ents t := by
  simp [all_ents]

theorem all_ents_append (a b : List mblk) : all_ents (a ++ b) = all_ents a ++ all_ents b := by
  simp [all_ents]

theorem mem_all_ents {blks : List mblk} {e : metadata_data_t} :
    e ∈ all_ents blks ↔ ∃ B ∈ blks, e ∈ B.ents := by
  simp [all_ents, List.mem_flatten]

theorem linked_to_append : ∀ (a b : List mblk) (nx : Int),
    linked_to (a ++ b) nx ↔ linked_to a (head_pos b nx) ∧ linked_to b nx
  | [], b, nx => by simp [linked_to]
  | [B], b, nx => by
    cases b <;> simp [linked_to, head_pos]
  | B :: C :: t, b, nx => by
    have ih := linked_to_append (C :: t) b nx
    simp only [List.cons_append] at ih ⊢
    simp only [linked_to] at ih ⊢
    rw [ih]
    simp [head_pos, and_assoc]

theorem head_pos_append_cons (a : List mblk) (B : mblk) (t : List mblk) (nx ny : Int) :
    head_pos (a ++ B :: t) nx = head_pos (a ++ [B]) ny := by
  cases a <;> simp [head_pos]

theorem summ_at_map (pre : List mblk) (B : mblk) (post : List mblk) :
    summ_at ((pre ++ B :: post).map mblk.summ) pre.length = B.summ := by
  unfold summ_at
  rw [List.map_append, List.map_cons, List.getD_eq_getElem?_getD,
    List.getElem?_append_right (by simp)]
  simp

theorem length_map_summ (blks : List mblk) : (blks.map mblk.summ).length = blks.length := by
  simp

theorem decomp_unique {pre pre2 : List mblk} {B C : mblk} {post post2 : List mblk}
    (h : pre ++ B :: post = pre2 ++ C :: post2) (hl : pre.length = pre2.length) :
    pre = pre2 ∧ B = C ∧ post = post2 := by
  have := List.append_inj h hl
  simp_all

theorem aligned_disjoint {bs p q : Int} (hbs : 0 < bs) (hp : bs ∣ p) (hq : bs ∣ q)
    (hne : p ≠ q) : p + bs ≤ q ∨ q + bs ≤ p := by
  obtain ⟨a, rfl⟩ := hp
  obtain ⟨b, rfl⟩ := hq
  rcases lt_trichotomy a b with h | h | h
  · left
    have : a + 1 ≤ b := h
    nlinarith
  · exact absurd (by rw [h]) hne
  · right
    have : b + 1 ≤ a := h
    nlinarith

theorem pos_inj {bs ms tb front bp : Int} {blks : List mblk}
    (hg : Good bs ms tb front bp blks) {B C : mblk} (hB : B ∈ blks) (hC : C ∈ blks)
    (h : B.pos = C.pos) : B = C :=
  List.inj_on_of_nodup_map hg.mnodup hB hC h

theorem block_len_le {img : image_t} (hs : Static img) (b : Int) :
    0 < block_len img.header b ∧ block_len img.header b ≤ img.header.block_size := by
  have hd := hs.derived
  have h512 := hs.bs_min
  unfold block_len
  split_ifs with h
  · rw [← hd]
    simp only [fill_derived_header]
    split_ifs with h2
    · have := Int.emod_lt_of_pos img.header.total_size
        (show (0 : Int) < img.header.block_size by omega)
      have := Int.emod_nonneg img.header.total_size
        (show img.header.block_size ≠ 0 by omega)
      omega
    · omega
  · omega

theorem meta_size_eq {img : image_t} (hs : Static img) :
    img.header.meta_size = (img.header.block_size - 12) / 24 := by
  have hd := hs.derived
  conv_lhs => rw [← hd]
  simp [fill_derived_header, sizeof_dmh, sizeof_dmd]

theorem cap_bytes {img : image_t} (hs : Static img) {n : Int} (h : n ≤ img.header.meta_size) :
    12 + 24 * n ≤ img.header.block_size := by
  rw [meta_size_eq hs] at h
  have := hs.bs_min
  omega

theorem meta_size_ge {img : image_t} (hs : Static img) : 20 ≤ img.header.meta_size := by
  rw [meta_size_eq hs]
  have := hs.bs_min
  omega

theorem block_region {bs : Int} {e : metadata_data_t} {b : Int} (hbs : 0 < bs)
    (h1 : e.start ≤ b) (h2 : b ≤ e.end_) :
    e.pos ≤ block_position e b bs ∧ block_position e b bs + bs ≤ e.pos + ent_len e * bs := by
  unfold block_position ent_len
  constructor
  · nlinarith
  · nlinarith

theorem metadata_buffer_congr (nxt : Int) (data es : List metadata_data_t)
    (h : data.take es.length = es) :
    metadata_buffer nxt es.length data = metadata_buffer nxt es.length es := by
  rw [metadata_buffer_eq nxt data es h, metadata_buffer_eq nxt es es (List.take_length es)]

/-! ## Writing the cached metadata block and the file header -/

theorem pwrite_size_ge (f : file_t) (pos len : Int) (buf : List Nat) :
    f.size ≤ (pwrite f pos len buf).size := by
  rw [pwrite_size]; split_ifs <;> omega

theorem pwrite_size_end (f : file_t) (pos len : Int) (buf : List Nat) :
    pos + len ≤ (pwrite f pos len buf).size ∨ len ≤ 0 := by
  rw [pwrite_size]; split_ifs <;> omega

theorem Static.same {img img1 : image_t} (hs : Static img)
    (h1 : img1.has_metadata = img.has_metadata) (h2 : img1.offset = img.offset)
    (h3 : img1.header = img.header) : Static img1 := by
  constructor
  · rw [h1]; exact hs.has_md
  · rw [h2]; exact hs.off
  · rw [h3]; exact hs.bs_min
  · rw [h3]; exact hs.bs_max
  · rw [h3]; exact hs.ts_min
  · rw [h3]; exact hs.ts_max
  · rw [h3]; exact hs.derived
  · rw [h3]; exact hs.mtime
  · rw [h3]; exact hs.room

/-- A change of the file and of the flush flags keeps the representation when
the file still holds what it must. -/
theorem Rep0.carry {img img1 : image_t} {blks : List mblk} {front : Int}
    {data data1 : Int → List Nat} (hr : Rep0 img blks front data)
    (h1 : img1.has_metadata = img.has_metadata) (h2 : img1.offset = img.offset)
    (h3 : img1.header = img.header) (h4 : img1.metadata_data = img.metadata_data)
    (h5 : img1.summary = img.summary) (h6 : img1.next = img.next) (h7 : img1.count = img.count)
    (h8 : img1.metadata_summary = img.metadata_summary)
    (hc : img1.summary = none → img1.flush_metadata = false)
    (ho : OnDisk img1.fd img1.header blks (fun p => dirty_pos img1 = some p)
      (!img1.flush_file_header) data1) :
    Rep0 img1 blks front data1 := by
  constructor
  · exact hr.static.same h1 h2 h3
  · rw [h3]; exact hr.good
  · rw [h3]; exact hr.hdr_meta
  · rw [h8, h5]; exact hr.summ
  · exact hc
  · rw [h5, h7, h4, h6]; exact hr.cache
  · rw [h4, h3]; exact hr.md_len
  · exact ho

theorem OnDisk.weaken {f : file_t} {h : header_t} {blks : List mblk} {ex ex1 : Int → Prop}
    {hc : Bool} {data : Int → List Nat} (ho : OnDisk f h blks ex hc data)
    (hx : ∀ B ∈ blks, ex B.pos → ex1 B.pos) (hc1 : Bool) (hcc : hc1 = true → hc = true) :
    OnDisk f h blks ex1 hc1 data :=
  ⟨ho.script, ho.size_ge, fun h1 => ho.hdr_disk (hcc h1),
    fun B hB hn => ho.disk B hB (fun he => hn (hx B hB he)), ho.data_ok⟩

/-- Writing the metadata block `B` where it belongs leaves the rest of the
file alone. -/
theorem OnDisk.pwrite_meta {f : file_t} {h : header_t} {blks : List mblk} {ex : Int → Prop}
    {hc : Bool} {data : Int → List Nat} (ho : OnDisk f h blks ex hc data)
    {ms tb front bp : Int} (hg : Good h.block_size ms tb front bp blks)
    (hbs : 512 ≤ h.block_size) (hlen : ∀ b, block_len h b ≤ h.block_size)
    {B : mblk} (hB : B ∈ blks) :
    OnDisk (pwrite f B.pos h.block_size (metadata_buffer B.next B.ents.length B.ents)) h blks
      (fun p => ex p ∧ p ≠ B.pos) hc data := by
  have hBp := hg.mpos B hB
  have hp0 : 0 ≤ B.pos := by omega
  constructor
  · rw [pwrite_script]; exact ho.script
  · exact le_trans ho.size_ge (pwrite_size_ge _ _ _ _)
  · intro hh
    rw [file_bytes_pwrite_other _ _ _ hp0 (Or.inl (by simp [sizeof_disk_header]; omega))]
    exact ho.hdr_disk hh
  · intro C hC hne
    by_cases hpc : C.pos = B.pos
    · have := pos_inj hg hC hB hpc
      subst this
      refine ⟨?_, file_bytes_pwrite_same _ _ _ hp0⟩
      have := pwrite_size_end f C.pos h.block_size
        (metadata_buffer C.next C.ents.length C.ents)
      omega
    · have hCp := hg.mpos C hC
      have hdis := aligned_disjoint (by omega) hCp.1 hBp.1 hpc
      have hold := ho.disk C hC (fun he => hne ⟨he, hpc⟩)
      refine ⟨le_trans hold.1 (pwrite_size_ge _ _ _ _), ?_⟩
      rw [file_bytes_pwrite_other _ _ _ hp0 (by omega)]
      exact hold.2
  · intro e he b h1 h2
    have hold := ho.data_ok e he b h1 h2
    have hreg := block_region (show (0 : Int) < h.block_size by omega) h1 h2
    have hdis := hg.me_disj B hB e he
    have := hlen b
    refine ⟨le_trans hold.1 (pwrite_size_ge _ _ _ _), ?_⟩
    rw [file_bytes_pwrite_other _ _ _ hp0 (by omega)]
    exact hold.2

/-- The first half of `write_metadata` when the cached metadata block `B` is
to be written. -/
theorem write_metadata_block_raw {img : image_t} {blks : List mblk} {ex : Int → Prop}
    {hc : Bool} {data : Int → List Nat} {front bp : Int} (hs : Static img)
    (hg : Good img.header.block_size img.header.meta_size img.header.total_blocks front bp blks)
    (ho : OnDisk img.fd img.header blks ex hc data)
    (hfl : img.flush_metadata = true) {s : Nat} (hsum : img.summary = some s)
    {B : mblk} (hB : B ∈ blks) (hp : (summ_at img.metadata_summary s).pos = B.pos)
    (hbuf : metadata_buffer img.next img.count img.metadata_data =
      metadata_buffer B.next B.ents.length B.ents) :
    ∃ f, write_metadata_block img = (true, { img with fd := f, flush_metadata := false }) ∧
      OnDisk f img.header blks (fun p => ex p ∧ p ≠ B.pos) hc data ∧
      img.fd.size ≤ f.size ∧ (front ≤ img.fd.size → f.size = img.fd.size) := by
  have hBp := hg.mpos B hB
  refine ⟨pwrite img.fd B.pos img.header.block_size
    (metadata_buffer B.next B.ents.length B.ents), ?_, ?_, pwrite_size_ge _ _ _ _, ?_⟩
  · unfold write_metadata_block
    rw [hfl, hsum]
    simp only [if_true]
    rw [ddb_write_block_ok ho.script]
    simp only [if_true]
    rw [hp, hbuf]
  · exact ho.pwrite_meta hg hs.bs_min (fun b => (block_len_le hs b).2) hB
  · intro hfr
    exact pwrite_size_of_le _ (by omega)

theorem dirty_pos_cases {img : image_t} {blks : List mblk} {front : Int}
    {data : Int → List Nat} (hr : Rep0 img blks front data) :
    (img.flush_metadata = false ∧ dirty_pos img = none) ∨
    (img.flush_metadata = true ∧ ∃ pre B post, blks = pre ++ B :: post ∧
      img.summary = some pre.length ∧ img.metadata_summary = blks.map mblk.summ ∧
      img.count = B.ents.length ∧ img.metadata_data.take B.ents.length = B.ents ∧
      img.next = B.next ∧ dirty_pos img = some B.pos) := by
  by_cases hf : img.flush_metadata = true
  · right
    refine ⟨hf, ?_⟩
    cases hsum : img.summary with
    | none => rw [hr.cache_none hsum] at hf; exact absurd hf (by simp)
    | some s =>
      obtain ⟨pre, B, post, hb, hl, hc, hd, hn⟩ := hr.cache s hsum
      have hms : img.metadata_summary = blks.map mblk.summ := by
        rcases hr.summ with h | h
        · exact h
        · rw [h.2] at hsum; exact absurd hsum (by simp)
      refine ⟨pre, B, post, hb, by rw [hl], hms, hc, hd, hn, ?_⟩
      unfold dirty_pos
      rw [if_pos hf, hsum, hms, hb, ← hl]
      simp only [Option.map_some']
      rw [summ_at_map]
      rfl
  · left
    have : img.flush_metadata = false := by simpa using hf
    exact ⟨this, by unfold dirty_pos; rw [this]; rfl⟩

theorem write_metadata_block_spec {img : image_t} {blks : List mblk} {front : Int}
    {data : Int → List Nat} (hr : Rep0 img blks front data) :
    ∃ f, write_metadata_block img = (true, { img with fd := f, flush_metadata := false }) ∧
      OnDisk f img.header blks (fun _ => False) (!img.flush_file_header) data ∧
      img.fd.size ≤ f.size ∧ (front ≤ img.fd.size → f.size = img.fd.size) := by
  rcases dirty_pos_cases hr with ⟨hf, hd⟩ | ⟨hf, pre, B, post, hb, hsum, hms, hc, hdt, hn, hd⟩
  · refine ⟨img.fd, ?_, ?_, le_refl _, fun _ => rfl⟩
    · unfold write_metadata_block
      rw [hf]
      simp only [Bool.false_eq_true, if_false]
      congr 1
      cases img
      simp_all
    · refine hr.ondisk.weaken ?_ _ (fun h => h)
      intro B _ he
      rw [hd] at he
      exact absurd he (by simp)
  · have hB : B ∈ blks := by rw [hb]; simp
    have hp : (summ_at img.metadata_summary pre.length).pos = B.pos := by
      rw [hms, hb, summ_at_map]; rfl
    obtain ⟨f, e1, o1, s1, s2⟩ := write_metadata_block_raw hr.static hr.good hr.ondisk hf hsum
      hB hp (by rw [hn, hc, metadata_buffer_congr _ _ _ hdt])
    refine ⟨f, e1, ?_, s1, s2⟩
    refine o1.weaken ?_ _ (fun h => h)
    intro C _ he
    rw [hd] at he
    simp only [Option.some.injEq] at he
    exact he.2 he.1.symm

theorem header_encode_length (h : header_t) : (header_encode h).length = 64 := by
  simp [header_encode, magic, be64_length, be32_length]

theorem block_image_self (buf : List Nat) (len : Int) (h : (buf.length : Int) = len) :
    block_image buf len = buf := by
  rw [block_image_eq buf len (by omega)]
  have : len.toNat - buf.length = 0 := by omega
  rw [this]
  simp

theorem write_file_header_raw {img : image_t} {blks : List mblk} {ex : Int → Prop}
    {data : Int → List Nat} {front bp : Int} (hs : Static img)
    (hg : Good img.header.block_size img.header.meta_size img.header.total_blocks front bp blks)
    (ho : OnDisk img.fd img.header blks ex (!img.flush_file_header) data) :
    ∃ f, write_file_header img = (true, { img with fd := f, flush_file_header := false }) ∧
      OnDisk f img.header blks ex true data ∧ f.size = img.fd.size := by
  by_cases hf : img.flush_file_header = true
  · have hbs := hs.bs_min
    have hpad := pad_header_spec img.header.block_size.toNat
      (pwrite img.fd 0 sizeof_disk_header (header_encode img.header)) sizeof_disk_header
      img.header.block_size (by rw [pwrite_script]; exact ho.script)
      (by simp [sizeof_disk_header])
    obtain ⟨p1, p2, p3, p4, -⟩ := hpad
    have hsz : (pwrite img.fd 0 sizeof_disk_header (header_encode img.header)).size =
        img.fd.size := pwrite_size_of_le _ (by have := ho.size_ge; simp [sizeof_disk_header]; omega)
    have hfr : ∀ q l, img.header.block_size ≤ q →
        file_bytes (pad_header img.header.block_size.toNat
          (pwrite img.fd 0 sizeof_disk_header (header_encode img.header)) sizeof_disk_header
          img.header.block_size) q l = file_bytes img.fd q l := by
      intro q l hq
      rw [← file_bytes_pwrite_other img.fd sizeof_disk_header (header_encode img.header)
        (le_refl 0) (Or.inr (show (0 : Int) + sizeof_disk_header ≤ q by
          simp [sizeof_disk_header]; omega))]
      apply file_bytes_congr
      intro i h1 h2
      exact p2 i (Or.inr (by omega))
    refine ⟨pad_header img.header.block_size.toNat
      (pwrite img.fd 0 sizeof_disk_header (header_encode img.header)) sizeof_disk_header
      img.header.block_size, ?_, ?_, ?_⟩
    · unfold write_file_header
      rw [hf]
      simp only [if_true]
      rw [ddb_write_block_ok ho.script, hs.off]
      simp only [if_true, zero_add]
    · constructor
      · exact p1
      · rw [p3 (by rw [hsz]; exact ho.size_ge), hsz]; exact ho.size_ge
      · intro _
        have : file_bytes (pad_header img.header.block_size.toNat
            (pwrite img.fd 0 sizeof_disk_header (header_encode img.header)) sizeof_disk_header
            img.header.block_size) 0 sizeof_disk_header =
            file_bytes (pwrite img.fd 0 sizeof_disk_header (header_encode img.header)) 0
              sizeof_disk_header := by
          apply file_bytes_congr
          intro i h1 h2
          exact p2 i (Or.inl (by omega))
        rw [this, file_bytes_pwrite_same _ _ _ (le_refl 0)]
        exact block_image_self _ _ (by rw [header_encode_length]; rfl)
      · intro B hB hd
        have hold := ho.disk B hB hd
        have hBp := hg.mpos B hB
        rw [p3 (by rw [hsz]; exact ho.size_ge), hsz, hfr _ _ hBp.2.1]
        exact hold
      · intro e he b h1 h2
        have hold := ho.data_ok e he b h1 h2
        have hreg := block_region (show (0 : Int) < img.header.block_size by omega) h1 h2
        have hep := hg.epos e he
        rw [p3 (by rw [hsz]; exact ho.size_ge), hsz, hfr _ _ (by omega)]
        exact hold
    · rw [p3 (by rw [hsz]; exact ho.size_ge), hsz]
  · have hf : img.flush_file_header = false := by simpa using hf
    refine ⟨img.fd, ?_, ?_, rfl⟩
    · unfold write_file_header
      rw [hf]
      simp only [Bool.false_eq_true, if_false]
      congr 1
      cases img
      simp_all
    · have := ho
      rw [hf] at this
      exact this

/-- The function `write_metadata` when the cached metadata block `B` is to be
written. -/
theorem write_metadata_raw {img : image_t} {blks : List mblk} {ex : Int → Prop}
    {data : Int → List Nat} {front bp : Int} (hs : Static img)
    (hg : Good img.header.block_size img.header.meta_size img.header.total_blocks front bp blks)
    (ho : OnDisk img.fd img.header blks ex (!img.flush_file_header) data)
    (hfl : img.flush_metadata = true) {s : Nat} (hsum : img.summary = some s)
    {B : mblk} (hB : B ∈ blks) (hp : (summ_at img.metadata_summary s).pos = B.pos)
    (hbuf : metadata_buffer img.next img.count img.metadata_data =
      metadata_buffer B.next B.ents.length B.ents) :
    ∃ f, write_metadata img =
        (1, { img with fd := f, flush_metadata := false, flush_file_header := false }) ∧
      OnDisk f img.header blks (fun p => ex p ∧ p ≠ B.pos) true data ∧
      img.fd.size ≤ f.size := by
  obtain ⟨f1, e1, o1, s1, -⟩ := write_metadata_block_raw hs hg ho hfl hsum hB hp hbuf
  obtain ⟨f2, e2, o2, s3⟩ := write_file_header_raw
    (show Static { img with fd := f1, flush_metadata := false } from hs.same rfl rfl rfl) hg o1
  refine ⟨f2, ?_, o2, by rw [s3]; exact s1⟩
  unfold write_metadata
  rw [e1]
  simp only
  rw [e2]
  simp

theorem write_metadata_spec {img : image_t} {blks : List mblk} {front : Int}
    {data : Int → List Nat} (hr : Rep0 img blks front data) :
    ∃ f, write_metadata img =
        (1, { img with fd := f, flush_metadata := false, flush_file_header := false }) ∧
      Rep0 { img with fd := f, flush_metadata := false, flush_file_header := false }
        blks front data ∧
      img.fd.size ≤ f.size ∧ (front ≤ img.fd.size → f.size = img.fd.size) := by
  obtain ⟨f1, e1, o1, s1, s2⟩ := write_metadata_block_spec hr
  obtain ⟨f2, e2, o2, s3⟩ := write_file_header_raw
    (show Static { img with fd := f1, flush_metadata := false } from hr.static.same rfl rfl rfl)
    hr.good o1
  refine ⟨f2, ?_, ?_, ?_, ?_⟩
  · unfold write_metadata
    rw [e1]
    simp only
    rw [e2]
    simp
  · exact hr.carry rfl rfl rfl rfl rfl rfl rfl rfl (fun _ => rfl)
      (o2.weaken (fun _ _ h => absurd h (by simp)) _ (fun h => h))
  · rw [s3]; exact s1
  · intro h; rw [s3]; exact s2 h

/-! ## Reading a metadata block into the cache -/

theorem linked_next : ∀ (blks : List mblk) (nx : Int), linked_to blks nx → ∀ B ∈ blks,
    B.next = nx ∨ ∃ C ∈ blks, B.next = C.pos
  | [], _, _, B, hB => by simp at hB
  | A :: t, nx, hl, B, hB => by
    rw [linked_to] at hl
    rcases List.mem_cons.mp hB with rfl | hB
    · cases t with
      | nil => left; exact hl.1
      | cons C u => right; exact ⟨C, by simp, hl.1⟩
    · rcases linked_next t nx hl.2 B hB with h | ⟨C, hC, h⟩
      · left; exact h
      · right; exact ⟨C, List.mem_cons_of_mem _ hC, h⟩

theorem linked_decomp {pre : List mblk} {B : mblk} {post : List mblk} {nx : Int}
    (h : linked_to (pre ++ B :: post) nx) : B.next = head_pos post nx := by
  rw [linked_to_append] at h
  exact h.2.1

theorem Good.fits {bs ms tb front bp : Int} {blks : List mblk}
    (hg : Good bs ms tb front bp blks) (hbs : 0 < bs) (hf : front < 2 ^ 63)
    (htb : tb < 2 ^ 63) {B : mblk} (hB : B ∈ blks) :
    fits64 B.next ∧ ∀ e ∈ B.ents, fits64 e.start ∧ fits64 e.end_ ∧ fits64 e.pos := by
  constructor
  · rcases linked_next blks 0 hg.linked B hB with h | ⟨C, hC, h⟩
    · rw [h]; unfold fits64; norm_num
    · have := hg.mpos C hC
      rw [h]; unfold fits64; omega
  · intro e he
    have hm : e ∈ all_ents blks := mem_all_ents.mpr ⟨B, hB, he⟩
    have h1 := hg.range e hm
    have h2 := hg.epos e hm
    have h3 : 0 ≤ (ent_len e - 1) * bs := by
      apply mul_nonneg _ (le_of_lt hbs)
      unfold ent_len; omega
    have h4 : ent_len e * bs = (ent_len e - 1) * bs + bs := by ring
    unfold fits64
    refine ⟨by omega, by omega, by omega, by omega⟩

theorem set_front_take (d es : List metadata_data_t) (h : es.length ≤ d.length) :
    (set_front d es).take es.length = es ∧ (set_front d es).length = d.length := by
  unfold set_front
  constructor
  · rw [List.take_take, min_eq_left h, List.take_left]
  · simp; omega

theorem read_metadata_spec {img : image_t} {blks : List mblk} {front : Int}
    {data : Int → List Nat} (hr : Rep0 img blks front data)
    (hfull : ∀ B ∈ blks, B.ents ≠ []) (hfront : front < 2 ^ 63)
    (hsum : img.metadata_summary = blks.map mblk.summ)
    {pre : List mblk} {B : mblk} {post : List mblk} (hb : blks = pre ++ B :: post) :
    ∃ img1, read_metadata img pre.length = (1, img1) ∧ Rep0 img1 blks front data ∧
      img1.summary = some pre.length ∧ img1.header = img.header ∧
      img1.metadata_summary = img.metadata_summary ∧
      img1.count = B.ents.length ∧ img1.metadata_data.take B.ents.length = B.ents ∧
      img1.next = B.next ∧
      img.fd.size ≤ img1.fd.size ∧ (front ≤ img.fd.size → img1.fd.size = img.fd.size) := by
  by_cases hc : img.summary = some pre.length
  · obtain ⟨pre2, C, post2, hb2, hl, h1, h2, h3⟩ := hr.cache _ hc
    have := decomp_unique (hb.symm.trans hb2) hl.symm
    obtain ⟨-, rfl, -⟩ := this
    refine ⟨img, ?_, hr, hc, rfl, rfl, h1, h2, h3, le_refl _, fun _ => rfl⟩
    unfold read_metadata
    rw [if_pos hc]
  · obtain ⟨f, ew, hr1, s1, s2⟩ := write_metadata_spec hr
    have hB : B ∈ blks := by rw [hb]; simp
    have hs := hr.static
    have hdisk := hr1.ondisk.disk B hB (by simp [dirty_pos])
    have hfit := hr.good.fits (by have := hs.bs_min; omega) hfront
      (by have := hs.room; have := hs.bs_min; nlinarith) hB
    have hcap := hr.good.cap B hB
    have hdec := decode_block B.next B.ents img.header.block_size _ hdisk.2
      (cap_bytes hs hcap) hs.bs_max hfit.1 hfit.2
    obtain ⟨d1, d2, -, d4⟩ := hdec
    have hne : 1 ≤ (B.ents.length : Int) := by
      have := hfull B hB
      have : 0 < B.ents.length := List.length_pos.mpr this
      omega
    have hlen : B.ents.length ≤ img.metadata_data.length := by
      have := hr.md_len
      omega
    have hsp := set_front_take img.metadata_data B.ents hlen
    have hp : (summ_at img.metadata_summary pre.length).pos = B.pos := by
      rw [hsum, hb, summ_at_map]; rfl
    refine ⟨{ img with fd := f, flush_metadata := false, flush_file_header := false,
                       summary := some pre.length, count := B.ents.length, next := B.next,
                       metadata_data := set_front img.metadata_data B.ents },
      ?_, ?_, rfl, rfl, rfl, rfl, hsp.1, rfl, s1, s2⟩
    · unfold read_metadata
      rw [if_neg hc, ew]
      simp only [one_ne_zero, if_false]
      rw [hp, ddb_read_block_ok hr1.ondisk.script hdisk.1]
      simp only
      rw [d1, d2, d4, if_neg (by omega)]
    · constructor
      · exact hs.same rfl rfl rfl
      · exact hr.good
      · exact hr.hdr_meta
      · left; exact hsum
      · intro h; simp at h
      · intro s h
        simp only [Option.some.injEq] at h
        exact ⟨pre, B, post, hb, h, rfl, hsp.1, rfl⟩
      · show ((set_front img.metadata_data B.ents).length : Int) = _
        rw [hsp.2]; exact hr.md_len
      · exact hr1.ondisk.weaken (fun _ _ h => absurd h (by simp [dirty_pos])) _ (fun h => h)

/-! ## Reading the summaries from the file -/

theorem read_summary_loop_spec (f : file_t) (bs : Int) : ∀ (rest : List mblk) (fuel : Nat)
    (acc : List metadata_summary_t), rest.length ≤ fuel → linked_to rest 0 →
    (∀ B ∈ rest, 0 < B.pos ∧ ∃ buf, ddb_read_block f B.pos bs false = (some buf, f) ∧
      of_be64 (field buf 0 8) = B.next ∧ (decode_entry (buf.drop 12)).start = B.first ∧
      (decode_entry (buf.drop (12 + (if of_be32s (field buf 8 4) > 1
        then 24 * (of_be32s (field buf 8 4) - 1).toNat else 0)))).end_ = B.last) →
    read_summary_loop fuel f (head_pos rest 0) bs acc = (true, f, acc ++ rest.map mblk.summ)
  | [], 0, acc, _, _, _ => by simp [read_summary_loop, head_pos]
  | [], fuel + 1, acc, _, _, _ => by simp [read_summary_loop, head_pos]
  | B :: t, 0, acc, h, _, _ => by simp at h
  | B :: t, fuel + 1, acc, h, hl, hb => by
    obtain ⟨hp, buf, hrd, h1, h2, h3⟩ := hb B (by simp)
    rw [linked_to] at hl
    have ih := read_summary_loop_spec f bs t fuel (acc ++ [B.summ]) (by simpa using h) hl.2
      (fun C hC => hb C (List.mem_cons_of_mem _ hC))
    simp only [head_pos]
    unfold read_summary_loop
    rw [if_pos hp, hrd]
    simp only
    rw [h1, h2, h3, hl.1]
    have : ({ pos := B.pos, first := B.first, last := B.last } : metadata_summary_t) = B.summ :=
      rfl
    rw [this, ih]
    simp

theorem ent_len_pos {bs ms tb front bp : Int} {blks : List mblk}
    (hg : Good bs ms tb front bp blks) {e : metadata_data_t} (he : e ∈ all_ents blks) :
    1 ≤ ent_len e := by
  have := hg.range e he
  unfold ent_len
  omega

theorem ents_total_nonneg : ∀ (es : List metadata_data_t), (∀ e ∈ es, 1 ≤ ent_len e) →
    (es.length : Int) ≤ ents_total es
  | [], _ => by simp [ents_total]
  | e :: t, h => by
    have ih := ents_total_nonneg t (fun x hx => h x (List.mem_cons_of_mem _ hx))
    have := h e (by simp)
    simp only [ents_total, List.map_cons, List.sum_cons, List.length_cons] at ih ⊢
    push_cast
    omega

theorem ents_total_append (a b : List metadata_data_t) :
    ents_total (a ++ b) = ents_total a + ents_total b := by
  simp [ents_total]

/-- With no empty block there are at most as many metadata blocks as blocks
of data. -/
theorem length_le_ents_total : ∀ (blks : List mblk), (∀ B ∈ blks, B.ents ≠ []) →
    (∀ e ∈ all_ents blks, 1 ≤ ent_len e) → (blks.length : Int) ≤ ents_total (all_ents blks)
  | [], _, _ => by simp [all_ents, ents_total]
  | B :: t, hf, he => by
    rw [all_ents_cons, ents_total_append]
    have ih := length_le_ents_total t (fun C hC => hf C (List.mem_cons_of_mem _ hC))
      (fun e h => he e (by rw [all_ents_cons]; exact List.mem_append_right _ h))
    have h1 := ents_total_nonneg B.ents
      (fun e h => he e (by rw [all_ents_cons]; exact List.mem_append_left _ h))
    have h2 : 0 < B.ents.length := List.length_pos.mpr (hf B (by simp))
    simp only [List.length_cons]
    push_cast
    omega

/-- Sorted entries within `[lo, tb)` hold at most `tb - lo` blocks, and fewer
when a block of that range is absent. -/
theorem ents_total_le (tb : Int) : ∀ (es : List metadata_data_t) (lo : Int),
    es.Pairwise (fun a b => a.end_ < b.start) →
    (∀ e ∈ es, lo ≤ e.start ∧ e.start ≤ e.end_ ∧ e.end_ < tb) → lo ≤ tb →
    ents_total es ≤ tb - lo ∧
    ∀ b, lo ≤ b → b < tb → absent es b → ents_total es + 1 ≤ tb - lo
  | [], lo, _, _, hlo => by
    simp only [ents_total, List.map_nil, List.sum_nil]
    exact ⟨by omega, fun b h1 h2 _ => by omega⟩
  | e :: t, lo, hp, hr, hlo => by
    rw [List.pairwise_cons] at hp
    have he := hr e (by simp)
    have ih := ents_total_le tb t (e.end_ + 1) hp.2 (fun x hx => by
      have := hr x (List.mem_cons_of_mem _ hx)
      have := hp.1 x hx
      omega) (by omega)
    simp only [ents_total, List.map_cons, List.sum_cons] at ih ⊢
    unfold ent_len at ih ⊢
    refine ⟨by omega, ?_⟩
    intro b h1 h2 hab
    have hnb := hab e (by simp)
    by_cases hlt : b < e.start
    · omega
    · have := ih.2 b (by omega) h2 (fun x hx => hab x (List.mem_cons_of_mem _ hx))
      omega

theorem Good.counts {bs ms tb front bp : Int} {blks : List mblk}
    (hg : Good bs ms tb front bp blks) (hfull : ∀ B ∈ blks, B.ents ≠ []) (htb : 0 ≤ tb) :
    (blks.length : Int) ≤ bp ∧ bp ≤ tb ∧
    ∀ b, 0 ≤ b → b < tb → absent (all_ents blks) b → bp + 1 ≤ tb := by
  have h1 := length_le_ents_total blks hfull (fun e he => ent_len_pos hg he)
  have h2 := ents_total_le tb (all_ents blks) 0 hg.sorted hg.range htb
  rw [← hg.present_eq] at h1 h2
  exact ⟨h1, by omega, fun b hb1 hb2 hab => by have := h2.2 b hb1 hb2 hab; omega⟩

theorem total_blocks_nonneg {img : image_t} (hs : Static img) : 1 ≤ img.header.total_blocks := by
  have hd := hs.derived
  have hb := hs.bs_min
  have ht := hs.ts_min
  rw [← hd]
  simp only [fill_derived_header]
  have hpos : (0 : Int) < img.header.block_size := by omega
  have h1 := Int.emod_nonneg img.header.total_size (show img.header.block_size ≠ 0 by omega)
  have h2 := Int.ediv_nonneg (show (0 : Int) ≤ img.header.total_size by omega) (le_of_lt hpos)
  have h3 := Int.emod_add_ediv img.header.total_size img.header.block_size
  split_ifs with h
  · omega
  · have : img.header.total_size % img.header.block_size = 0 := by simpa using h
    have h4 : 0 < img.header.total_size / img.header.block_size := by
      by_contra hc
      have : img.header.total_size / img.header.block_size = 0 := by omega
      rw [this] at h3
      simp at h3
      omega
    omega

theorem Rep.front_lt {img : image_t} {blks : List mblk} {data : Int → List Nat}
    (hr : Rep img blks data) : img.header.data_end < 2 ^ 63 := by
  have hs := hr.rep0.static
  have hg := hr.rep0.good
  have hc := hg.counts hr.full (by have := total_blocks_nonneg hs; omega)
  have := hs.room
  have := hs.bs_min
  rw [hg.front_eq]
  have h1 : 1 + img.header.blocks_present + (blks.length : Int) ≤
      2 * img.header.total_blocks + 1 := by omega
  have h2 := mul_le_mul_of_nonneg_left h1 (show (0 : Int) ≤ img.header.block_size by omega)
  omega

theorem span_bounds {bs ms tb front bp : Int} {blks : List mblk}
    (hg : Good bs ms tb front bp blks) {B : mblk} (hB : B ∈ blks) (hne : B.ents ≠ []) :
    B.first ≤ B.last ∧ ∀ e ∈ B.ents, B.first ≤ e.start ∧ e.end_ ≤ B.last := by
  obtain ⟨h1, h2⟩ := hg.span B hB hne
  have hsorted : B.ents.Pairwise (fun a b => a.end_ < b.start) := by
    obtain ⟨pre, post, rfl⟩ := List.append_of_mem hB
    have := hg.sorted
    rw [all_ents_append, all_ents_cons] at this
    exact (List.pairwise_append.mp (List.pairwise_append.mp this).2.1).1
  have hrange : ∀ e ∈ B.ents, e.start ≤ e.end_ := fun e he =>
    (hg.range e (mem_all_ents.mpr ⟨B, hB, he⟩)).2.1
  have hlen : 0 < B.ents.length := List.length_pos.mpr hne
  have key : ∀ e ∈ B.ents, (data_at B.ents 0).start ≤ e.start ∧
      e.end_ ≤ (data_at B.ents (B.ents.length - 1)).end_ := by
    intro e he
    obtain ⟨i, hi, rfl⟩ := List.getElem_of_mem he
    have hp := List.pairwise_iff_getElem.mp hsorted
    constructor
    · rw [data_at, List.getD_eq_getElem _ _ hlen]
      by_cases h0 : i = 0
      · subst h0; exact le_refl _
      · have := hp 0 i hlen hi (by omega)
        have := hrange _ (List.getElem_mem hlen)
        omega
    · rw [data_at, List.getD_eq_getElem _ _ (by omega : B.ents.length - 1 < B.ents.length)]
      by_cases h0 : i = B.ents.length - 1
      · subst h0; exact le_refl _
      · have := hp i (B.ents.length - 1) hi (by omega) (by omega)
        have := hrange _ (List.getElem_mem (by omega : B.ents.length - 1 < B.ents.length))
        omega
  rw [h1, h2]
  refine ⟨?_, key⟩
  have e0 : data_at B.ents 0 ∈ B.ents := by
    rw [data_at, List.getD_eq_getElem _ _ hlen]; exact List.getElem_mem _
  have := key _ e0
  have := hrange _ e0
  omega

theorem read_summary_spec {img : image_t} {blks : List mblk} {data : Int → List Nat}
    (hr : Rep img blks data) (he : img.metadata_summary = []) :
    read_summary img = (1, { img with metadata_summary := blks.map mblk.summ }) ∧
    Rep { img with metadata_summary := blks.map mblk.summ } blks data := by
  have h0 := hr.rep0
  have hs := h0.static
  have hg := h0.good
  have hbs := hs.bs_min
  have hnone : img.summary = none := by
    rcases h0.summ with h | h
    · cases hsm : img.summary with
      | none => rfl
      | some s =>
        obtain ⟨pre, B, post, hb, -⟩ := h0.cache s hsm
        rw [he, hb] at h
        simp at h
    · exact h.2
  have hfl : img.flush_metadata = false := h0.cache_none hnone
  have hdp : dirty_pos img = none := by unfold dirty_pos; rw [hfl]; rfl
  have hfront := hr.front_lt
  have hcnt := hg.counts hr.full (by have := total_blocks_nonneg hs; omega)
  have hblk : ∀ B ∈ blks, 0 < B.pos ∧ ∃ buf,
      ddb_read_block img.fd B.pos img.header.block_size false = (some buf, img.fd) ∧
      of_be64 (field buf 0 8) = B.next ∧ (decode_entry (buf.drop 12)).start = B.first ∧
      (decode_entry (buf.drop (12 + (if of_be32s (field buf 8 4) > 1
        then 24 * (of_be32s (field buf 8 4) - 1).toNat else 0)))).end_ = B.last := by
    intro B hB
    have hp := hg.mpos B hB
    have hd := h0.ondisk.disk B hB (by rw [hdp]; simp)
    have hfit := hg.fits (by omega) hfront (by have := hs.room; nlinarith) hB
    have hdec := decode_block B.next B.ents img.header.block_size _ hd.2
      (cap_bytes hs (hg.cap B hB)) hs.bs_max hfit.1 hfit.2
    obtain ⟨d1, d2, d3, -⟩ := hdec
    have hne := hr.full B hB
    have hlen : 0 < B.ents.length := List.length_pos.mpr hne
    obtain ⟨sp1, sp2⟩ := hg.span B hB hne
    refine ⟨by omega, _, ddb_read_block_ok h0.ondisk.script hd.1 false, d1, ?_, ?_⟩
    · have := d3 0 hlen
      simp only [Nat.mul_zero, Nat.add_zero] at this
      rw [this, sp1]
    · rw [d2]
      have h24 : (12 + (if (B.ents.length : Int) > 1
          then 24 * ((B.ents.length : Int) - 1).toNat else 0)) = 12 + 24 * (B.ents.length - 1) := by
        split_ifs with h
        · congr 2; omega
        · have : B.ents.length = 1 := by omega
          rw [this]
      rw [h24, d3 _ (by omega), sp2]
  have hfuel : blks.length ≤ (img.fd.size / img.header.block_size).toNat := by
    rw [hr.size_eq, hg.front_eq, Int.mul_ediv_cancel_left _ (by omega)]
    omega
  have hloop := read_summary_loop_spec img.fd img.header.block_size blks _ [] hfuel hg.linked hblk
  constructor
  · unfold read_summary
    simp only
    rw [h0.hdr_meta, hloop]
    simp
  · have hdp2 : dirty_pos { img with metadata_summary := blks.map mblk.summ } = none := by
      unfold dirty_pos; simp only; rw [hfl]; rfl
    refine ⟨?_, hr.size_eq, hr.full⟩
    constructor
    · exact hs.same rfl rfl rfl
    · exact hg
    · exact h0.hdr_meta
    · left; rfl
    · exact h0.cache_none
    · intro s h
      have : img.summary = some s := h
      rw [hnone] at this
      exact absurd this (by simp)
    · exact h0.md_len
    · rw [hdp2]
      have := h0.ondisk
      rw [hdp] at this
      exact this

/-! ## Looking a block up -/

theorem find_entry_spec (b bs : Int) : ∀ (es pre rest : List metadata_data_t),
    (find_entry (pre ++ es ++ rest) b bs es.length pre.length = 0 ∧ absent es b) ∨
    present es bs b (find_entry (pre ++ es ++ rest) b bs es.length pre.length)
  | [], pre, rest => by
    left
    simp [find_entry, absent]
  | e :: t, pre, rest => by
    have hat : data_at (pre ++ e :: t ++ rest) pre.length = e := by
      unfold data_at
      rw [List.append_assoc, List.getD_eq_getElem?_getD,
        List.getElem?_append_right (le_refl _)]
      simp
    simp only [List.length_cons]
    unfold find_entry
    rw [hat]
    by_cases hc : e.start ≤ b ∧ e.end_ ≥ b
    · rw [if_pos hc]
      right
      exact ⟨e, by simp, hc.1, hc.2, rfl⟩
    · rw [if_neg hc]
      have ih := find_entry_spec b bs t (pre ++ [e]) rest
      have e1 : pre ++ [e] ++ t ++ rest = pre ++ e :: t ++ rest := by simp
      have e2 : (pre ++ [e]).length = pre.length + 1 := by simp
      rw [e1, e2] at ih
      rcases ih with ⟨h0, ha⟩ | hp
      · left
        refine ⟨h0, ?_⟩
        intro x hx
        rcases List.mem_cons.mp hx with rfl | hx
        · exact fun h => hc ⟨h.1, h.2⟩
        · exact ha x hx
      · right
        obtain ⟨x, hx, h1, h2, h3⟩ := hp
        exact ⟨x, List.mem_cons_of_mem _ hx, h1, h2, h3⟩

theorem find_entry_cached (b bs : Int) (d es : List metadata_data_t)
    (h : d.take es.length = es) :
    (find_entry d b bs es.length 0 = 0 ∧ absent es b) ∨
    present es bs b (find_entry d b bs es.length 0) := by
  have hd : d = [] ++ es ++ d.drop es.length := by
    conv_lhs => rw [← List.take_append_drop es.length d, h]
    simp
  have := find_entry_spec b bs es [] (d.drop es.length)
  rw [← hd] at this
  exact this

theorem first_mem {B : mblk} (hne : B.ents ≠ []) : data_at B.ents 0 ∈ B.ents := by
  have hlen : 0 < B.ents.length := List.length_pos.mpr hne
  rw [data_at, List.getD_eq_getElem _ _ hlen]
  exact List.getElem_mem _

theorem last_mem {B : mblk} (hne : B.ents ≠ []) : data_at B.ents (B.ents.length - 1) ∈ B.ents := by
  have hlen : 0 < B.ents.length := List.length_pos.mpr hne
  rw [data_at, List.getD_eq_getElem _ _ (by omega : B.ents.length - 1 < B.ents.length)]
  exact List.getElem_mem _

/-- The spans of the metadata blocks follow one another. -/
theorem block_order {bs ms tb front bp : Int} {pre : List mblk} {B : mblk} {post : List mblk}
    (hg : Good bs ms tb front bp (pre ++ B :: post)) (hne : B.ents ≠ []) :
    (∀ e ∈ all_ents pre, e.end_ < B.first) ∧ (∀ e ∈ all_ents post, B.last < e.start) := by
  have hs := hg.sorted
  rw [all_ents_append, all_ents_cons] at hs
  obtain ⟨sp1, sp2⟩ := hg.span B (by simp) hne
  rw [List.pairwise_append] at hs
  obtain ⟨-, h2, h3⟩ := hs
  rw [List.pairwise_append] at h2
  constructor
  · intro e he
    rw [sp1]
    exact h3 e he _ (List.mem_append_left _ (first_mem hne))
  · intro e he
    rw [sp2]
    exact h2.2.2 _ (last_mem hne) e he

theorem absent_of_lt {es : List metadata_data_t} {b : Int} (h : ∀ e ∈ es, e.end_ < b) :
    absent es b := fun e he hc => by
  have := h e he
  omega

theorem absent_of_gt {es : List metadata_data_t} {b : Int} (h : ∀ e ∈ es, b < e.start) :
    absent es b := fun e he hc => by
  have := h e he
  omega

theorem absent_append {a c : List metadata_data_t} {b : Int} :
    absent (a ++ c) b ↔ absent a b ∧ absent c b := by
  unfold absent
  constructor
  · intro h
    exact ⟨fun e he => h e (List.mem_append_left _ he), fun e he => h e (List.mem_append_right _ he)⟩
  · rintro ⟨h1, h2⟩ e he
    rcases List.mem_append.mp he with h | h
    · exact h1 e h
    · exact h2 e h

/-- The walk over the summaries finds the metadata block whose span holds the
block, when there is one. -/
theorem find_summary_spec {bs ms tb front bp : Int} {blks : List mblk}
    (hg : Good bs ms tb front bp blks) (hfull : ∀ B ∈ blks, B.ents ≠ []) (b : Int) :
    ∀ (suf pre : List mblk) (fuel : Nat), blks = pre ++ suf → suf.length ≤ fuel →
    (∀ e ∈ all_ents pre, e.end_ < b) →
    (find_summary (blks.map mblk.summ) b fuel pre.length = none ∧ absent (all_ents blks) b) ∨
    ∃ pre1 B post, blks = pre1 ++ B :: post ∧
      find_summary (blks.map mblk.summ) b fuel pre.length = some pre1.length ∧
      B.first ≤ b ∧ b ≤ B.last
  | [], pre, fuel, hb, _, hlt => by
    left
    constructor
    · cases fuel with
      | zero => rfl
      | succ n =>
        unfold find_summary
        rw [if_neg]
        rw [hb]; simp
    · rw [hb]
      simp only [List.append_nil]
      exact absent_of_lt hlt
  | B :: t, pre, 0, _, hf, _ => by simp at hf
  | B :: t, pre, fuel + 1, hb, hf, hlt => by
    have hB : B ∈ blks := by rw [hb]; simp
    have hne := hfull B hB
    have hsb := span_bounds hg hB hne
    have hat : summ_at (blks.map mblk.summ) pre.length = B.summ := by
      rw [hb, summ_at_map]
    unfold find_summary
    rw [if_pos (by rw [hb]; simp), hat]
    simp only [mblk.summ]
    by_cases h1 : b < B.first
    · rw [if_pos h1]
      left
      refine ⟨rfl, ?_⟩
      have hord := block_order (hb ▸ hg) hne
      rw [hb, all_ents_append, all_ents_cons]
      refine absent_append.mpr ⟨absent_of_lt hlt, absent_append.mpr ⟨?_, ?_⟩⟩
      · exact absent_of_gt (fun e he => by have := (hsb.2 e he).1; omega)
      · exact absent_of_gt (fun e he => by have := hord.2 e he; omega)
    · rw [if_neg h1]
      by_cases h2 : b ≤ B.last
      · rw [if_pos h2]
        right
        exact ⟨pre, B, t, hb, rfl, by omega, h2⟩
      · rw [if_neg h2]
        have ih := find_summary_spec hg hfull b t (pre ++ [B]) fuel (by rw [hb]; simp)
          (by simpa using hf) (by
            intro e he
            rw [all_ents_append] at he
            rcases List.mem_append.mp he with h | h
            · exact hlt e h
            · simp only [all_ents_cons, all_ents_nil, List.append_nil] at h
              have := (hsb.2 e h).2
              omega)
        simpa using ih

theorem lookup_in_block {bs ms tb front bp : Int} {pre : List mblk} {B : mblk}
    {post : List mblk} (hg : Good bs ms tb front bp (pre ++ B :: post)) (hne : B.ents ≠ [])
    {b p : Int} (h1 : B.first ≤ b) (h2 : b ≤ B.last)
    (h : (p = 0 ∧ absent B.ents b) ∨ present B.ents bs b p) :
    (p = 0 ∧ absent (all_ents (pre ++ B :: post)) b) ∨
    present (all_ents (pre ++ B :: post)) bs b p := by
  have hord := block_order hg hne
  rcases h with ⟨h0, ha⟩ | ⟨e, he, hp⟩
  · left
    refine ⟨h0, ?_⟩
    rw [all_ents_append, all_ents_cons]
    refine absent_append.mpr ⟨?_, absent_append.mpr ⟨ha, ?_⟩⟩
    · exact absent_of_lt (fun e he => by have := hord.1 e he; omega)
    · exact absent_of_gt (fun e he => by have := hord.2 e he; omega)
  · right
    exact ⟨e, mem_all_ents.mpr ⟨B, by simp, he⟩, hp⟩

theorem load_summary {img : image_t} {blks : List mblk} {data : Int → List Nat}
    (hr : Rep img blks data) :
    ∃ img1, get_summary img = (1, img1) ∧
      Rep img1 blks data ∧ img1.metadata_summary = blks.map mblk.summ ∧
      img1.header = img.header ∧ img1.summary = img.summary ∧
      img1.metadata_data = img.metadata_data ∧ img1.count = img.count ∧
      img1.flush_metadata = img.flush_metadata ∧ img1.next = img.next ∧
      img1.fd = img.fd ∧ img1.flush_file_header = img.flush_file_header := by
  by_cases he : img.metadata_summary = []
  · obtain ⟨h1, h2⟩ := read_summary_spec hr he
    refine ⟨_, ?_, h2, rfl, rfl, rfl, rfl, rfl, rfl, rfl, rfl, rfl⟩
    unfold get_summary
    rw [if_pos he, h1]
  · refine ⟨img, by unfold get_summary; rw [if_neg he], hr, ?_, rfl, rfl, rfl, rfl, rfl, rfl,
      rfl, rfl⟩
    rcases hr.rep0.summ with h | h
    · exact h
    · exact absurd h.1 he

/-- The walk starts at a metadata block below which the block cannot be. -/
theorem walk_start_spec {img : image_t} {blks : List mblk} {data : Int → List Nat}
    (hr : Rep img blks data) (hsum : img.metadata_summary = blks.map mblk.summ) (b : Int) :
    ∃ pre suf, blks = pre ++ suf ∧ walk_start img b = pre.length ∧
      (∀ e ∈ all_ents pre, e.end_ < b) ∧ (blks ≠ [] → suf ≠ []) := by
  unfold walk_start
  cases hs : img.summary with
  | none => exact ⟨[], blks, rfl, rfl, fun e he => by simp [all_ents] at he, fun h => h⟩
  | some s =>
    simp only
    obtain ⟨pre, B, post, hb, hl, -⟩ := hr.rep0.cache s hs
    have hat : summ_at img.metadata_summary s = B.summ := by
      rw [hsum, hb, ← hl, summ_at_map]
    rw [hat]
    by_cases hgt : b > B.summ.last
    · rw [if_pos hgt]
      refine ⟨pre, B :: post, hb, hl.symm, ?_, fun _ => by simp⟩
      have hB : B ∈ blks := by rw [hb]; simp
      have hne := hr.full B hB
      have hord := block_order (hb ▸ hr.rep0.good) hne
      have hsb := span_bounds hr.rep0.good hB hne
      intro e he
      have := hord.1 e he
      have : B.summ.last = B.last := rfl
      omega
    · rw [if_neg hgt]
      exact ⟨[], blks, rfl, rfl, fun e he => by simp [all_ents] at he, fun h => h⟩

theorem Rep.of_rep0 {img img1 : image_t} {blks : List mblk} {data : Int → List Nat}
    (hr : Rep img blks data) (h0 : Rep0 img1 blks img.header.data_end data)
    (hh : img1.header = img.header) (hsz : img1.fd.size = img.fd.size) : Rep img1 blks data :=
  ⟨by rw [hh]; exact h0, by rw [hsz, hh]; exact hr.size_eq, hr.full⟩

theorem meta_block_position_spec {img : image_t} {blks : List mblk} {data : Int → List Nat}
    (hr : Rep img blks data) (b : Int) :
    ∃ p img1, meta_block_position img b = (p, img1) ∧ Rep img1 blks data ∧
      img1.header = img.header ∧ img1.has_metadata = img.has_metadata ∧
      ((p = 0 ∧ absent (all_ents blks) b) ∨
        present (all_ents blks) img.header.block_size b p) := by
  have hcached : ∀ s, img.summary = some s → ∃ pre B post, blks = pre ++ B :: post ∧
      pre.length = s ∧ summ_at img.metadata_summary s = B.summ ∧
      ((find_entry img.metadata_data b img.header.block_size img.count.toNat 0 = 0 ∧
          absent B.ents b) ∨
        present B.ents img.header.block_size b
          (find_entry img.metadata_data b img.header.block_size img.count.toNat 0)) := by
    intro s hs
    obtain ⟨pre, B, post, hb, hl, hc, hd, -⟩ := hr.rep0.cache s hs
    have hsum : img.metadata_summary = blks.map mblk.summ := by
      rcases hr.rep0.summ with h | h
      · exact h
      · rw [h.2] at hs; exact absurd hs (by simp)
    refine ⟨pre, B, post, hb, hl, by rw [hsum, hb, ← hl, summ_at_map], ?_⟩
    rw [hc, Int.toNat_ofNat]
    exact find_entry_cached b _ _ _ hd
  unfold meta_block_position
  by_cases hmiss : cache_miss img b = true
  · rw [if_pos hmiss]
    obtain ⟨img1, e1, hr1, hs1, hh1, hsm1, -⟩ := load_summary hr
    rw [e1]
    simp only [one_ne_zero, if_false]
    by_cases hemp : img1.metadata_summary = []
    · rw [if_pos hemp]
      refine ⟨0, img1, rfl, hr1, hh1, ?_, Or.inl ⟨rfl, ?_⟩⟩
      · rw [hr1.rep0.static.has_md, hr.rep0.static.has_md]
      · rw [hs1] at hemp
        have : blks = [] := by simpa using hemp
        rw [this]
        intro e he
        simp [all_ents] at he
    · rw [if_neg hemp]
      obtain ⟨pre, suf, hb, hw, hlt, -⟩ := walk_start_spec hr1 hs1 b
      have hfs := find_summary_spec hr1.rep0.good hr1.full b suf pre
        img1.metadata_summary.length hb (by rw [hs1, hb]; simp) hlt
      rw [hw]
      rcases hfs with ⟨hn, ha⟩ | ⟨pre1, B, post, hb1, hf, hf1, hf2⟩
      · rw [hs1] at hn ⊢
        rw [hn]
        refine ⟨0, img1, rfl, hr1, hh1, ?_, Or.inl ⟨rfl, ha⟩⟩
        rw [hr1.rep0.static.has_md, hr.rep0.static.has_md]
      · rw [hs1] at hf ⊢
        rw [hf]
        simp only
        obtain ⟨f, ew, hr2, s1, s2⟩ := write_metadata_spec hr1.rep0
        rw [ew]
        simp only [one_ne_zero, if_false]
        obtain ⟨img3, er, hr3, hs3, hh3, hms3, hc3, hd3, -, -, hz3⟩ :=
          read_metadata_spec hr2 hr1.full hr1.front_lt hs1 hb1
        rw [er]
        simp only [one_ne_zero, if_false]
        have hB : B ∈ blks := by rw [hb1]; simp
        have hfe := find_entry_cached b img.header.block_size _ _ hd3
        have hg1 := hr1.rep0.good
        rw [hh1, hb1] at hg1
        have hlk := lookup_in_block hg1 (hr1.full B hB) hf1 hf2 hfe
        rw [← hb1] at hlk
        have hh3' : img3.header = img1.header := hh3
        refine ⟨_, img3, rfl, ?_, by rw [hh3', hh1], ?_, ?_⟩
        · refine hr1.of_rep0 hr3 hh3' ?_
          have a1 := s2 (by rw [hr1.size_eq])
          have a2 := hz3 (by rw [a1, hr1.size_eq])
          rw [a2]
          exact a1
        · rw [hr3.static.has_md, hr.rep0.static.has_md]
        · rw [hh3', hh1, hc3, Int.toNat_ofNat]
          exact hlk
  · rw [if_neg hmiss]
    cases hs : img.summary with
    | none => unfold cache_miss at hmiss; rw [hs] at hmiss; simp at hmiss
    | some s =>
      unfold cache_miss at hmiss
      rw [hs] at hmiss
      simp only [decide_eq_true_eq, not_or, not_lt] at hmiss
      obtain ⟨pre, B, post, hb, hl, hat, hfe⟩ := hcached s hs
      rw [hat] at hmiss
      have hB : B ∈ blks := by rw [hb]; simp
      have hlk := lookup_in_block (hb ▸ hr.rep0.good) (hr.full B hB) hmiss.1
        (by have := hmiss.2; exact this) hfe
      rw [← hb] at hlk
      exact ⟨_, img, rfl, hr, rfl, rfl, hlk⟩

/-! ## Inserting an entry into the cached metadata block -/

theorem data_at_append_mid (as : List metadata_data_t) (a : metadata_data_t)
    (cs : List metadata_data_t) : data_at (as ++ a :: cs) as.length = a := by
  unfold data_at
  rw [List.getD_eq_getElem?_getD, List.getElem?_append_right (le_refl _)]
  simp

theorem set_append_mid (as : List metadata_data_t) (a x : metadata_data_t)
    (cs : List metadata_data_t) : (as ++ a :: cs).set as.length x = as ++ x :: cs := by
  rw [List.set_append_right _ _ (le_refl _)]
  simp

/-- The shifting loop of the insertion opens a slot after the entries that end
at or before the block. -/
theorem shift_entries_spec (b : Int) : ∀ (as : List metadata_data_t) (h : metadata_data_t)
    (cs : List metadata_data_t), ∃ l1 l2 h1, as = l1 ++ l2 ∧
      shift_entries b as.length (as ++ h :: cs) = (l1.length, l1 ++ h1 :: (l2 ++ cs)) ∧
      (∀ e ∈ l2, e.end_ > b) ∧ (∀ x, l1.getLast? = some x → x.end_ ≤ b) := by
  intro as
  induction as using List.reverseRecOn with
  | nil =>
    intro h cs
    exact ⟨[], [], h, rfl, by simp [shift_entries], by simp, by simp⟩
  | append_singleton as1 a ih =>
    intro h cs
    have hlen : (as1 ++ [a]).length = as1.length + 1 := by simp
    rw [hlen]
    unfold shift_entries
    have hd : as1 ++ [a] ++ h :: cs = as1 ++ a :: (h :: cs) := by simp
    rw [hd, data_at_append_mid]
    by_cases hgt : a.end_ > b
    · rw [if_pos hgt]
      have hset : (as1 ++ a :: h :: cs).set (as1.length + 1) a = as1 ++ a :: (a :: cs) := by
        simp
      rw [hset]
      obtain ⟨l1, l2, h1, e1, e2, e3, e4⟩ := ih a (a :: cs)
      refine ⟨l1, l2 ++ [a], h1, by rw [e1]; simp, ?_, ?_, e4⟩
      · rw [e2]; simp
      · intro e he
        rcases List.mem_append.mp he with h | h
        · exact e3 e h
        · simp at h; rw [h]; exact hgt
    · rw [if_neg hgt]
      refine ⟨as1 ++ [a], [], h, by simp, by simp, by simp, ?_⟩
      intro x hx
      simp at hx
      rw [← hx]
      omega

theorem pairwise_last_le {l1 : List metadata_data_t} {b : Int}
    (hs : l1.Pairwise (fun a c => a.end_ < c.start)) (hr : ∀ e ∈ l1, e.start ≤ e.end_)
    (hl : ∀ x, l1.getLast? = some x → x.end_ ≤ b) : ∀ e ∈ l1, e.end_ ≤ b := by
  intro e he
  induction l1 using List.reverseRecOn with
  | nil => simp at he
  | append_singleton l a _ =>
    have ha := hl a (by simp)
    rcases List.mem_append.mp he with h | h
    · have := (List.pairwise_append.mp hs).2.2 e h a (by simp)
      have := hr a (by simp)
      omega
    · simp at h; rw [h]; exact ha

/-- Where the insertion puts a block that no entry holds: after the entries
below it and before the entries above it. -/
theorem shift_entries_sorted (b : Int) (es : List metadata_data_t) (h : metadata_data_t)
    (cs : List metadata_data_t) (hs : es.Pairwise (fun a c => a.end_ < c.start))
    (hr : ∀ e ∈ es, e.start ≤ e.end_) (ha : absent es b) :
    ∃ l1 l2 h1, es = l1 ++ l2 ∧
      shift_entries b es.length (es ++ h :: cs) = (l1.length, l1 ++ h1 :: (l2 ++ cs)) ∧
      (∀ e ∈ l1, e.end_ < b) ∧ (∀ e ∈ l2, b < e.start) := by
  obtain ⟨l1, l2, h1, e1, e2, e3, e4⟩ := shift_entries_spec b es h cs
  refine ⟨l1, l2, h1, e1, e2, ?_, ?_⟩
  · intro e he
    have hle := @pairwise_last_le l1 b
      (by rw [e1] at hs; exact (List.pairwise_append.mp hs).1)
      (fun x hx => hr x (by rw [e1]; exact List.mem_append_left _ hx)) e4 e he
    have hm : e ∈ es := by rw [e1]; exact List.mem_append_left _ he
    have := ha e hm
    have := hr e hm
    omega
  · intro e he
    have hm : e ∈ es := by rw [e1]; exact List.mem_append_right _ he
    have := ha e hm
    have := e3 e he
    omega

/-! ## How the index grows -/

theorem pairwise_insert_mid {α : Type} {R : α → α → Prop} {A C : List α} {n : α}
    (h : (A ++ C).Pairwise R) (h1 : ∀ x ∈ A, R x n) (h2 : ∀ y ∈ C, R n y) :
    (A ++ n :: C).Pairwise R := by
  rw [List.pairwise_append] at h ⊢
  refine ⟨h.1, List.pairwise_cons.mpr ⟨h2, h.2.1⟩, ?_⟩
  intro x hx y hy
  rcases List.mem_cons.mp hy with rfl | hy
  · exact h1 x hx
  · exact h.2.2 x hx y hy

theorem pairwise_replace_mid {α : Type} {R : α → α → Prop} {A C : List α} {e n : α}
    (h : (A ++ e :: C).Pairwise R) (h1 : ∀ x ∈ A, R x e → R x n)
    (h2 : ∀ y ∈ C, R e y → R n y) : (A ++ n :: C).Pairwise R := by
  rw [List.pairwise_append] at h ⊢
  obtain ⟨ha, hc, hx⟩ := h
  rw [List.pairwise_cons] at hc
  refine ⟨ha, List.pairwise_cons.mpr ⟨fun y hy => h2 y hy (hc.1 y hy), hc.2⟩, ?_⟩
  intro x hx1 y hy
  rcases List.mem_cons.mp hy with rfl | hy
  · exact h1 x hx1 (hx x hx1 e (by simp))
  · exact hx x hx1 y (List.mem_cons_of_mem _ hy)

theorem pos_mem_of_map_eq {blks blks1 : List mblk}
    (h : blks1.map mblk.pos = blks.map mblk.pos) {B : mblk} (hB : B ∈ blks1) :
    ∃ B0 ∈ blks, B0.pos = B.pos := by
  have : B.pos ∈ blks1.map mblk.pos := List.mem_map_of_mem _ hB
  rw [h] at this
  obtain ⟨B0, h0, h1⟩ := List.mem_map.mp this
  exact ⟨B0, h0, h1⟩

theorem ent_region_pos {bs ms tb front bp : Int} {blks : List mblk}
    (hg : Good bs ms tb front bp blks) (hbs : 0 < bs) {e : metadata_data_t}
    (he : e ∈ all_ents blks) : bs ≤ ent_len e * bs := by
  have := ent_len_pos hg he
  nlinarith

/-- The index after a block was inserted as a new entry, with its data at the
front of the file. -/
theorem Good.insert {bs ms tb front bp : Int} {blks blks1 : List mblk}
    (hg : Good bs ms tb front bp blks) (hbs : 0 < bs) {A C : List metadata_data_t} {b : Int}
    (hA : all_ents blks = A ++ C)
    (hA1 : all_ents blks1 = A ++ { start := b, end_ := b, pos := front } :: C)
    (hlt : ∀ e ∈ A, e.end_ < b) (hgt : ∀ e ∈ C, b < e.start) (hb0 : 0 ≤ b) (hb1 : b < tb)
    (hpos : blks1.map mblk.pos = blks.map mblk.pos)
    (hcap : ∀ B ∈ blks1, (B.ents.length : Int) ≤ ms)
    (hspan : ∀ B ∈ blks1, B.ents ≠ [] →
      B.first = (data_at B.ents 0).start ∧ B.last = (data_at B.ents (B.ents.length - 1)).end_)
    (hlink : linked_to blks1 0) :
    Good bs ms tb (front + bs) (bp + 1) blks1 := by
  have hlen : blks1.length = blks.length := by
    have := congrArg List.length hpos
    simpa using this
  have hfront : bs ∣ front ∧ bs ≤ front := by
    rw [hg.front_eq]
    refine ⟨Dvd.intro _ rfl, ?_⟩
    have h1 := hg.present_eq
    have h2 := ents_total_nonneg (all_ents blks) (fun e he => ent_len_pos hg he)
    have : (0 : Int) ≤ bp + blks.length := by omega
    nlinarith
  have hold : ∀ e, e ∈ A ∨ e ∈ C → e ∈ all_ents blks := by
    intro e he
    rw [hA]
    exact List.mem_append.mpr he
  have hmem : ∀ e ∈ all_ents blks1, e = { start := b, end_ := b, pos := front } ∨
      e ∈ all_ents blks := by
    intro e he
    rw [hA1] at he
    rcases List.mem_append.mp he with h | h
    · exact Or.inr (hold e (Or.inl h))
    · rcases List.mem_cons.mp h with h | h
      · exact Or.inl h
      · exact Or.inr (hold e (Or.inr h))
  constructor
  · rw [hA1]
    have hs := hg.sorted
    rw [hA] at hs
    exact pairwise_insert_mid hs hlt hgt
  · intro e he
    rcases hmem e he with rfl | h
    · exact ⟨hb0, le_refl _, hb1⟩
    · exact hg.range e h
  · exact hcap
  · exact hspan
  · exact hlink
  · rw [hg.front_eq, hlen]; ring
  · rw [hA1, hg.present_eq, hA]
    simp only [ents_total, List.map_append, List.sum_append, List.map_cons, List.sum_cons,
      ent_len]
    ring
  · intro B hB
    obtain ⟨B0, h0, h1⟩ := pos_mem_of_map_eq hpos hB
    have := hg.mpos B0 h0
    rw [← h1]
    omega
  · rw [hpos]; exact hg.mnodup
  · intro e he
    rcases hmem e he with rfl | h
    · refine ⟨hfront.1, hfront.2, ?_⟩
      show front + (b - b + 1) * bs ≤ front + bs
      have : (b - b + 1) * bs = bs := by ring
      omega
    · have := hg.epos e h
      omega
  · intro B hB e he
    obtain ⟨B0, h0, h1⟩ := pos_mem_of_map_eq hpos hB
    rw [← h1]
    rcases hmem e he with rfl | h
    · have := hg.mpos B0 h0
      left
      show B0.pos + bs ≤ front
      omega
    · exact hg.me_disj B0 h0 e h
  · rw [hA1]
    have hs := hg.e_disj
    rw [hA] at hs
    refine pairwise_insert_mid hs ?_ ?_
    · intro x hx
      have := hg.epos x (hold x (Or.inl hx))
      left
      show x.pos + ent_len x * bs ≤ front
      omega
    · intro y hy
      have := hg.epos y (hold y (Or.inr hy))
      right
      show y.pos + ent_len y * bs ≤ front
      omega

/-- The index after the entry `e`, whose data ends at the front of the file,
was extended by one block. -/
theorem Good.extend {bs ms tb front bp : Int} {blks blks1 : List mblk}
    (hg : Good bs ms tb front bp blks) (hbs : 0 < bs) {A C : List metadata_data_t}
    {e : metadata_data_t} (hA : all_ents blks = A ++ e :: C)
    (hA1 : all_ents blks1 = A ++ { e with end_ := e.end_ + 1 } :: C)
    (hab : absent (all_ents blks) (e.end_ + 1)) (hb1 : e.end_ + 1 < tb)
    (hep : e.pos + ent_len e * bs = front)
    (hpos : blks1.map mblk.pos = blks.map mblk.pos)
    (hcap : ∀ B ∈ blks1, (B.ents.length : Int) ≤ ms)
    (hspan : ∀ B ∈ blks1, B.ents ≠ [] →
      B.first = (data_at B.ents 0).start ∧ B.last = (data_at B.ents (B.ents.length - 1)).end_)
    (hlink : linked_to blks1 0) :
    Good bs ms tb (front + bs) (bp + 1) blks1 := by
  have hlen : blks1.length = blks.length := by
    have := congrArg List.length hpos
    simpa using this
  have he : e ∈ all_ents blks := by rw [hA]; simp
  have her := hg.range e he
  have hold : ∀ x, x ∈ A ∨ x ∈ C → x ∈ all_ents blks := by
    intro x hx
    rw [hA]
    rcases hx with h | h
    · exact List.mem_append_left _ h
    · exact List.mem_append_right _ (List.mem_cons_of_mem _ h)
  have hmem : ∀ x ∈ all_ents blks1, x = { e with end_ := e.end_ + 1 } ∨ x ∈ all_ents blks := by
    intro x hx
    rw [hA1] at hx
    rcases List.mem_append.mp hx with h | h
    · exact Or.inr (hold x (Or.inl h))
    · rcases List.mem_cons.mp h with h | h
      · exact Or.inl h
      · exact Or.inr (hold x (Or.inr h))
  have hlen1 : ent_len { e with end_ := e.end_ + 1 } = ent_len e + 1 := by
    simp only [ent_len]; ring
  constructor
  · rw [hA1]
    have hs := hg.sorted
    rw [hA] at hs
    refine pairwise_replace_mid hs (fun x _ h => h) ?_
    intro y hy h
    have := hab y (hold y (Or.inr hy))
    have := hg.range y (hold y (Or.inr hy))
    show e.end_ + 1 < y.start
    omega
  · intro x hx
    rcases hmem x hx with rfl | h
    · exact ⟨her.1, by show e.start ≤ e.end_ + 1; omega, hb1⟩
    · exact hg.range x h
  · exact hcap
  · exact hspan
  · exact hlink
  · rw [hg.front_eq, hlen]; ring
  · rw [hA1, hg.present_eq, hA]
    simp only [ents_total, List.map_append, List.sum_append, List.map_cons, List.sum_cons,
      ent_len]
    ring
  · intro B hB
    obtain ⟨B0, h0, h1⟩ := pos_mem_of_map_eq hpos hB
    have := hg.mpos B0 h0
    rw [← h1]
    omega
  · rw [hpos]; exact hg.mnodup
  · intro x hx
    rcases hmem x hx with rfl | h
    · have := hg.epos e he
      rw [hlen1]
      refine ⟨this.1, this.2.1, ?_⟩
      show e.pos + (ent_len e + 1) * bs ≤ front + bs
      have : (ent_len e + 1) * bs = ent_len e * bs + bs := by ring
      omega
    · have := hg.epos x h
      omega
  · intro B hB x hx
    obtain ⟨B0, h0, h1⟩ := pos_mem_of_map_eq hpos hB
    rw [← h1]
    rcases hmem x hx with rfl | h
    · have h3 := hg.me_disj B0 h0 e he
      have h4 := hg.mpos B0 h0
      rw [hlen1]
      show B0.pos + bs ≤ e.pos ∨ e.pos + (ent_len e + 1) * bs ≤ B0.pos
      rcases h3 with h3 | h3
      · left; exact h3
      · left; omega
    · exact hg.me_disj B0 h0 x h
  · rw [hA1]
    have hs := hg.e_disj
    rw [hA] at hs
    refine pairwise_replace_mid hs ?_ ?_
    · intro x hx h
      have := hg.epos x (hold x (Or.inl hx))
      have := ent_region_pos hg hbs (hold x (Or.inl hx))
      rw [hlen1]
      show x.pos + ent_len x * bs ≤ e.pos ∨ e.pos + (ent_len e + 1) * bs ≤ x.pos
      rcases h with h | h
      · left; exact h
      · left; omega
    · intro y hy h
      have := hg.epos y (hold y (Or.inr hy))
      have := ent_region_pos hg hbs (hold y (Or.inr hy))
      rw [hlen1]
      show e.pos + (ent_len e + 1) * bs ≤ y.pos ∨ y.pos + ent_len y * bs ≤ e.pos
      rcases h with h | h
      · right; omega
      · right; exact h

theorem linked_replace {pre : List mblk} {B B1 : mblk} {post : List mblk} {nx : Int}
    (h : linked_to (pre ++ B :: post) nx) (h1 : B1.pos = B.pos) (h2 : B1.next = B.next) :
    linked_to (pre ++ B1 :: post) nx := by
  rw [linked_to_append] at h ⊢
  simp only [head_pos, linked_to] at h ⊢
  rw [h1, h2]
  exact h

theorem not_mem_of_decomp {bs ms tb front bp : Int} {pre : List mblk} {B : mblk}
    {post : List mblk} (hg : Good bs ms tb front bp (pre ++ B :: post)) {C : mblk}
    (hC : C ∈ pre ∨ C ∈ post) : C.pos ≠ B.pos := by
  have h := hg.mnodup
  rw [List.map_append, List.map_cons, List.nodup_append] at h
  obtain ⟨-, h2, h3⟩ := h
  rw [List.nodup_cons] at h2
  intro hc
  rcases hC with hC | hC
  · exact h3 (List.mem_map_of_mem _ hC) (by rw [hc]; simp)
  · exact h2.1 (by rw [← hc]; exact List.mem_map_of_mem _ hC)

theorem Static.update {img img1 : image_t} (hs : Static img) {x y z : Int}
    (h1 : img1.has_metadata = img.has_metadata) (h2 : img1.offset = img.offset)
    (h3 : img1.header = { img.header with data_end := x, blocks_present := y, metadata := z }) :
    Static img1 := by
  have hd := hs.derived
  constructor
  · rw [h1]; exact hs.has_md
  · rw [h2]; exact hs.off
  · rw [h3]; exact hs.bs_min
  · rw [h3]; exact hs.bs_max
  · rw [h3]; exact hs.ts_min
  · rw [h3]; exact hs.ts_max
  · rw [h3]
    have e1 : img.header.total_blocks = (fill_derived_header img.header).total_blocks := by
      rw [hd]
    have e2 : img.header.last_block = (fill_derived_header img.header).last_block := by rw [hd]
    have e3 : img.header.meta_size = (fill_derived_header img.header).meta_size := by rw [hd]
    simp only [fill_derived_header] at e1 e2 e3 ⊢
    rw [← e1, ← e2, ← e3]
  · rw [h3]; exact hs.mtime
  · rw [h3]; exact hs.room

theorem extend_file_eq (img : image_t) (new_pos : Int) (hs : img.fd.script = []) :
    extend_file img new_pos = (new_pos, { img with
      header := { img.header with data_end := new_pos + img.header.block_size,
                                  blocks_present := img.header.blocks_present + 1 },
      flush_file_header := true,
      fd := { img.fd with
        bytes := fun i => if i < new_pos + img.header.block_size then byte_at img.fd i else 0,
        size := new_pos + img.header.block_size } }) := by
  unfold extend_file
  rw [ftruncate_ok hs]
  simp

/-- The cached entries after the insertion at the label `extend_block`. -/
theorem insert_entry_eq (img : image_t) (b p : Int) (es : List metadata_data_t)
    (hc : img.count = es.length) (hd : img.metadata_data.take es.length = es)
    (hl : es.length < img.metadata_data.length)
    (hs : es.Pairwise (fun a c => a.end_ < c.start)) (hr : ∀ e ∈ es, e.start ≤ e.end_)
    (ha : absent es b) :
    ∃ l1 l2 cs, es = l1 ++ l2 ∧ (∀ e ∈ l1, e.end_ < b) ∧ (∀ e ∈ l2, b < e.start) ∧
      ((l1 ++ { start := b, end_ := b, pos := p } :: l2) ++ cs).length =
        img.metadata_data.length ∧
      insert_entry img b p = { img with
        count := (es.length : Int) + 1,
        metadata_data := (l1 ++ { start := b, end_ := b, pos := p } :: l2) ++ cs,
        metadata_summary := set_cached_span img
          (data_at (l1 ++ { start := b, end_ := b, pos := p } :: l2) 0).start
          (data_at (l1 ++ { start := b, end_ := b, pos := p } :: l2) es.length).end_,
        flush_metadata := true } := by
  have hne : img.metadata_data.drop es.length ≠ [] := by
    intro h
    have := congrArg List.length h
    simp at this
    omega
  obtain ⟨h0, cs, hcs⟩ := List.exists_cons_of_ne_nil hne
  have hmd : img.metadata_data = es ++ h0 :: cs := by
    conv_lhs => rw [← List.take_append_drop es.length img.metadata_data, hd, hcs]
  obtain ⟨l1, l2, h1, e1, e2, e3, e4⟩ := shift_entries_sorted b es h0 cs hs hr ha
  have hlen : ((l1 ++ { start := b, end_ := b, pos := p } :: l2) ++ cs).length =
      img.metadata_data.length := by
    rw [hmd, e1]; simp; omega
  refine ⟨l1, l2, cs, e1, e3, e4, hlen, ?_⟩
  have hsh : shift_entries b img.count.toNat img.metadata_data =
      (l1.length, l1 ++ h1 :: (l2 ++ cs)) := by
    rw [hc, Int.toNat_ofNat, hmd]; exact e2
  have hset : (l1 ++ h1 :: (l2 ++ cs)).set l1.length { start := b, end_ := b, pos := p } =
      (l1 ++ { start := b, end_ := b, pos := p } :: l2) ++ cs := by
    rw [set_append_mid]; simp
  have hx : ∀ n, n ≤ es.length →
      data_at ((l1 ++ { start := b, end_ := b, pos := p } :: l2) ++ cs) n =
        data_at (l1 ++ { start := b, end_ := b, pos := p } :: l2) n := by
    intro n hn
    unfold data_at
    have hlt : n < (l1 ++ { start := b, end_ := b, pos := p } :: l2).length := by
      rw [e1] at hn; simp at hn ⊢; omega
    rw [List.getD_eq_getElem _ _ (by rw [List.length_append]; omega),
      List.getD_eq_getElem _ _ hlt, List.getElem_append_left hlt]
  unfold insert_entry
  simp only
  rw [hsh]
  simp only
  rw [hset, hc, hx 0 (by omega)]
  have : ((es.length : Int) + 1 - 1).toNat = es.length := by omega
  rw [this, hx es.length (le_refl _)]

theorem set_summ (pre : List mblk) (B : mblk) (post : List mblk) (x : metadata_summary_t) :
    ((pre ++ B :: post).map mblk.summ).set pre.length x =
      pre.map mblk.summ ++ x :: post.map mblk.summ := by
  rw [List.map_append, List.map_cons, List.set_append_right _ _ (by simp)]
  simp

theorem absent_insert {A C : List metadata_data_t} {n : metadata_data_t} {b : Int}
    (hn : n.start = b ∧ n.end_ = b) (b1 : Int) :
    absent (A ++ n :: C) b1 ↔ (b1 ≠ b ∧ absent (A ++ C) b1) := by
  unfold absent
  constructor
  · intro h
    refine ⟨?_, ?_⟩
    · intro hc
      exact h n (by simp) (by rw [hn.1, hn.2, hc]; exact ⟨le_refl _, le_refl _⟩)
    · intro e he
      apply h e
      rcases List.mem_append.mp he with h1 | h1
      · exact List.mem_append_left _ h1
      · exact List.mem_append_right _ (List.mem_cons_of_mem _ h1)
  · rintro ⟨h1, h2⟩ e he
    rcases List.mem_append.mp he with h | h
    · exact h2 e (List.mem_append_left _ h)
    · rcases List.mem_cons.mp h with rfl | h
      · rw [hn.1, hn.2]; intro hc; apply h1; omega
      · exact h2 e (List.mem_append_right _ h)

theorem front_ge {bs ms tb front bp : Int} {blks : List mblk}
    (hg : Good bs ms tb front bp blks) (hbs : 0 < bs) : bs ∣ front ∧ bs ≤ front := by
  rw [hg.front_eq]
  refine ⟨Dvd.intro _ rfl, ?_⟩
  have h1 := hg.present_eq
  have h2 := ents_total_nonneg (all_ents blks) (fun e he => ent_len_pos hg he)
  have : (0 : Int) ≤ bp + blks.length := by omega
  nlinarith

theorem dirty_pos_of_cached {img : image_t} {pre : List mblk} {B : mblk} {post : List mblk}
    (h1 : img.summary = some pre.length)
    (h2 : img.metadata_summary = (pre ++ B :: post).map mblk.summ) :
    dirty_pos img = none ∨ dirty_pos img = some B.pos := by
  unfold dirty_pos
  split_ifs
  · right
    rw [h1, h2]
    simp only [Option.map_some']
    rw [summ_at_map]
    rfl
  · left; rfl

/-- The state after the insertion at the label `extend_block` represents the
index with the block as a new entry of the cached metadata block. -/
theorem Rep.after_insert {img : image_t} (img1 : image_t) (B1 : mblk)
    (cs : List metadata_data_t) {blks : List mblk} {front : Int}
    {data : Int → List Nat} (hr : Rep0 img blks front data)
    {pre : List mblk} {B : mblk} {post : List mblk} (hb : blks = pre ++ B :: post)
    (hsum : img.summary = some pre.length) (hms : img.metadata_summary = blks.map mblk.summ)
    (hempty : ∀ C ∈ blks, C.ents = [] → C = B)
    {b : Int} (hb0 : 0 ≤ b) (hb1 : b < img.header.total_blocks)
    (hlt : ∀ e ∈ all_ents pre, e.end_ < b) (hgt : ∀ e ∈ all_ents post, b < e.start)
    {l1 l2 : List metadata_data_t} (he : B.ents = l1 ++ l2)
    (e3 : ∀ e ∈ l1, e.end_ < b) (e4 : ∀ e ∈ l2, b < e.start)
    (p1 : B1.pos = B.pos) (p2 : B1.next = B.next)
    (p3 : B1.ents = l1 ++ { start := b, end_ := b, pos := front } :: l2)
    (p4 : B1.first = (data_at B1.ents 0).start)
    (p5 : B1.last = (data_at B1.ents (B1.ents.length - 1)).end_)
    (hcap : (B1.ents.length : Int) ≤ img.header.meta_size)
    (i1 : img1.has_metadata = img.has_metadata) (i2 : img1.offset = img.offset)
    (i3 : img1.header = { img.header with data_end := front + img.header.block_size, blocks_present := img.header.blocks_present + 1 })
    (i4 : img1.metadata_data = B1.ents ++ cs)
    (i4l : img1.metadata_data.length = img.metadata_data.length)
    (i5 : img1.summary = some pre.length) (i6 : img1.next = B.next)
    (i7 : img1.count = B1.ents.length)
    (i8 : img1.metadata_summary = (pre ++ B1 :: post).map mblk.summ)
    (i11 : img1.fd.script = []) (i12 : img1.fd.size = front + img.header.block_size)
    (i13 : ∀ q l, q + l ≤ front + img.header.block_size →
      file_bytes img1.fd q l = file_bytes img.fd q l)
    (i9 : img1.flush_metadata = true) (i14 : img1.flush_file_header = true) :
    Rep img1 (pre ++ B1 :: post)
      (Function.update data b (file_bytes img1.fd front (block_len img.header b))) ∧
    present (all_ents (pre ++ B1 :: post)) img.header.block_size b front ∧
    (∀ b1, absent (all_ents (pre ++ B1 :: post)) b1 ↔ (b1 ≠ b ∧ absent (all_ents blks) b1)) := by
  have hs := hr.static
  have hg := hr.good
  have hbs := hs.bs_min
  have hbs0 : (0 : Int) < img.header.block_size := by omega
  have hB : B ∈ blks := by rw [hb]; simp
  have hA : all_ents blks = (all_ents pre ++ l1) ++ (l2 ++ all_ents post) := by
    rw [hb, all_ents_append, all_ents_cons, he]; simp
  have hA1 : all_ents (pre ++ B1 :: post) =
      (all_ents pre ++ l1) ++ { start := b, end_ := b, pos := front } :: (l2 ++ all_ents post) := by
    rw [all_ents_append, all_ents_cons, p3]; simp
  have hltA : ∀ e ∈ all_ents pre ++ l1, e.end_ < b := by
    intro e h
    rcases List.mem_append.mp h with h | h
    · exact hlt e h
    · exact e3 e h
  have hgtC : ∀ e ∈ l2 ++ all_ents post, b < e.start := by
    intro e h
    rcases List.mem_append.mp h with h | h
    · exact e4 e h
    · exact hgt e h
  have habs : absent (all_ents blks) b := by
    rw [hA]
    exact absent_append.mpr ⟨absent_of_lt hltA, absent_of_gt hgtC⟩
  have hmemb : ∀ C ∈ pre ++ B1 :: post, C = B1 ∨ (C ∈ blks ∧ C.pos ≠ B.pos) := by
    intro C hC
    rcases List.mem_append.mp hC with h | h
    · right
      exact ⟨by rw [hb]; exact List.mem_append_left _ h,
        not_mem_of_decomp (hb ▸ hg) (Or.inl h)⟩
    · rcases List.mem_cons.mp h with rfl | h
      · left; rfl
      · right
        exact ⟨by rw [hb]; exact List.mem_append_right _ (List.mem_cons_of_mem _ h),
          not_mem_of_decomp (hb ▸ hg) (Or.inr h)⟩
  have hne1 : B1.ents ≠ [] := by rw [p3]; simp
  have hgood : Good img.header.block_size img.header.meta_size img.header.total_blocks
      (front + img.header.block_size) (img.header.blocks_present + 1) (pre ++ B1 :: post) := by
    refine hg.insert hbs0 hA hA1 hltA hgtC hb0 hb1 (by rw [hb]; simp [p1]) ?_ ?_
      (linked_replace (hb ▸ hg.linked) p1 p2)
    · intro C hC
      rcases hmemb C hC with rfl | h
      · exact hcap
      · exact hg.cap C h.1
    · intro C hC
      rcases hmemb C hC with rfl | h
      · exact fun _ => ⟨p4, p5⟩
      · exact hg.span C h.1
  have hmem : ∀ e ∈ all_ents (pre ++ B1 :: post),
      e = { start := b, end_ := b, pos := front } ∨ e ∈ all_ents blks := by
    intro e h
    rw [hA1] at h
    rw [hA]
    rcases List.mem_append.mp h with h | h
    · exact Or.inr (List.mem_append_left _ h)
    · rcases List.mem_cons.mp h with h | h
      · exact Or.inl h
      · exact Or.inr (List.mem_append_right _ h)
  have hdirty := dirty_pos_of_cached hsum (hb ▸ hms)
  have hfr := front_ge hg hbs0
  have hbl : ∀ x, block_len img1.header x = block_len img.header x := by
    intro x; rw [i3]; rfl
  have hbsz : img1.header.block_size = img.header.block_size := by rw [i3]
  refine ⟨⟨?_, ?_, ?_⟩, ?_, ?_⟩
  · constructor
    · exact hs.update (z := img.header.metadata) i1 i2 i3
    · rw [i3]; exact hgood
    · have := hr.hdr_meta
      rw [i3]
      show img.header.metadata = _
      rw [this, hb]
      cases pre <;> simp [head_pos, p1]
    · left; exact i8
    · intro h
      rw [i5] at h
      exact absurd h (by simp)
    · intro s h
      rw [i5] at h
      simp only [Option.some.injEq] at h
      refine ⟨pre, B1, post, rfl, h, i7, ?_, by rw [i6, p2]⟩
      rw [i4, List.take_left]
    · rw [i4l, i3]; exact hr.md_len
    · have ho := hr.ondisk
      constructor
      · exact i11
      · rw [hbsz, i12]; omega
      · rw [i14]; intro h; exact absurd h (by simp)
      · intro C hC hne
        rw [hbsz]
        rcases hmemb C hC with rfl | ⟨h1, h2⟩
        · exfalso
          apply hne
          unfold dirty_pos
          rw [if_pos i9, i5, i8]
          simp only [Option.map_some']
          rw [summ_at_map]
          rfl
        · have hold := ho.disk C h1 (by
            rcases hdirty with h | h
            · rw [h]; simp
            · rw [h]; simp; exact fun h => h2 h.symm)
          have hp := hg.mpos C h1
          rw [i12, i13 _ _ (by omega)]
          exact ⟨by omega, hold.2⟩
      · intro e he x h1 h2
        rw [hbsz, hbl]
        rcases hmem e he with rfl | h
        · have hx : x = b := by
            have h1 : b ≤ x := h1
            have h2 : x ≤ b := h2
            omega
          subst hx
          have hp : block_position { start := x, end_ := x, pos := front } x
              img.header.block_size = front := by
            simp [block_position]
          rw [hp, i12, Function.update_same]
          exact ⟨le_refl _, rfl⟩
        · have hold := ho.data_ok e h x h1 h2
          have hne : x ≠ b := by
            intro hc
            rw [hc] at h1 h2
            exact habs e h ⟨h1, h2⟩
          have hreg := block_region hbs0 h1 h2
          have hep := hg.epos e h
          have hle := (block_len_le hs x).2
          rw [Function.update_noteq hne, i12, i13 _ _ (by omega)]
          exact ⟨by omega, hold.2⟩
  · rw [i12, i3]
  · intro C hC
    rcases hmemb C hC with rfl | ⟨h1, h2⟩
    · exact hne1
    · intro hc
      exact h2 (by rw [hempty C h1 hc])
  · refine ⟨{ start := b, end_ := b, pos := front }, ?_, le_refl _, le_refl _, ?_⟩
    · rw [hA1]; simp
    · simp [block_position]
  · intro b1
    rw [hA1, hA]
    exact absent_insert ⟨rfl, rfl⟩ b1

theorem extend_file_fields (img : image_t) (p : Int) (hs : img.fd.script = []) :
    (extend_file img p).1 = p ∧
    (extend_file img p).2.header = { img.header with data_end := p + img.header.block_size, blocks_present := img.header.blocks_present + 1 } ∧
    (extend_file img p).2.has_metadata = img.has_metadata ∧
    (extend_file img p).2.offset = img.offset ∧
    (extend_file img p).2.metadata_data = img.metadata_data ∧
    (extend_file img p).2.summary = img.summary ∧
    (extend_file img p).2.next = img.next ∧
    (extend_file img p).2.count = img.count ∧
    (extend_file img p).2.metadata_summary = img.metadata_summary ∧
    (extend_file img p).2.flush_metadata = img.flush_metadata ∧
    (extend_file img p).2.flush_file_header = true ∧
    (extend_file img p).2.fd.script = [] ∧
    (extend_file img p).2.fd.size = p + img.header.block_size ∧
    (∀ q l, q + l ≤ p + img.header.block_size →
      file_bytes (extend_file img p).2.fd q l = file_bytes img.fd q l) := by
  rw [extend_file_eq img p hs]
  refine ⟨rfl, rfl, rfl, rfl, rfl, rfl, rfl, rfl, rfl, rfl, rfl, hs, rfl, ?_⟩
  intro q l h
  exact file_bytes_truncated img.fd h

/-- The insertion at the label `extend_block`: the block becomes a new entry
of the cached metadata block, and its data get the front of the file. -/
theorem extend_block_spec {img : image_t} {blks : List mblk} {front : Int}
    {data : Int → List Nat} (hr : Rep0 img blks front data)
    {pre : List mblk} {B : mblk} {post : List mblk} (hb : blks = pre ++ B :: post)
    (hsum : img.summary = some pre.length) (hms : img.metadata_summary = blks.map mblk.summ)
    (hroom : (B.ents.length : Int) < img.header.meta_size)
    (hempty : ∀ C ∈ blks, C.ents = [] → C = B)
    {b : Int} (hb0 : 0 ≤ b) (hb1 : b < img.header.total_blocks)
    (hlt : ∀ e ∈ all_ents pre, e.end_ < b) (hgt : ∀ e ∈ all_ents post, b < e.start)
    (hab : absent B.ents b) :
    (extend_block img b front).1 = front ∧
    ∃ blks1 data1, Rep (extend_block img b front).2 blks1 data1 ∧
      (extend_block img b front).2.header = { img.header with data_end := front + img.header.block_size, blocks_present := img.header.blocks_present + 1 } ∧
      (extend_block img b front).2.has_metadata = img.has_metadata ∧
      present (all_ents blks1) img.header.block_size b front ∧
      (∀ b1, absent (all_ents blks1) b1 ↔ (b1 ≠ b ∧ absent (all_ents blks) b1)) ∧
      (∀ b1, b1 ≠ b → data1 b1 = data b1) ∧
      blks1.map mblk.pos = blks.map mblk.pos := by
  have hs := hr.static
  have hg := hr.good
  obtain ⟨pre2, B2, post2, hb2, hl2, hc, hd, hn⟩ := hr.cache _ hsum
  obtain ⟨-, rfl, -⟩ := decomp_unique (hb.symm.trans hb2) hl2.symm
  have hB : B ∈ blks := by rw [hb]; simp
  have hsorted : B.ents.Pairwise (fun a c => a.end_ < c.start) := by
    have := hg.sorted
    rw [hb, all_ents_append, all_ents_cons] at this
    exact (List.pairwise_append.mp (List.pairwise_append.mp this).2.1).1
  have hrange : ∀ e ∈ B.ents, e.start ≤ e.end_ := fun e he =>
    (hg.range e (mem_all_ents.mpr ⟨B, hB, he⟩)).2.1
  have hmdl : B.ents.length < img.metadata_data.length := by
    have := hr.md_len
    omega
  obtain ⟨l1, l2, cs, he, e3, e4, hlen, hins⟩ :=
    insert_entry_eq img b front B.ents hc hd hmdl hsorted hrange hab
  have hlen1 : (l1 ++ ({ start := b, end_ := b, pos := front } : metadata_data_t) :: l2).length =
      B.ents.length + 1 := by rw [he]; simp; omega
  have hscr : (insert_entry img b front).fd.script = [] := by
    rw [hins]; exact hr.ondisk.script
  obtain ⟨f1, f2, f3, f4, f5, f6, f7, f8, f9, f10, f11, f12, f13, f14⟩ :=
    extend_file_fields (insert_entry img b front) front hscr
  have hext : extend_block img b front = extend_file (insert_entry img b front) front := rfl
  rw [hext]
  refine ⟨f1, ?_⟩
  have key := Rep.after_insert (extend_file (insert_entry img b front) front).2
    (B.with_ents (l1 ++ { start := b, end_ := b, pos := front } :: l2)) cs
    hr hb hsum hms hempty hb0 hb1 hlt hgt he e3 e4
    rfl rfl rfl rfl rfl
    (by show ((l1 ++ _ :: l2).length : Int) ≤ _; rw [hlen1]; push_cast; omega)
    (by rw [f3, hins]) (by rw [f4, hins]) (by rw [f2, hins])
    (by rw [f5, hins]; rfl) (by rw [f5, hins]; exact hlen)
    (by rw [f6, hins]; exact hsum) (by rw [f7, hins]; exact hn)
    (by rw [f8, hins]; show (B.ents.length : Int) + 1 = ((l1 ++ _ :: l2).length : Int)
        rw [hlen1]; push_cast; rfl)
    (by
      rw [f9, hins]
      show set_cached_span img _ _ = _
      unfold set_cached_span
      rw [hsum]
      simp only
      rw [hms, hb, set_summ, summ_at_map]
      simp [mblk.summ, mblk.with_ents, hlen1])
    (by rw [f12]) (by rw [f13, hins]) (by
      intro q l h
      rw [f14 q l (by rw [hins]; exact h), hins])
    (by rw [f10, hins]) f11
  refine ⟨_, _, key.1, by rw [f2, hins], by rw [f3, hins], key.2.1, key.2.2, ?_, ?_⟩
  · intro b1 h
    exact Function.update_noteq h _ _
  · rw [hb]
    simp [mblk.with_ents]

/-! ## Extending an entry of the cached metadata block -/

theorem extend_metadata_loop_spec (img : image_t) (b p : Int) :
    ∀ (es pre rest : List metadata_data_t), img.metadata_data = pre ++ es ++ rest →
    extend_metadata_loop img b p es.length pre.length = (0, img) ∨
    ∃ A e C, es = A ++ e :: C ∧ e.end_ + 1 = b ∧
      p = block_position e b img.header.block_size ∧
      extend_metadata_loop img b p es.length pre.length =
        (1, { img with
          metadata_data := img.metadata_data.set (pre.length + A.length)
            { e with end_ := e.end_ + 1 },
          metadata_summary :=
            if ((pre.length + A.length : Nat) : Int) + 1 = img.count then
              set_cached_span img (cached_summary img).first (e.end_ + 1)
            else img.metadata_summary,
          flush_metadata := true })
  | [], pre, rest, _ => by
    left
    rfl
  | e :: t, pre, rest, hmd => by
    have hat : data_at img.metadata_data pre.length = e := by
      rw [hmd, List.append_assoc]
      exact data_at_append_mid pre e (t ++ rest)
    simp only [List.length_cons]
    unfold extend_metadata_loop
    rw [hat]
    have ih := extend_metadata_loop_spec img b p t (pre ++ [e]) rest (by rw [hmd]; simp)
    have hl : (pre ++ [e]).length = pre.length + 1 := by simp
    rw [hl] at ih
    by_cases h1 : e.end_ + 1 ≠ b
    · rw [if_pos h1]
      rcases ih with ih | ⟨A, x, C, i1, i2, i3, i4⟩
      · left; exact ih
      · right
        refine ⟨e :: A, x, C, by rw [i1]; rfl, i2, i3, ?_⟩
        rw [i4]
        have : pre.length + 1 + A.length = pre.length + (e :: A).length := by
          simp; omega
        rw [this]
    · rw [if_neg h1]
      by_cases h2 : p ≠ block_position e b img.header.block_size
      · rw [if_pos h2]
        rcases ih with ih | ⟨A, x, C, i1, i2, i3, i4⟩
        · left; exact ih
        · right
          refine ⟨e :: A, x, C, by rw [i1]; rfl, i2, i3, ?_⟩
          rw [i4]
          have : pre.length + 1 + A.length = pre.length + (e :: A).length := by
            simp; omega
          rw [this]
      · rw [if_neg h2]
        right
        refine ⟨[], e, t, rfl, by simpa using h1, by simpa using h2, ?_⟩
        simp

theorem absent_extend {A C : List metadata_data_t} {e : metadata_data_t} (b1 : Int)
    (he : e.start ≤ e.end_) :
    absent (A ++ { e with end_ := e.end_ + 1 } :: C) b1 ↔
      (b1 ≠ e.end_ + 1 ∧ absent (A ++ e :: C) b1) := by
  unfold absent
  constructor
  · intro h
    refine ⟨?_, ?_⟩
    · intro hc
      refine h { e with end_ := e.end_ + 1 } (by simp) ⟨?_, ?_⟩
      · show e.start ≤ b1; omega
      · show b1 ≤ e.end_ + 1; omega
    · intro x hx
      rcases List.mem_append.mp hx with h1 | h1
      · exact h x (List.mem_append_left _ h1)
      · rcases List.mem_cons.mp h1 with rfl | h1
        · intro hc
          refine h { x with end_ := x.end_ + 1 } (by simp) ⟨hc.1, ?_⟩
          show b1 ≤ x.end_ + 1
          omega
        · exact h x (List.mem_append_right _ (List.mem_cons_of_mem _ h1))
  · rintro ⟨h1, h2⟩ x hx
    rcases List.mem_append.mp hx with h | h
    · exact h2 x (List.mem_append_left _ h)
    · rcases List.mem_cons.mp h with rfl | h
      · intro hc
        have hc1 : e.start ≤ b1 := hc.1
        have hc2 : b1 ≤ e.end_ + 1 := hc.2
        exact h2 e (by simp) ⟨hc1, by omega⟩
      · exact h2 x (List.mem_append_right _ (List.mem_cons_of_mem _ h))

/-- The state after an entry of the cached metadata block was extended by the
block, whose data get the front of the file. -/
theorem Rep.after_extend {img : image_t} (img1 : image_t) (B1 : mblk)
    (cs : List metadata_data_t) {blks : List mblk} {data : Int → List Nat}
    (hr : Rep img blks data)
    {pre : List mblk} {B : mblk} {post : List mblk} (hb : blks = pre ++ B :: post)
    (hsum : img.summary = some pre.length) (hms : img.metadata_summary = blks.map mblk.summ)
    {A C : List metadata_data_t} {e : metadata_data_t} (he : B.ents = A ++ e :: C)
    (hab : absent (all_ents blks) (e.end_ + 1)) (hb1 : e.end_ + 1 < img.header.total_blocks)
    (hep : img.header.data_end = block_position e (e.end_ + 1) img.header.block_size)
    (p1 : B1.pos = B.pos) (p2 : B1.next = B.next)
    (p3 : B1.ents = A ++ { e with end_ := e.end_ + 1 } :: C)
    (p4 : B1.first = (data_at B1.ents 0).start)
    (p5 : B1.last = (data_at B1.ents (B1.ents.length - 1)).end_)
    (i1 : img1.has_metadata = img.has_metadata) (i2 : img1.offset = img.offset)
    (i3 : img1.header = { img.header with data_end := img.header.data_end + img.header.block_size, blocks_present := img.header.blocks_present + 1 })
    (i4 : img1.metadata_data = B1.ents ++ cs)
    (i4l : img1.metadata_data.length = img.metadata_data.length)
    (i5 : img1.summary = some pre.length) (i6 : img1.next = B.next)
    (i7 : img1.count = B1.ents.length)
    (i8 : img1.metadata_summary = (pre ++ B1 :: post).map mblk.summ)
    (i11 : img1.fd.script = [])
    (i12 : img1.fd.size = img.header.data_end + img.header.block_size)
    (i13 : ∀ q l, q + l ≤ img.header.data_end + img.header.block_size →
      file_bytes img1.fd q l = file_bytes img.fd q l)
    (i9 : img1.flush_metadata = true) (i14 : img1.flush_file_header = true) :
    Rep img1 (pre ++ B1 :: post)
      (Function.update data (e.end_ + 1)
        (file_bytes img1.fd img.header.data_end (block_len img.header (e.end_ + 1)))) ∧
    present (all_ents (pre ++ B1 :: post)) img.header.block_size (e.end_ + 1)
      img.header.data_end ∧
    (∀ b1, absent (all_ents (pre ++ B1 :: post)) b1 ↔
      (b1 ≠ e.end_ + 1 ∧ absent (all_ents blks) b1)) := by
  have h0 := hr.rep0
  have hs := h0.static
  have hg := h0.good
  have hbs := hs.bs_min
  have hbs0 : (0 : Int) < img.header.block_size := by omega
  have hB : B ∈ blks := by rw [hb]; simp
  have hA : all_ents blks = (all_ents pre ++ A) ++ e :: (C ++ all_ents post) := by
    rw [hb, all_ents_append, all_ents_cons, he]; simp
  have hA1 : all_ents (pre ++ B1 :: post) =
      (all_ents pre ++ A) ++ { e with end_ := e.end_ + 1 } :: (C ++ all_ents post) := by
    rw [all_ents_append, all_ents_cons, p3]; simp
  have hein : e ∈ all_ents blks := by rw [hA]; simp
  have her := hg.range e hein
  have hepos : e.pos + ent_len e * img.header.block_size = img.header.data_end := by
    rw [hep]; unfold block_position ent_len; ring
  have hmemb : ∀ X ∈ pre ++ B1 :: post, X = B1 ∨ (X ∈ blks ∧ X.pos ≠ B.pos) := by
    intro X hX
    rcases List.mem_append.mp hX with h | h
    · right
      exact ⟨by rw [hb]; exact List.mem_append_left _ h,
        not_mem_of_decomp (hb ▸ hg) (Or.inl h)⟩
    · rcases List.mem_cons.mp h with rfl | h
      · left; rfl
      · right
        exact ⟨by rw [hb]; exact List.mem_append_right _ (List.mem_cons_of_mem _ h),
          not_mem_of_decomp (hb ▸ hg) (Or.inr h)⟩
  have hne1 : B1.ents ≠ [] := by rw [p3]; simp
  have hlen1 : B1.ents.length = B.ents.length := by rw [p3, he]; simp
  have hgood : Good img.header.block_size img.header.meta_size img.header.total_blocks
      (img.header.data_end + img.header.block_size) (img.header.blocks_present + 1)
      (pre ++ B1 :: post) := by
    refine hg.extend hbs0 hA hA1 hab hb1 hepos (by rw [hb]; simp [p1]) ?_ ?_
      (linked_replace (hb ▸ hg.linked) p1 p2)
    · intro X hX
      rcases hmemb X hX with rfl | h
      · rw [hlen1]; exact hg.cap B hB
      · exact hg.cap X h.1
    · intro X hX
      rcases hmemb X hX with rfl | h
      · exact fun _ => ⟨p4, p5⟩
      · exact hg.span X h.1
  have hmem : ∀ x ∈ all_ents (pre ++ B1 :: post),
      x = { e with end_ := e.end_ + 1 } ∨ (x ∈ all_ents blks ∧ x ≠ e) := by
    intro x h
    have hs := hg.sorted
    rw [hA] at hs
    rw [hA1] at h
    rw [hA]
    rcases List.mem_append.mp h with h | h
    · right
      refine ⟨List.mem_append_left _ h, ?_⟩
      intro hxe
      have := (List.pairwise_append.mp hs).2.2 x h e (by simp)
      rw [hxe] at this
      omega
    · rcases List.mem_cons.mp h with h | h
      · exact Or.inl h
      · right
        refine ⟨List.mem_append_right _ (List.mem_cons_of_mem _ h), ?_⟩
        intro hxe
        have := (List.pairwise_cons.mp (List.pairwise_append.mp hs).2.1).1 x h
        rw [hxe] at this
        omega
  have hdirty := dirty_pos_of_cached hsum (hb ▸ hms)
  have hbl : ∀ x, block_len img1.header x = block_len img.header x := by
    intro x; rw [i3]; rfl
  have hbsz : img1.header.block_size = img.header.block_size := by rw [i3]
  refine ⟨⟨?_, ?_, ?_⟩, ?_, ?_⟩
  · constructor
    · exact hs.update (z := img.header.metadata) i1 i2 i3
    · rw [i3]; exact hgood
    · have := h0.hdr_meta
      rw [i3]
      show img.header.metadata = _
      rw [this, hb]
      cases pre <;> simp [head_pos, p1]
    · left; exact i8
    · intro h
      rw [i5] at h
      exact absurd h (by simp)
    · intro s h
      rw [i5] at h
      simp only [Option.some.injEq] at h
      refine ⟨pre, B1, post, rfl, h, i7, ?_, by rw [i6, p2]⟩
      rw [i4, List.take_left]
    · rw [i4l, i3]; exact h0.md_len
    · have ho := h0.ondisk
      constructor
      · exact i11
      · rw [hbsz, i12]
        have := (front_ge hg hbs0).2
        omega
      · rw [i14]; intro h; exact absurd h (by simp)
      · intro X hX hne
        rw [hbsz]
        rcases hmemb X hX with rfl | ⟨h1, h2⟩
        · exfalso
          apply hne
          unfold dirty_pos
          rw [if_pos i9, i5, i8]
          simp only [Option.map_some']
          rw [summ_at_map]
          rfl
        · have hold := ho.disk X h1 (by
            rcases hdirty with h | h
            · rw [h]; simp
            · rw [h]; simp; exact fun h => h2 h.symm)
          have hp := hg.mpos X h1
          rw [i12, i13 _ _ (by omega)]
          exact ⟨by omega, hold.2⟩
      · intro x hx y h1 h2
        rw [hbsz, hbl]
        have hle := (block_len_le hs y).2
        rcases hmem x hx with rfl | ⟨h, hxe⟩
        · have h1 : e.start ≤ y := h1
          have h2 : y ≤ e.end_ + 1 := h2
          have hpe : block_position { e with end_ := e.end_ + 1 } y img.header.block_size =
              block_position e y img.header.block_size := rfl
          rw [hpe]
          by_cases hy : y = e.end_ + 1
          · subst hy
            rw [← hep, i12, Function.update_same]
            exact ⟨le_refl _, rfl⟩
          · have hold := ho.data_ok e hein y h1 (by omega)
            have hreg := block_region hbs0 h1 (show y ≤ e.end_ by omega)
            rw [Function.update_noteq hy, i12, i13 _ _ (by omega)]
            exact ⟨by omega, hold.2⟩
        · have hold := ho.data_ok x h y h1 h2
          have hne : y ≠ e.end_ + 1 := by
            intro hc
            rw [hc] at h1 h2
            exact hab x h ⟨h1, h2⟩
          have hreg := block_region hbs0 h1 h2
          have hep := hg.epos x h
          rw [Function.update_noteq hne, i12, i13 _ _ (by omega)]
          exact ⟨by omega, hold.2⟩
  · rw [i12, i3]
  · intro X hX
    rcases hmemb X hX with rfl | ⟨h1, h2⟩
    · exact hne1
    · exact hr.full X h1
  · refine ⟨{ e with end_ := e.end_ + 1 }, ?_, ?_, le_refl _, ?_⟩
    · rw [hA1]; simp
    · show e.start ≤ e.end_ + 1; omega
    · rw [hep]; rfl
  · intro b1
    rw [hA1, hA]
    exact absent_extend b1 her.2.1

theorem data_at_replace_mid (A C : List metadata_data_t) (e e1 : metadata_data_t) (n : Nat)
    (hn : n ≠ A.length) : data_at (A ++ e1 :: C) n = data_at (A ++ e :: C) n := by
  unfold data_at
  rw [List.getD_eq_getElem?_getD, List.getD_eq_getElem?_getD]
  by_cases h : n < A.length
  · rw [List.getElem?_append_left h, List.getElem?_append_left h]
  · have h1 : A.length ≤ n := by omega
    rw [List.getElem?_append_right h1, List.getElem?_append_right h1]
    obtain ⟨k, hk⟩ : ∃ k, n - A.length = k + 1 := ⟨n - A.length - 1, by omega⟩
    rw [hk]
    simp

/-- The first step of `add_new_block` either leaves the image alone or makes
the block part of an entry of the cached metadata block. -/
theorem try_extend_spec {img : image_t} {blks : List mblk} {data : Int → List Nat}
    (hr : Rep img blks data) {b : Int} (hab : absent (all_ents blks) b)
    (hb1 : b < img.header.total_blocks) :
    try_extend img b = (0, img) ∨
    ((try_extend img b).1 = 1 ∧
      (extend_file (try_extend img b).2 img.header.data_end).1 = img.header.data_end ∧
      ∃ blks1 data1, Rep (extend_file (try_extend img b).2 img.header.data_end).2 blks1 data1 ∧
        (extend_file (try_extend img b).2 img.header.data_end).2.header = { img.header with data_end := img.header.data_end + img.header.block_size, blocks_present := img.header.blocks_present + 1 } ∧
        (extend_file (try_extend img b).2 img.header.data_end).2.has_metadata =
          img.has_metadata ∧
        present (all_ents blks1) img.header.block_size b img.header.data_end ∧
        (∀ b1, absent (all_ents blks1) b1 ↔ (b1 ≠ b ∧ absent (all_ents blks) b1)) ∧
        (∀ b1, b1 ≠ b → data1 b1 = data b1) ∧
        blks1.map mblk.pos = blks.map mblk.pos) := by
  have h0 := hr.rep0
  have hg := h0.good
  cases hsum : img.summary with
  | none =>
    left
    unfold try_extend
    rw [hsum]
  | some s =>
    obtain ⟨pre, B, post, hb, hl, hc, hd, hn⟩ := h0.cache s hsum
    have hms : img.metadata_summary = blks.map mblk.summ := by
      rcases h0.summ with h | h
      · exact h
      · rw [h.2] at hsum; exact absurd hsum (by simp)
    have hB : B ∈ blks := by rw [hb]; simp
    have hT0 : ∀ x, try_extend img x =
        if x ≥ (summ_at img.metadata_summary s).first ∧
            x ≤ (summ_at img.metadata_summary s).last + 1 then
          extend_metadata_loop img x img.header.data_end B.ents.length 0
        else (0, img) := by
      intro x
      unfold try_extend
      rw [hsum]
      simp only
      unfold extend_metadata
      rw [hc, Int.toNat_ofNat]
    by_cases hcond : b ≥ (summ_at img.metadata_summary s).first ∧
        b ≤ (summ_at img.metadata_summary s).last + 1
    · have hT1 : try_extend img b =
          extend_metadata_loop img b img.header.data_end B.ents.length 0 := by
        rw [hT0, if_pos hcond]
      have hmd : img.metadata_data = [] ++ B.ents ++ img.metadata_data.drop B.ents.length := by
        conv_lhs => rw [← List.take_append_drop B.ents.length img.metadata_data, hd]
        simp
      have hloop := extend_metadata_loop_spec img b img.header.data_end B.ents []
        (img.metadata_data.drop B.ents.length) hmd
      simp only [List.length_nil, Nat.zero_add] at hloop
      rcases hloop with h | ⟨A, e, C, he, hend, hep, hI⟩
      · left; rw [hT1]; exact h
      · right
        subst hend
        have hT := hT1.trans hI
        have hscr : img.fd.script = [] := h0.ondisk.script
        obtain ⟨f1, f2, f3, f4, f5, f6, f7, f8, f9, f10, f11, f12, f13, f14⟩ :=
          extend_file_fields (try_extend img (e.end_ + 1)).2 img.header.data_end
            (by rw [hT]; exact hscr)
        have g : (try_extend img (e.end_ + 1)).2.header = img.header ∧
            (try_extend img (e.end_ + 1)).2.has_metadata = img.has_metadata ∧
            (try_extend img (e.end_ + 1)).2.offset = img.offset ∧
            (try_extend img (e.end_ + 1)).2.metadata_data =
              img.metadata_data.set A.length { e with end_ := e.end_ + 1 } ∧
            (try_extend img (e.end_ + 1)).2.summary = img.summary ∧
            (try_extend img (e.end_ + 1)).2.next = img.next ∧
            (try_extend img (e.end_ + 1)).2.count = img.count ∧
            (try_extend img (e.end_ + 1)).2.metadata_summary =
              (if ((A.length : Nat) : Int) + 1 = img.count then
                set_cached_span img (cached_summary img).first (e.end_ + 1)
              else img.metadata_summary) ∧
            (try_extend img (e.end_ + 1)).2.flush_metadata = true ∧
            (try_extend img (e.end_ + 1)).2.fd = img.fd := by
          rw [hT]
          exact ⟨rfl, rfl, rfl, rfl, rfl, rfl, rfl, rfl, rfl, rfl⟩
        obtain ⟨g1, g2, g3, g4, g5, g6, g7, g8, g9, g10⟩ := g
        rw [g1] at f2 f13 f14
        rw [g2] at f3
        rw [g3] at f4
        rw [g4] at f5
        rw [g5] at f6
        rw [g6] at f7
        rw [g7] at f8
        rw [g8] at f9
        rw [g9] at f10
        rw [g10] at f14
        have hne := hr.full B hB
        obtain ⟨sp1, sp2⟩ := hg.span B hB hne
        have hlenB : B.ents.length = A.length + 1 + C.length := by rw [he]; simp; omega
        have hsetmd : img.metadata_data.set A.length { e with end_ := e.end_ + 1 } =
            (A ++ { e with end_ := e.end_ + 1 } :: C) ++ img.metadata_data.drop B.ents.length := by
          conv_lhs => rw [hmd, he]
          simp only [List.nil_append, List.append_assoc, List.cons_append]
          rw [set_append_mid, ← he]
        have key := Rep.after_extend
          (extend_file (try_extend img (e.end_ + 1)).2 img.header.data_end).2
          ⟨B.pos, B.first, if A.length + 1 = B.ents.length then e.end_ + 1 else B.last, B.next, A ++ { e with end_ := e.end_ + 1 } :: C⟩
          (img.metadata_data.drop B.ents.length)
          hr hb (by rw [hsum, hl]) hms he hab hb1 hep
          rfl rfl rfl
          (by
            show B.first = _
            rw [sp1, he]
            cases A <;> rfl)
          (by
            show (if A.length + 1 = B.ents.length then e.end_ + 1 else B.last) = _
            simp only
            have hl1 : (A ++ { e with end_ := e.end_ + 1 } :: C).length = B.ents.length := by
              rw [he]; simp
            rw [hl1]
            split_ifs with hlast
            · have : B.ents.length - 1 = A.length := by omega
              rw [this, data_at_append_mid]
            · rw [sp2, data_at_replace_mid A C e _ _ (by omega), he])
          f3 f4 f2 (by rw [f5]; exact hsetmd) (by rw [f5]; simp)
          (by rw [f6, hsum, hl]) (by rw [f7]; exact hn)
          (by rw [f8, hc]; show (B.ents.length : Int) = ((A ++ _ :: C).length : Int)
              rw [he]; simp)
          (by
            rw [f9]
            show (if ((A.length : Nat) : Int) + 1 = img.count then _ else _) = _
            rw [hc]
            have hcs : cached_summary img = B.summ := by
              unfold cached_summary
              rw [hsum]
              simp only
              rw [hms, hb, ← hl, summ_at_map]
            split_ifs with h1 h2 h2
            · unfold set_cached_span
              rw [hsum, hcs]
              simp only
              rw [hms, hb, ← hl, set_summ, summ_at_map]
              simp [mblk.summ]
            · exfalso; apply h2; exact_mod_cast h1
            · exfalso; apply h1; exact_mod_cast h2
            · rw [hms, hb]
              simp [mblk.summ])
          f12 f13 f14 f10 f11
        exact ⟨by rw [hT], f1, _, _, key.1, f2, f3, key.2.1, key.2.2, fun b1 h =>
          Function.update_noteq h _ _, by rw [hb]; simp⟩
    · left
      rw [hT0, if_neg hcond]

/-! ## Finding the metadata block for a new entry -/

theorem seek_summary_spec {bs ms tb front bp : Int} {blks : List mblk}
    (hg : Good bs ms tb front bp blks) (hfull : ∀ B ∈ blks, B.ents ≠ []) (b : Int) :
    ∀ (suf pre : List mblk) (fuel : Nat), blks = pre ++ suf → suf ≠ [] → suf.length ≤ fuel →
    (∀ e ∈ all_ents pre, e.end_ < b) →
    ∃ pre1 B post, blks = pre1 ++ B :: post ∧
      seek_summary (blks.map mblk.summ) b fuel pre.length = pre1.length ∧
      (∀ e ∈ all_ents pre1, e.end_ < b) ∧ (b ≤ B.last ∨ post = [])
  | [], _, _, _, hne, _, _ => absurd rfl hne
  | B :: t, pre, 0, _, _, hf, _ => by simp at hf
  | [B], pre, fuel + 1, hb, _, _, hlt => by
    refine ⟨pre, B, [], hb, ?_, hlt, Or.inr rfl⟩
    unfold seek_summary
    rw [if_neg]
    rw [hb]
    simp
  | B :: C :: t, pre, fuel + 1, hb, _, hf, hlt => by
    have hB : B ∈ blks := by rw [hb]; simp
    have hat : summ_at (blks.map mblk.summ) pre.length = B.summ := by
      rw [hb, summ_at_map]
    unfold seek_summary
    rw [hat]
    by_cases hgt : b > B.summ.last
    · rw [if_pos ⟨hgt, by rw [hb]; simp⟩]
      have hsb := span_bounds hg hB (hfull B hB)
      have ih := seek_summary_spec hg hfull b (C :: t) (pre ++ [B]) fuel (by rw [hb]; simp)
        (by simp) (by simpa using hf) (by
          intro e he
          rw [all_ents_append] at he
          rcases List.mem_append.mp he with h | h
          · exact hlt e h
          · simp only [all_ents_cons, all_ents_nil, List.append_nil] at h
            have := (hsb.2 e h).2
            have : B.summ.last = B.last := rfl
            omega)
      simpa using ih
    · rw [if_neg (fun h => hgt h.1)]
      refine ⟨pre, B, C :: t, hb, rfl, hlt, Or.inl ?_⟩
      have : B.summ.last = B.last := rfl
      omega

/-- The index after a metadata block was added at the front of the file,
behind the metadata block `B` and with the last entries of `B`. -/
theorem Good.add_block {bs ms tb front bp : Int} {pre : List mblk} {B : mblk}
    {post : List mblk} (hg : Good bs ms tb front bp (pre ++ B :: post)) (hbs : 0 < bs)
    {B1 N : mblk} (p1 : B1.pos = B.pos) (p2 : B1.next = front) (p3 : N.pos = front)
    (p4 : N.next = B.next) (p5 : B1.ents ++ N.ents = B.ents)
    (hcap1 : (B1.ents.length : Int) ≤ ms) (hcapN : (N.ents.length : Int) ≤ ms)
    (hspan1 : B1.ents ≠ [] →
      B1.first = (data_at B1.ents 0).start ∧
      B1.last = (data_at B1.ents (B1.ents.length - 1)).end_)
    (hspanN : N.ents ≠ [] →
      N.first = (data_at N.ents 0).start ∧ N.last = (data_at N.ents (N.ents.length - 1)).end_) :
    Good bs ms tb (front + bs) bp (pre ++ B1 :: N :: post) := by
  have hA : all_ents (pre ++ B1 :: N :: post) = all_ents (pre ++ B :: post) := by
    simp only [all_ents_append, all_ents_cons]
    rw [← p5]
    simp
  have hfr := front_ge hg hbs
  have hmemb : ∀ X ∈ pre ++ B1 :: N :: post,
      X = B1 ∨ X = N ∨ (X ∈ pre ++ B :: post ∧ (X ∈ pre ∨ X ∈ post)) := by
    intro X hX
    rcases List.mem_append.mp hX with h | h
    · exact Or.inr (Or.inr ⟨List.mem_append_left _ h, Or.inl h⟩)
    · rcases List.mem_cons.mp h with rfl | h
      · exact Or.inl rfl
      · rcases List.mem_cons.mp h with rfl | h
        · exact Or.inr (Or.inl rfl)
        · exact Or.inr (Or.inr ⟨List.mem_append_right _ (List.mem_cons_of_mem _ h), Or.inr h⟩)
  have hB : B ∈ pre ++ B :: post := by simp
  constructor
  · rw [hA]; exact hg.sorted
  · rw [hA]; exact hg.range
  · intro X hX
    rcases hmemb X hX with rfl | rfl | h
    · exact hcap1
    · exact hcapN
    · exact hg.cap X h.1
  · intro X hX
    rcases hmemb X hX with rfl | rfl | h
    · exact hspan1
    · exact hspanN
    · exact hg.span X h.1
  · have hl := hg.linked
    rw [linked_to_append] at hl ⊢
    simp only [head_pos, linked_to] at hl ⊢
    rw [p1, p2, p3, p4]
    exact ⟨hl.1, rfl, hl.2.1, hl.2.2⟩
  · rw [hg.front_eq]
    simp only [List.length_append, List.length_cons]
    push_cast
    ring
  · rw [hA]; exact hg.present_eq
  · intro X hX
    rcases hmemb X hX with rfl | rfl | h
    · have := hg.mpos B hB
      rw [p1]; omega
    · rw [p3]; exact ⟨hfr.1, hfr.2, le_refl _⟩
    · have := hg.mpos X h.1
      omega
  · have hn := hg.mnodup
    simp only [List.map_append, List.map_cons] at hn ⊢
    rw [List.nodup_append] at hn ⊢
    obtain ⟨n1, n2, n3⟩ := hn
    rw [List.nodup_cons] at n2
    have hN : ∀ X ∈ pre ++ B :: post, X.pos ≠ N.pos := by
      intro X hX
      have := hg.mpos X hX
      rw [p3]; omega
    refine ⟨n1, ?_, ?_⟩
    · rw [List.nodup_cons, List.nodup_cons]
      refine ⟨?_, ?_, n2.2⟩
      · intro h
        rcases List.mem_cons.mp h with h | h
        · exact hN B hB (by rw [← p1, h])
        · rw [p1] at h; exact n2.1 h
      · intro h
        obtain ⟨X, hX, hXp⟩ := List.mem_map.mp h
        exact hN X (List.mem_append_right _ (List.mem_cons_of_mem _ hX)) hXp
    · intro x hx1 hx2
      rcases List.mem_cons.mp hx2 with h | h
      · rw [p1] at h
        exact n3 hx1 (by rw [h]; simp)
      · rcases List.mem_cons.mp h with h | h
        · obtain ⟨X, hX, hXp⟩ := List.mem_map.mp hx1
          exact hN X (List.mem_append_left _ hX) (by rw [hXp, h])
        · exact n3 hx1 (List.mem_cons_of_mem _ h)
  · rw [hA]
    intro e he
    have := hg.epos e he
    omega
  · rw [hA]
    intro X hX e he
    rcases hmemb X hX with rfl | rfl | h
    · rw [p1]; exact hg.me_disj B hB e he
    · right
      rw [p3]
      exact (hg.epos e he).2.2
    · exact hg.me_disj X h.1 e he
  · rw [hA]; exact hg.e_disj

/-- The index after the first metadata block was placed at the front of the
file. -/
theorem Good.start_index {bs ms tb front bp : Int} (hg : Good bs ms tb front bp []) (hbs : 0 < bs)
    (hms : 0 ≤ ms) {N : mblk} (p3 : N.pos = front) (p4 : N.next = 0) (p5 : N.ents = []) :
    Good bs ms tb (front + bs) bp [N] := by
  have hfr := front_ge hg hbs
  have hA : all_ents [N] = [] := by simp [all_ents, p5]
  constructor
  · rw [hA]; exact List.Pairwise.nil
  · rw [hA]; intro e he; simp at he
  · intro X hX
    simp only [List.mem_singleton] at hX
    rw [hX, p5]; simpa using hms
  · intro X hX hne
    simp only [List.mem_singleton] at hX
    rw [hX] at hne
    exact absurd p5 hne
  · simp [linked_to, head_pos, p4]
  · rw [hg.front_eq]; simp; ring
  · rw [hA]; exact hg.present_eq
  · intro X hX
    simp only [List.mem_singleton] at hX
    rw [hX, p3]; exact ⟨hfr.1, hfr.2, le_refl _⟩
  · simp
  · rw [hA]; intro e he; simp at he
  · rw [hA]; intro X _ e he; simp at he
  · rw [hA]; exact List.Pairwise.nil

/-! ## The first metadata block -/

/-- The image of `first_block` represents an index with one, empty, metadata
block at the front of the file. -/
theorem Rep0.start_block {img : image_t} {data : Int → List Nat} (hr : Rep img [] data) (b : Int) :
    Rep0 (first_block img b img.header.data_end)
      [{ pos := img.header.data_end, first := b, last := b, next := 0, ents := [] }]
      (img.header.data_end + img.header.block_size) data := by
  have h0 := hr.rep0
  have hs := h0.static
  have hbs := hs.bs_min
  constructor
  · exact hs.update (x := img.header.data_end) (y := img.header.blocks_present)
      (z := img.header.data_end) rfl rfl rfl
  · exact h0.good.start_index (by omega) (by have := meta_size_ge hs; omega) rfl rfl rfl
  · rfl
  · left; rfl
  · intro h
    exact absurd h (by simp [first_block])
  · intro s h
    have h : some 0 = some s := h
    simp only [Option.some.injEq] at h
    exact ⟨[], _, [], rfl, h, rfl, rfl, rfl⟩
  · exact h0.md_len
  · have ho := h0.ondisk
    constructor
    · exact ho.script
    · exact ho.size_ge
    · intro h
      exact absurd h (by simp [first_block])
    · intro X hX hne
      exfalso
      apply hne
      simp only [List.mem_singleton] at hX
      rw [hX]
      simp [dirty_pos, first_block, summ_at]
    · intro e he
      simp [all_ents] at he

theorem first_block_spec {img : image_t} {data : Int → List Nat} (hr : Rep img [] data)
    {b : Int} (hb0 : 0 ≤ b) (hb1 : b < img.header.total_blocks) :
    (extend_block (first_block img b img.header.data_end) b
        (img.header.data_end + img.header.block_size)).1 =
      img.header.data_end + img.header.block_size ∧
    ∃ blks1 data1,
      Rep (extend_block (first_block img b img.header.data_end) b
        (img.header.data_end + img.header.block_size)).2 blks1 data1 ∧
      (extend_block (first_block img b img.header.data_end) b
        (img.header.data_end + img.header.block_size)).2.header.block_size =
        img.header.block_size ∧
      (extend_block (first_block img b img.header.data_end) b
        (img.header.data_end + img.header.block_size)).2.header.total_blocks =
        img.header.total_blocks ∧
      (extend_block (first_block img b img.header.data_end) b
        (img.header.data_end + img.header.block_size)).2.header.last_block =
        img.header.last_block ∧
      (extend_block (first_block img b img.header.data_end) b
        (img.header.data_end + img.header.block_size)).2.header.total_size =
        img.header.total_size ∧
      (extend_block (first_block img b img.header.data_end) b
        (img.header.data_end + img.header.block_size)).2.has_metadata = img.has_metadata ∧
      present (all_ents blks1) img.header.block_size b
        (img.header.data_end + img.header.block_size) ∧
      (∀ b1, absent (all_ents blks1) b1 ↔ (b1 ≠ b ∧ absent (all_ents ([] : List mblk)) b1)) ∧
      (∀ b1, b1 ≠ b → data1 b1 = data b1) ∧
      (extend_block (first_block img b img.header.data_end) b
        (img.header.data_end + img.header.block_size)).2.header.data_end =
        img.header.data_end + img.header.block_size + img.header.block_size ∧
      blks1.map mblk.pos = [img.header.data_end] := by
  have hr0 := Rep0.start_block hr b
  have hs := hr.rep0.static
  have key := extend_block_spec hr0 (show _ = [] ++ _ :: [] from rfl) rfl rfl
    (by show ((0 : Nat) : Int) < img.header.meta_size
        have := meta_size_ge hs; push_cast; omega)
    (by intro C hC _; simpa using hC) hb0 hb1
    (by intro e he; simp [all_ents] at he) (by intro e he; simp [all_ents] at he)
    (by intro e he; simp at he)
  obtain ⟨k1, blks1, data1, k2, k3, k4, k5, k6, k7, k8⟩ := key
  refine ⟨k1, blks1, data1, k2, by rw [k3]; rfl, by rw [k3]; rfl, by rw [k3]; rfl,
    by rw [k3]; rfl, k4, k5, ?_, k7, by rw [k3]; rfl, by rw [k8]; rfl⟩
  intro b1
  rw [k6 b1]
  simp [absent, all_ents]

/-! ## A new metadata block after a full one -/

theorem insert_after_summ (pre : List mblk) (B : mblk) (post : List mblk)
    (x : metadata_summary_t) :
    insert_after ((pre ++ B :: post).map mblk.summ) pre.length x =
      pre.map mblk.summ ++ B.summ :: x :: post.map mblk.summ := by
  unfold insert_after
  rw [List.map_append, List.map_cons]
  have h1 : List.take (pre.length + 1) (pre.map mblk.summ ++ B.summ :: post.map mblk.summ) =
      pre.map mblk.summ ++ [B.summ] := by
    rw [List.take_append_eq_append_take]
    simp
  have h2 : List.drop (pre.length + 1) (pre.map mblk.summ ++ B.summ :: post.map mblk.summ) =
      post.map mblk.summ := by
    rw [List.drop_append_eq_append_drop]
    simp
  rw [h1, h2]
  simp

theorem OnDisk.reindex {f : file_t} {h : header_t} {blks blks1 : List mblk}
    {ex ex1 : Int → Prop} {hc hc1 : Bool} {data : Int → List Nat}
    (ho : OnDisk f h blks ex hc data) (hA : all_ents blks1 = all_ents blks)
    (hx : ∀ X ∈ blks1, ¬ ex1 X.pos → X ∈ blks ∧ ¬ ex X.pos) (hcc : hc1 = true → hc = true) :
    OnDisk f h blks1 ex1 hc1 data := by
  constructor
  · exact ho.script
  · exact ho.size_ge
  · exact fun h1 => ho.hdr_disk (hcc h1)
  · intro X hX hn
    obtain ⟨h1, h2⟩ := hx X hX hn
    exact ho.disk X h1 h2
  · rw [hA]; exact ho.data_ok

theorem AddPost.of_extend_block {img img0 : image_t} {blks blks0 : List mblk} {front : Int}
    {data data0 : Int → List Nat} {b : Int} {r : Int × image_t}
    (h1 : r.1 = front)
    (h2 : ∃ blks1 data1, Rep r.2 blks1 data1 ∧
      r.2.header = { img.header with data_end := front + img.header.block_size, blocks_present := img.header.blocks_present + 1 } ∧
      r.2.has_metadata = img.has_metadata ∧
      present (all_ents blks1) img.header.block_size b front ∧
      (∀ b1, absent (all_ents blks1) b1 ↔ (b1 ≠ b ∧ absent (all_ents blks) b1)) ∧
      (∀ b1, b1 ≠ b → data1 b1 = data b1) ∧
      blks1.map mblk.pos = blks.map mblk.pos)
    (g1 : img.header.block_size = img0.header.block_size)
    (g2 : img.header.total_blocks = img0.header.total_blocks)
    (g3 : img.header.last_block = img0.header.last_block)
    (g4 : img.header.total_size = img0.header.total_size)
    (g5 : img.has_metadata = img0.has_metadata)
    (g6 : all_ents blks = all_ents blks0) (g7 : data = data0)
    (g8 : (front = img0.header.data_end ∧ blks.map mblk.pos = blks0.map mblk.pos) ∨
      (front = img0.header.data_end + img0.header.block_size ∧
        (blks.map mblk.pos).Perm (img0.header.data_end :: blks0.map mblk.pos))) :
    AddPost img0 blks0 data0 b r := by
  obtain ⟨blks1, data1, k2, k3, k4, k5, k6, k7, k8⟩ := h2
  refine ⟨blks1, data1, k2, by rw [k3]; exact g1, by rw [k3]; exact g2, by rw [k3]; exact g3,
    by rw [k3]; exact g4, by rw [k4]; exact g5, ?_, ?_, ?_, ?_, ?_⟩
  · rw [h1, ← g1]; exact k5
  · intro b1; rw [k6 b1, g6]
  · intro b1 hb; rw [k7 b1 hb, g7]
  · rw [k3, h1, ← g1]
  · rw [h1, k8]
    exact g8

theorem perm_insert_after (l1 l2 : List Int) (x d : Int) :
    (l1 ++ x :: d :: l2).Perm (d :: (l1 ++ x :: l2)) := by
  have h : ((l1 ++ [x]) ++ d :: l2).Perm (d :: ((l1 ++ [x]) ++ l2)) := List.perm_middle
  simpa using h

theorem dirty_pos_mem {img : image_t} {blks : List mblk} {front : Int}
    {data : Int → List Nat} (hr : Rep0 img blks front data)
    {pre : List mblk} {B : mblk} {post : List mblk} (hb : blks = pre ++ B :: post)
    (hsum : img.summary = some pre.length) {p : Int} (h : dirty_pos img = some p) :
    p = B.pos := by
  rcases dirty_pos_cases hr with ⟨-, h1⟩ | ⟨-, p3, B3, q3, h1, h2, -, -, -, -, h3⟩
  · rw [h1] at h; exact absurd h (by simp)
  · rw [hsum] at h2
    obtain ⟨-, rfl, -⟩ := decomp_unique (hb.symm.trans h1) (by simpa using h2)
    rw [h3] at h
    simpa using h.symm

/-- The branch of `add_new_block` that starts a new metadata block after the
last one that holds blocks below the block. -/
theorem chain_block_spec {img : image_t} {blks : List mblk} {data : Int → List Nat}
    (hr : Rep img blks data) {pre : List mblk} {B : mblk} {post : List mblk}
    (hb : blks = pre ++ B :: post) (hsum : img.summary = some pre.length)
    (hms : img.metadata_summary = blks.map mblk.summ)
    {b : Int} (hb0 : 0 ≤ b) (hb1 : b < img.header.total_blocks)
    (hlt : ∀ e ∈ all_ents pre, e.end_ < b) (hgtB : B.last < b)
    (hgt : ∀ e ∈ all_ents post, b < e.start) :
    AddPost img blks data b (chain_block img pre.length b img.header.data_end) := by
  have h0 := hr.rep0
  have hs := h0.static
  have hg := h0.good
  have hbs := hs.bs_min
  have hbs0 : (0 : Int) < img.header.block_size := by omega
  have hB : B ∈ blks := by rw [hb]; simp
  obtain ⟨pre2, B2, post2, hb2, hl2, hc, hd, hn⟩ := h0.cache _ hsum
  obtain ⟨-, rfl, -⟩ := decomp_unique (hb.symm.trans hb2) hl2.symm
  have hne := hr.full B hB
  have hsb := span_bounds hg hB hne
  have hms20 := meta_size_ge hs
  have hg1 : Good img.header.block_size img.header.meta_size img.header.total_blocks
      (img.header.data_end + img.header.block_size) img.header.blocks_present
      (pre ++ (⟨B.pos, B.first, B.last, img.header.data_end, B.ents⟩ : mblk) ::
        (⟨img.header.data_end, b, b, B.next, []⟩ : mblk) :: post) := by
    refine (hb ▸ hg).add_block hbs0 rfl rfl rfl rfl (by simp) (hg.cap B hB)
      (by simp; omega) (fun _ => hg.span B hB hne) (fun h => absurd rfl h)
  have hLsum : (chain_link img pre.length b img.header.data_end).metadata_summary =
      (pre ++ (⟨B.pos, B.first, B.last, img.header.data_end, B.ents⟩ : mblk) ::
        (⟨img.header.data_end, b, b, B.next, []⟩ : mblk) :: post).map mblk.summ := by
    show insert_after img.metadata_summary pre.length _ = _
    rw [hms, hb, insert_after_summ]
    simp [mblk.summ]
  have hA : all_ents (pre ++ (⟨B.pos, B.first, B.last, img.header.data_end, B.ents⟩ : mblk) ::
        (⟨img.header.data_end, b, b, B.next, []⟩ : mblk) :: post) = all_ents blks := by
    rw [hb]; simp [all_ents_append, all_ents_cons]
  have hoL : OnDisk (chain_link img pre.length b img.header.data_end).fd
      (chain_link img pre.length b img.header.data_end).header
      (pre ++ (⟨B.pos, B.first, B.last, img.header.data_end, B.ents⟩ : mblk) ::
        (⟨img.header.data_end, b, b, B.next, []⟩ : mblk) :: post)
      (fun p => p = B.pos ∨ p = img.header.data_end)
      (!(chain_link img pre.length b img.header.data_end).flush_file_header) data := by
    refine h0.ondisk.reindex hA ?_ (fun h => h)
    intro X hX hn
    have hX1 : X ∈ pre ∨ X ∈ post := by
      rcases List.mem_append.mp hX with h | h
      · exact Or.inl h
      · rcases List.mem_cons.mp h with rfl | h
        · exact absurd (Or.inl rfl) hn
        · rcases List.mem_cons.mp h with rfl | h
          · exact absurd (Or.inr rfl) hn
          · exact Or.inr h
    refine ⟨?_, ?_⟩
    · rw [hb]
      rcases hX1 with h | h
      · exact List.mem_append_left _ h
      · exact List.mem_append_right _ (List.mem_cons_of_mem _ h)
    · intro hd
      exact hn (Or.inl (dirty_pos_mem h0 hb hsum hd))
  obtain ⟨f, ew, of, -⟩ := write_metadata_raw
    (B := ⟨B.pos, B.first, B.last, img.header.data_end, B.ents⟩)
    (show Static (chain_link img pre.length b img.header.data_end) from hs.same rfl rfl rfl)
    hg1 hoL rfl hsum (by simp)
    (by rw [hLsum, summ_at_map]; rfl)
    (by
      show metadata_buffer img.header.data_end img.count img.metadata_data = _
      rw [hc]
      exact metadata_buffer_congr _ _ _ hd)
  have hcb : chain_block img pre.length b img.header.data_end =
      extend_block (chain_cache (write_metadata
        (chain_link img pre.length b img.header.data_end)).2 pre.length img.next) b
        (img.header.data_end + img.header.block_size) := by
    unfold chain_block
    rw [if_neg]
    rw [ew]
    simp
  have hK : Rep0 (chain_cache (write_metadata
      (chain_link img pre.length b img.header.data_end)).2 pre.length img.next)
      (pre ++ (⟨B.pos, B.first, B.last, img.header.data_end, B.ents⟩ : mblk) ::
        (⟨img.header.data_end, b, b, B.next, []⟩ : mblk) :: post)
      (img.header.data_end + img.header.block_size) data := by
    rw [ew]
    constructor
    · exact hs.same rfl rfl rfl
    · exact hg1
    · show img.header.metadata = _
      rw [h0.hdr_meta, hb]
      cases pre <;> rfl
    · left; exact hLsum
    · intro h
      exact absurd h (by simp [chain_cache])
    · intro s h
      have h : some (pre.length + 1) = some s := h
      simp only [Option.some.injEq] at h
      refine ⟨pre ++ [⟨B.pos, B.first, B.last, img.header.data_end, B.ents⟩],
        ⟨img.header.data_end, b, b, B.next, []⟩, post, by simp, by simpa using h, rfl, rfl, hn⟩
    · exact h0.md_len
    · refine of.weaken ?_ _ (fun h => h)
      intro X hX hd
      have hdp : dirty_pos (chain_cache
          { chain_link img pre.length b img.header.data_end with
            fd := f, flush_metadata := false, flush_file_header := false }
          pre.length img.next) = some img.header.data_end := by
        unfold dirty_pos
        simp only [chain_cache, if_true, Option.map_some']
        have := hLsum
        simp only [chain_link] at this ⊢
        rw [this]
        have e1 : pre ++ (⟨B.pos, B.first, B.last, img.header.data_end, B.ents⟩ : mblk) ::
            (⟨img.header.data_end, b, b, B.next, []⟩ : mblk) :: post =
            (pre ++ [(⟨B.pos, B.first, B.last, img.header.data_end, B.ents⟩ : mblk)]) ++
              (⟨img.header.data_end, b, b, B.next, []⟩ : mblk) :: post := by simp
        have e2 : pre.length + 1 =
            (pre ++ [(⟨B.pos, B.first, B.last, img.header.data_end, B.ents⟩ : mblk)]).length := by
          simp
        rw [e1, e2, summ_at_map]
        rfl
      rw [hdp]
      rcases hd.1 with h | h
      · exact absurd h hd.2
      · rw [h]
  rw [hcb]
  have key := extend_block_spec hK
    (show _ = (pre ++ [(⟨B.pos, B.first, B.last, img.header.data_end, B.ents⟩ : mblk)]) ++
      (⟨img.header.data_end, b, b, B.next, []⟩ : mblk) :: post by simp)
    (by rw [ew]; simp [chain_cache])
    (by rw [ew]; exact hLsum)
    (by rw [ew]; show ((0 : Nat) : Int) < img.header.meta_size; push_cast; omega)
    (by
      intro C hC hCe
      rcases List.mem_append.mp hC with h | h
      · exact absurd hCe (hr.full C (by rw [hb]; exact List.mem_append_left _ h))
      · rcases List.mem_cons.mp h with rfl | h
        · exact absurd hCe hne
        · rcases List.mem_cons.mp h with rfl | h
          · rfl
          · exact absurd hCe (hr.full C (by
              rw [hb]; exact List.mem_append_right _ (List.mem_cons_of_mem _ h))))
    hb0 (by rw [ew]; exact hb1)
    (by
      intro e he
      rw [all_ents_append] at he
      rcases List.mem_append.mp he with h | h
      · exact hlt e h
      · simp only [all_ents_cons, all_ents_nil, List.append_nil] at h
        have := (hsb.2 e h).2
        omega)
    hgt (by intro e he; simp at he)
  have hperm : ((pre ++ (⟨B.pos, B.first, B.last, img.header.data_end, B.ents⟩ : mblk) ::
        (⟨img.header.data_end, b, b, B.next, []⟩ : mblk) :: post).map mblk.pos).Perm
      (img.header.data_end :: blks.map mblk.pos) := by
    rw [hb]
    simp only [List.map_append, List.map_cons]
    exact perm_insert_after _ _ _ _
  refine @AddPost.of_extend_block (chain_cache (write_metadata
      (chain_link img pre.length b img.header.data_end)).2 pre.length img.next)
    _ _ _ _ _ _ _ _ key.1 key.2 ?_ ?_ ?_ ?_ ?_ hA rfl (Or.inr ⟨rfl, hperm⟩)
  all_goals rw [ew]; rfl

/-! ## Splitting a full metadata block -/

theorem insert_after_mid (p : List metadata_summary_t) (y : metadata_summary_t)
    (q : List metadata_summary_t) (x : metadata_summary_t) (n : Nat) (hn : p.length = n) :
    insert_after (p ++ y :: q) n x = p ++ y :: x :: q := by
  subst hn
  unfold insert_after
  have h1 : List.take (p.length + 1) (p ++ y :: q) = p ++ [y] := by
    rw [List.take_append_eq_append_take]
    simp
  have h2 : List.drop (p.length + 1) (p ++ y :: q) = q := by
    rw [List.drop_append_eq_append_drop]
    simp
  rw [h1, h2]
  simp

theorem data_at_take (l : List metadata_data_t) {i k : Nat} (h : i < k) :
    data_at (l.take k) i = data_at l i := by
  unfold data_at
  rw [List.getD_eq_getElem?_getD, List.getD_eq_getElem?_getD, List.getElem?_take_of_lt h]

theorem data_at_drop (l : List metadata_data_t) (i k : Nat) :
    data_at (l.drop k) i = data_at l (k + i) := by
  unfold data_at
  rw [List.getD_eq_getElem?_getD, List.getD_eq_getElem?_getD, List.getElem?_drop]

theorem data_at_of_take {md es : List metadata_data_t} (h : md.take es.length = es) {i : Nat}
    (hi : i < es.length) : data_at md i = data_at es i := by
  rw [← h, data_at_take _ hi]

theorem ents_bounds {es : List metadata_data_t}
    (hs : es.Pairwise (fun a c => a.end_ < c.start)) (hr : ∀ e ∈ es, e.start ≤ e.end_)
    {e : metadata_data_t} (he : e ∈ es) :
    (data_at es 0).start ≤ e.start ∧ e.end_ ≤ (data_at es (es.length - 1)).end_ := by
  have hlen : 0 < es.length := List.length_pos_of_mem he
  obtain ⟨i, hi, rfl⟩ := List.getElem_of_mem he
  have hp := List.pairwise_iff_getElem.mp hs
  constructor
  · rw [data_at, List.getD_eq_getElem _ _ hlen]
    by_cases h0 : i = 0
    · subst h0; exact le_refl _
    · have := hp 0 i hlen hi (by omega)
      have := hr _ (List.getElem_mem hlen)
      omega
  · rw [data_at, List.getD_eq_getElem _ _ (by omega : es.length - 1 < es.length)]
    by_cases h0 : i = es.length - 1
    · subst h0; exact le_refl _
    · have := hp i (es.length - 1) hi (by omega) (by omega)
      have := hr _ (List.getElem_mem (by omega : es.length - 1 < es.length))
      omega

theorem take_of_take {md es : List metadata_data_t} (h : md.take es.length = es) {k : Nat}
    (hk : k ≤ es.length) : md.take k = es.take k := by
  rw [← h, List.take_take, min_eq_left hk]

theorem drop_of_take {md es : List metadata_data_t} (h : md.take es.length = es) (k : Nat) :
    (md.drop k).take (es.drop k).length = es.drop k := by
  have : (es.drop k).length = es.length - k := by simp
  rw [this, ← List.drop_take, h]

/-- The state in which the split of a full metadata block leaves the image
before it inserts the block: both halves are on disk and the first half is the
cached one. -/
theorem split_state {img : image_t} {blks : List mblk} {data : Int → List Nat}
    (hr : Rep img blks data) {pre : List mblk} {B : mblk} {post : List mblk}
    (hb : blks = pre ++ B :: post) (hsum : img.summary = some pre.length)
    (hms : img.metadata_summary = blks.map mblk.summ)
    (hfullB : (B.ents.length : Int) = img.header.meta_size) (b : Int) :
    ∃ (B1 N : mblk) (W2 : image_t),
      B1.ents = B.ents.take (B.ents.length / 2) ∧ N.ents = B.ents.drop (B.ents.length / 2) ∧
      B1.pos = B.pos ∧ N.pos = img.header.data_end ∧
      split_block img pre.length b img.header.data_end =
        (if (data_at W2.metadata_data (B.ents.length / 2)).end_ < b then
          (if (read_metadata W2 (pre.length + 1)).1 = 0 then
            (-1, (read_metadata W2 (pre.length + 1)).2)
          else extend_block (read_metadata W2 (pre.length + 1)).2 b
            (img.header.data_end + img.header.block_size))
        else extend_block W2 b (img.header.data_end + img.header.block_size)) ∧
      Rep0 W2 (pre ++ B1 :: N :: post) (img.header.data_end + img.header.block_size) data ∧
      W2.summary = some pre.length ∧
      W2.metadata_summary = (pre ++ B1 :: N :: post).map mblk.summ ∧
      W2.header = img.header ∧ W2.has_metadata = img.has_metadata ∧
      W2.metadata_data = img.metadata_data := by
  have h0 := hr.rep0
  have hs := h0.static
  have hg := h0.good
  have hbs := hs.bs_min
  have hbs0 : (0 : Int) < img.header.block_size := by omega
  have hB : B ∈ blks := by rw [hb]; simp
  obtain ⟨pre2, B2, post2, hb2, hl2, hc, hd, hn⟩ := h0.cache _ hsum
  obtain ⟨-, rfl, -⟩ := decomp_unique (hb.symm.trans hb2) hl2.symm
  have hne := hr.full B hB
  have hms20 := meta_size_ge hs
  have hlen20 : 20 ≤ B.ents.length := by omega
  have hk1 : img.count / 2 = ((B.ents.length / 2 : Nat) : Int) := by rw [hc]; omega
  have hk2 : (img.count / 2).toNat = B.ents.length / 2 := by rw [hk1]; omega
  have hk3 : (img.count / 2 - 1).toNat = B.ents.length / 2 - 1 := by rw [hk1]; omega
  have hk4 : img.count - img.count / 2 = ((B.ents.drop (B.ents.length / 2)).length : Int) := by
    rw [hk1, hc, List.length_drop]; omega
  have hE1 : (B.ents.take (B.ents.length / 2)).length = B.ents.length / 2 := by
    rw [List.length_take]; omega
  obtain ⟨sp1, sp2⟩ := hg.span B hB hne
  have hlast1 : (data_at img.metadata_data (img.count / 2 - 1).toNat).end_ =
      (data_at (B.ents.take (B.ents.length / 2))
        ((B.ents.take (B.ents.length / 2)).length - 1)).end_ := by
    rw [hk3, hE1, data_at_of_take hd (by omega), data_at_take _ (by omega)]
  have hfirst2 : (data_at img.metadata_data (img.count / 2).toNat).start =
      (data_at (B.ents.drop (B.ents.length / 2)) 0).start := by
    rw [hk2, data_at_of_take hd (by omega), data_at_drop]; rfl
  have hg1 : Good img.header.block_size img.header.meta_size img.header.total_blocks
      (img.header.data_end + img.header.block_size) img.header.blocks_present
      (pre ++ (⟨B.pos, B.first, (data_at img.metadata_data (img.count / 2 - 1).toNat).end_, img.header.data_end, B.ents.take (B.ents.length / 2)⟩ : mblk) ::
        (⟨img.header.data_end, (data_at img.metadata_data (img.count / 2).toNat).start, B.last, B.next, B.ents.drop (B.ents.length / 2)⟩ : mblk) :: post) := by
    refine (hb ▸ hg).add_block hbs0 rfl rfl rfl rfl (List.take_append_drop _ _)
      (by show ((B.ents.take (B.ents.length / 2)).length : Int) ≤ _; rw [hE1]; omega)
      (by show ((B.ents.drop (B.ents.length / 2)).length : Int) ≤ _
          rw [List.length_drop]; omega)
      (fun _ => ⟨?_, hlast1⟩) (fun _ => ⟨hfirst2, ?_⟩)
    · show B.first = _
      rw [sp1, data_at_take _ (by omega)]
    · show B.last = _
      rw [sp2, data_at_drop, List.length_drop]
      congr 2
      omega
  have hSsum : split_summaries img pre.length img.header.data_end =
      (pre ++ (⟨B.pos, B.first, (data_at img.metadata_data (img.count / 2 - 1).toNat).end_, img.header.data_end, B.ents.take (B.ents.length / 2)⟩ : mblk) ::
        (⟨img.header.data_end, (data_at img.metadata_data (img.count / 2).toNat).start, B.last, B.next, B.ents.drop (B.ents.length / 2)⟩ : mblk) :: post).map mblk.summ := by
    unfold split_summaries
    rw [hms, hb, set_summ, summ_at_map, insert_after_mid _ _ _ _ _ (by simp)]
    simp [mblk.summ]
  have hA : all_ents (pre ++ (⟨B.pos, B.first, (data_at img.metadata_data (img.count / 2 - 1).toNat).end_, img.header.data_end, B.ents.take (B.ents.length / 2)⟩ : mblk) ::
        (⟨img.header.data_end, (data_at img.metadata_data (img.count / 2).toNat).start, B.last, B.next, B.ents.drop (B.ents.length / 2)⟩ : mblk) :: post) = all_ents blks := by
    rw [hb]
    simp only [all_ents_append, all_ents_cons]
    rw [← List.append_assoc (B.ents.take _), List.take_append_drop]
  have hoS : OnDisk (split_second img pre.length img.header.data_end).fd
      (split_second img pre.length img.header.data_end).header
      (pre ++ (⟨B.pos, B.first, (data_at img.metadata_data (img.count / 2 - 1).toNat).end_, img.header.data_end, B.ents.take (B.ents.length / 2)⟩ : mblk) ::
        (⟨img.header.data_end, (data_at img.metadata_data (img.count / 2).toNat).start, B.last, B.next, B.ents.drop (B.ents.length / 2)⟩ : mblk) :: post)
      (fun p => p = B.pos ∨ p = img.header.data_end)
      (!(split_second img pre.length img.header.data_end).flush_file_header) data := by
    refine h0.ondisk.reindex hA ?_ (fun h => h)
    intro X hX hn
    have hX1 : X ∈ pre ∨ X ∈ post := by
      rcases List.mem_append.mp hX with h | h
      · exact Or.inl h
      · rcases List.mem_cons.mp h with rfl | h
        · exact absurd (Or.inl rfl) hn
        · rcases List.mem_cons.mp h with rfl | h
          · exact absurd (Or.inr rfl) hn
          · exact Or.inr h
    refine ⟨?_, ?_⟩
    · rw [hb]
      rcases hX1 with h | h
      · exact List.mem_append_left _ h
      · exact List.mem_append_right _ (List.mem_cons_of_mem _ h)
    · intro hd
      exact hn (Or.inl (dirty_pos_mem h0 hb hsum hd))
  have hidx : pre ++ (⟨B.pos, B.first, (data_at img.metadata_data (img.count / 2 - 1).toNat).end_, img.header.data_end, B.ents.take (B.ents.length / 2)⟩ : mblk) ::
        (⟨img.header.data_end, (data_at img.metadata_data (img.count / 2).toNat).start, B.last, B.next, B.ents.drop (B.ents.length / 2)⟩ : mblk) :: post =
      (pre ++ [(⟨B.pos, B.first, (data_at img.metadata_data (img.count / 2 - 1).toNat).end_, img.header.data_end, B.ents.take (B.ents.length / 2)⟩ : mblk)]) ++
        (⟨img.header.data_end, (data_at img.metadata_data (img.count / 2).toNat).start, B.last, B.next, B.ents.drop (B.ents.length / 2)⟩ : mblk) :: post := by
    simp
  obtain ⟨f1, ew1, of1, -⟩ := write_metadata_raw
    (B := ⟨img.header.data_end, (data_at img.metadata_data (img.count / 2).toNat).start, B.last, B.next, B.ents.drop (B.ents.length / 2)⟩)
    (s := pre.length + 1)
    (show Static (split_second img pre.length img.header.data_end) from hs.same rfl rfl rfl)
    hg1 hoS rfl rfl (by simp)
    (by
      show (summ_at (split_summaries img pre.length img.header.data_end) (pre.length + 1)).pos = _
      rw [hSsum, hidx]
      have := summ_at_map (pre ++ [(⟨B.pos, B.first, (data_at img.metadata_data (img.count / 2 - 1).toNat).end_, img.header.data_end, B.ents.take (B.ents.length / 2)⟩ : mblk)])
        (⟨img.header.data_end, (data_at img.metadata_data (img.count / 2).toNat).start, B.last, B.next, B.ents.drop (B.ents.length / 2)⟩ : mblk) post
      simp only [List.length_append, List.length_singleton] at this
      rw [this]
      rfl)
    (by
      show metadata_buffer img.next (img.count - img.count / 2)
        (img.metadata_data.drop (img.count / 2).toNat) = _
      rw [hk4, hk2, hn]
      exact metadata_buffer_congr _ _ _ (drop_of_take hd _))
  obtain ⟨f2, ew2, of2, -⟩ := write_metadata_raw
    (B := ⟨B.pos, B.first, (data_at img.metadata_data (img.count / 2 - 1).toNat).end_, img.header.data_end, B.ents.take (B.ents.length / 2)⟩)
    (s := pre.length)
    (show Static (split_first (split_restore img (write_metadata
      (split_second img pre.length img.header.data_end)).2 pre.length) img.header.data_end
      (img.count / 2)) from (by rw [ew1]; exact hs.same rfl rfl rfl))
    (by rw [ew1]; exact hg1)
    (by rw [ew1]; exact of1) rfl rfl (by simp)
    (by
      rw [ew1]
      show (summ_at (split_summaries img pre.length img.header.data_end) pre.length).pos = _
      rw [hSsum, summ_at_map]
      rfl)
    (by
      rw [ew1]
      show metadata_buffer img.header.data_end (img.count / 2) img.metadata_data =
        metadata_buffer img.header.data_end ((B.ents.take (B.ents.length / 2)).length : Int)
          (B.ents.take (B.ents.length / 2))
      have := metadata_buffer_congr img.header.data_end img.metadata_data
        (B.ents.take (B.ents.length / 2)) (by rw [hE1]; exact take_of_take hd (by omega))
      rw [hE1] at this ⊢
      rw [hk1]
      exact this)
  refine ⟨⟨B.pos, B.first, (data_at img.metadata_data (img.count / 2 - 1).toNat).end_, img.header.data_end, B.ents.take (B.ents.length / 2)⟩,
    ⟨img.header.data_end, (data_at img.metadata_data (img.count / 2).toNat).start, B.last, B.next, B.ents.drop (B.ents.length / 2)⟩,
    (write_metadata (split_first (split_restore img (write_metadata
      (split_second img pre.length img.header.data_end)).2 pre.length) img.header.data_end
      (img.count / 2))).2, rfl, rfl, rfl, rfl, ?_, ?_, ?_, ?_, ?_, ?_, ?_⟩
  · unfold split_block
    simp only
    rw [if_neg (by rw [ew1]; simp), if_neg (by rw [ew2]; simp), hk2]
  · rw [ew2, ew1]
    constructor
    · exact hs.same rfl rfl rfl
    · exact hg1
    · show img.header.metadata = _
      rw [h0.hdr_meta, hb]
      cases pre <;> rfl
    · left; exact hSsum
    · intro h
      exact absurd h (by simp [split_first, split_restore])
    · intro s h
      have h : some pre.length = some s := h
      simp only [Option.some.injEq] at h
      refine ⟨pre, _, _, rfl, h, ?_, ?_, rfl⟩
      · show img.count / 2 = ((B.ents.take (B.ents.length / 2)).length : Int)
        rw [hk1, hE1]
      · show List.take (B.ents.take (B.ents.length / 2)).length img.metadata_data = _
        rw [hE1]
        exact take_of_take hd (by omega)
    · exact h0.md_len
    · have of2' := of2
      rw [ew1] at of2'
      refine of2'.weaken ?_ _ (fun h => h)
      intro X _ hx
      exfalso
      rcases hx.1.1 with h | h
      · exact hx.2 h
      · exact hx.1.2 h
  · rw [ew2, ew1]; rfl
  · rw [ew2, ew1]; exact hSsum
  · rw [ew2, ew1]; rfl
  · rw [ew2, ew1]; rfl
  · rw [ew2, ew1]; rfl

theorem front_lt_of_full {img : image_t} {blks : List mblk} {front : Int}
    {data : Int → List Nat} (hr : Rep0 img blks front data) (hfull : ∀ B ∈ blks, B.ents ≠ []) :
    front < 2 ^ 63 := by
  have hs := hr.static
  have hg := hr.good
  have hc := hg.counts hfull (by have := total_blocks_nonneg hs; omega)
  have := hs.room
  have := hs.bs_min
  rw [hg.front_eq]
  have h1 : 1 + img.header.blocks_present + (blks.length : Int) ≤
      2 * img.header.total_blocks + 1 := by omega
  have h2 := mul_le_mul_of_nonneg_left h1 (show (0 : Int) ≤ img.header.block_size by omega)
  omega

/-- The branch of `add_new_block` that splits a full metadata block. -/
theorem split_block_spec {img : image_t} {blks : List mblk} {data : Int → List Nat}
    (hr : Rep img blks data) {pre : List mblk} {B : mblk} {post : List mblk}
    (hb : blks = pre ++ B :: post) (hsum : img.summary = some pre.length)
    (hms : img.metadata_summary = blks.map mblk.summ)
    (hfullB : (B.ents.length : Int) = img.header.meta_size)
    {b : Int} (hb0 : 0 ≤ b) (hb1 : b < img.header.total_blocks)
    (hab : absent (all_ents blks) b)
    (hlt : ∀ e ∈ all_ents pre, e.end_ < b) (hle : b ≤ B.last) :
    AddPost img blks data b (split_block img pre.length b img.header.data_end) := by
  have h0 := hr.rep0
  have hs := h0.static
  have hg := h0.good
  have hB : B ∈ blks := by rw [hb]; simp
  obtain ⟨pre2, B2, post2, hb2, hl2, hc, hd, hn⟩ := h0.cache _ hsum
  obtain ⟨-, rfl, -⟩ := decomp_unique (hb.symm.trans hb2) hl2.symm
  have hne := hr.full B hB
  have hms20 := meta_size_ge hs
  have hlen20 : 20 ≤ B.ents.length := by omega
  obtain ⟨B1, N, W2, e1, e2, ep1, ep2, hsb, hW2, hs2, hms2, hh2, hhas2, hmd2⟩ :=
    split_state hr hb hsum hms hfullB b
  rw [hsb]
  have hperm : ((pre ++ B1 :: N :: post).map mblk.pos).Perm
      (img.header.data_end :: blks.map mblk.pos) := by
    rw [hb]
    simp only [List.map_append, List.map_cons]
    rw [ep1, ep2]
    exact perm_insert_after _ _ _ _
  have hE1 : B1.ents.length = B.ents.length / 2 := by rw [e1, List.length_take]; omega
  have hE2 : N.ents.length = B.ents.length - B.ents.length / 2 := by
    rw [e2, List.length_drop]
  have hE12 : B1.ents ++ N.ents = B.ents := by rw [e1, e2, List.take_append_drop]
  have hA : all_ents (pre ++ B1 :: N :: post) = all_ents blks := by
    rw [hb]
    simp only [all_ents_append, all_ents_cons]
    rw [← List.append_assoc B1.ents, hE12]
  have hsortB : B.ents.Pairwise (fun a c => a.end_ < c.start) := by
    have := hg.sorted
    rw [hb, all_ents_append, all_ents_cons] at this
    exact (List.pairwise_append.mp (List.pairwise_append.mp this).2.1).1
  have hrangeB : ∀ e ∈ B.ents, e.start ≤ e.end_ := fun e he =>
    (hg.range e (mem_all_ents.mpr ⟨B, hB, he⟩)).2.1
  have hmemB : ∀ e, e ∈ B1.ents ∨ e ∈ N.ents → e ∈ B.ents := by
    intro e he
    rw [← hE12]
    exact List.mem_append.mpr he
  have habB : absent B.ents b := fun e he => hab e (mem_all_ents.mpr ⟨B, hB, he⟩)
  have hord := block_order (hb ▸ hg) hne
  have hneN : N.ents ≠ [] := by
    intro h
    rw [h] at hE2
    simp at hE2
    omega
  have hne1 : B1.ents ≠ [] := by
    intro h
    rw [h] at hE1
    simp at hE1
    omega
  have hfirstN : data_at W2.metadata_data (B.ents.length / 2) = data_at N.ents 0 := by
    rw [hmd2, data_at_of_take hd (by omega), e2, data_at_drop]
    rfl
  have hfN : data_at N.ents 0 ∈ N.ents := first_mem hneN
  have hsortN : N.ents.Pairwise (fun a c => a.end_ < c.start) := by
    rw [← hE12] at hsortB
    exact (List.pairwise_append.mp hsortB).2.1
  have hcross : ∀ x ∈ B1.ents, ∀ y ∈ N.ents, x.end_ < y.start := by
    rw [← hE12] at hsortB
    exact (List.pairwise_append.mp hsortB).2.2
  have full1 : ∀ X ∈ pre ++ B1 :: N :: post, X.ents ≠ [] := by
    intro X hX
    rcases List.mem_append.mp hX with h | h
    · exact hr.full X (by rw [hb]; exact List.mem_append_left _ h)
    · rcases List.mem_cons.mp h with rfl | h
      · exact hne1
      · rcases List.mem_cons.mp h with rfl | h
        · exact hneN
        · exact hr.full X (by rw [hb]; exact List.mem_append_right _ (List.mem_cons_of_mem _ h))
  have hgtpost : ∀ e ∈ all_ents post, b < e.start := by
    intro e he
    have := hord.2 e he
    omega
  rw [hfirstN]
  by_cases hcase : (data_at N.ents 0).end_ < b
  · rw [if_pos hcase]
    have hfront := front_lt_of_full hW2 full1
    obtain ⟨img3, er, hr3, hs3, hh3, hms3, -, -, -, -, -⟩ :=
      read_metadata_spec hW2 full1 hfront hms2
        (show _ = (pre ++ [B1]) ++ N :: post by simp)
    have hl1 : (pre ++ [B1]).length = pre.length + 1 := by simp
    rw [hl1] at er
    rw [er]
    simp only [one_ne_zero, if_false]
    have key := extend_block_spec hr3 (show _ = (pre ++ [B1]) ++ N :: post by simp) hs3 (by rw [hms3, hms2])
      (by rw [hh3, hh2, hE2]; omega)
      (fun C hC hCe => absurd hCe (full1 C hC)) hb0 (by rw [hh3, hh2]; exact hb1)
      (by
        intro e he
        rw [all_ents_append] at he
        rcases List.mem_append.mp he with h | h
        · exact hlt e h
        · simp only [all_ents_cons, all_ents_nil, List.append_nil] at h
          have := hcross e h _ hfN
          have := hrangeB _ (hmemB _ (Or.inr hfN))
          omega)
      hgtpost (fun e he => habB e (hmemB e (Or.inr he)))
    refine @AddPost.of_extend_block img3 _ _ _ _ _ _ _ _ key.1 key.2 ?_ ?_ ?_ ?_ ?_ hA rfl
      (Or.inr ⟨rfl, hperm⟩)
    · rw [hh3, hh2]
    · rw [hh3, hh2]
    · rw [hh3, hh2]
    · rw [hh3, hh2]
    · rw [hr3.static.has_md, hs.has_md]
  · rw [if_neg hcase]
    have hbN : b < (data_at N.ents 0).start := by
      have := habB _ (hmemB _ (Or.inr hfN))
      omega
    have key := extend_block_spec hW2 (show _ = pre ++ B1 :: (N :: post) from rfl) hs2 hms2 (by rw [hh2, hE1]; omega)
      (fun C hC hCe => absurd hCe (full1 C hC)) hb0 (by rw [hh2]; exact hb1) hlt
      (by
        intro e he
        rw [all_ents_cons] at he
        rcases List.mem_append.mp he with h | h
        · have := (ents_bounds hsortN (fun x hx => hrangeB x (hmemB x (Or.inr hx))) h).1
          omega
        · exact hgtpost e h)
      (fun e he => habB e (hmemB e (Or.inl he)))
    refine @AddPost.of_extend_block W2 _ _ _ _ _ _ _ _ key.1 key.2 ?_ ?_ ?_ ?_ hhas2 hA rfl
      (Or.inr ⟨rfl, hperm⟩)
    · rw [hh2]
    · rw [hh2]
    · rw [hh2]
    · rw [hh2]

/-! ## `add_new_block` -/

theorem add_to_full_spec {img : image_t} {blks : List mblk} {data : Int → List Nat}
    (hr : Rep img blks data) {pre : List mblk} {B : mblk} {post : List mblk}
    (hb : blks = pre ++ B :: post) (hsum : img.summary = some pre.length)
    (hms : img.metadata_summary = blks.map mblk.summ)
    (hfullB : (B.ents.length : Int) = img.header.meta_size)
    {b : Int} (hb0 : 0 ≤ b) (hb1 : b < img.header.total_blocks)
    (hab : absent (all_ents blks) b)
    (hlt : ∀ e ∈ all_ents pre, e.end_ < b) (hseek : b ≤ B.last ∨ post = []) :
    AddPost img blks data b (add_to_full img pre.length b img.header.data_end) := by
  have hat : summ_at img.metadata_summary pre.length = B.summ := by
    rw [hms, hb, summ_at_map]
  have hlast : B.summ.last = B.last := rfl
  unfold add_to_full
  rw [hat, hlast]
  have hdead : ¬ (b > B.last ∧ pre.length + 1 < img.metadata_summary.length ∧
      b ≤ (summ_at img.metadata_summary (pre.length + 1)).last) := by
    rintro ⟨h1, h2, -⟩
    rcases hseek with h | h
    · omega
    · rw [hms, hb, h] at h2
      simp at h2
  rw [if_neg hdead]
  by_cases hgt : b > B.last
  · rw [if_pos hgt]
    have hpost : post = [] := by
      rcases hseek with h | h
      · omega
      · exact h
    exact chain_block_spec hr hb hsum hms hb0 hb1 hlt hgt
      (by rw [hpost]; intro e he; simp [all_ents] at he)
  · rw [if_neg hgt]
    exact split_block_spec hr hb hsum hms hfullB hb0 hb1 hab hlt (by omega)

theorem add_new_entry_spec {img : image_t} {blks : List mblk} {data : Int → List Nat}
    (hr : Rep img blks data) {b : Int} (hb0 : 0 ≤ b) (hb1 : b < img.header.total_blocks)
    (hab : absent (all_ents blks) b) :
    AddPost img blks data b (add_new_entry img b img.header.data_end) := by
  obtain ⟨img1, e1, hr1, hs1, hh1, hsm1, hmd1, hc1, hfl1, hn1, hfd1, hfh1⟩ := load_summary hr
  have hhas1 : img1.has_metadata = img.has_metadata := by
    rw [hr1.rep0.static.has_md, hr.rep0.static.has_md]
  unfold add_new_entry
  rw [e1]
  simp only [one_ne_zero, if_false]
  by_cases hemp : img1.metadata_summary = []
  · rw [if_pos hemp]
    have hnil : blks = [] := by
      rw [hs1] at hemp
      simpa using hemp
    subst hnil
    have key := first_block_spec hr1 hb0 (by rw [hh1]; exact hb1)
    rw [hh1] at key
    obtain ⟨k1, blks1, data1, k2, k3, k4, k5, k5b, k6, k7, k8, k9, k10, k11⟩ := key
    refine ⟨blks1, data1, k2, k3, k4, k5, k5b, by rw [k6, hhas1], ?_, k8, k9, ?_, ?_⟩
    · rw [k1]; exact k7
    · rw [k1, k10]
    · exact Or.inr ⟨k1, by rw [k11]; exact List.Perm.refl _⟩
  · rw [if_neg hemp]
    obtain ⟨pre, suf, hb, hw, hlt, hsuf⟩ := walk_start_spec hr1 hs1 b
    have hbne : blks ≠ [] := by
      intro h
      rw [hs1, h] at hemp
      exact hemp rfl
    obtain ⟨pre1, B, post, hbd, hsk, hlt1, hseek⟩ := seek_summary_spec hr1.rep0.good hr1.full b
      suf pre img1.metadata_summary.length hb (hsuf hbne) (by rw [hs1, hb]; simp) hlt
    rw [hw]
    rw [hs1] at hsk ⊢
    rw [hsk]
    obtain ⟨f, ew, hr2, s1, s2⟩ := write_metadata_spec hr1.rep0
    rw [hs1] at ew
    rw [ew]
    simp only [one_ne_zero, if_false]
    rw [← hs1] at ew ⊢
    obtain ⟨img3, er, hr3, hs3, hh3, hms3, hc3, hd3, -, -, hz3⟩ :=
      read_metadata_spec hr2 hr1.full hr1.front_lt hs1 hbd
    rw [er]
    simp only [one_ne_zero, if_false]
    have hh3' : img3.header = img1.header := hh3
    have hms3' : img3.metadata_summary = blks.map mblk.summ := by rw [hms3]; exact hs1
    have hrep3 : Rep img3 blks data := by
      refine hr1.of_rep0 hr3 hh3' ?_
      have a1 := s2 (by rw [hr1.size_eq])
      have a2 := hz3 (by rw [a1, hr1.size_eq])
      rw [a2]
      exact a1
    have hB : B ∈ blks := by rw [hbd]; simp
    have hde : img.header.data_end = img3.header.data_end := by rw [hh3', hh1]
    rw [hde]
    have hb1' : b < img3.header.total_blocks := by rw [hh3', hh1]; exact hb1
    by_cases hroom : img3.count < img3.header.meta_size
    · rw [if_pos hroom]
      have hord := block_order (hbd ▸ hr1.rep0.good) (hr1.full B hB)
      have key := extend_block_spec hrep3.rep0 hbd hs3 hms3' (by rw [← hc3]; exact hroom)
        (fun C hC hCe => absurd hCe (hr1.full C hC)) hb0 hb1' hlt1
        (by
          intro e he
          rcases hseek with h | h
          · have := hord.2 e he
            omega
          · rw [h] at he
            simp [all_ents] at he)
        (fun e he => hab e (mem_all_ents.mpr ⟨B, hB, he⟩))
      refine @AddPost.of_extend_block img3 _ _ _ _ _ _ _ _ key.1 key.2 ?_ ?_ ?_ ?_ ?_ rfl rfl
        (Or.inl ⟨hde.symm, rfl⟩)
      · rw [hh3', hh1]
      · rw [hh3', hh1]
      · rw [hh3', hh1]
      · rw [hh3', hh1]
      · rw [hr3.static.has_md, hr.rep0.static.has_md]
    · rw [if_neg hroom]
      have hcap := hr1.rep0.good.cap B hB
      have key := add_to_full_spec hrep3 hbd hs3 hms3'
        (by rw [hh3'] at hroom ⊢; rw [hc3] at hroom; omega) hb0 hb1' hab hlt1 hseek
      obtain ⟨blks1, data1, k2, k3, k4, k5, k5b, k6, k7, k8, k9, k10, k11⟩ := key
      have hbs3 : img3.header.block_size = img.header.block_size := by rw [hh3', hh1]
      refine ⟨blks1, data1, k2, ?_, ?_, ?_, ?_, ?_, ?_, k8, k9, ?_, ?_⟩
      · rw [k3, hh3', hh1]
      · rw [k4, hh3', hh1]
      · rw [k5, hh3', hh1]
      · rw [k5b, hh3', hh1]
      · rw [k6, hr3.static.has_md, hr.rep0.static.has_md]
      · rw [← hbs3]
        exact k7
      · rw [← hbs3]
        exact k10
      · rw [← hbs3, hde]
        exact k11

theorem add_new_block_spec {img : image_t} {blks : List mblk} {data : Int → List Nat}
    (hr : Rep img blks data) {b : Int} (hb0 : 0 ≤ b) (hb1 : b < img.header.total_blocks)
    (hab : absent (all_ents blks) b) :
    AddPost img blks data b (add_new_block img b) := by
  unfold add_new_block
  rcases try_extend_spec hr hab hb1 with h | ⟨h1, h2, blks1, data1, k1, k2, k3, k4, k5, k6, k7⟩
  · rw [h]
    simp only [ne_eq, not_true_eq_false, if_false]
    exact add_new_entry_spec hr hb0 hb1 hab
  · rw [if_pos (by rw [h1]; simp)]
    refine ⟨blks1, data1, k1, by rw [k2], by rw [k2], by rw [k2], by rw [k2], k3, ?_, k5, k6,
      by rw [k2, h2], Or.inl ⟨h2, k7⟩⟩
    rw [h2]
    exact k4

/-! ## Writing and reading the data of a block -/

theorem present_pos {img : image_t} {blks : List mblk} {data : Int → List Nat}
    (hr : Rep img blks data) {b p : Int}
    (hp : present (all_ents blks) img.header.block_size b p) :
    img.header.block_size ≤ p ∧ p + img.header.block_size ≤ img.fd.size ∧
    file_bytes img.fd p (block_len img.header b) = data b := by
  obtain ⟨e, he, h1, h2, rfl⟩ := hp
  have hg := hr.rep0.good
  have hbs := hr.rep0.static.bs_min
  have hreg := block_region (show (0 : Int) < img.header.block_size by omega) h1 h2
  have hep := hg.epos e he
  have hd := hr.rep0.ondisk.data_ok e he b h1 h2
  exact ⟨by omega, hd.1, hd.2⟩

theorem present_unique {bs ms tb front bp : Int} {blks : List mblk}
    (hg : Good bs ms tb front bp blks) {e1 e2 : metadata_data_t} (h1 : e1 ∈ all_ents blks)
    (h2 : e2 ∈ all_ents blks) {b : Int} (hb1 : e1.start ≤ b ∧ b ≤ e1.end_)
    (hb2 : e2.start ≤ b ∧ b ≤ e2.end_) : e1 = e2 := by
  by_contra hne
  have hsym : Symmetric (fun a c : metadata_data_t => a.end_ < c.start ∨ c.end_ < a.start) :=
    fun a c h => h.symm
  have hp : (all_ents blks).Pairwise (fun a c => a.end_ < c.start ∨ c.end_ < a.start) :=
    hg.sorted.imp (fun h => Or.inl h)
  have := hp.forall hsym h1 h2 hne
  omega

/-- Writing the data of a block that the index holds changes the contents of
that block only. -/
theorem Rep.write_data {img : image_t} {blks : List mblk} {data : Int → List Nat}
    (hr : Rep img blks data) {b p : Int}
    (hp : present (all_ents blks) img.header.block_size b p) (buf : List Nat) :
    Rep { img with fd := pwrite img.fd p (block_len img.header b) buf } blks
      (Function.update data b (block_image buf (block_len img.header b))) := by
  have h0 := hr.rep0
  have hs := h0.static
  have hg := h0.good
  have hbs := hs.bs_min
  have hbs0 : (0 : Int) < img.header.block_size := by omega
  have hpp := present_pos hr hp
  have hlen := block_len_le hs b
  have hp0 : 0 ≤ p := by omega
  obtain ⟨e, he, hb1, hb2, hpe⟩ := hp
  have hreg := block_region hbs0 hb1 hb2
  have hsz : (pwrite img.fd p (block_len img.header b) buf).size = img.fd.size :=
    pwrite_size_of_le _ (by omega)
  have ho := h0.ondisk
  refine ⟨?_, ?_, hr.full⟩
  · constructor
    · exact hs.same rfl rfl rfl
    · exact hg
    · exact h0.hdr_meta
    · exact h0.summ
    · exact h0.cache_none
    · exact h0.cache
    · exact h0.md_len
    · constructor
      · exact ho.script
      · show img.header.block_size ≤ (pwrite img.fd p (block_len img.header b) buf).size
        rw [hsz]; exact ho.size_ge
      · intro h
        show file_bytes (pwrite img.fd p (block_len img.header b) buf) 0 sizeof_disk_header = _
        rw [file_bytes_pwrite_other _ _ _ hp0 (Or.inl (by simp [sizeof_disk_header]; omega))]
        exact ho.hdr_disk h
      · intro X hX hn
        have hold := ho.disk X hX hn
        have hdis := hg.me_disj X hX e he
        show X.pos + img.header.block_size ≤
            (pwrite img.fd p (block_len img.header b) buf).size ∧
          file_bytes (pwrite img.fd p (block_len img.header b) buf) X.pos
            img.header.block_size = _
        rw [hsz, file_bytes_pwrite_other _ _ _ hp0 (by omega)]
        exact hold
      · intro x hx y h1 h2
        have hold := ho.data_ok x hx y h1 h2
        have hregx := block_region hbs0 h1 h2
        have hleny := block_len_le hs y
        show block_position x y img.header.block_size + img.header.block_size ≤
            (pwrite img.fd p (block_len img.header b) buf).size ∧
          file_bytes (pwrite img.fd p (block_len img.header b) buf)
            (block_position x y img.header.block_size) (block_len img.header y) = _
        rw [hsz]
        refine ⟨hold.1, ?_⟩
        by_cases hyb : y = b
        · subst hyb
          have hxe := present_unique hg hx he ⟨h1, h2⟩ ⟨hb1, hb2⟩
          subst hxe
          rw [← hpe, file_bytes_pwrite_same _ _ _ hp0, Function.update_same]
        · rw [Function.update_noteq hyb]
          rw [file_bytes_pwrite_other _ _ _ hp0 ?_]
          · exact hold.2
          · by_cases hxe : x = e
            · subst hxe
              rw [hpe]
              unfold block_position
              rcases lt_or_gt_of_ne hyb with h | h
              · left
                have : (y - x.start + 1) * img.header.block_size ≤
                    (b - x.start) * img.header.block_size :=
                  mul_le_mul_of_nonneg_right (by omega) (by omega)
                have e1 : (y - x.start + 1) * img.header.block_size =
                    (y - x.start) * img.header.block_size + img.header.block_size := by ring
                omega
              · right
                have : (b - x.start + 1) * img.header.block_size ≤
                    (y - x.start) * img.header.block_size :=
                  mul_le_mul_of_nonneg_right (by omega) (by omega)
                have e1 : (b - x.start + 1) * img.header.block_size =
                    (b - x.start) * img.header.block_size + img.header.block_size := by ring
                omega
            · have hsym : Symmetric (fun a c : metadata_data_t =>
                  a.pos + ent_len a * img.header.block_size ≤ c.pos ∨
                  c.pos + ent_len c * img.header.block_size ≤ a.pos) := fun a c h => h.symm
              have := hg.e_disj.forall hsym hx he hxe
              omega
  · show (pwrite img.fd p (block_len img.header b) buf).size = _
    rw [hsz]; exact hr.size_eq

/-- The position that `image_write` finds or makes for a block. -/
theorem write_position_spec {img : image_t} {blks : List mblk} {data : Int → List Nat}
    (hr : Rep img blks data) {b : Int} (hb0 : 0 ≤ b) (hb1 : b < img.header.total_blocks) :
    ∃ blks1 data1,
      Rep (if (meta_block_position img b).1 = 0 then
          add_new_block (meta_block_position img b).2 b
        else meta_block_position img b).2 blks1 data1 ∧
      (if (meta_block_position img b).1 = 0 then
          add_new_block (meta_block_position img b).2 b
        else meta_block_position img b).2.header.block_size = img.header.block_size ∧
      (if (meta_block_position img b).1 = 0 then
          add_new_block (meta_block_position img b).2 b
        else meta_block_position img b).2.header.total_blocks = img.header.total_blocks ∧
      (if (meta_block_position img b).1 = 0 then
          add_new_block (meta_block_position img b).2 b
        else meta_block_position img b).2.header.last_block = img.header.last_block ∧
      (if (meta_block_position img b).1 = 0 then
          add_new_block (meta_block_position img b).2 b
        else meta_block_position img b).2.header.total_size = img.header.total_size ∧
      present (all_ents blks1) img.header.block_size b
        (if (meta_block_position img b).1 = 0 then
          add_new_block (meta_block_position img b).2 b
        else meta_block_position img b).1 ∧
      (∀ b1, absent (all_ents blks1) b1 ↔ (b1 ≠ b ∧ absent (all_ents blks) b1)) ∧
      (∀ b1, b1 ≠ b → data1 b1 = data b1) ∧
      (absent (all_ents blks) b ∨ (blks1 = blks ∧ data1 = data)) ∧
      img.header.data_end ≤ (if (meta_block_position img b).1 = 0 then
          add_new_block (meta_block_position img b).2 b
        else meta_block_position img b).2.header.data_end := by
  obtain ⟨p, img1, hm, hr1, hh, hmd, hcase⟩ := meta_block_position_spec hr b
  rw [hm]
  have hbs := hr.rep0.static.bs_min
  rcases hcase with ⟨hp0, hab⟩ | hpres
  · rw [if_pos hp0]
    have hb1' : b < img1.header.total_blocks := by rw [hh]; exact hb1
    obtain ⟨blks1, data1, k1, k2, k3, k4, k5, k6, k7, k8, k9, k10, k11⟩ :=
      add_new_block_spec hr1 hb0 hb1' hab
    rw [hh] at k2 k3 k4 k5 k7 k10 k11
    refine ⟨blks1, data1, k1, k2, k3, k4, k5, k7, k8, k9, Or.inl hab, ?_⟩
    show img.header.data_end ≤ (add_new_block img1 b).2.header.data_end
    rw [k10]
    rcases k11 with h | h
    · omega
    · omega
  · have hpp := present_pos hr1 (by rw [hh]; exact hpres)
    rw [hh] at hpp
    have hne : ¬ (p = 0) := by omega
    rw [if_neg hne]
    refine ⟨blks, data, hr1, by rw [hh], by rw [hh], by rw [hh], by rw [hh], hpres, ?_,
      fun _ _ => rfl, Or.inr ⟨rfl, rfl⟩, by show _ ≤ img1.header.data_end; rw [hh]⟩
    intro b1
    constructor
    · intro h
      refine ⟨?_, h⟩
      intro hb
      obtain ⟨e, he, h1, h2, _⟩ := hpres
      rw [hb] at h
      exact h e he ⟨h1, h2⟩
    · intro h
      exact h.2

/-- A write of a block of an image with metadata succeeds, and afterwards the
image holds the bytes written for that block and what it held for the others. -/
theorem image_write_block_spec {img : image_t} {blks : List mblk} {data : Int → List Nat}
    (hr : Rep img blks data) (blk : ddb_block_t) (hb0 : 0 ≤ blk.block)
    (hb1 : blk.block < img.header.total_blocks) :
    (image_write_block img blk).1.result = 1 ∧
    (image_write_block img blk).1.error = some 0 ∧
    (image_write_block img blk).1.block = blk.block ∧
    (image_write_block img blk).1.buffer = blk.buffer ∧
    ∃ blks1, Rep (image_write_block img blk).2 blks1
        (Function.update data blk.block
          (block_image blk.buffer (block_len img.header blk.block))) ∧
      (image_write_block img blk).2.header.block_size = img.header.block_size ∧
      (image_write_block img blk).2.header.total_blocks = img.header.total_blocks ∧
      (image_write_block img blk).2.header.last_block = img.header.last_block ∧
      (image_write_block img blk).2.header.total_size = img.header.total_size ∧
      (∀ b1, absent (all_ents blks1) b1 ↔ (b1 ≠ blk.block ∧ absent (all_ents blks) b1)) ∧
      img.header.data_end ≤ (image_write_block img blk).2.header.data_end := by
  obtain ⟨blks1, data1, k1, k2, k3, k4, k5, k6, k7, k8, -, k9⟩ :=
    write_position_spec hr hb0 hb1
  have hmd : img.has_metadata = true := hr.rep0.static.has_md
  have hbs := hr.rep0.static.bs_min
  unfold image_write_block
  simp only [hmd, if_true, true_and]
  generalize (if (meta_block_position img blk.block).1 = 0 then
          add_new_block (meta_block_position img blk.block).2 blk.block
        else meta_block_position img blk.block) = P at k1 k2 k3 k4 k5 k6 k9 ⊢
  have hlen : block_len img.header blk.block = block_len P.2.header blk.block := by
    unfold block_len
    rw [k3, k4, k2]
  have hpp := present_pos k1 (by rw [k2]; exact k6)
  rw [k2] at hpp
  have hnl : ¬ (P.1 < 0) := by omega
  rw [if_neg hnl]
  rw [ddb_write_block_ok k1.rep0.ondisk.script]
  simp only [if_true]
  refine ⟨trivial, trivial, trivial, trivial, blks1, ?_, k2, k3, k4, k5, k7, k9⟩
  have hw := Rep.write_data k1 (by rw [k2]; exact k6) blk.buffer
  rw [← hlen] at hw
  have hd : Function.update data1 blk.block
      (block_image blk.buffer (block_len img.header blk.block)) =
      Function.update data blk.block
        (block_image blk.buffer (block_len img.header blk.block)) := by
    funext b1
    by_cases h : b1 = blk.block
    · rw [h, Function.update_same, Function.update_same]
    · rw [Function.update_noteq h, Function.update_noteq h]
      exact k8 b1 h
  rw [← hd]
  exact hw

theorem data_length {img : image_t} {blks : List mblk} {data : Int → List Nat}
    (hr : Rep img blks data) {b p : Int}
    (hp : present (all_ents blks) img.header.block_size b p) :
    (data b).length = (block_len img.header b).toNat := by
  rw [← (present_pos hr hp).2.2, file_bytes_length]

/-- The buffer that `image_read` leaves for a block of `block_size` bytes whose
first `len` bytes were read as `bytes`. -/
theorem read_buffer_eq (h : header_t) (b : Int) (buf bytes : List Nat)
    (hl0 : 0 < block_len h b) (hl1 : block_len h b ≤ h.block_size)
    (hbuf : (buf.length : Int) = h.block_size)
    (hbytes : bytes.length = (block_len h b).toNat) :
    fill_buffer
      (if b = h.total_blocks - 1 ∧ block_len h b < h.block_size then
        buf.take (block_len h b).toNat ++
          List.replicate (h.block_size - block_len h b).toNat 0 ++ buf.drop h.block_size.toNat
      else buf) bytes (block_len h b) =
    bytes ++ List.replicate (h.block_size - block_len h b).toNat 0 := by
  unfold fill_buffer
  have e1 : bytes.take (block_len h b).toNat = bytes := by
    rw [← hbytes]; exact List.take_length _
  rw [e1]
  congr 1
  have hn : buf.length = h.block_size.toNat := by omega
  by_cases hc : b = h.total_blocks - 1 ∧ block_len h b < h.block_size
  · rw [if_pos hc]
    have hd : buf.drop h.block_size.toNat = [] := by
      rw [← hn]; exact List.drop_length _
    rw [hd, List.append_nil]
    have htl : (buf.take (block_len h b).toNat).length = (block_len h b).toNat := by
      rw [List.length_take]; omega
    rw [List.drop_append_of_le_length (by omega), List.drop_eq_nil_of_le (by omega),
      List.nil_append]
  · rw [if_neg hc]
    have hlen : block_len h b = h.block_size := by
      unfold block_len at hc hl1 ⊢
      by_cases hb : b = h.total_blocks - 1
      · rw [if_pos hb] at hc hl1 ⊢
        have := fun hx => hc ⟨hb, hx⟩
        omega
      · rw [if_neg hb]
    rw [hlen, ← hn, List.drop_length]
    simp

/-- A read of a block of an image with metadata succeeds: it gives what the
image holds for a block of the index, and zeros for any other block. -/
theorem image_read_block_spec {img : image_t} {blks : List mblk} {data : Int → List Nat}
    (hr : Rep img blks data) (blk : ddb_block_t) (zf : Bool)
    (hbuf : (blk.buffer.length : Int) = img.header.block_size) :
    (image_read_block img blk zf).1.result = 1 ∧
    (image_read_block img blk zf).1.error = some 0 ∧
    (image_read_block img blk zf).1.block = blk.block ∧
    ((absent (all_ents blks) blk.block ∧
        (image_read_block img blk zf).1.buffer =
          List.replicate img.header.block_size.toNat 0) ∨
      ((∃ p, present (all_ents blks) img.header.block_size blk.block p) ∧
        (image_read_block img blk zf).1.buffer = data blk.block ++
          List.replicate (img.header.block_size - block_len img.header blk.block).toNat 0)) ∧
    Rep (image_read_block img blk zf).2 blks data ∧
    (image_read_block img blk zf).2.header = img.header := by
  obtain ⟨p, img1, hm, hr1, hh, hmd1, hcase⟩ := meta_block_position_spec hr blk.block
  have hmd : img.has_metadata = true := hr.rep0.static.has_md
  have hbs := hr.rep0.static.bs_min
  have hl := block_len_le hr.rep0.static blk.block
  unfold image_read_block
  simp only [hmd, if_true, true_and]
  rw [hm]
  rcases hcase with ⟨hp0, hab⟩ | hpres
  · have hnl : ¬ (p < 0) := by omega
    rw [if_neg hnl, if_pos hp0]
    refine ⟨rfl, rfl, rfl, Or.inl ⟨hab, ?_⟩, hr1, hh⟩
    show fill_buffer _ _ _ = _
    rw [read_buffer_eq img.header blk.block blk.buffer _ hl.1 hl.2 hbuf (by simp)]
    rw [← List.replicate_add]
    congr 1
    omega
  · have hpp := present_pos hr1 (by rw [hh]; exact hpres)
    rw [hh] at hpp
    have hnl : ¬ (p < 0) := by omega
    have hne : ¬ (p = 0) := by omega
    rw [if_neg hnl, if_neg hne]
    rw [ddb_read_block_ok hr1.rep0.ondisk.script (by omega)]
    simp only []
    refine ⟨trivial, trivial, trivial, Or.inr ⟨⟨p, hpres⟩, ?_⟩, hr1, hh⟩
    show fill_buffer _ _ _ = _
    rw [hpp.2.2]
    exact read_buffer_eq img.header blk.block blk.buffer _ hl.1 hl.2 hbuf
      (data_length hr hpres)

/-! ## The file header -/

theorem field_at (pre post : List Nat) {x buf : List Nat} {off len : Nat} (hb : buf = pre ++ (x ++ post))
    (hp : pre.length = off) (hx : x.length = len) : field buf off len = x := by
  subst hb hp hx
  exact field_append_mid _ _ _

/-- The fields of an encoded header, by their offsets. -/
theorem header_fields (h : header_t) :
    field (header_encode h) 0 8 = magic ∧
    field (header_encode h) 8 8 = be64 h.total_size ∧
    field (header_encode h) 16 8 = be64 h.blocks_present ∧
    field (header_encode h) 24 8 = be64 h.data_end ∧
    field (header_encode h) 32 4 = be32 h.block_size ∧
    field (header_encode h) 36 4 = be32 version_max ∧
    field (header_encode h) 40 8 = be64 h.mtime ∧
    field (header_encode h) 48 8 = be64 h.metadata ∧
    field (header_encode h) 56 8 = List.replicate 8 0 := by
  refine ⟨?_, ?_, ?_, ?_, ?_, ?_, ?_, ?_, ?_⟩
  · exact field_at ([]) (be64 h.total_size ++ be64 h.blocks_present ++
      be64 h.data_end ++ be32 h.block_size ++ be32 version_max ++ be64 h.mtime ++
      be64 h.metadata ++ List.replicate 8 0) (by simp [header_encode]) rfl rfl
  · exact field_at (magic) (be64 h.blocks_present ++
      be64 h.data_end ++ be32 h.block_size ++ be32 version_max ++ be64 h.mtime ++
      be64 h.metadata ++ List.replicate 8 0) (by simp [header_encode]) rfl (be64_length _)
  · exact field_at (magic ++ be64 h.total_size) (be64 h.data_end ++ be32 h.block_size ++ be32 version_max ++ be64 h.mtime ++
      be64 h.metadata ++ List.replicate 8 0) (by simp [header_encode])
      (by simp [magic, be64_length]) (be64_length _)
  · exact field_at (magic ++ be64 h.total_size ++ be64 h.blocks_present) (be32 h.block_size ++ be32 version_max ++ be64 h.mtime ++
      be64 h.metadata ++ List.replicate 8 0) (by simp [header_encode])
      (by simp [magic, be64_length]) (be64_length _)
  · exact field_at (magic ++ be64 h.total_size ++ be64 h.blocks_present ++
      be64 h.data_end) (be32 version_max ++ be64 h.mtime ++
      be64 h.metadata ++ List.replicate 8 0) (by simp [header_encode])
      (by simp [magic, be64_length]) (be32_length _)
  · exact field_at (magic ++ be64 h.total_size ++ be64 h.blocks_present ++
      be64 h.data_end ++ be32 h.block_size) (be64 h.mtime ++
      be64 h.metadata ++ List.replicate 8 0) (by simp [header_encode])
      (by simp [magic, be64_length, be32_length]) (be32_length _)
  · exact field_at (magic ++ be64 h.total_size ++ be64 h.blocks_present ++
      be64 h.data_end ++ be32 h.block_size ++ be32 version_max) (be64 h.metadata ++ List.replicate 8 0) (by simp [header_encode])
      (by simp [magic, be64_length, be32_length]) (be64_length _)
  · exact field_at (magic ++ be64 h.total_size ++ be64 h.blocks_present ++
      be64 h.data_end ++ be32 h.block_size ++ be32 version_max ++ be64 h.mtime) (List.replicate 8 0) (by simp [header_encode])
      (by simp [magic, be64_length, be32_length]) (be64_length _)
  · exact field_at (magic ++ be64 h.total_size ++ be64 h.blocks_present ++
      be64 h.data_end ++ be32 h.block_size ++ be32 version_max ++ be64 h.mtime ++
      be64 h.metadata) ([]) (by simp [header_encode])
      (by simp [magic, be64_length, be32_length]) (by simp)

/-- The number of blocks that `fill_derived_header` computes is the size in
blocks, rounded up. -/
theorem total_blocks_ceil (h : header_t) (hbs : 0 < h.block_size) :
    (fill_derived_header h).total_blocks = (h.total_size + h.block_size - 1) / h.block_size := by
  show (if h.total_size % h.block_size ≠ 0 then h.total_size / h.block_size + 1
      else h.total_size / h.block_size) = _
  have h1 := Int.emod_add_ediv h.total_size h.block_size
  have h2 := Int.emod_nonneg h.total_size (show h.block_size ≠ 0 by omega)
  have h3 := Int.emod_lt_of_pos h.total_size hbs
  symm
  by_cases hr : h.total_size % h.block_size ≠ 0
  · rw [if_pos hr]
    have e : h.total_size + h.block_size - 1 =
        (h.total_size % h.block_size - 1) + h.block_size * (h.total_size / h.block_size + 1) := by
      rw [mul_add, mul_one]; omega
    rw [e, Int.add_mul_ediv_left _ _ (show h.block_size ≠ 0 by omega),
      Int.ediv_eq_zero_of_lt (by omega) (by omega)]
    ring
  · rw [if_neg hr]
    have hr0 : h.total_size % h.block_size = 0 := by
      by_contra hx; exact hr hx
    have e : h.total_size + h.block_size - 1 =
        (h.block_size - 1) + h.block_size * (h.total_size / h.block_size) := by
      omega
    rw [e, Int.add_mul_ediv_left _ _ (show h.block_size ≠ 0 by omega),
      Int.ediv_eq_zero_of_lt (by omega) (by omega)]
    ring

/-- Decoding an encoded header gives its stored fields back and computes the
derived ones. -/
theorem header_decode_encode (h mh : header_t) (file_size : Int)
    (hts : 1 ≤ h.total_size) (hts2 : h.total_size < 2 ^ 63)
    (hbs : 512 ≤ h.block_size) (hbs2 : h.block_size < 2 ^ 32)
    (hbp : 0 ≤ h.blocks_present)
    (hbp2 : h.blocks_present ≤ (h.total_size + h.block_size - 1) / h.block_size)
    (hde : 0 ≤ h.data_end) (hde2 : h.data_end ≤ file_size)
    (hm : 0 ≤ h.metadata) (hm2 : h.metadata < file_size) (hfs : file_size < 2 ^ 63)
    (hmt : -2 ^ 63 ≤ h.mtime) (hmt2 : h.mtime < 2 ^ 63) :
    header_decode (header_encode h) mh file_size =
      some (fill_derived_header
        { mh with total_size := h.total_size, block_size := h.block_size,
                  blocks_present := h.blocks_present, data_end := h.data_end,
                  metadata := h.metadata, mtime := h.mtime }) := by
  obtain ⟨f0, f1, f2, f3, f4, f5, f6, f7, -⟩ := header_fields h
  have hbp3 : h.blocks_present < 2 ^ 63 := by
    have : (h.total_size + h.block_size - 1) / h.block_size ≤ h.total_size + h.block_size - 1 :=
      Int.ediv_le_self _ (by omega)
    have h1 := Int.emod_add_ediv (h.total_size + h.block_size - 1) h.block_size
    have h2 := Int.emod_nonneg (h.total_size + h.block_size - 1)
      (show h.block_size ≠ 0 by omega)
    have h4 : 512 * ((h.total_size + h.block_size - 1) / h.block_size) ≤
        h.block_size * ((h.total_size + h.block_size - 1) / h.block_size) :=
      mul_le_mul_of_nonneg_right hbs (by omega)
    omega
  unfold header_decode
  rw [f0, f1, f2, f3, f4, f5, f6, f7]
  rw [of_be64_be64 _ (by omega) hts2, of_be64_be64 _ (by omega) hbp3,
    of_be64_be64 _ (by omega) (by omega), of_be64_be64 _ (by omega) (by omega),
    of_be64_be64 _ hmt hmt2, of_be32_be32 _ (by omega) hbs2,
    of_be32s_be32 _ (by simp [version_max]) (by simp [version_max])]
  rw [if_neg (by simp), if_neg (by simp [version_max, version_min]), if_neg (by omega),
    if_neg (by omega), if_neg (by omega), if_neg (by omega), if_neg (by omega),
    if_neg (by omega), if_neg (by omega)]
  have htb := total_blocks_ceil
    { mh with total_size := h.total_size, block_size := h.block_size,
              blocks_present := h.blocks_present, data_end := h.data_end,
              metadata := h.metadata, mtime := h.mtime } (show (0 : Int) < h.block_size by omega)
  simp only []
  rw [if_neg]
  rw [htb]
  show ¬ (h.blocks_present > (h.total_size + h.block_size - 1) / h.block_size)
  omega

/-! ## Writes and reads of an image in use -/

theorem block_image_take (buf : List Nat) (len : Int) (h : len.toNat ≤ buf.length) :
    block_image buf len = buf.take len.toNat := by
  unfold block_image
  apply List.ext_getElem
  · simp; omega
  · intro i h1 h2
    simp only [List.getElem_map, List.getElem_range, List.getElem_take]
    simp at h1
    rw [List.getD_eq_getElem _ _ (by omega)]

theorem block_len_congr {h1 h2 : header_t} (e1 : h1.block_size = h2.block_size)
    (e2 : h1.total_blocks = h2.total_blocks) (e3 : h1.last_block = h2.last_block) (b : Int) :
    block_len h1 b = block_len h2 b := by
  unfold block_len
  rw [e1, e2, e3]

theorem total_blocks_eq {img : image_t} (hs : Static img) :
    img.header.total_blocks =
      (img.header.total_size + img.header.block_size - 1) / img.header.block_size := by
  have h := total_blocks_ceil img.header (by have := hs.bs_min; omega)
  rw [hs.derived] at h
  exact h

/-- A write of a whole buffer to a block of the image is recorded. -/
theorem Holds.write_block {bs ts : Int} {img : image_t} {w : Int → Option (List Nat)}
    (hh : Holds bs ts img w) (blk : ddb_block_t) (hb0 : 0 ≤ blk.block)
    (hb1 : blk.block < (ts + bs - 1) / bs) (hbuf : (blk.buffer.length : Int) = bs) :
    (image_write_block img blk).1.result = 1 ∧
    (image_write_block img blk).1.error = some 0 ∧
    Holds bs ts (image_write_block img blk).2
      (Function.update w blk.block (some blk.buffer)) ∧
    img.header.data_end ≤ (image_write_block img blk).2.header.data_end := by
  obtain ⟨blks, data, hr, hbs, hts, hw1, hw2⟩ := hh
  have htb := total_blocks_eq hr.rep0.static
  rw [hbs, hts] at htb
  obtain ⟨r1, r2, -, -, blks1, k1, k2, k3, k4, k5, k6, k7⟩ :=
    image_write_block_spec hr blk hb0 (by rw [htb]; exact hb1)
  refine ⟨r1, r2, ⟨blks1, _, k1, by rw [k2, hbs], by rw [k5, hts], ?_, ?_⟩, k7⟩
  · intro b
    rw [k6 b, ← hw1 b]
    by_cases h : b = blk.block
    · rw [h, Function.update_same]
      simp
    · rw [Function.update_noteq h]
      simp [h]
  · intro b buf hb
    have hl := block_len_congr k2 k3 k4 b
    rw [hl]
    by_cases h : b = blk.block
    · rw [h, Function.update_same] at hb
      injection hb with hb
      rw [h, Function.update_same, ← hb]
      refine ⟨hbuf, block_image_take _ _ ?_⟩
      have := (block_len_le hr.rep0.static blk.block).2
      omega
    · rw [Function.update_noteq h] at hb ⊢
      exact ⟨(hw2 b buf hb).1, (hw2 b buf hb).2⟩

/-- A call of `image_write` for blocks of the image with whole buffers writes
them all. -/
theorem Holds.write {bs ts : Int} : ∀ (blocks : List ddb_block_t) {img : image_t}
    {w : Int → Option (List Nat)}, Holds bs ts img w →
    (∀ blk ∈ blocks, 0 ≤ blk.block ∧ blk.block < (ts + bs - 1) / bs ∧
      (blk.buffer.length : Int) = bs) →
    (image_write img blocks).1.1 = blocks.length ∧
    Holds bs ts (image_write img blocks).2 (note_writes w blocks) ∧
    img.header.data_end ≤ (image_write img blocks).2.header.data_end
  | [], img, w, hh, _ => ⟨rfl, hh, le_refl _⟩
  | blk :: rest, img, w, hh, hv => by
    have hb := hv blk (List.mem_cons_self _ _)
    obtain ⟨r1, -, r3, r4⟩ := hh.write_block blk hb.1 hb.2.1 hb.2.2
    obtain ⟨i1, i2, i3⟩ := Holds.write rest r3 (fun x hx => hv x (List.mem_cons_of_mem _ hx))
    unfold image_write
    simp only [r1, if_true, i1]
    refine ⟨?_, i2, le_trans r4 i3⟩
    simp

/-- A read of a block gives what the image holds for it: the stored form of
the buffer last written, or zeros for a block never written. -/
theorem Holds.read_block {bs ts : Int} {img : image_t} {w : Int → Option (List Nat)}
    (hh : Holds bs ts img w) (blk : ddb_block_t) (zf : Bool)
    (hbuf : (blk.buffer.length : Int) = bs) :
    (image_read_block img blk zf).1.result = 1 ∧
    (image_read_block img blk zf).1.error = some 0 ∧
    (image_read_block img blk zf).1.block = blk.block ∧
    (∀ buf, w blk.block = some buf →
      (image_read_block img blk zf).1.buffer = stored img.header blk.block buf) ∧
    (w blk.block = none →
      (image_read_block img blk zf).1.buffer = List.replicate bs.toNat 0) ∧
    Holds bs ts (image_read_block img blk zf).2 w := by
  obtain ⟨blks, data, hr, hbs, hts, hw1, hw2⟩ := hh
  obtain ⟨r1, r2, r3, r4, r5, r6⟩ := image_read_block_spec hr blk zf (by rw [hbs]; exact hbuf)
  refine ⟨r1, r2, r3, ?_, ?_, blks, data, r5, by rw [r6, hbs], by rw [r6, hts], hw1, ?_⟩
  · intro buf hb
    rcases r4 with ⟨ha, -⟩ | ⟨-, hp⟩
    · rw [(hw1 _).2 ha] at hb
      exact absurd hb (by simp)
    · rw [hp, (hw2 _ _ hb).2]
      rfl
  · intro hn
    rcases r4 with ⟨-, hz⟩ | ⟨⟨p, e, he, h1, h2, -⟩, -⟩
    · rw [hz, hbs]
    · exact absurd ⟨h1, h2⟩ ((hw1 _).1 hn e he)
  · intro b buf hb
    rw [r6]
    exact hw2 b buf hb

/-! ## Flushing, closing and opening -/

/-- A call of `meta_flush` succeeds and leaves nothing to flush. -/
theorem meta_flush_spec {img : image_t} {blks : List mblk} {data : Int → List Nat}
    (hr : Rep img blks data) :
    ∃ f, meta_flush img =
        (0, { img with fd := f, flush_metadata := false, flush_file_header := false }) ∧
      Rep { img with fd := f, flush_metadata := false, flush_file_header := false } blks data := by
  obtain ⟨f, e, h0, s1, s2⟩ := write_metadata_spec hr.rep0
  refine ⟨f, ?_, h0, ?_, hr.full⟩
  · unfold meta_flush
    rw [e]
    simp
  · show f.size = img.header.data_end
    rw [s2 (by rw [hr.size_eq]), hr.size_eq]

theorem fill_derived_fields (h mh : header_t) :
    fill_derived_header
      { mh with total_size := h.total_size, block_size := h.block_size,
                blocks_present := h.blocks_present, data_end := h.data_end,
                metadata := h.metadata, mtime := h.mtime } = fill_derived_header h := rfl

theorem head_pos_bounds {bs ms tb front bp : Int} {blks : List mblk}
    (hg : Good bs ms tb front bp blks) (hbs : 0 < bs) :
    0 ≤ head_pos blks 0 ∧ head_pos blks 0 < front := by
  cases blks with
  | nil =>
    have := (front_ge hg hbs).2
    simp [head_pos]
    omega
  | cons B rest =>
    have := hg.mpos B (List.mem_cons_self _ _)
    simp [head_pos]
    omega

/-- The header of an image in use decodes from its encoding. -/
theorem header_of_disk {img : image_t} {blks : List mblk} {data : Int → List Nat}
    (hr : Rep img blks data) (mh : header_t) :
    header_decode (header_encode img.header) mh img.header.data_end = some img.header := by
  have hs := hr.rep0.static
  have hg := hr.rep0.good
  have hbs := hs.bs_min
  have hc := hg.counts hr.full (by have := total_blocks_nonneg hs; omega)
  have hf := front_ge hg (show (0 : Int) < img.header.block_size by omega)
  have hm := head_pos_bounds hg (show (0 : Int) < img.header.block_size by omega)
  rw [← hr.rep0.hdr_meta] at hm
  have htb := total_blocks_eq hs
  rw [header_decode_encode img.header mh img.header.data_end hs.ts_min hs.ts_max hbs hs.bs_max
    (by omega) (by rw [← htb]; exact hc.2.1) (by omega) (le_refl _) hm.1 hm.2 hr.front_lt
    hs.mtime.1 hs.mtime.2, fill_derived_fields, hs.derived]

/-- Opening the file of a flushed image gives an image that holds the same
blocks. -/
theorem open_image_fd_spec {img : image_t} {blks : List mblk} {data : Int → List Nat}
    (hr : Rep img blks data) (hfm : img.flush_metadata = false)
    (hfh : img.flush_file_header = false) (want_metadata block_size : Int) (creat : Bool)
    (total_size now : Int) (hw : 1 ≤ want_metadata)
    (hb : block_size = 0 ∨ block_size = img.header.block_size)
    (ht : total_size ≤ 0 ∨ total_size = img.header.total_size) :
    ∃ img1, open_image_fd img.fd want_metadata block_size creat total_size 0 now = some img1 ∧
      Rep img1 blks data ∧ img1.header = img.header := by
  have h0 := hr.rep0
  have hs := h0.static
  have hg := h0.good
  have ho := h0.ondisk
  have hbs := hs.bs_min
  have hsz := hr.size_eq
  have hf := front_ge hg (show (0 : Int) < img.header.block_size by omega)
  have hio := io_next_nil ho.script
  have hhd := ho.hdr_disk (by rw [hfh]; rfl)
  have hdec := fun mh => header_of_disk hr mh
  rw [← hsz] at hdec
  have hsz0 : ¬ (img.fd.size - 0 = 0) := by omega
  have hrd := @ddb_read_block_ok _ ho.script 0 sizeof_disk_header
    (by simp [sizeof_disk_header]; omega) false
  unfold open_image_fd
  simp only [hio, hsz0, false_and, and_false, if_false, not_true_eq_false, ge_iff_le]
  rw [if_neg (by omega)]
  have hge : sizeof_disk_header ≤ img.fd.size := by
    simp [sizeof_disk_header]; omega
  simp only [sub_zero, if_pos hge, hrd, hhd, hdec]
  have c1 : ¬ (block_size > 0 ∧ block_size ≠ img.header.block_size) := by
    rcases hb with h | h
    · omega
    · exact fun hx => hx.2 h
  have c2 : ¬ (want_metadata < 1) := by omega
  have c3 : ¬ (total_size > 0 ∧ img.header.total_size ≠ total_size) := by
    rcases ht with h | h
    · omega
    · exact fun hx => hx.2 h.symm
  have c4 : ¬ (img.header.block_size < 512) := by omega
  rw [if_neg c1, if_neg c2, if_neg c3, if_neg c4]
  refine ⟨_, rfl, ?_, rfl⟩
  have hms := meta_size_ge hs
  refine ⟨?_, hsz, hr.full⟩
  constructor
  · exact hs.same hs.has_md.symm hs.off.symm rfl
  · exact hg
  · exact h0.hdr_meta
  · exact Or.inr ⟨rfl, rfl⟩
  · intro _; rfl
  · intro s hsome
    exact absurd hsome (by simp)
  · show ((List.replicate img.header.meta_size.toNat
      ({ start := 0, end_ := 0, pos := 0 } : metadata_data_t)).length : Int) = _
    rw [List.length_replicate]
    show (img.header.meta_size.toNat : Int) = img.header.meta_size
    omega
  · refine ho.weaken ?_ _ ?_
    · intro B hB hx
      have hd : dirty_pos img = none := by
        unfold dirty_pos
        rw [hfm]
        rfl
      rw [hd] at hx
      exact absurd hx (by simp)
    · intro _
      rw [hfh]
      rfl

/-- The file that the creation of an image leaves: its header, padded to a
block. -/
theorem new_file_spec (h : header_t) (hbs : 512 ≤ h.block_size) :
    (pad_header h.block_size.toNat (pwrite empty_file 0 sizeof_disk_header (header_encode h))
      sizeof_disk_header h.block_size).script = [] ∧
    (pad_header h.block_size.toNat (pwrite empty_file 0 sizeof_disk_header (header_encode h))
      sizeof_disk_header h.block_size).size = h.block_size ∧
    file_bytes (pad_header h.block_size.toNat
      (pwrite empty_file 0 sizeof_disk_header (header_encode h))
      sizeof_disk_header h.block_size) 0 sizeof_disk_header = header_encode h := by
  have hpad := pad_header_spec h.block_size.toNat
    (pwrite empty_file 0 sizeof_disk_header (header_encode h)) sizeof_disk_header
    h.block_size rfl (by simp [sizeof_disk_header])
  obtain ⟨p1, p2, -, -, p5⟩ := hpad
  have hsz : (pwrite empty_file 0 sizeof_disk_header (header_encode h)).size = 64 := by
    simp [pwrite, empty_file, sizeof_disk_header]
  refine ⟨p1, ?_, ?_⟩
  · rw [p5 (by simp [sizeof_disk_header]; omega) (by simp [sizeof_disk_header]; omega)
      (by rw [hsz]; simp [sizeof_disk_header]), hsz]
    rw [if_pos (by omega)]
  · have : file_bytes (pad_header h.block_size.toNat
        (pwrite empty_file 0 sizeof_disk_header (header_encode h)) sizeof_disk_header
        h.block_size) 0 sizeof_disk_header =
        file_bytes (pwrite empty_file 0 sizeof_disk_header (header_encode h)) 0
          sizeof_disk_header := by
      apply file_bytes_congr
      intro i h1 h2
      exact p2 i (Or.inl (by omega))
    rw [this, file_bytes_pwrite_same _ _ _ (le_refl 0)]
    exact block_image_self _ _ (by rw [header_encode_length]; rfl)

/-- The function `write_metadata` when only the file header is to be written,
at offset 0. -/
theorem write_metadata_new (img : image_t) (hfm : img.flush_metadata = false)
    (hfh : img.flush_file_header = true) (hscript : img.fd.script = [])
    (hoff : img.offset = 0) :
    write_metadata img = (1, { img with
      fd := pad_header img.header.block_size.toNat
        (pwrite img.fd 0 sizeof_disk_header (header_encode img.header)) sizeof_disk_header
        img.header.block_size,
      flush_file_header := false }) := by
  unfold write_metadata write_metadata_block write_file_header
  rw [hfm]
  simp only [Bool.false_eq_true, if_false]
  rw [hfh]
  simp only [if_true]
  rw [ddb_write_block_ok hscript, hoff]
  simp [hfm]

/-- Creating an image with metadata on a new file gives an image that holds
no block. -/
theorem create_spec (bs ts now : Int) (hbs : 512 ≤ bs) (hbs2 : bs < 2 ^ 32) (hts : bs ≤ ts)
    (hroom : bs * (2 * ((ts + bs - 1) / bs) + 1) < 2 ^ 63)
    (hn1 : -2 ^ 63 ≤ now) (hn2 : now < 2 ^ 63) :
    ddb_device_open_image empty_file 2 bs true ts now = some (new_image bs ts now) ∧
      Rep (new_image bs ts now) [] (fun _ => []) := by
  have hio : io_next empty_file = (true, empty_file) := rfl
  obtain ⟨n1, n2, n3⟩ := new_file_spec (new_header bs ts now) hbs
  have hbsn : (new_header bs ts now).block_size = bs := rfl
  rw [hbsn] at n1 n2 n3
  have hio2 := io_next_nil n1
  have hrd := @ddb_read_block_ok _ n1 0 sizeof_disk_header
    (by rw [n2]; simp [sizeof_disk_header]; omega) false
  unfold ddb_device_open_image open_image_fd
  simp only [hio]
  rw [write_metadata_new _ rfl rfl rfl rfl]
  simp only [not_true_eq_false, if_false]
  have hH : fill_derived_header
      { total_size := ts, total_blocks := 0, blocks_present := 0, data_end := bs + 0,
        metadata := 0, block_size := bs, last_block := 0, mtime := now, meta_size := 0 } =
      new_header bs ts now := rfl
  have he : empty_file.size = 0 := rfl
  simp only [hH, hbsn, he]
  have c0 : ¬ ((0 : Int) ≤ 0 ∧ (False ∨ ts < 1)) := by
    rintro ⟨-, h | h⟩
    · exact h
    · omega
  have c1 : ts ≥ 0 ∧ (0 : Int) - 0 = 0 ∧ True := ⟨by omega, by norm_num, trivial⟩
  have c3 : ¬ (bs < 512) := by omega
  rw [if_neg c0, if_pos c1, if_pos (by norm_num), if_neg c3, if_neg (by norm_num)]
  simp only [hio2, not_true_eq_false, if_false]
  have c5 : ts ≥ sizeof_disk_header := by
    simp [sizeof_disk_header]; omega
  simp only [if_pos c5, hrd, n3]
  have htb := total_blocks_ceil
    { total_size := ts, total_blocks := 0, blocks_present := 0, data_end := bs + 0,
      metadata := 0, block_size := bs, last_block := 0, mtime := now, meta_size := 0 }
    (show (0 : Int) < bs by omega)
  rw [hH] at htb
  have htb2 : (new_header bs ts now).total_blocks = (ts + bs - 1) / bs := htb
  have hq : 1 ≤ (ts + bs - 1) / bs := by
    have := Int.add_mul_ediv_left (ts - 1) 1 (show bs ≠ 0 by omega)
    have e : ts - 1 + bs * 1 = ts + bs - 1 := by ring
    rw [e] at this
    have := Int.ediv_nonneg (show (0 : Int) ≤ ts - 1 by omega) (show (0 : Int) ≤ bs by omega)
    omega
  have hts2 : ts < 2 ^ 63 := by
    have h1 := Int.emod_add_ediv (ts + bs - 1) bs
    have h2 := Int.emod_lt_of_pos (ts + bs - 1) (show (0 : Int) < bs by omega)
    nlinarith
  have hdec : header_decode (header_encode (new_header bs ts now)) (new_header bs ts now) ts =
      some (new_header bs ts now) :=
    header_decode_encode (new_header bs ts now) (new_header bs ts now) ts
      (show 1 ≤ ts by omega) hts2 hbs hbs2 (le_refl 0)
      (show (0 : Int) ≤ (ts + bs - 1) / bs by omega)
      (show (0 : Int) ≤ bs + 0 by omega) (show bs + 0 ≤ ts by omega) (le_refl 0)
      (show (0 : Int) < ts by omega) hts2 hn1 hn2
  simp only [hdec]
  have d1 : ¬ (bs > 0 ∧ bs ≠ (new_header bs ts now).block_size) := fun hx => hx.2 rfl
  have d3 : ¬ (ts > 0 ∧ (new_header bs ts now).total_size ≠ ts) := fun hx => hx.2 rfl
  have d4 : ¬ ((new_header bs ts now).block_size < 512) := by rw [hbsn]; omega
  rw [if_neg d1, if_neg (by norm_num), if_neg d3, if_neg d4]
  refine ⟨rfl, ?_⟩
  have hms : (new_header bs ts now).meta_size = (bs - 12) / 24 := rfl
  refine ⟨?_, n2.trans (show bs = bs + 0 by ring),
    fun B hB => absurd hB (List.not_mem_nil _)⟩
  constructor
  · exact ⟨rfl, rfl, hbs, hbs2, by show 1 ≤ ts; omega, hts2, rfl, ⟨hn1, hn2⟩,
      by show bs * (2 * (new_header bs ts now).total_blocks + 1) < 2 ^ 63
         rw [htb2]; exact hroom⟩
  · constructor
    · exact List.Pairwise.nil
    · intro e he; exact absurd he (List.not_mem_nil _)
    · intro B hB; exact absurd hB (List.not_mem_nil _)
    · intro B hB; exact absurd hB (List.not_mem_nil _)
    · trivial
    · show bs + 0 = bs * (1 + 0 + 0)
      ring
    · rfl
    · intro B hB; exact absurd hB (List.not_mem_nil _)
    · exact List.nodup_nil
    · intro e he; exact absurd he (List.not_mem_nil _)
    · intro B hB; exact absurd hB (List.not_mem_nil _)
    · exact List.Pairwise.nil
  · rfl
  · exact Or.inr ⟨rfl, rfl⟩
  · intro _; rfl
  · intro s hsome
    have hsn : (new_image bs ts now).summary = none := rfl
    rw [hsn] at hsome
    exact absurd hsome (by simp)
  · show ((List.replicate (new_header bs ts now).meta_size.toNat
      ({ start := 0, end_ := 0, pos := 0 } : metadata_data_t)).length : Int) = _
    rw [List.length_replicate, hms]
    show (((bs - 12) / 24).toNat : Int) = (bs - 12) / 24
    omega
  · constructor
    · exact n1
    · exact le_of_eq n2.symm
    · intro _; exact n3
    · intro B hB; exact absurd hB (List.not_mem_nil _)
    · intro e he; exact absurd he (List.not_mem_nil _)

/-! ## Sequences of steps -/

theorem Holds.flush {bs ts : Int} {img : image_t} {w : Int → Option (List Nat)}
    (hh : Holds bs ts img w) :
    (meta_flush img).1 = 0 ∧ Holds bs ts (meta_flush img).2 w ∧
    (meta_flush img).2.header = img.header := by
  obtain ⟨blks, data, hr, hbs, hts, hw1, hw2⟩ := hh
  obtain ⟨f, e, hr1⟩ := meta_flush_spec hr
  rw [e]
  exact ⟨rfl, ⟨blks, data, hr1, hbs, hts, hw1, hw2⟩, rfl⟩

/-- Closing an image and opening its file again gives an image that holds
the same blocks. -/
theorem Holds.reopen {bs ts : Int} {img : image_t} {w : Int → Option (List Nat)}
    (hh : Holds bs ts img w) (want_metadata block_size : Int) (creat : Bool)
    (total_size now : Int) (hw : 1 ≤ want_metadata) (hb : block_size = 0 ∨ block_size = bs)
    (ht : total_size ≤ 0 ∨ total_size = ts) :
    (image_close img).1 = 0 ∧
    ∃ img1, ddb_device_open_image (image_close img).2 want_metadata block_size creat
        total_size now = some img1 ∧ Holds bs ts img1 w ∧ img1.header = img.header := by
  obtain ⟨blks, data, hr, hbs, hts, hw1, hw2⟩ := hh
  obtain ⟨f, e, hr1⟩ := meta_flush_spec hr
  have hio := io_next_nil hr1.rep0.ondisk.script
  have hc : image_close img = (0, f) := by
    unfold image_close
    simp only [e]
    rw [hio]
    simp
  rw [hc]
  refine ⟨rfl, ?_⟩
  obtain ⟨img1, o1, o2, o3⟩ := open_image_fd_spec hr1 rfl rfl want_metadata block_size creat
    total_size now hw (by rw [← hbs] at hb; exact hb) (by rw [← hts] at ht; exact ht)
  refine ⟨img1, o1, ⟨blks, data, o2, by rw [o3]; exact hbs, by rw [o3]; exact hts, hw1, ?_⟩,
    o3⟩
  intro b buf hb
  rw [o3]
  exact hw2 b buf hb

theorem Holds.step {bs ts : Int} {img : image_t} {w : Int → Option (List Nat)}
    (hh : Holds bs ts img w) (o : op) (hv : valid_op bs ts o) :
    ∃ img1, apply_op img o = some img1 ∧ Holds bs ts img1 (written w [o]) ∧
      img.header.data_end ≤ img1.header.data_end := by
  cases o with
  | write blocks =>
    obtain ⟨h1, h2, h3⟩ := Holds.write blocks hh hv
    exact ⟨_, by simp only [apply_op]; rw [if_pos h1], h2, h3⟩
  | flush =>
    obtain ⟨h1, h2, h3⟩ := hh.flush
    exact ⟨_, by simp only [apply_op]; rw [if_pos h1], h2, by rw [h3]⟩
  | reopen want_metadata block_size creat total_size now =>
    obtain ⟨h1, img1, h2, h3, h4⟩ := hh.reopen want_metadata block_size creat total_size now
      hv.1 hv.2.1 hv.2.2.1
    exact ⟨img1, by simp only [apply_op]; rw [if_pos h1]; exact h2, h3, by rw [h4]⟩

theorem written_cons (w : Int → Option (List Nat)) (o : op) (rest : List op) :
    written w (o :: rest) = written (written w [o]) rest := by
  cases o <;> rfl

/-- Every sequence of valid steps succeeds and leaves an image that holds the
buffers last written. -/
theorem Holds.after_run {bs ts : Int} : ∀ (ops : List op) {img : image_t}
    {w : Int → Option (List Nat)}, Holds bs ts img w → (∀ o ∈ ops, valid_op bs ts o) →
    ∃ img1, run img ops = some img1 ∧ Holds bs ts img1 (written w ops) ∧
      img.header.data_end ≤ img1.header.data_end
  | [], img, w, hh, _ => ⟨img, rfl, hh, le_refl _⟩
  | o :: rest, img, w, hh, hv => by
    obtain ⟨img1, h1, h2, h5⟩ := hh.step o (hv o (List.mem_cons_self _ _))
    obtain ⟨img2, h3, h4, h6⟩ :=
      Holds.after_run rest h2 (fun x hx => hv x (List.mem_cons_of_mem _ hx))
    refine ⟨img2, ?_, ?_, le_trans h5 h6⟩
    · unfold run
      rw [h1]
      exact h3
    · rw [written_cons]
      exact h4

/-- A new image holds no block. -/
theorem Holds.create (bs ts now : Int) (hbs : 512 ≤ bs) (hbs2 : bs < 2 ^ 32) (hts : bs ≤ ts)
    (hroom : bs * (2 * ((ts + bs - 1) / bs) + 1) < 2 ^ 63)
    (hn1 : -2 ^ 63 ≤ now) (hn2 : now < 2 ^ 63) :
    ddb_device_open_image empty_file 2 bs true ts now = some (new_image bs ts now) ∧
      Holds bs ts (new_image bs ts now) (fun _ => none) := by
  obtain ⟨h1, h2⟩ := create_spec bs ts now hbs hbs2 hts hroom hn1 hn2
  refine ⟨h1, [], _, h2, rfl, rfl, ?_, ?_⟩
  · intro b
    simp [absent, all_ents_nil]
  · intro b buf hb
    exact absurd hb (by simp)

/-- What the image holds for a block is what a read of it is to give. -/
theorem stored_eq {bs ts : Int} {img : image_t} (hs : Static img)
    (hbs : img.header.block_size = bs) (hts : img.header.total_size = ts) (b : Int)
    (buf : List Nat) (hbuf : (buf.length : Int) = bs) :
    stored img.header b buf = as_read bs ts b buf := by
  have htb := total_blocks_eq hs
  have hd := hs.derived
  have hlb : img.header.last_block =
      if ts % bs ≠ 0 then ts % bs else bs := by
    conv_lhs => rw [← hd]
    rw [← hts, ← hbs]
    rfl
  rw [hts, hbs] at htb
  have h512 := hs.bs_min
  rw [hbs] at h512
  unfold stored as_read block_len
  rw [htb, hlb, hbs]
  have hfull : List.take bs.toNat buf ++ List.replicate (bs - bs).toNat 0 = buf := by
    have : bs.toNat = buf.length := by omega
    rw [this, List.take_length]
    simp
  by_cases h1 : b = (ts + bs - 1) / bs - 1
  · rw [if_pos h1]
    by_cases h2 : ts % bs ≠ 0
    · rw [if_pos h2, if_pos ⟨h1, h2⟩]
    · rw [if_neg h2, if_neg (fun hx => h2 hx.2)]
      exact hfull
  · rw [if_neg h1, if_neg (fun hx => h1 hx.1)]
    exact hfull

/-! ## Reads of a sparse image -/

theorem block_ext {x y : ddb_block_t} (h1 : x.block = y.block) (h2 : x.buffer = y.buffer)
    (h3 : x.result = y.result) (h4 : x.error = y.error) : x = y := by
  cases x
  cases y
  simp only at h1 h2 h3 h4
  rw [h1, h2, h3, h4]

/-- A call of `image_read` for one block of an image in use: it gives the
stored form of the buffer last written, or zeros. -/
theorem Holds.read {bs ts : Int} {img : image_t} {w : Int → Option (List Nat)}
    (hh : Holds bs ts img w) (blk : ddb_block_t) (zf : Bool)
    (hbuf : (blk.buffer.length : Int) = bs) :
    (∀ buf, w blk.block = some buf →
      (image_read img [blk] zf).1 =
        (1, [{ blk with buffer := as_read bs ts blk.block buf, result := 1, error := some 0 }])) ∧
    (w blk.block = none →
      (image_read img [blk] zf).1 =
        (1, [{ blk with buffer := List.replicate bs.toNat 0, result := 1, error := some 0 }])) := by
  obtain ⟨r1, r2, r3, r4, r5, -⟩ := hh.read_block blk zf hbuf
  obtain ⟨blks, data, hr, hbs, hts, hw1, hw2⟩ := hh
  have hrd : (image_read img [blk] zf).1 = (1, [(image_read_block img blk zf).1]) := by
    simp only [image_read]
    rw [if_pos r1]
    rfl
  rw [hrd]
  constructor
  · intro buf hb
    have hst := stored_eq hr.rep0.static hbs hts blk.block buf (hw2 _ _ hb).1
    congr 2
    exact block_ext r3 (by rw [r4 buf hb, hst]) r1 r2
  · intro hn
    congr 2
    exact block_ext r3 (r5 hn) r1 r2

theorem sample_ops_valid : ∀ o ∈ sample_ops, valid_op 512 1124 o := by
  intro o ho
  simp only [sample_ops, List.mem_cons, List.mem_singleton, List.not_mem_nil, or_false] at ho
  rcases ho with rfl | rfl | rfl | rfl
  · simp only [valid_op, List.mem_singleton, forall_eq, List.length_replicate]
    norm_num
  · trivial
  · simp only [valid_op]
    norm_num
  · simp only [valid_op, List.mem_cons, List.mem_singleton, List.not_mem_nil, or_false,
      forall_eq_or_imp, forall_eq, List.length_replicate]
    norm_num

/-- C10: in a sparse image created empty (`new_image` is what its creation
gives), every sequence of writes of whole
buffers to blocks of the image, of flushes and of closings followed by
reopenings succeeds when all I/O does, and afterwards a read of a block gives
the bytes of the most recent write to it: the buffer written, or for a short
last block its `ts % bs` bytes followed by zeros.  The hypothesis on
`bs * (2 * n + 1)` keeps every offset of the file below `2 ^ 63`. -/
theorem read_returns_last_write (bs ts now : Int) (ops : List op)
    (hbs : 512 ≤ bs) (hbs2 : bs < 2 ^ 32) (hts : bs ≤ ts)
    (hroom : bs * (2 * ((ts + bs - 1) / bs) + 1) < 2 ^ 63)
    (hn1 : -2 ^ 63 ≤ now) (hn2 : now < 2 ^ 63)
    (hops : ∀ o ∈ ops, valid_op bs ts o) :
    ∃ img, ddb_device_open_image empty_file 2 bs true ts now = some (new_image bs ts now) ∧
      run (new_image bs ts now) ops = some img ∧
      ∀ (blk : ddb_block_t) (zf : Bool) (buf : List Nat),
        (blk.buffer.length : Int) = bs →
        written (fun _ => none) ops blk.block = some buf →
        (image_read img [blk] zf).1 =
          (1, [{ blk with buffer := as_read bs ts blk.block buf, result := 1,
                          error := some 0 }]) := by
  obtain ⟨h1, h2⟩ := Holds.create bs ts now hbs hbs2 hts hroom hn1 hn2
  obtain ⟨img, h3, h4, -⟩ := Holds.after_run ops h2 hops
  exact ⟨img, h1, h3, fun blk zf buf hb hw => (h4.read blk zf hb).1 buf hw⟩

/-- C11: in a sparse image created empty, after every sequence of writes,
flushes and reopenings in which all I/O succeeds, a read of a block that no
step wrote succeeds with result 1 and error 0 and gives `bs` zero bytes. -/
theorem unwritten_block_reads_zeros (bs ts now : Int) (ops : List op)
    (hbs : 512 ≤ bs) (hbs2 : bs < 2 ^ 32) (hts : bs ≤ ts)
    (hroom : bs * (2 * ((ts + bs - 1) / bs) + 1) < 2 ^ 63)
    (hn1 : -2 ^ 63 ≤ now) (hn2 : now < 2 ^ 63)
    (hops : ∀ o ∈ ops, valid_op bs ts o) :
    ∃ img, ddb_device_open_image empty_file 2 bs true ts now = some (new_image bs ts now) ∧
      run (new_image bs ts now) ops = some img ∧
      ∀ (blk : ddb_block_t) (zf : Bool),
        (blk.buffer.length : Int) = bs →
        written (fun _ => none) ops blk.block = none →
        (image_read img [blk] zf).1 =
          (1, [{ blk with buffer := List.replicate bs.toNat 0, result := 1,
                          error := some 0 }]) := by
  obtain ⟨h1, h2⟩ := Holds.create bs ts now hbs hbs2 hts hroom hn1 hn2
  obtain ⟨img, h3, h4, -⟩ := Holds.after_run ops h2 hops
  exact ⟨img, h1, h3, fun blk zf hb hw => (h4.read blk zf hb).2 hw⟩

theorem read_returns_last_write_witness :
    ∃ img, ddb_device_open_image empty_file 2 512 true 1124 0 = some (new_image 512 1124 0) ∧
      run (new_image 512 1124 0) sample_ops = some img ∧
      ∀ (blk : ddb_block_t) (zf : Bool) (buf : List Nat),
        (blk.buffer.length : Int) = 512 →
        written (fun _ => none) sample_ops blk.block = some buf →
        (image_read img [blk] zf).1 =
          (1, [{ blk with buffer := as_read 512 1124 blk.block buf, result := 1,
                          error := some 0 }]) :=
  read_returns_last_write 512 1124 0 sample_ops (by norm_num) (by norm_num) (by norm_num)
    (by norm_num) (by norm_num) (by norm_num) sample_ops_valid

theorem unwritten_block_reads_zeros_witness :
    ∃ img, ddb_device_open_image empty_file 2 512 true 1124 0 = some (new_image 512 1124 0) ∧
      run (new_image 512 1124 0) sample_ops = some img ∧
      ∀ (blk : ddb_block_t) (zf : Bool),
        (blk.buffer.length : Int) = 512 →
        written (fun _ => none) sample_ops blk.block = none →
        (image_read img [blk] zf).1 =
          (1, [{ blk with buffer := List.replicate (512 : Int).toNat 0, result := 1,
                          error := some 0 }]) :=
  unwritten_block_reads_zeros 512 1124 0 sample_ops (by norm_num) (by norm_num) (by norm_num)
    (by norm_num) (by norm_num) (by norm_num) sample_ops_valid

/-! ## The index of a sparse image -/

/-- C15: for every header with `total_size >= 1`, `512 <= block_size < 2^31`,
`0 <= blocks_present <= ceil (total_size / block_size)`,
`0 <= data_end <= file_size` and `0 <= metadata < file_size` (and fields
within their C types), `header_decode` of `header_encode` succeeds and gives
the same `total_size`, `block_size`, `blocks_present`, `data_end`, `metadata`
and `mtime`; the 64 encoded bytes are the magic "DDB META" at 0, `total_size`
at 8, `blocks_present` at 16, `data_end` at 24, `block_size` at 32, version 0
at 36, `mtime` at 40, `metadata` at 48, each read back most significant byte
first, and 8 zero bytes at 56. -/
theorem header_round_trip (h mh : header_t) (file_size : Int)
    (hts : 1 ≤ h.total_size) (hts2 : h.total_size < 2 ^ 63)
    (hbs : 512 ≤ h.block_size) (hbs2 : h.block_size < 2 ^ 31)
    (hbp : 0 ≤ h.blocks_present)
    (hbp2 : h.blocks_present ≤ (h.total_size + h.block_size - 1) / h.block_size)
    (hde : 0 ≤ h.data_end) (hde2 : h.data_end ≤ file_size)
    (hm : 0 ≤ h.metadata) (hm2 : h.metadata < file_size) (hfs : file_size < 2 ^ 63)
    (hmt : -2 ^ 63 ≤ h.mtime) (hmt2 : h.mtime < 2 ^ 63) :
    (∃ h1, header_decode (header_encode h) mh file_size = some h1 ∧
      h1.total_size = h.total_size ∧ h1.block_size = h.block_size ∧
      h1.blocks_present = h.blocks_present ∧ h1.data_end = h.data_end ∧
      h1.metadata = h.metadata ∧ h1.mtime = h.mtime) ∧
    (header_encode h).length = 64 ∧
    field (header_encode h) 0 8 = "DDB META".toList.map Char.toNat ∧
    of_be64 (field (header_encode h) 8 8) = h.total_size ∧
    of_be64 (field (header_encode h) 16 8) = h.blocks_present ∧
    of_be64 (field (header_encode h) 24 8) = h.data_end ∧
    of_be32s (field (header_encode h) 32 4) = h.block_size ∧
    of_be32s (field (header_encode h) 36 4) = 0 ∧
    of_be64 (field (header_encode h) 40 8) = h.mtime ∧
    of_be64 (field (header_encode h) 48 8) = h.metadata ∧
    field (header_encode h) 56 8 = [0, 0, 0, 0, 0, 0, 0, 0] := by
  obtain ⟨f0, f1, f2, f3, f4, f5, f6, f7, f8⟩ := header_fields h
  have hbp3 : h.blocks_present < 2 ^ 63 := by
    have h1 := Int.emod_add_ediv (h.total_size + h.block_size - 1) h.block_size
    have h2 := Int.emod_nonneg (h.total_size + h.block_size - 1)
      (show h.block_size ≠ 0 by omega)
    have h4 : 512 * ((h.total_size + h.block_size - 1) / h.block_size) ≤
        h.block_size * ((h.total_size + h.block_size - 1) / h.block_size) :=
      mul_le_mul_of_nonneg_right hbs (by omega)
    omega
  refine ⟨⟨_, header_decode_encode h mh file_size hts hts2 hbs (by omega) hbp hbp2 hde hde2
    hm hm2 hfs hmt hmt2, rfl, rfl, rfl, rfl, rfl, rfl⟩, header_encode_length h, ?_, ?_, ?_, ?_,
    ?_, ?_, ?_, ?_, ?_⟩
  · rw [f0]; decide
  · rw [f1]; exact of_be64_be64 _ (by omega) hts2
  · rw [f2]; exact of_be64_be64 _ (by omega) hbp3
  · rw [f3]; exact of_be64_be64 _ (by omega) (by omega)
  · rw [f4]; exact of_be32s_be32 _ (by omega) hbs2
  · rw [f5]; exact of_be32s_be32 _ (by simp [version_max]) (by simp [version_max])
  · rw [f6]; exact of_be64_be64 _ hmt hmt2
  · rw [f7]; exact of_be64_be64 _ (by omega) (by omega)
  · rw [f8]; rfl

theorem header_round_trip_witness :
    (∃ h1, header_decode (header_encode sample_header) zero_header 20480 = some h1 ∧
      h1.total_size = sample_header.total_size ∧ h1.block_size = sample_header.block_size ∧
      h1.blocks_present = sample_header.blocks_present ∧
      h1.data_end = sample_header.data_end ∧
      h1.metadata = sample_header.metadata ∧ h1.mtime = sample_header.mtime) ∧
    (header_encode sample_header).length = 64 ∧
    field (header_encode sample_header) 0 8 = "DDB META".toList.map Char.toNat ∧
    of_be64 (field (header_encode sample_header) 8 8) = sample_header.total_size ∧
    of_be64 (field (header_encode sample_header) 16 8) = sample_header.blocks_present ∧
    of_be64 (field (header_encode sample_header) 24 8) = sample_header.data_end ∧
    of_be32s (field (header_encode sample_header) 32 4) = sample_header.block_size ∧
    of_be32s (field (header_encode sample_header) 36 4) = 0 ∧
    of_be64 (field (header_encode sample_header) 40 8) = sample_header.mtime ∧
    of_be64 (field (header_encode sample_header) 48 8) = sample_header.metadata ∧
    field (header_encode sample_header) 56 8 = [0, 0, 0, 0, 0, 0, 0, 0] :=
  header_round_trip sample_header zero_header 20480 (by decide) (by decide) (by decide)
    (by decide) (by decide) (by decide) (by decide) (by decide) (by decide) (by decide)
    (by decide) (by decide) (by decide)

/-- The headers that `header_decode` rejects, with every field read as the
code reads it: the block size as an unsigned number. -/
theorem header_decode_rejects_iff (dh : List Nat) (mh : header_t) (file_size : Int) :
    header_decode dh mh file_size = none ↔
      (field dh 0 8 ≠ magic ∨ of_be32s (field dh 36 4) ≠ 0 ∨
        of_be64 (field dh 8 8) < 1 ∨ of_be32 (field dh 32 4) < 512 ∨
        of_be64 (field dh 16 8) < 0 ∨
        of_be64 (field dh 16 8) >
          (of_be64 (field dh 8 8) + of_be32 (field dh 32 4) - 1) / of_be32 (field dh 32 4) ∨
        of_be64 (field dh 24 8) < 0 ∨ of_be64 (field dh 24 8) > file_size ∨
        of_be64 (field dh 48 8) < 0 ∨ of_be64 (field dh 48 8) ≥ file_size) := by
  unfold header_decode
  by_cases c0 : field dh 0 8 ≠ magic
  · rw [if_pos c0]; simp [c0]
  rw [if_neg c0]
  by_cases c1 : of_be32s (field dh 36 4) < version_min ∨ of_be32s (field dh 36 4) > version_max
  · rw [if_pos c1]
    have : of_be32s (field dh 36 4) ≠ 0 := by
      simp only [version_min, version_max] at c1
      omega
    simp [this]
  rw [if_neg c1]
  have c1' : of_be32s (field dh 36 4) = 0 := by
    simp only [version_min, version_max] at c1
    omega
  by_cases c2 : of_be64 (field dh 8 8) < 1
  · rw [if_pos c2]; simp [c2]
  rw [if_neg c2]
  by_cases c3 : of_be32 (field dh 32 4) < 512
  · rw [if_pos c3]; simp [c3]
  rw [if_neg c3]
  by_cases c4 : of_be64 (field dh 16 8) < 0
  · rw [if_pos c4]; simp [c4]
  rw [if_neg c4]
  by_cases c5 : of_be64 (field dh 24 8) < 0
  · rw [if_pos c5]; simp [c5]
  rw [if_neg c5]
  by_cases c6 : of_be64 (field dh 24 8) > file_size
  · rw [if_pos c6]; simp [c6]
  rw [if_neg c6]
  by_cases c7 : of_be64 (field dh 48 8) < 0
  · rw [if_pos c7]; simp [c7]
  rw [if_neg c7]
  by_cases c8 : of_be64 (field dh 48 8) ≥ file_size
  · rw [if_pos c8]; simp [c8]
  rw [if_neg c8]
  have htb := total_blocks_ceil
    { mh with total_size := of_be64 (field dh 8 8), block_size := of_be32 (field dh 32 4),
              blocks_present := of_be64 (field dh 16 8), data_end := of_be64 (field dh 24 8),
              metadata := of_be64 (field dh 48 8), mtime := of_be64 (field dh 40 8) }
    (show (0 : Int) < of_be32 (field dh 32 4) by omega)
  simp only []
  rw [htb]
  simp only [c1', ne_eq, not_true_eq_false, false_or]
  have c0' : field dh 0 8 = magic := by
    by_contra hx; exact c0 hx
  by_cases c9 : of_be64 (field dh 16 8) >
      (of_be64 (field dh 8 8) + of_be32 (field dh 32 4) - 1) / of_be32 (field dh 32 4)
  · simp only [fill_derived_header]
    rw [if_pos c9]
    simp [c9]
  · simp only [fill_derived_header]
    rw [if_neg c9]
    simp only [reduceCtorEq, false_iff, not_or]
    exact ⟨fun hx => hx c0', c2, c3, c4, c9, c5, c6, c7, c8⟩

/-- C16: evaluation of `header_decode` on a header whose `int32_t` field
`block_size` holds -2147483648, which is below 512: the header is accepted,
with block size 2147483648. -/
theorem header_decode_accepts_negative_block_size :
    negative_block_size_header.length = 64 ∧
    of_be32s (field negative_block_size_header 32 4) = -2147483648 ∧
    ∃ h, header_decode negative_block_size_header zero_header 64 = some h ∧
      h.block_size = 2147483648 := by
  refine ⟨rfl, by decide, _, rfl, rfl⟩

/-! ## `meta_iterate` -/

theorem iterate_entries_feed {α : Type} (func : Int → Int → α → Int × α)
    (md : List metadata_data_t) : ∀ (rest pre : List metadata_data_t),
    (∀ k, k < (pre ++ rest).length → data_at md k = data_at (pre ++ rest) k) →
    ∀ (s e : Int) (a : α),
      iterate_entries func md ((pre ++ rest).length : Nat) rest.length pre.length s e a =
        feed func rest s e a
  | [], pre, _, s, e, a => rfl
  | x :: t, pre, hmd, s, e, a => by
    have hx : data_at md pre.length = x := by
      rw [hmd pre.length (by simp), data_at_append_mid]
    have hl : ((pre.length : Nat) : Int) < (((pre ++ x :: t).length : Nat) : Int) := by
      simp
    have e1 : pre ++ x :: t = (pre ++ [x]) ++ t := by simp
    have e2 : pre.length + 1 = (pre ++ [x]).length := by simp
    have ih := fun s e a => iterate_entries_feed func md t (pre ++ [x])
      (by rw [← e1]; exact hmd) s e a
    rw [← e1, ← e2] at ih
    simp only [List.length_cons, iterate_entries, feed]
    rw [if_pos hl, hx]
    simp only [ih]

theorem iterate_entries_eq {α : Type} (func : Int → Int → α → Int × α)
    {md es : List metadata_data_t} {count : Int} (hc : count = es.length)
    (hd : md.take es.length = es) (s e : Int) (a : α) :
    iterate_entries func md count count.toNat 0 s e a = feed func es s e a := by
  have h := iterate_entries_feed func md es []
    (fun k hk => data_at_of_take hd (by simpa using hk)) s e a
  rw [hc]
  simpa using h

theorem feed_append {α : Type} (func : Int → Int → α → Int × α) :
    ∀ (l1 l2 : List metadata_data_t) (s e : Int) (a : α),
    feed func (l1 ++ l2) s e a =
      if (feed func l1 s e a).1 = none then
        feed func l2 (feed func l1 s e a).2.1 (feed func l1 s e a).2.2.1
          (feed func l1 s e a).2.2.2
      else feed func l1 s e a
  | [], l2, s, e, a => by simp [feed]
  | x :: t, l2, s, e, a => by
    simp only [List.cons_append, feed]
    by_cases h1 : e ≥ 0
    · rw [if_pos h1, if_pos h1]
      by_cases h2 : e + 1 = x.start
      · rw [if_pos h2, if_pos h2]
        exact feed_append func t l2 _ _ _
      · rw [if_neg h2, if_neg h2]
        by_cases h3 : (func s e a).1 < 0
        · rw [if_pos h3, if_pos h3]
          simp
        · rw [if_neg h3, if_neg h3]
          exact feed_append func t l2 _ _ _
    · rw [if_neg h1, if_neg h1]
      exact feed_append func t l2 _ _ _

/-- Reading the metadata block of a summary of an image in use. -/
theorem read_metadata_rep {img : image_t} {blks : List mblk} {data : Int → List Nat}
    (hr : Rep img blks data) (hsum : img.metadata_summary = blks.map mblk.summ)
    {pre : List mblk} {B : mblk} {post : List mblk} (hb : blks = pre ++ B :: post) :
    ∃ img1, read_metadata img pre.length = (1, img1) ∧ Rep img1 blks data ∧
      img1.header = img.header ∧ img1.metadata_summary = img.metadata_summary ∧
      img1.count = B.ents.length ∧ img1.metadata_data.take B.ents.length = B.ents := by
  obtain ⟨img1, er, hr1, -, hh, hms, hc, hd, -, -, hz⟩ :=
    read_metadata_spec hr.rep0 hr.full hr.front_lt hsum hb
  refine ⟨img1, er, hr.of_rep0 hr1 hh (hz (by rw [hr.size_eq])), hh, hms, hc, hd⟩

/-- The loop of `meta_iterate` over the summaries of the blocks `suf` gives
the callbacks of their entries. -/
theorem iterate_summaries_spec {α : Type} (func : Int → Int → α → Int × α)
    {blks : List mblk} {data : Int → List Nat} :
    ∀ (suf pre : List mblk) (img : image_t), Rep img blks data →
    img.metadata_summary = blks.map mblk.summ → blks = pre ++ suf →
    ∀ (s e : Int) (a : α),
      (iterate_summaries func (List.range' pre.length suf.length) img s e a).1 =
        (feed func (all_ents suf) s e a).1 ∧
      (iterate_summaries func (List.range' pre.length suf.length) img s e a).2.2.2.1 =
        (feed func (all_ents suf) s e a).2.2.2 ∧
      ((feed func (all_ents suf) s e a).1 = none →
        (iterate_summaries func (List.range' pre.length suf.length) img s e a).2.1 =
          (feed func (all_ents suf) s e a).2.1 ∧
        (iterate_summaries func (List.range' pre.length suf.length) img s e a).2.2.1 =
          (feed func (all_ents suf) s e a).2.2.1) ∧
      Rep (iterate_summaries func (List.range' pre.length suf.length) img s e a).2.2.2.2
        blks data ∧
      (iterate_summaries func (List.range' pre.length suf.length) img s e a).2.2.2.2.header =
        img.header
  | [], pre, img, hr, _, _, s, e, a => by
    exact ⟨rfl, rfl, fun _ => ⟨rfl, rfl⟩, hr, rfl⟩
  | B :: t, pre, img, hr, hsum, hb, s, e, a => by
    obtain ⟨img1, er, hr1, hh, hms, hc, hd⟩ := read_metadata_rep hr hsum hb
    have hrange : List.range' pre.length (B :: t).length =
        pre.length :: List.range' (pre.length + 1) t.length := rfl
    have e1 : pre ++ B :: t = (pre ++ [B]) ++ t := by simp
    have e2 : pre.length + 1 = (pre ++ [B]).length := by simp
    have ih := fun s e a => iterate_summaries_spec func t (pre ++ [B]) img1 hr1
      (by rw [hms]; exact hsum) (by rw [hb, e1]) s e a
    rw [← e2] at ih
    have hent := iterate_entries_eq func hc hd s e a
    rw [hrange, all_ents_cons, feed_append]
    simp only [iterate_summaries]
    rw [er]
    simp only [one_ne_zero, if_false]
    rw [hent]
    cases hf : (feed func B.ents s e a).1 with
    | some v =>
      rw [if_neg (by simp)]
      simp only [hf]
      exact ⟨trivial, trivial, fun h => absurd h (by simp), hr1, hh⟩
    | none =>
      simp only [if_true]
      obtain ⟨i1, i2, i3, i4, i5⟩ := ih (feed func B.ents s e a).2.1
        (feed func B.ents s e a).2.2.1 (feed func B.ents s e a).2.2.2
      exact ⟨i1, i2, i3, i4, by rw [i5, hh]⟩

/-- The function `meta_iterate` on an image in use: the callbacks of the
entries of its index, in order; the image stays in use with the same index. -/
theorem meta_iterate_spec {α : Type} (func : Int → Int → α → Int × α) (arg : α)
    {img : image_t} {blks : List mblk} {data : Int → List Nat} (hr : Rep img blks data) :
    (meta_iterate img func arg).1 = (feed_all func (all_ents blks) arg).1 ∧
    (meta_iterate img func arg).2.1 = (feed_all func (all_ents blks) arg).2 ∧
    Rep (meta_iterate img func arg).2.2 blks data ∧
    (meta_iterate img func arg).2.2.header = img.header := by
  obtain ⟨f, ew1, h0, -, s2⟩ := write_metadata_spec hr.rep0
  have hr1 : Rep { img with fd := f, flush_metadata := false, flush_file_header := false }
      blks data :=
    ⟨h0, (s2 (by rw [hr.size_eq])).trans hr.size_eq, hr.full⟩
  have key : ∀ (img2 : image_t), Rep img2 blks data →
      img2.metadata_summary = blks.map mblk.summ → img2.header = img.header →
      (iterate_finish func (iterate_summaries func
          (List.range img2.metadata_summary.length) img2 (-1) (-1) arg)).1 =
        (feed_all func (all_ents blks) arg).1 ∧
      (iterate_finish func (iterate_summaries func
          (List.range img2.metadata_summary.length) img2 (-1) (-1) arg)).2.1 =
        (feed_all func (all_ents blks) arg).2 ∧
      Rep (iterate_finish func (iterate_summaries func
          (List.range img2.metadata_summary.length) img2 (-1) (-1) arg)).2.2 blks data ∧
      (iterate_finish func (iterate_summaries func
          (List.range img2.metadata_summary.length) img2 (-1) (-1) arg)).2.2.header =
        img.header := by
    intro img2 hr2 hs2 hh2
    have hlen : img2.metadata_summary.length = blks.length := by rw [hs2]; simp
    obtain ⟨i1, i2, i3, i4, i5⟩ := iterate_summaries_spec func blks [] img2 hr2 hs2
      (by simp) (-1) (-1) arg
    simp only [List.length_nil] at i1 i2 i3 i4 i5
    rw [hlen, List.range_eq_range']
    unfold iterate_finish feed_all
    rw [i1, i2]
    cases hf : (feed func (all_ents blks) (-1) (-1) arg).1 with
    | some v => exact ⟨rfl, rfl, i4, by rw [i5, hh2]⟩
    | none =>
      obtain ⟨j1, j2⟩ := i3 hf
      simp only
      rw [j1, j2]
      by_cases hneg : (feed func (all_ents blks) (-1) (-1) arg).2.2.1 < 0
      · rw [if_pos hneg, if_pos hneg]
        exact ⟨rfl, rfl, i4, by rw [i5, hh2]⟩
      · rw [if_neg hneg, if_neg hneg]
        exact ⟨rfl, rfl, i4, by rw [i5, hh2]⟩
  unfold meta_iterate
  rw [ew1]
  simp only [one_ne_zero, if_false]
  by_cases he : img.metadata_summary = []
  · rw [if_pos he]
    obtain ⟨r1, r2⟩ := read_summary_spec hr1 he
    rw [r1]
    simp only [one_ne_zero, if_false]
    exact key _ r2 rfl rfl
  · rw [if_neg he]
    have hs : img.metadata_summary = blks.map mblk.summ := by
      rcases hr.rep0.summ with h | h
      · exact h
      · exact absurd h.1 he
    exact key _ hr1 hs rfl

/-! ## The list of the blocks of an image -/

theorem note_writes_none : ∀ (blocks : List ddb_block_t) (w : Int → Option (List Nat))
    (b : Int), note_writes w blocks b = none ↔
      (w b = none ∧ b ∉ (blocks.map (fun blk => blk.block)).toFinset)
  | [], w, b => by simp [note_writes]
  | blk :: rest, w, b => by
    simp only [note_writes]
    rw [note_writes_none rest]
    by_cases h : b = blk.block
    · rw [h, Function.update_same]
      simp
    · rw [Function.update_noteq h]
      simp [h]

theorem written_none : ∀ (ops : List op) (w : Int → Option (List Nat)) (b : Int),
    written w ops b = none ↔ (w b = none ∧ b ∉ write_set ops)
  | [], w, b => by simp [written, write_set]
  | op.write blocks :: rest, w, b => by
    simp only [written, write_set]
    rw [written_none rest, note_writes_none, Finset.mem_union]
    tauto
  | op.flush :: rest, w, b => by
    simp only [written, write_set]
    exact written_none rest w b
  | op.reopen _ _ _ _ _ :: rest, w, b => by
    simp only [written, write_set]
    exact written_none rest w b

theorem same_dev.of_itself {σ : Type} (d : device_t σ) : same_dev d d :=
  ⟨rfl, fun _ => rfl⟩

theorem same_devs.of_self {σ : Type} (devs : List (device_t σ)) : same_devs devs devs := by
  refine ⟨rfl, ?_⟩
  intro i d d1 h1 h2
  rw [h1] at h2
  cases h2
  exact same_dev.of_itself d

theorem same_dev.eq_state {σ : Type} {d d1 : device_t σ} (h : same_dev d d1) :
    d1 = { d with state := d1.state } := h.1

theorem has_block_keeps {σ : Type} (d : device_t σ) (b : Int) :
    (ddb_device_has_block d b).2 = { d with state := (ddb_device_has_block d b).2.state } := by
  cases d with
  | mk st ir nb mt hb rd wr fl rg cl bl hbs =>
    cases hb <;> rfl

theorem same_devs.set {σ : Type} {devs devs1 : List (device_t σ)} (h : same_devs devs devs1)
    (n : Nat) (d2 : device_t σ)
    (h2 : ∀ d, devs[n]? = some d → same_dev d d2) : same_devs devs (devs1.set n d2) := by
  refine ⟨by rw [List.length_set]; exact h.1, ?_⟩
  intro i d d1 e1 e2
  rw [List.getElem?_set] at e2
  by_cases hi : n = i
  · subst hi
    rw [if_pos rfl] at e2
    split at e2
    · cases e2
      exact h2 d e1
    · cases e2
  · rw [if_neg hi] at e2
    exact h.2 i d d1 e1 e2

theorem after_has_block_snoc {σ : Type} :
    ∀ (bs : List Int) (d : device_t σ) (b : Int),
      after_has_block d (bs ++ [b]) = (ddb_device_has_block (after_has_block d bs) b).2
  | [], _, _ => rfl
  | b1 :: bs, d, b => after_has_block_snoc bs (ddb_device_has_block d b1).2 b

theorem after_has_block_state {σ : Type} :
    ∀ (bs : List Int) (d : device_t σ), ∃ s, after_has_block d bs = { d with state := s }
  | [], d => ⟨d.state, rfl⟩
  | b1 :: bs, d => by
    obtain ⟨s, hs⟩ := after_has_block_state bs (ddb_device_has_block d b1).2
    refine ⟨s, ?_⟩
    show after_has_block (ddb_device_has_block d b1).2 bs = _
    rw [hs]
    cases d with
    | mk st ir nb mt hb rd wr fl rg cl bl hbs =>
      cases hb <;> rfl

theorem after_has_block_keeps {σ : Type} (bs : List Int) (d : device_t σ) :
    after_has_block d bs = { d with state := (after_has_block d bs).state } := by
  obtain ⟨s, hs⟩ := after_has_block_state bs d
  rw [hs]

/-- A device after calls of `ddb_device_has_block` is the device in another
state, with the same answers when they are stable. -/
theorem same_dev.of_calls {σ : Type} {d : device_t σ} (hs : stable_has_block d)
    (bs : List Int) : same_dev d (after_has_block d bs) :=
  ⟨after_has_block_keeps bs d, fun b => hs bs b⟩

theorem who_has_loop_spec {σ : Type} (devs : List (device_t σ))
    (hs : ∀ d ∈ devs, stable_has_block d) (b : Int) :
    ∀ (n : Nat) (devs1 : List (device_t σ)), n ≤ devs.length →
      (devs1.length = devs.length ∧
        ∀ (i : Nat) (d d1 : device_t σ), devs[i]? = some d → devs1[i]? = some d1 →
          ∃ bs, d1 = after_has_block d bs) →
      (who_has_loop n devs1 b).1 = newest devs b n ∧
        ((who_has_loop n devs1 b).2.length = devs.length ∧
          ∀ (i : Nat) (d d1 : device_t σ), devs[i]? = some d →
            (who_has_loop n devs1 b).2[i]? = some d1 → ∃ bs, d1 = after_has_block d bs) := by
  intro n
  induction n with
  | zero =>
    intro devs1 _ h
    exact ⟨rfl, h⟩
  | succ n ih =>
    intro devs1 hn h
    have hn1 : n < devs.length := hn
    have hn2 : n < devs1.length := by rw [h.1]; exact hn
    have e1 : devs[n]? = some devs[n] := List.getElem?_eq_getElem hn1
    have e2 : devs1[n]? = some devs1[n] := List.getElem?_eq_getElem hn2
    obtain ⟨bs, hbs⟩ := h.2 n _ _ e1 e2
    have hst := hs _ (List.getElem_mem hn1)
    have hset : (devs1.set n (ddb_device_has_block devs1[n] b).2).length = devs.length ∧
        ∀ (i : Nat) (d d1 : device_t σ), devs[i]? = some d →
          (devs1.set n (ddb_device_has_block devs1[n] b).2)[i]? = some d1 →
          ∃ bs, d1 = after_has_block d bs := by
      refine ⟨by rw [List.length_set]; exact h.1, ?_⟩
      intro i d d1 g1 g2
      rw [List.getElem?_set] at g2
      by_cases hi : n = i
      · subst hi
        rw [if_pos rfl, if_pos hn2] at g2
        rw [e1] at g1
        cases g1
        cases g2
        exact ⟨bs ++ [b], by rw [after_has_block_snoc, ← hbs]⟩
      · rw [if_neg hi] at g2
        exact h.2 i d d1 g1 g2
    have hans : (ddb_device_has_block devs1[n] b).1 = (ddb_device_has_block devs[n] b).1 := by
      rw [hbs]
      exact hst bs b
    unfold who_has_loop newest
    simp only [e1, e2]
    rw [hans]
    by_cases hz : (ddb_device_has_block devs[n] b).1 ≠ 0
    · rw [if_pos hz, if_pos hz]
      exact ⟨rfl, hset⟩
    · rw [if_neg hz, if_neg hz]
      exact ih _ (Nat.le_of_lt hn1) hset

theorem who_has_all_calls {σ : Type} (devs : List (device_t σ))
    (hs : ∀ d ∈ devs, stable_has_block d) :
    ∀ (blocks : List ddb_block_t) (devs1 : List (device_t σ)),
      (devs1.length = devs.length ∧
        ∀ (i : Nat) (d d1 : device_t σ), devs[i]? = some d → devs1[i]? = some d1 →
          ∃ bs, d1 = after_has_block d bs) →
      (who_has_all blocks devs1).1 = newest_all devs blocks ∧
        ((who_has_all blocks devs1).2.length = devs.length ∧
          ∀ (i : Nat) (d d1 : device_t σ), devs[i]? = some d →
            (who_has_all blocks devs1).2[i]? = some d1 → ∃ bs, d1 = after_has_block d bs) := by
  intro blocks
  induction blocks with
  | nil =>
    intro devs1 h
    exact ⟨rfl, h⟩
  | cons blk rest ih =>
    intro devs1 h
    obtain ⟨a1, a2⟩ := who_has_loop_spec devs hs blk.block devs1.length devs1
      (le_of_eq h.1) h
    obtain ⟨b1, b2⟩ := ih _ a2
    unfold who_has_all
    refine ⟨?_, b2⟩
    show _ :: _ = _
    rw [a1, b1, h.1]
    rfl

theorem who_has_all_spec {σ : Type} (devs : List (device_t σ))
    (hs : ∀ d ∈ devs, stable_has_block d) (blocks : List ddb_block_t) :
    (who_has_all blocks devs).1 = newest_all devs blocks ∧
      same_devs devs (who_has_all blocks devs).2 ∧
      ∀ (i : Nat) (d d1 : device_t σ), devs[i]? = some d →
        (who_has_all blocks devs).2[i]? = some d1 → ∃ bs, d1 = after_has_block d bs := by
  obtain ⟨a1, a2, a3⟩ := who_has_all_calls devs hs blocks devs
    ⟨rfl, fun i d d1 h1 h2 => ⟨[], by rw [h1] at h2; cases h2; rfl⟩⟩
  refine ⟨a1, ⟨a2, ?_⟩, a3⟩
  intro i d d1 h1 h2
  obtain ⟨bs, hbs⟩ := a3 i d d1 h1 h2
  rw [hbs]
  exact same_dev.of_calls (hs d (List.getElem?_mem h1)) bs

theorem newest_lt {σ : Type} (devs : List (device_t σ)) (b : Int) :
    ∀ n, 1 ≤ n → newest devs b n < n := by
  intro n
  induction n with
  | zero => intro h; omega
  | succ n ih =>
    intro _
    have h0 : newest devs b n < n + 1 := by
      rcases Nat.eq_zero_or_pos n with h | h
      · subst h; simp [newest]
      · exact Nat.lt_succ_of_lt (ih h)
    unfold newest
    split
    · split
      · omega
      · exact h0
    · exact h0

theorem set_same {α : Type} {l : List α} {n : Nat} {d : α} (h : l[n]? = some d) :
    l.set n d = l := by
  apply List.ext_getElem?
  intro i
  rw [List.getElem?_set]
  by_cases hi : n = i
  · subst hi
    rw [if_pos rfl, h]
    have := (List.getElem?_eq_some.1 h).1
    rw [if_pos this]
  · rw [if_neg hi]

theorem who_has_loop_same_state {σ : Type} (b : Int) :
    ∀ (n : Nat) (devs : List (device_t σ)),
      (∀ d ∈ devs, ∀ b1, (ddb_device_has_block d b1).2 = d) →
      (who_has_loop n devs b).2 = devs := by
  intro n
  induction n with
  | zero => intro devs _; rfl
  | succ n ih =>
    intro devs h
    unfold who_has_loop
    split
    · rename_i d hd
      have hm : d ∈ devs := List.getElem?_mem hd
      have hset : devs.set n (ddb_device_has_block d b).2 = devs := by
        rw [h d hm b]
        exact set_same hd
      split
      · exact hset
      · rw [hset]; exact ih devs h
    · exact ih devs h

theorem who_has_all_same_state {σ : Type} :
    ∀ (blocks : List ddb_block_t) (devs : List (device_t σ)),
      (∀ d ∈ devs, ∀ b1, (ddb_device_has_block d b1).2 = d) →
      (who_has_all blocks devs).2 = devs := by
  intro blocks
  induction blocks with
  | nil => intro devs _; rfl
  | cons blk rest ih =>
    intro devs h
    unfold who_has_all
    show (who_has_all rest (who_has_loop devs.length devs blk.block).2).2 = devs
    rw [who_has_loop_same_state blk.block devs.length devs h]
    exact ih devs h

theorem block_at_set_ne (blocks : List ddb_block_t) (s p : Nat) (c : ddb_block_t) (h : s ≠ p) :
    block_at (blocks.set s c) p = block_at blocks p := by
  unfold block_at
  rw [List.getD_eq_getElem?_getD, List.getD_eq_getElem?_getD, List.getElem?_set_ne h]

theorem block_at_set_self (blocks : List ddb_block_t) (s : Nat) (c : ddb_block_t)
    (h : s < blocks.length) : block_at (blocks.set s c) s = c := by
  unfold block_at
  rw [List.getD_eq_getElem?_getD, List.getElem?_set_self h]
  rfl

theorem block_at_of_getElem? {blocks : List ddb_block_t} {p : Nat} {c : ddb_block_t}
    (h : blocks[p]? = some c) : block_at blocks p = c := by
  unfold block_at
  rw [List.getD_eq_getElem?_getD, h]
  rfl

theorem scatter_length :
    ∀ (src : List Nat) (cb blocks : List ddb_block_t),
      (scatter blocks src cb).length = blocks.length := by
  intro src
  induction src with
  | nil => intro cb blocks; cases cb <;> rfl
  | cons s src ih =>
    intro cb blocks
    cases cb with
    | nil => rfl
    | cons c cb =>
      show (scatter (blocks.set s c) src cb).length = _
      rw [ih, List.length_set]

theorem scatter_other (p : Nat) :
    ∀ (src : List Nat) (cb blocks : List ddb_block_t), p ∉ src →
      block_at (scatter blocks src cb) p = block_at blocks p := by
  intro src
  induction src with
  | nil => intro cb blocks _; cases cb <;> rfl
  | cons s src ih =>
    intro cb blocks hp
    cases cb with
    | nil => rfl
    | cons c cb =>
      show block_at (scatter (blocks.set s c) src cb) p = _
      rw [ih _ _ (fun h => hp (List.mem_cons_of_mem _ h))]
      apply block_at_set_ne
      intro h
      exact hp (h ▸ List.mem_cons_self _ _)

theorem scatter_at :
    ∀ (src : List Nat) (cb blocks : List ddb_block_t), src.Nodup → cb.length = src.length →
      (∀ s ∈ src, s < blocks.length) →
      ∀ (j p : Nat), src[j]? = some p →
        block_at (scatter blocks src cb) p = block_at cb j := by
  intro src
  induction src with
  | nil =>
    intro cb blocks _ _ _ j p h
    simp at h
  | cons s src ih =>
    intro cb blocks hnd hl hlt j p h
    cases cb with
    | nil => simp at hl
    | cons c cb =>
      show block_at (scatter (blocks.set s c) src cb) p = _
      rw [List.nodup_cons] at hnd
      cases j with
      | zero =>
        simp only [List.getElem?_cons_zero, Option.some.injEq] at h
        subst h
        rw [scatter_other _ _ _ _ hnd.1]
        rw [block_at_set_self _ _ _ (hlt s (List.mem_cons_self _ _))]
        rfl
      | succ j =>
        simp only [List.getElem?_cons_succ] at h
        rw [ih cb (blocks.set s c) hnd.2 (by simpa using hl)
          (by
            intro x hx
            rw [List.length_set]
            exact hlt x (List.mem_cons_of_mem _ hx)) j p h]
        rfl

theorem mem_source_of (who : List Nat) (i p : Nat) :
    p ∈ source_of who i ↔ p < who.length ∧ who.getD p 0 = i := by
  unfold source_of
  rw [List.mem_filter, List.mem_range, decide_eq_true_eq]

theorem source_of_nodup (who : List Nat) (i : Nat) : (source_of who i).Nodup :=
  List.Nodup.filter _ (List.nodup_range _)

theorem source_of_disjoint (who : List Nat) {i k p : Nat} (h : i ≠ k)
    (hp : p ∈ source_of who k) : p ∉ source_of who i := by
  rw [mem_source_of] at hp ⊢
  intro h2
  exact h (h2.2.symm.trans hp.2)

theorem layer_result_congr {σ : Type} (devs devs1 : List (device_t σ)) (who : List Nat)
    (blocks blocks1 : List ddb_block_t) (flags i : Nat) (hd : devs1[i]? = devs[i]?)
    (hb : ∀ p ∈ source_of who i, block_at blocks1 p = block_at blocks p) :
    layer_result devs1 who blocks1 flags i = layer_result devs who blocks flags i := by
  unfold layer_result
  rw [hd, List.map_congr_left hb]

theorem read_layers_spec {σ : Type} (who : List Nat) (flags : Nat) :
    ∀ (is : List Nat) (res : Int) (blocks : List ddb_block_t) (devs : List (device_t σ)),
      is.Nodup → who.length = blocks.length →
      (∀ i ∈ is, ∀ d, devs[i]? = some d → ∀ bl,
        (ddb_device_read_multi d bl flags).1.2.length = bl.length) →
      (read_layers who flags is res blocks devs).2.1.length = blocks.length ∧
      (∀ p, (∀ i ∈ is, p ∉ source_of who i) →
        block_at (read_layers who flags is res blocks devs).2.1 p = block_at blocks p) ∧
      (∀ i ∈ is, ∀ d, devs[i]? = some d → ∀ (j p : Nat), (source_of who i)[j]? = some p →
        block_at (read_layers who flags is res blocks devs).2.1 p =
          block_at (ddb_device_read_multi d ((source_of who i).map (block_at blocks))
            flags).1.2 j) ∧
      (read_layers who flags is res blocks devs).1 =
        res + (is.map (layer_result devs who blocks flags)).sum := by
  intro is
  induction is with
  | nil =>
    intro res blocks devs _ _ _
    refine ⟨rfl, fun _ _ => rfl, ?_, by simp [read_layers]⟩
    intro i hi
    simp at hi
  | cons i rest ih =>
    intro res blocks devs hnd hw hl
    rw [List.nodup_cons] at hnd
    by_cases hc : (source_of who i).length < 1
    · have e : read_layers who flags (i :: rest) res blocks devs =
          read_layers who flags rest res blocks devs := by
        rw [read_layers, if_pos hc]
      have hlr : layer_result devs who blocks flags i = 0 := by
        unfold layer_result
        rw [if_pos hc]
      have hnil : source_of who i = [] := List.length_eq_zero.1 (by omega)
      obtain ⟨a1, a2, a3, a4⟩ := ih res blocks devs hnd.2 hw
        (fun k hk => hl k (List.mem_cons_of_mem _ hk))
      rw [e]
      refine ⟨a1, ?_, ?_, ?_⟩
      · intro p hp
        exact a2 p (fun k hk => hp k (List.mem_cons_of_mem _ hk))
      · intro k hk d hd j p hj
        rcases List.mem_cons.1 hk with h | h
        · subst h
          rw [hnil] at hj
          simp at hj
        · exact a3 k h d hd j p hj
      · rw [a4, List.map_cons, List.sum_cons, hlr, zero_add]
    · cases hdi : devs[i]? with
      | none =>
        have e : read_layers who flags (i :: rest) res blocks devs =
            read_layers who flags rest res blocks devs := by
          rw [read_layers, if_neg hc]
          simp only [hdi]
        have hlr : layer_result devs who blocks flags i = 0 := by
          unfold layer_result
          rw [if_neg hc]
          simp only [hdi]
        obtain ⟨a1, a2, a3, a4⟩ := ih res blocks devs hnd.2 hw
          (fun k hk => hl k (List.mem_cons_of_mem _ hk))
        rw [e]
        refine ⟨a1, ?_, ?_, ?_⟩
        · intro p hp
          exact a2 p (fun k hk => hp k (List.mem_cons_of_mem _ hk))
        · intro k hk d hd j p hj
          rcases List.mem_cons.1 hk with h | h
          · subst h
            rw [hdi] at hd
            cases hd
          · exact a3 k h d hd j p hj
        · rw [a4, List.map_cons, List.sum_cons, hlr, zero_add]
      | some d0 =>
        have e : read_layers who flags (i :: rest) res blocks devs =
            read_layers who flags rest
              (res + (ddb_device_read_multi d0 ((source_of who i).map (block_at blocks))
                flags).1.1)
              (scatter blocks (source_of who i)
                (ddb_device_read_multi d0 ((source_of who i).map (block_at blocks)) flags).1.2)
              (devs.set i
                (ddb_device_read_multi d0 ((source_of who i).map (block_at blocks))
                  flags).2) := by
          rw [read_layers, if_neg hc]
          simp only [hdi]
        have hlr : layer_result devs who blocks flags i =
            (ddb_device_read_multi d0 ((source_of who i).map (block_at blocks)) flags).1.1 := by
          unfold layer_result
          rw [if_neg hc]
          simp only [hdi]
        have hdev : ∀ k ∈ rest, (devs.set i
            (ddb_device_read_multi d0 ((source_of who i).map (block_at blocks))
              flags).2)[k]? = devs[k]? := by
          intro k hk
          apply List.getElem?_set_ne
          intro h
          exact hnd.1 (h ▸ hk)
        have hblk : ∀ k ∈ rest, ∀ p ∈ source_of who k,
            block_at (scatter blocks (source_of who i)
              (ddb_device_read_multi d0 ((source_of who i).map (block_at blocks))
                flags).1.2) p = block_at blocks p := by
          intro k hk p hp
          apply scatter_other
          apply source_of_disjoint who _ hp
          intro h
          exact hnd.1 (h ▸ hk)
        obtain ⟨a1, a2, a3, a4⟩ := ih
          (res + (ddb_device_read_multi d0 ((source_of who i).map (block_at blocks))
            flags).1.1)
          (scatter blocks (source_of who i)
            (ddb_device_read_multi d0 ((source_of who i).map (block_at blocks)) flags).1.2)
          (devs.set i
            (ddb_device_read_multi d0 ((source_of who i).map (block_at blocks)) flags).2)
          hnd.2 (by rw [scatter_length]; exact hw)
          (by
            intro k hk d hd
            rw [hdev k hk] at hd
            exact hl k (List.mem_cons_of_mem _ hk) d hd)
        rw [e]
        refine ⟨by rw [a1, scatter_length], ?_, ?_, ?_⟩
        · intro p hp
          rw [a2 p (fun k hk => hp k (List.mem_cons_of_mem _ hk))]
          exact scatter_other p _ _ _ (hp i (List.mem_cons_self _ _))
        · intro k hk d hd j p hj
          rcases List.mem_cons.1 hk with h | h
          · subst h
            rw [hdi] at hd
            cases hd
            have hp : p ∈ source_of who k := List.getElem?_mem hj
            rw [a2 p (fun k1 hk1 => source_of_disjoint who (by
              intro h
              exact hnd.1 (h ▸ hk1)) hp)]
            apply scatter_at _ _ _ (source_of_nodup who k) _ _ j p hj
            · rw [hl k (List.mem_cons_self _ _) d0 hdi, List.length_map]
            · intro s hs
              rw [← hw]
              exact ((mem_source_of who k s).1 hs).1
          · rw [a3 k h d (by rw [hdev k h]; exact hd) j p hj,
              List.map_congr_left (hblk k h)]
        · rw [a4, List.map_cons, List.sum_cons, hlr, add_assoc]
          rw [List.map_congr_left (fun k hk =>
            layer_result_congr _ _ who _ _ flags k (hdev k hk) (hblk k hk))]

theorem keeps_length.of_same {σ : Type} {d d1 : device_t σ} (h : keeps_length d)
    (hs : same_dev d d1) (bl : List ddb_block_t) (flags : Nat) :
    (ddb_device_read_multi d1 bl flags).1.2.length = bl.length := by
  rw [hs.eq_state]
  exact h d1.state bl flags

theorem newest_all_at {σ : Type} (devs : List (device_t σ)) (blocks : List ddb_block_t)
    (p : Nat) (blk : ddb_block_t) (h : blocks[p]? = some blk) :
    p < (newest_all devs blocks).length ∧
      (newest_all devs blocks).getD p 0 = newest devs blk.block devs.length := by
  unfold newest_all
  rw [List.length_map, List.getD_eq_getElem?_getD, List.getElem?_map, h]
  exact ⟨(List.getElem?_eq_some.1 h).1, rfl⟩

/-- C17: for a sequence device with at least one layer and no file of
checksums, whose layers, from the state they are in, answer
`ddb_device_has_block` independently of earlier such calls
(`stable_has_block`: so do a device without the operation, and a sparse image
in use, `sparse_device_stable`) and whose reads keep the number of blocks of
the array (`keeps_length`: so does a sparse image,
`sparse_device_keeps_length`), `dir_read`
of any batch leaves, at the place `p` of every requested block, the block that
`ddb_device_read_multi` of the newest layer of that block returns for it: the
layer is the one with the greatest index whose `ddb_device_has_block` is
non-zero, and layer 0 when there is none; the layer is read once, with the
blocks of the batch that it is the newest layer of, in their order, and the
value of `dir_read` is the sum of the values of these reads. -/
theorem dir_read_newest_layer {σ : Type} (dev : dir_t σ) (blocks : List ddb_block_t)
    (flags : Nat) (hn : 1 ≤ dev.devs.length) (hc : dev.checksums = none)
    (hs : ∀ d ∈ dev.devs, stable_has_block d) (hl : ∀ d ∈ dev.devs, keeps_length d) :
    (dir_read dev blocks flags).2.1.length = blocks.length ∧
    same_devs dev.devs (who_has_all blocks dev.devs).2 ∧
    ((∀ d ∈ dev.devs, ∀ b, (ddb_device_has_block d b).2 = d) →
      (who_has_all blocks dev.devs).2 = dev.devs) ∧
    (∀ (p : Nat) (blk : ddb_block_t), blocks[p]? = some blk →
      ∃ (d : device_t σ) (j : Nat),
        newest dev.devs blk.block dev.devs.length < dev.devs.length ∧
        (who_has_all blocks dev.devs).2[newest dev.devs blk.block dev.devs.length]? = some d ∧
        (source_of (newest_all dev.devs blocks)
          (newest dev.devs blk.block dev.devs.length))[j]? = some p ∧
        ((source_of (newest_all dev.devs blocks)
          (newest dev.devs blk.block dev.devs.length)).map (block_at blocks))[j]? = some blk ∧
        block_at (dir_read dev blocks flags).2.1 p =
          block_at (ddb_device_read_multi d
            ((source_of (newest_all dev.devs blocks)
              (newest dev.devs blk.block dev.devs.length)).map (block_at blocks)) flags).1.2 j) ∧
    (dir_read dev blocks flags).1 =
      ((List.range dev.devs.length).map
        (layer_result (who_has_all blocks dev.devs).2 (newest_all dev.devs blocks)
          blocks flags)).sum := by
  obtain ⟨w1, w2, -⟩ := who_has_all_spec dev.devs hs blocks
  have e : dir_read dev blocks flags =
      read_layers (newest_all dev.devs blocks) flags (List.range dev.devs.length) 0 blocks
        (who_has_all blocks dev.devs).2 := by
    unfold dir_read
    rw [if_neg (by omega)]
    simp only [hc, w1]
  have hlen : (newest_all dev.devs blocks).length = blocks.length := by
    unfold newest_all
    rw [List.length_map]
  obtain ⟨a1, -, a3, a4⟩ := read_layers_spec (newest_all dev.devs blocks) flags
    (List.range dev.devs.length) 0 blocks (who_has_all blocks dev.devs).2
    (List.nodup_range _) hlen (by
      intro i hi d hd bl
      rw [List.mem_range] at hi
      have h0 : dev.devs[i]? = some dev.devs[i] := List.getElem?_eq_getElem hi
      exact (hl _ (List.getElem_mem hi)).of_same (w2.2 i _ _ h0 hd) bl flags)
  rw [e]
  refine ⟨a1, w2, who_has_all_same_state blocks dev.devs, ?_, by rw [a4, zero_add]⟩
  intro p blk hp
  have hi := newest_lt dev.devs blk.block dev.devs.length hn
  have hi1 : newest dev.devs blk.block dev.devs.length <
      (who_has_all blocks dev.devs).2.length := by rw [w2.1]; exact hi
  obtain ⟨n1, n2⟩ := newest_all_at dev.devs blocks p blk hp
  have hmem : p ∈ source_of (newest_all dev.devs blocks)
      (newest dev.devs blk.block dev.devs.length) :=
    (mem_source_of _ _ _).2 ⟨n1, n2⟩
  obtain ⟨j, hj⟩ := List.mem_iff_getElem?.1 hmem
  refine ⟨_, j, hi, List.getElem?_eq_getElem hi1, hj, ?_, ?_⟩
  · rw [List.getElem?_map, hj]
    show some (block_at blocks p) = some blk
    rw [block_at_of_getElem? hp]
  · exact a3 _ (List.mem_range.2 hi) _ (List.getElem?_eq_getElem hi1) j p hj

/-- The read of the blocks 0, 1 and 2 of `sample_dir` gives block 1 from the
incremental and the others from the full image. -/
theorem sample_dir_read :
    (dir_read sample_dir sample_batch DDB_READ_BLOCK).2.1 =
      [{ block := 0, buffer := [1], result := 1, error := none },
       { block := 1, buffer := [2], result := 1, error := none },
       { block := 2, buffer := [1], result := 1, error := none }] := by
  decide

theorem action_join_after_copy {σ : Type} (fuel : Nat) (dir : join_dir σ) (freq : Int)
    (report : Bool) (namelist : List String) (m : seq_meta) (incr full : device_t σ)
    (v : Int) (W : ddb_copy_t σ) (C : copy_context_t)
    (hc : 2 ≤ dir.check_name) (hs : dir.scandir = some namelist) (hn : 1 ≤ namelist.length)
    (hm : dir.load_meta = some m) (hi : dir.incr = some incr) (hf : dir.full = some full)
    (hcopy : ddb_copy fuel (join_copy dir m incr full freq report) = Res.ok (v, W, C))
    (hv : v ≠ 0) (hcf : 0 ≤ close_full W) (hsave : dir.save_meta = true)
    (hren : dir.rename = true) (hci : 0 ≤ ddb_device_close W.src) :
    action_join fuel dir freq report =
      Res.ok (0, namelist.getLast?, some { m with full_mtime := W.src.mtime }) := by
  unfold action_join
  rw [if_neg (by omega)]
  simp only [hs]
  rw [if_neg (by omega)]
  simp only [hm, hi, hf, hcopy]
  rw [if_neg hv, if_neg (by omega), if_neg (by simp [hsave, hren]), if_neg (by omega)]

/-- C18 (defect in `action_join`): for the sequence `sample_join`, whose first
incremental cannot give the list of its blocks, `ddb_copy` returns -1 (a fatal
error), and `action_join` returns 0, removes the first incremental with
`unlink` and gives `meta` the time of that incremental: the test
`! ddb_copy (&W)` lets the value -1 through. -/
theorem join_removes_incremental_after_fatal_error (fuel : Nat) :
    (∃ W C, ddb_copy fuel
        (join_copy sample_join { block_size := 4, total_size := 16, full_mtime := 3 }
          unreadable_incremental (store_device 4 4 (fun _ _ => false) (fun _ _ => false) [])
          0 false) = Res.ok (-1, W, C)) ∧
      action_join fuel sample_join 0 false =
        Res.ok (0, some "incr-2018-01-01:00:00:00",
          some { block_size := 4, total_size := 16, full_mtime := 7 }) :=
  ⟨⟨_, _, rfl⟩, rfl⟩

/-- C19 (defect in the list `to_retry`, the one of C1): copying
`sample_source`, whose blocks 0 to 10 are all to copy and whose block 5 holds
the bytes 6, to `sample_destination`, the first pass fails to read block 10
and to write the blocks 5 and 7.  With `max_passes = 2` the copy returns 1 and
leaves an empty list, and block 5 of the destination is still zeros; with
`max_passes = 1` it returns 0 and the list left is 7 and 10, without block 5,
whose write failed in that pass. -/
theorem copy_drops_failed_block :
    (∃ ls dev, blocks_to_copy (plain_copy sample_source (some sample_destination) 4 2 true) =
        Res.ok (some ls, dev) ∧ ddb_blocklist_iterate ls = Res.ok [(0, 10)]) ∧
      sample_source.state.get 4 5 = [6, 6, 6, 6] ∧
      copy_outcome (ddb_copy 2 (plain_copy sample_source (some sample_destination) 4 2 true)) =
        some (1, [], [[0, 0, 0, 0], [8, 8, 8, 8], [11, 11, 11, 11]]) ∧
      copy_outcome (ddb_copy 1 (plain_copy sample_source (some sample_destination) 4 1 true)) =
        some (0, [(7, 7), (10, 10)], [[0, 0, 0, 0], [0, 0, 0, 0], [0, 0, 0, 0]]) :=
  ⟨⟨_, _, rfl, rfl⟩, rfl, rfl, rfl⟩

theorem stuck_pass (k c : Nat) (b : ddb_block_t) (rest wb : List ddb_block_t) :
    copy_pass false 1 (stuck_W k) (stuck_C c (b :: rest) wb) =
      Res.ok (true, stuck_W (k + 1),
        { stuck_C (c + 1) ({ b with block := 0, result := -1, error := some 5 } :: rest) wb with
          to_copy := some stuck_list, to_retry := some stuck_list, read_errors := 1 }) := by
  rfl

theorem stuck_next (k c : Nat) (rb wb : List ddb_block_t) :
    next_pass (stuck_W k)
      { stuck_C c rb wb with
        to_copy := some stuck_list, to_retry := some stuck_list, read_errors := 1 } =
      Res.ok (1, stuck_C c rb wb) := by
  rfl

theorem stuck_passes :
    ∀ (n k c : Nat) (b : ddb_block_t) (rest wb : List ddb_block_t),
      copy_passes n false 1 (stuck_W k) (stuck_C c (b :: rest) wb) = Res.nofuel ∧
        count_passes n false 1 (stuck_W k) (stuck_C c (b :: rest) wb) = n := by
  intro n
  induction n with
  | zero => intro k c b rest wb; exact ⟨rfl, rfl⟩
  | succ n ih =>
    intro k c b rest wb
    have hc : (stuck_C c (b :: rest) wb).pass < (stuck_W k).max_passes ∧ (1 : Int) > 0 :=
      ⟨show (0 : Int) < 1 by decide, by decide⟩
    obtain ⟨h1, h2⟩ := ih (k + 1) (c + 1) { b with block := 0, result := -1, error := some 5 }
      rest wb
    constructor
    · rw [copy_passes, if_pos hc, stuck_pass]
      simp only [stuck_next]
      exact h1
    · rw [count_passes, if_pos hc, stuck_pass]
      simp only [stuck_next]
      rw [h2]

theorem stuck_start :
    copy_start (plain_copy stuck_source none 4 1 false) =
      Res.ok (some (false, 1), stuck_W 0,
        stuck_C 2
          ({ block := 0, buffer := [0, 0, 0, 0], result := 0, error := none } ::
            List.replicate 31 { block := 0, buffer := [0, 0, 0, 0], result := 0, error := none })
          (List.replicate 32 { block := 0, buffer := [], result := 0, error := none })) := by
  rfl

set_option maxRecDepth 1000000 in
/-- C20 (defect in `ddb_copy`): with `progress_function = NULL` and
`max_passes = 1`, the copy of `stuck_source`, whose block 0 cannot be read,
makes every one of the first `fuel` passes, whatever `fuel` is, and its loop
then wants another one: `C.pass` is counted up only inside
`if (W->progress_function)`.  A copy that reports its progress and resumes
from a checkpoint does the same (here for 6 passes): `C.pass` is not counted
up while `resuming` is set, and nothing clears `resuming`. -/
theorem passes_not_bounded_by_max_passes (fuel : Nat) :
    (plain_copy stuck_source none 4 1 false).max_passes = 1 ∧
      passes_run fuel (plain_copy stuck_source none 4 1 false) = fuel ∧
      ddb_copy fuel (plain_copy stuck_source none 4 1 false) = Res.nofuel ∧
      resumed_copy.max_passes = 1 ∧
      passes_run 6 resumed_copy = 6 ∧
      ddb_copy 6 resumed_copy = Res.nofuel := by
  refine ⟨rfl, ?_, ?_, rfl, rfl, rfl⟩
  · unfold passes_run
    rw [stuck_start]
    exact (stuck_passes fuel 0 2 _ _ _).2
  · unfold ddb_copy
    rw [stuck_start]
    exact (stuck_passes fuel 0 2 _ _ _).1

/-- C28 (defect in `add_range`, the one of C1): after
`ddb_blocklist_add (L, 10, 10)` and `ddb_blocklist_add (L, 5, 5)` on a new
list, both of which return 0, the first range is `[5, 5]` (cell 1), its `next`
is the range `[10, 10]` (cell 0), and the `prev` of that range is still NULL,
not the first range: the list is not consistent. -/
theorem add_leaves_stale_prev :
    ∃ L1 L, ddb_blocklist_add ddb_blocklist_new 10 10 = Res.ok (0, L1) ∧
      links_consistent L1 = true ∧
      ddb_blocklist_add L1 5 5 = Res.ok (0, L) ∧
      L.first = some 1 ∧
      deref L.mem 1 = Res.ok { next := some 0, prev := none, start := 5, end_ := 5 } ∧
      deref L.mem 0 = Res.ok { next := none, prev := none, start := 10, end_ := 10 } ∧
      L.last = some 0 ∧
      links_consistent L = false :=
  ⟨_, _, rfl, rfl, rfl, rfl, rfl, rfl, rfl, rfl⟩

/-- C30 (defect in `ddb_copy`): the copy `listing_copy` of a source of 11
blocks whose block 10 cannot be read returns 0 with block 10 left in
`to_copy`; the blocks 0 to 9 are in the destination, but the list `copied` is
empty, and the file written under the name `copied_list` is the list of the
blocks left, the same as the one written under the name `output_list`:
nothing adds a block to `copied`, and `write_block_list` always prints
`to_copy`. -/
theorem copied_list_is_list_left :
    copy_lists (ddb_copy 1 listing_copy) =
      some (0, some [(10, 10)], some [], [0, 1, 2, 3, 4, 5, 6, 7, 8, 9],
        some ['1', '0', nl], some ['1', '0', nl]) := by
  rfl

/-! ## Checkpoints -/

theorem checkpoint_header_length {σ : Type} (W : ddb_copy_t σ) (C : copy_context_t) :
    (checkpoint_header W C).length = 80 := by
  simp [checkpoint_header, be64_length, be32_length]

/-- The fields of a checkpoint header followed by further bytes, by their
offsets. -/
theorem checkpoint_fields {σ : Type} (W : ddb_copy_t σ) (C : copy_context_t) (rest : List Nat) :
    field (checkpoint_header W C ++ rest) 0 8 = be64 CHECKPOINT_MAGIC ∧
    field (checkpoint_header W C ++ rest) 8 8 = be64 W.total_size ∧
    field (checkpoint_header W C ++ rest) 16 8 = be64 C.pass_size ∧
    field (checkpoint_header W C ++ rest) 24 8 = be64 C.blocks_read ∧
    field (checkpoint_header W C ++ rest) 32 8 = be64 C.read_errors ∧
    field (checkpoint_header W C ++ rest) 40 8 = be64 C.blocks_written ∧
    field (checkpoint_header W C ++ rest) 48 8 = be64 C.blocks_skipped ∧
    field (checkpoint_header W C ++ rest) 56 8 = be64 C.checksum_equal ∧
    field (checkpoint_header W C ++ rest) 64 8 = be64 C.write_errors ∧
    field (checkpoint_header W C ++ rest) 72 4 = be32 W.block_size ∧
    field (checkpoint_header W C ++ rest) 76 4 = be32 C.pass := by
  refine ⟨?_, ?_, ?_, ?_, ?_, ?_, ?_, ?_, ?_, ?_, ?_⟩
  · exact field_at [] (be64 W.total_size ++ be64 C.pass_size ++ be64 C.blocks_read ++
      be64 C.read_errors ++ be64 C.blocks_written ++ be64 C.blocks_skipped ++
      be64 C.checksum_equal ++ be64 C.write_errors ++ be32 W.block_size ++ be32 C.pass ++ rest)
      (by simp [checkpoint_header]) rfl (be64_length _)
  · exact field_at (be64 CHECKPOINT_MAGIC) (be64 C.pass_size ++ be64 C.blocks_read ++
      be64 C.read_errors ++ be64 C.blocks_written ++ be64 C.blocks_skipped ++
      be64 C.checksum_equal ++ be64 C.write_errors ++ be32 W.block_size ++ be32 C.pass ++ rest)
      (by simp [checkpoint_header]) (by simp [be64_length]) (be64_length _)
  · exact field_at (be64 CHECKPOINT_MAGIC ++ be64 W.total_size) (be64 C.blocks_read ++
      be64 C.read_errors ++ be64 C.blocks_written ++ be64 C.blocks_skipped ++
      be64 C.checksum_equal ++ be64 C.write_errors ++ be32 W.block_size ++ be32 C.pass ++ rest)
      (by simp [checkpoint_header]) (by simp [be64_length]) (be64_length _)
  · exact field_at (be64 CHECKPOINT_MAGIC ++ be64 W.total_size ++ be64 C.pass_size)
      (be64 C.read_errors ++ be64 C.blocks_written ++ be64 C.blocks_skipped ++
      be64 C.checksum_equal ++ be64 C.write_errors ++ be32 W.block_size ++ be32 C.pass ++ rest)
      (by simp [checkpoint_header]) (by simp [be64_length]) (be64_length _)
  · exact field_at (be64 CHECKPOINT_MAGIC ++ be64 W.total_size ++ be64 C.pass_size ++
      be64 C.blocks_read)
      (be64 C.blocks_written ++ be64 C.blocks_skipped ++
      be64 C.checksum_equal ++ be64 C.write_errors ++ be32 W.block_size ++ be32 C.pass ++ rest)
      (by simp [checkpoint_header]) (by simp [be64_length]) (be64_length _)
  · exact field_at (be64 CHECKPOINT_MAGIC ++ be64 W.total_size ++ be64 C.pass_size ++
      be64 C.blocks_read ++ be64 C.read_errors)
      (be64 C.blocks_skipped ++
      be64 C.checksum_equal ++ be64 C.write_errors ++ be32 W.block_size ++ be32 C.pass ++ rest)
      (by simp [checkpoint_header]) (by simp [be64_length]) (be64_length _)
  · exact field_at (be64 CHECKPOINT_MAGIC ++ be64 W.total_size ++ be64 C.pass_size ++
      be64 C.blocks_read ++ be64 C.read_errors ++ be64 C.blocks_written)
      (be64 C.checksum_equal ++ be64 C.write_errors ++ be32 W.block_size ++ be32 C.pass ++ rest)
      (by simp [checkpoint_header]) (by simp [be64_length]) (be64_length _)
  · exact field_at (be64 CHECKPOINT_MAGIC ++ be64 W.total_size ++ be64 C.pass_size ++
      be64 C.blocks_read ++ be64 C.read_errors ++ be64 C.blocks_written ++
      be64 C.blocks_skipped)
      (be64 C.write_errors ++ be32 W.block_size ++ be32 C.pass ++ rest)
      (by simp [checkpoint_header]) (by simp [be64_length]) (be64_length _)
  · exact field_at (be64 CHECKPOINT_MAGIC ++ be64 W.total_size ++ be64 C.pass_size ++
      be64 C.blocks_read ++ be64 C.read_errors ++ be64 C.blocks_written ++
      be64 C.blocks_skipped ++ be64 C.checksum_equal)
      (be32 W.block_size ++ be32 C.pass ++ rest)
      (by simp [checkpoint_header]) (by simp [be64_length]) (be64_length _)
  · exact field_at (be64 CHECKPOINT_MAGIC ++ be64 W.total_size ++ be64 C.pass_size ++
      be64 C.blocks_read ++ be64 C.read_errors ++ be64 C.blocks_written ++
      be64 C.blocks_skipped ++ be64 C.checksum_equal ++ be64 C.write_errors)
      (be32 C.pass ++ rest)
      (by simp [checkpoint_header]) (by simp [be64_length]) (be32_length _)
  · exact field_at (be64 CHECKPOINT_MAGIC ++ be64 W.total_size ++ be64 C.pass_size ++
      be64 C.blocks_read ++ be64 C.read_errors ++ be64 C.blocks_written ++
      be64 C.blocks_skipped ++ be64 C.checksum_equal ++ be64 C.write_errors ++
      be32 W.block_size)
      rest
      (by simp [checkpoint_header]) (by simp [be64_length, be32_length]) (be32_length _)

theorem of_be32_be32_mod (x : Int) : of_be32 (be32 x) = x % 2 ^ 32 := by
  have h0 : (0 : Int) ≤ x % 2 ^ 32 := Int.emod_nonneg _ (by norm_num)
  have h1 : x % 2 ^ 32 < 2 ^ 32 := Int.emod_lt_of_pos _ (by norm_num)
  have e : be32 x = be32 (x % 2 ^ 32) := by
    unfold be32
    rw [Int.emod_emod_of_dvd _ (dvd_refl _)]
  rw [e, of_be32_be32 _ h0 h1]

theorem wrap64_of_fits (x : Int) (h1 : -2 ^ 63 ≤ x) (h2 : x < 2 ^ 63) : wrap64 x = x := by
  unfold wrap64
  rw [Int.emod_eq_of_lt (by omega) (by omega)]
  ring

theorem load_checkpoint_header {σ : Type} (W : ddb_copy_t σ) (C C0 : copy_context_t)
    (rest : List Nat) (hv : valid_counters W C) :
    load_checkpoint W C0 (some (checkpoint_header W C ++ rest)) =
      load_lists (checkpoint_header W C) rest
        { C0 with
          pass := if C.pass ≥ W.max_passes then W.max_passes - 1 else C.pass,
          pass_size := C.pass_size, blocks_read := C.blocks_read,
          read_errors := C.read_errors, blocks_written := C.blocks_written,
          blocks_skipped := C.blocks_skipped, checksum_equal := C.checksum_equal,
          write_errors := C.write_errors } := by
  obtain ⟨v1, v2, v3, v4, v5, v6, v7, v8, v9, v10, v11, v12, v13, v14, v15, v16⟩ := hv
  obtain ⟨f0, f1, f2, f3, f4, f5, f6, f7, f8, f9, f10⟩ := checkpoint_fields W C rest
  have hl := checkpoint_header_length W C
  have e0 : of_be64 (be64 CHECKPOINT_MAGIC) = CHECKPOINT_MAGIC :=
    of_be64_be64 _ (by norm_num [CHECKPOINT_MAGIC]) (by norm_num [CHECKPOINT_MAGIC])
  have e1 := of_be64_be64 W.total_size v13 v14
  have e2 := of_be64_be64 C.pass_size (by omega) v2
  have e3 := of_be64_be64 C.blocks_read (by omega) (by omega)
  have e4 := of_be64_be64 C.read_errors (by omega) (by omega)
  have e5 := of_be64_be64 C.blocks_written (by omega) (by omega)
  have e6 := of_be64_be64 C.blocks_skipped (by omega) (by omega)
  have e7 := of_be64_be64 C.checksum_equal (by omega) (by omega)
  have e8 := of_be64_be64 C.write_errors (by omega) (by omega)
  have e9 := of_be32s_be32 C.pass v15 v16
  have w1 : wrap64 (C.blocks_read + C.read_errors) = C.blocks_read + C.read_errors :=
    wrap64_of_fits _ (by omega) (by omega)
  have w2 : wrap64 (C.blocks_written + C.blocks_skipped) = C.blocks_written + C.blocks_skipped :=
    wrap64_of_fits _ (by omega) (by omega)
  have w3 : wrap64 (C.blocks_written + C.blocks_skipped + C.write_errors) =
      C.blocks_written + C.blocks_skipped + C.write_errors :=
    wrap64_of_fits _ (by omega) (by omega)
  have ht : (checkpoint_header W C ++ rest).take sizeof_checkpoint_header =
      checkpoint_header W C := by
    unfold sizeof_checkpoint_header
    rw [← hl, List.take_left]
  have hd : (checkpoint_header W C ++ rest).drop sizeof_checkpoint_header = rest := by
    unfold sizeof_checkpoint_header
    rw [← hl, List.drop_left]
  have c0 : ¬ (checkpoint_header W C ++ rest).length < sizeof_checkpoint_header := by
    unfold sizeof_checkpoint_header
    rw [List.length_append, hl]
    omega
  unfold load_checkpoint loaded_pass
  simp only [f0, f1, f2, f3, f4, f5, f6, f7, f8, f9, f10, e0, e1, e2, e3, e4, e5, e6, e7, e8,
    e9, of_be32_be32_mod, w1, w2, w3, ht, hd]
  rw [if_neg c0, if_neg (by simp), if_neg (by simp), if_neg (by simp), if_neg (by omega),
    if_neg (by omega)]

theorem load_lists_saved (ch rest : List Nat) (C : copy_context_t)
    (A B D : ddb_blocklist_t) (ra rb rd : List (Int × Int))
    (hA : good_list A ra) (hB : good_list B rb) (hD : good_list D rd) :
    ∃ a b d A1 B1 D1, save_list (some A) = Res.ok a ∧ save_list (some B) = Res.ok b ∧
      save_list (some D) = Res.ok d ∧
      load_lists ch (a ++ b ++ d ++ rest) C =
        Res.ok (if rest.length < sizeof_checkpoint_header then -1
          else if rest.take sizeof_checkpoint_header ≠ ch then -1 else 1,
          { C with to_copy := some A1, to_retry := some B1, copied := some D1 }) ∧
      ddb_blocklist_iterate A1 = Res.ok ra ∧ ddb_blocklist_iterate B1 = Res.ok rb ∧
      ddb_blocklist_iterate D1 = Res.ok rd ∧
      ddb_blocklist_count A1 = total ra ∧
      ddb_blocklist_count B1 = total rb ∧
      ddb_blocklist_count D1 = total rd := by
  obtain ⟨la, a1, a2, a3, a4, a5⟩ := hA
  obtain ⟨lb, b1, b2, b3, b4, b5⟩ := hB
  obtain ⟨ld, d1, d2, d3, d4, d5⟩ := hD
  subst a2 b2 d2
  obtain ⟨d, D1, sd, -, ld1, -, ld2, ld3, -⟩ := load_of_save D ld rest d1 d3 d4 d5
  obtain ⟨b, B1, sb, -, lb1, -, lb2, lb3, -⟩ := load_of_save B lb (d ++ rest) b1 b3 b4 b5
  obtain ⟨a, A1, sa, -, la1, -, la2, la3, -⟩ :=
    load_of_save A la (b ++ (d ++ rest)) a1 a3 a4 a5
  refine ⟨a, b, d, A1, B1, D1, ?_, ?_, ?_, ?_, la2, lb2, ld2, la3, lb3, ld3⟩
  · simp only [save_list, sa]
  · simp only [save_list, sb]
  · simp only [save_list, sd]
  · unfold load_lists
    simp only [List.append_assoc, la1, lb1, ld1]
    by_cases h1 : rest.length < sizeof_checkpoint_header
    · rw [if_pos h1, if_pos h1]
    · rw [if_neg h1, if_neg h1]
      by_cases h2 : rest.take sizeof_checkpoint_header ≠ ch
      · rw [if_pos h2, if_pos h2]
      · rw [if_neg h2, if_neg h2]

theorem good_list_new : good_list ddb_blocklist_new [] :=
  ⟨[], rfl, rfl, canonical_nil, by simp, by simp [total]⟩

theorem good_sample_list : good_list sample_list [(4, 10)] :=
  ⟨[(0, { next := none, prev := none, start := 4, end_ := 10 })], ⟨rfl, rfl, rfl⟩, rfl,
    by simp [canonical], by simp, by simp [total]⟩

/-- The list `drifted_list` holds the canonical ranges `[7, 7]` and
`[10, 10]`; its count is 3, not the 2 blocks of its ranges. -/
theorem good_drifted_list :
    good_list drifted_list [(7, 7), (10, 10)] ∧ ddb_blocklist_count drifted_list = 3 ∧
      total [(7, 7), (10, 10)] = 2 :=
  ⟨⟨[(2, { next := some 0, prev := none, start := 7, end_ := 7 }),
      (0, { next := none, prev := none, start := 10, end_ := 10 })],
    ⟨rfl, rfl, rfl, rfl, rfl⟩, rfl, by simp [canonical], by simp, by simp [total]⟩, rfl, rfl⟩

theorem valid_sample_context : valid_counters listing_copy sample_context := by
  simp only [valid_counters, sample_context, new_context, listing_copy, plain_copy,
    damaged_source, store_device]
  norm_num

/-- C21 (amended): for every copy state whose counters pass the tests of
`load_checkpoint` and fit their fields, and whose three lists are canonical
lists of non-negative blocks that fit `off_t`, fewer than `2 ^ 63` blocks each
(`good_list`, which asks nothing of the counts of the lists),
`write_checkpoint` writes a file on which `load_checkpoint` with the same `W`
returns 1 and gives back `pass_size`, the six counters and the ranges of
`to_copy`, `to_retry` and `copied`; the count of each list given back is the
number of blocks of its ranges, whatever the count of the list written was;
the pass number is given back when it is below `max_passes`, and
`max_passes - 1` is given in its place otherwise. -/
theorem checkpoint_round_trip {σ : Type} (W : ddb_copy_t σ) (C C0 : copy_context_t)
    (A B D : ddb_blocklist_t) (ra rb rd : List (Int × Int))
    (hv : valid_counters W C) (hA : C.to_copy = some A) (hB : C.to_retry = some B)
    (hD : C.copied = some D) (gA : good_list A ra) (gB : good_list B rb)
    (gD : good_list D rd) :
    ∃ C1 F C2 A1 B1 D1, write_checkpoint W C = Res.ok C1 ∧ C1.checkpoint = some F ∧
      load_checkpoint W C0 (some F) = Res.ok (1, C2) ∧
      C2.pass_size = C.pass_size ∧ C2.blocks_read = C.blocks_read ∧
      C2.read_errors = C.read_errors ∧ C2.blocks_written = C.blocks_written ∧
      C2.blocks_skipped = C.blocks_skipped ∧ C2.checksum_equal = C.checksum_equal ∧
      C2.write_errors = C.write_errors ∧
      C2.pass = (if C.pass ≥ W.max_passes then W.max_passes - 1 else C.pass) ∧
      C2.to_copy = some A1 ∧ C2.to_retry = some B1 ∧ C2.copied = some D1 ∧
      ddb_blocklist_iterate A = Res.ok ra ∧ ddb_blocklist_iterate A1 = Res.ok ra ∧
      ddb_blocklist_iterate B = Res.ok rb ∧ ddb_blocklist_iterate B1 = Res.ok rb ∧
      ddb_blocklist_iterate D = Res.ok rd ∧ ddb_blocklist_iterate D1 = Res.ok rd ∧
      ddb_blocklist_count A1 = total ra ∧
      ddb_blocklist_count B1 = total rb ∧
      ddb_blocklist_count D1 = total rd := by
  have hl := checkpoint_header_length W C
  obtain ⟨a, b, d, A1, B1, D1, sa, sb, sd, hload, ia, ib, id, ca, cb, cd⟩ :=
    load_lists_saved (checkpoint_header W C) (checkpoint_header W C)
      { C0 with
        pass := if C.pass ≥ W.max_passes then W.max_passes - 1 else C.pass,
        pass_size := C.pass_size, blocks_read := C.blocks_read,
        read_errors := C.read_errors, blocks_written := C.blocks_written,
        blocks_skipped := C.blocks_skipped, checksum_equal := C.checksum_equal,
        write_errors := C.write_errors } A B D ra rb rd gA gB gD
  have iA : ddb_blocklist_iterate A = Res.ok ra := by
    obtain ⟨l, h1, h2, -⟩ := gA
    rw [← h2]
    exact iterate_loop_spec l _ _ h1 (Seg.length_lt h1)
  have iB : ddb_blocklist_iterate B = Res.ok rb := by
    obtain ⟨l, h1, h2, -⟩ := gB
    rw [← h2]
    exact iterate_loop_spec l _ _ h1 (Seg.length_lt h1)
  have iD : ddb_blocklist_iterate D = Res.ok rd := by
    obtain ⟨l, h1, h2, -⟩ := gD
    rw [← h2]
    exact iterate_loop_spec l _ _ h1 (Seg.length_lt h1)
  have c1 : ¬ (checkpoint_header W C).length < sizeof_checkpoint_header := by
    rw [hl]; decide
  have c2 : ¬ (checkpoint_header W C).take sizeof_checkpoint_header ≠ checkpoint_header W C := by
    unfold sizeof_checkpoint_header
    rw [← hl, List.take_length]
    simp
  rw [if_neg c1, if_neg c2] at hload
  have hw : write_checkpoint W C = Res.ok { C with
      checkpoint := some (checkpoint_header W C ++ (a ++ b ++ d ++ checkpoint_header W C)) } := by
    unfold write_checkpoint
    simp only [hA, hB, hD, sa, sb, sd, List.append_assoc]
  have hld := load_checkpoint_header W C C0 (a ++ b ++ d ++ checkpoint_header W C) hv
  rw [hload] at hld
  exact ⟨_, _, _, A1, B1, D1, hw, rfl, hld, rfl, rfl, rfl, rfl, rfl, rfl, rfl, rfl, rfl, rfl,
    rfl, iA, ia, iB, ib, iD, id, ca, cb, cd⟩

theorem checkpoint_round_trip_witness :
    ∃ C1 F C2 A1 B1 D1, write_checkpoint listing_copy retry_context = Res.ok C1 ∧
      C1.checkpoint = some F ∧
      load_checkpoint listing_copy (new_context listing_copy) (some F) = Res.ok (1, C2) ∧
      C2.pass_size = retry_context.pass_size ∧ C2.blocks_read = retry_context.blocks_read ∧
      C2.read_errors = retry_context.read_errors ∧
      C2.blocks_written = retry_context.blocks_written ∧
      C2.blocks_skipped = retry_context.blocks_skipped ∧
      C2.checksum_equal = retry_context.checksum_equal ∧
      C2.write_errors = retry_context.write_errors ∧
      C2.pass = (if retry_context.pass ≥ listing_copy.max_passes
        then listing_copy.max_passes - 1 else retry_context.pass) ∧
      C2.to_copy = some A1 ∧ C2.to_retry = some B1 ∧ C2.copied = some D1 ∧
      ddb_blocklist_iterate sample_list = Res.ok [(4, 10)] ∧
      ddb_blocklist_iterate A1 = Res.ok [(4, 10)] ∧
      ddb_blocklist_iterate drifted_list = Res.ok [(7, 7), (10, 10)] ∧
      ddb_blocklist_iterate B1 = Res.ok [(7, 7), (10, 10)] ∧
      ddb_blocklist_iterate ddb_blocklist_new = Res.ok [] ∧
      ddb_blocklist_iterate D1 = Res.ok [] ∧
      ddb_blocklist_count A1 = total [(4, 10)] ∧
      ddb_blocklist_count B1 = total [(7, 7), (10, 10)] ∧
      ddb_blocklist_count D1 = total [] :=
  checkpoint_round_trip listing_copy retry_context (new_context listing_copy)
    sample_list drifted_list ddb_blocklist_new [(4, 10)] [(7, 7), (10, 10)] []
    valid_sample_context rfl rfl rfl good_sample_list good_drifted_list.1 good_list_new

set_option maxRecDepth 1000000 in
/-- C21 as stated fails: the checkpoint that `write_checkpoint` writes for
`sample_context`, whose pass number is 1, in the copy `listing_copy`, whose
`max_passes` is 1, is loaded by `load_checkpoint` with the same `W` with
value 1 and the pass number 0. -/
theorem checkpoint_pass_not_reproduced :
    valid_counters listing_copy sample_context ∧
      sample_context.pass = 1 ∧ listing_copy.max_passes = 1 ∧
      ∃ C1 F C2, write_checkpoint listing_copy sample_context = Res.ok C1 ∧
        C1.checkpoint = some F ∧
        load_checkpoint listing_copy (new_context listing_copy) (some F) = Res.ok (1, C2) ∧
        C2.pass = 0 :=
  ⟨valid_sample_context, rfl, rfl, _, _, _, rfl, rfl, rfl, rfl⟩

theorem load_lists_one (ch F : List Nat) (C C1 : copy_context_t)
    (h : load_lists ch F C = Res.ok (1, C1)) :
    ∃ l1 F1 l2 F2 l3 F3, ddb_blocklist_load F = Res.ok (loaded.list l1 F1) ∧
      ddb_blocklist_load F1 = Res.ok (loaded.list l2 F2) ∧
      ddb_blocklist_load F2 = Res.ok (loaded.list l3 F3) ∧
      sizeof_checkpoint_header ≤ F3.length ∧ F3.take sizeof_checkpoint_header = ch ∧
      C1 = { C with to_copy := some l1, to_retry := some l2, copied := some l3 } := by
  unfold load_lists at h
  split at h
  · rename_i l1 F1 h1
    split at h
    · rename_i l2 F2 h2
      split at h
      · rename_i l3 F3 h3
        split_ifs at h with c1 c2
        · simp at h
        · simp at h
        · simp only [Res.ok.injEq, Prod.mk.injEq, true_and] at h
          exact ⟨l1, F1, l2, F2, l3, F3, h1, h2, h3, by omega, by
            by_contra hx
            exact c2 hx, h.symm⟩
      · simp at h
      · simp at h
      · simp at h
    · simp at h
    · simp at h
    · simp at h
  · simp at h
  · simp at h
  · simp at h

theorem load_lists_value (ch F : List Nat) (C C1 : copy_context_t) (v : Int)
    (h : load_lists ch F C = Res.ok (v, C1)) : v = -1 ∨ v = 1 := by
  unfold load_lists at h
  split at h
  · split at h
    · split at h
      · split_ifs at h <;> simp only [Res.ok.injEq, Prod.mk.injEq] at h <;> omega
      · simp only [Res.ok.injEq, Prod.mk.injEq] at h; omega
      · simp at h
      · simp at h
    · simp only [Res.ok.injEq, Prod.mk.injEq] at h; omega
    · simp at h
    · simp at h
  · simp only [Res.ok.injEq, Prod.mk.injEq] at h; omega
  · simp at h
  · simp at h

/-- What `load_checkpoint` returns: 0 exactly when the file cannot be opened,
and 1 only for a file of at least 80 bytes whose header has the magic
"ChkPoint", the `total_size` and the `block_size` of `W`, no negative counter,
sums of counters (taken with the wrap of `off_t`) within `total_blocks` and
`checksum_equal` within `blocks_skipped`, followed by three lists that
`ddb_blocklist_load` accepts and by the 80 bytes of the header again;
otherwise -1. -/
theorem load_checkpoint_value {σ : Type} (W : ddb_copy_t σ) (C0 : copy_context_t) :
    load_checkpoint W C0 none = Res.ok (0, C0) ∧
    ∀ (F : List Nat) (v : Int) (C1 : copy_context_t),
      load_checkpoint W C0 (some F) = Res.ok (v, C1) →
      (v = -1 ∨ v = 1) ∧
      (v = 1 →
        sizeof_checkpoint_header ≤ F.length ∧
        of_be64 (field F 0 8) = CHECKPOINT_MAGIC ∧
        of_be64 (field F 8 8) = W.total_size ∧
        of_be32 (field F 72 4) = W.block_size % 2 ^ 32 ∧
        0 ≤ of_be64 (field F 16 8) ∧ 0 ≤ of_be64 (field F 24 8) ∧
        0 ≤ of_be64 (field F 32 8) ∧
        wrap64 (of_be64 (field F 24 8) + of_be64 (field F 32 8)) ≤ W.total_blocks ∧
        0 ≤ of_be64 (field F 40 8) ∧ 0 ≤ of_be64 (field F 48 8) ∧
        0 ≤ of_be64 (field F 56 8) ∧ of_be64 (field F 56 8) ≤ of_be64 (field F 48 8) ∧
        0 ≤ of_be64 (field F 64 8) ∧
        wrap64 (wrap64 (of_be64 (field F 40 8) + of_be64 (field F 48 8)) +
          of_be64 (field F 64 8)) ≤ W.total_blocks ∧
        ∃ l1 F1 l2 F2 l3 F3,
          ddb_blocklist_load (F.drop sizeof_checkpoint_header) = Res.ok (loaded.list l1 F1) ∧
          ddb_blocklist_load F1 = Res.ok (loaded.list l2 F2) ∧
          ddb_blocklist_load F2 = Res.ok (loaded.list l3 F3) ∧
          sizeof_checkpoint_header ≤ F3.length ∧
          F3.take sizeof_checkpoint_header = F.take sizeof_checkpoint_header) := by
  refine ⟨rfl, ?_⟩
  intro F v C1 h
  unfold load_checkpoint at h
  simp only at h
  split_ifs at h with c1 c2 c3 c4 c5 c6
  · simp only [Res.ok.injEq, Prod.mk.injEq] at h
    exact ⟨Or.inl h.1.symm, fun hv => by omega⟩
  · simp only [Res.ok.injEq, Prod.mk.injEq] at h
    exact ⟨Or.inl h.1.symm, fun hv => by omega⟩
  · simp only [Res.ok.injEq, Prod.mk.injEq] at h
    exact ⟨Or.inl h.1.symm, fun hv => by omega⟩
  · simp only [Res.ok.injEq, Prod.mk.injEq] at h
    exact ⟨Or.inl h.1.symm, fun hv => by omega⟩
  · simp only [Res.ok.injEq, Prod.mk.injEq] at h
    exact ⟨Or.inl h.1.symm, fun hv => by omega⟩
  · simp only [Res.ok.injEq, Prod.mk.injEq] at h
    exact ⟨Or.inl h.1.symm, fun hv => by omega⟩
  · refine ⟨load_lists_value _ _ _ _ _ h, ?_⟩
    intro hv
    subst hv
    obtain ⟨l1, F1, l2, F2, l3, F3, h1, h2, h3, h4, h5, -⟩ := load_lists_one _ _ _ _ h
    push_neg at c1 c2 c3 c4 c5 c6
    exact ⟨c1, c2, c3, c4, c5.1, c5.2.1, c5.2.2.1, c5.2.2.2, c6.1, c6.2.1, c6.2.2.1,
      c6.2.2.2.1, c6.2.2.2.2.1, c6.2.2.2.2.2, l1, F1, l2, F2, l3, F3, h1, h2, h3, h4, h5⟩

set_option maxRecDepth 1000000 in
/-- C22 (defect in `load_checkpoint`): the checkpoint `overflow_checkpoint`,
whose header has `blocks_read = 2^63 - 1` and `read_errors = 1`, is accepted
for a copy of 11 blocks: `load_checkpoint` returns 1 and takes the two
counters, although their sum is above `total_blocks`.  The sum
`C->blocks_read + C->read_errors` is computed in `off_t` and wraps to
`-2^63`. -/
theorem load_accepts_overflowing_counters :
    of_be64 (field overflow_checkpoint 24 8) = 2 ^ 63 - 1 ∧
      of_be64 (field overflow_checkpoint 32 8) = 1 ∧
      listing_copy.total_blocks = 11 ∧
      ∃ C, load_checkpoint listing_copy (new_context listing_copy)
          (some overflow_checkpoint) = Res.ok (1, C) ∧
        C.blocks_read = 2 ^ 63 - 1 ∧ C.read_errors = 1 :=
  ⟨by rfl, by rfl, rfl, _, by rfl, by rfl, by rfl⟩

set_option maxRecDepth 1000000 in
/-- C29 (defect in `add_new_block`): in a sparse image whose metadata block is
full, a write of block 40, beyond the last block of the index, starts a new
metadata block; when the `write_metadata` that records the link to it fails,
`add_new_block` returns 1 (`if (! write_metadata (...)) return 1;`), which is
neither negative nor the offset reserved, and `image_write` reports the
block with result 1 after writing its 512 bytes at offset 1 of the file, over
the file header ("DDB " becomes 68, 99, 99, 99); the end of the data stays
11264. -/
theorem add_new_block_returns_one :
    failed_chain = some (1, 1, 11264, 11264, [68, 99, 99, 99]) := by
  rfl

set_option maxRecDepth 1000000 in
/-- C24 (defect in `meta_has_blocks`, the one of C4): for a sparse image that
holds block 1 and the blocks 10 to 20, and the list of the blocks 5 to 15,
`ddb_device_has_blocks` returns the list 10 to 15 through the operation of the
image, while `ddb_blocklist_intersect` of the blocks of the device and the
list gives 5 to 15, as does `ddb_device_has_blocks` for the same device
without the operation. -/
theorem has_blocks_differs_from_intersect :
    has_blocks_outcome =
      some (some [(1, 1), (10, 20)], some [(10, 15)], some [(5, 15)], some [(5, 15)]) := by
  rfl

set_option maxRecDepth 1000000 in
/-- C25 (defect in `parse_name` and `check_name`): in `sample_tree` the three
sequences hold the same incremental images, of 2019, 2020 and 2021.  A
read-only open of `home/seq` has them all as layers after the full image, in
ascending order; an open of `seq`, a path without a slash, has the full image
alone, `parse_name` leaving the timestamp empty so that every name comes after
the limit `incr-`; an open of `home/2020`, a sequence whose name looks like a
timestamp, leaves out the image of 2021, the timestamp of the first try of
`check_name` staying the limit; and an open of `home/seq/2020-01-01:00:00:00`
has the images up to that timestamp. -/
theorem open_dir_layers_of_sample :
    sample_layers "home/seq" =
        some ["home/seq/full", "home/seq/incr-2019-01-01:00:00:00",
          "home/seq/incr-2020-01-01:00:00:00", "home/seq/incr-2021-01-01:00:00:00"] ∧
      sample_layers "seq" = some ["seq/full"] ∧
      sample_layers "home/2020" =
        some ["home/2020/full", "home/2020/incr-2019-01-01:00:00:00",
          "home/2020/incr-2020-01-01:00:00:00"] ∧
      sample_layers "home/seq/2020-01-01:00:00:00" =
        some ["home/seq/full", "home/seq/incr-2019-01-01:00:00:00",
          "home/seq/incr-2020-01-01:00:00:00"] := by
  refine ⟨?_, ?_, ?_, ?_⟩ <;> rfl

set_option maxRecDepth 1000000 in
/-- C27 (defect in `image_read`): for a sequence of 1124 bytes in blocks of 512
bytes, `dir_write` of block 2 puts in the file of checksums the checksum of
the 512 bytes of the block as padded by the caller, while a read of checksums
through the layer gives the checksum of the 100 bytes of the short last
block; with `length_sha` for the hash function, the two begin with the bytes
2, 0 and 0, 100. -/
theorem checksum_of_short_block_differs :
    short_block_sums length_sha =
      (1, [2, 0] ++ List.replicate 30 0, [0, 100] ++ List.replicate 30 0) := by
  rfl

/-! ## The spans that `meta_iterate` reports -/

theorem runs_from_ne_nil : ∀ (es : List metadata_data_t) (s e : Int), runs_from es s e ≠ []
  | [], s, e => by simp [runs_from]
  | x :: t, s, e => by
    unfold runs_from
    split
    · exact runs_from_ne_nil t s x.end_
    · simp

/-- The runs of sorted entries after an open run: spans in ascending order
with a block between them, which hold the blocks of the open run and of the
entries. -/
theorem runs_from_spec : ∀ (es : List metadata_data_t) (s e : Int), s ≤ e →
    es.Pairwise (fun a c => a.end_ < c.start) → (∀ x ∈ es, x.start ≤ x.end_) →
    (∀ x ∈ es, e < x.start) →
    (∀ r ∈ runs_from es s e, s ≤ r.1 ∧ r.1 ≤ r.2) ∧
    (runs_from es s e).Pairwise (fun a c => a.2 + 1 < c.1) ∧
    (∀ b, (∃ r ∈ runs_from es s e, r.1 ≤ b ∧ b ≤ r.2) ↔
      ((s ≤ b ∧ b ≤ e) ∨ ∃ x ∈ es, x.start ≤ b ∧ b ≤ x.end_))
  | [], s, e, hse, _, _, _ => by
    refine ⟨?_, ?_, ?_⟩
    · intro r hr
      simp only [runs_from, List.mem_singleton] at hr
      rw [hr]
      exact ⟨le_refl _, hse⟩
    · simp [runs_from]
    · intro b
      simp [runs_from]
  | x :: t, s, e, hse, hs, hv, hgt => by
    have hs2 := List.pairwise_cons.1 hs
    have hx := hv x (List.mem_cons_self _ _)
    have hgx := hgt x (List.mem_cons_self _ _)
    have hvt : ∀ y ∈ t, y.start ≤ y.end_ := fun y hy => hv y (List.mem_cons_of_mem _ hy)
    unfold runs_from
    by_cases hadj : e + 1 = x.start
    · rw [if_pos hadj]
      obtain ⟨i1, i2, i3⟩ := runs_from_spec t s x.end_ (by omega) hs2.2 hvt hs2.1
      refine ⟨i1, i2, ?_⟩
      intro b
      rw [i3 b]
      constructor
      · rintro (h | ⟨y, hy, h⟩)
        · by_cases hb : b ≤ e
          · exact Or.inl ⟨h.1, hb⟩
          · exact Or.inr ⟨x, List.mem_cons_self _ _, by omega, h.2⟩
        · exact Or.inr ⟨y, List.mem_cons_of_mem _ hy, h⟩
      · rintro (h | ⟨y, hy, h⟩)
        · exact Or.inl ⟨h.1, by omega⟩
        · rcases List.mem_cons.1 hy with rfl | hy
          · exact Or.inl ⟨by omega, h.2⟩
          · exact Or.inr ⟨y, hy, h⟩
    · rw [if_neg hadj]
      obtain ⟨i1, i2, i3⟩ := runs_from_spec t x.start x.end_ hx hs2.2 hvt hs2.1
      refine ⟨?_, ?_, ?_⟩
      · intro r hr
        rcases List.mem_cons.1 hr with rfl | hr
        · exact ⟨le_refl _, hse⟩
        · have := i1 r hr
          omega
      · refine List.Pairwise.cons ?_ i2
        intro r hr
        have := i1 r hr
        show e + 1 < r.1
        omega
      · intro b
        constructor
        · rintro ⟨r, hr, h⟩
          rcases List.mem_cons.1 hr with rfl | hr
          · exact Or.inl h
          · rcases (i3 b).1 ⟨r, hr, h⟩ with h1 | ⟨y, hy, h1⟩
            · exact Or.inr ⟨x, List.mem_cons_self _ _, h1⟩
            · exact Or.inr ⟨y, List.mem_cons_of_mem _ hy, h1⟩
        · rintro (h | ⟨y, hy, h⟩)
          · exact ⟨(s, e), List.mem_cons_self _ _, h⟩
          · rcases List.mem_cons.1 hy with rfl | hy
            · obtain ⟨r, hr, h1⟩ := (i3 b).2 (Or.inl h)
              exact ⟨r, List.mem_cons_of_mem _ hr, h1⟩
            · obtain ⟨r, hr, h1⟩ := (i3 b).2 (Or.inr ⟨y, hy, h⟩)
              exact ⟨r, List.mem_cons_of_mem _ hr, h1⟩

/-- The runs of sorted entries: spans in ascending order with a block between
them, which hold the blocks of the entries and no other. -/
theorem runs_spec (es : List metadata_data_t)
    (hs : es.Pairwise (fun a c => a.end_ < c.start)) (hv : ∀ x ∈ es, x.start ≤ x.end_) :
    (∀ r ∈ runs es, r.1 ≤ r.2) ∧
    (runs es).Pairwise (fun a c => a.2 + 1 < c.1) ∧
    (∀ b, (∃ r ∈ runs es, r.1 ≤ b ∧ b ≤ r.2) ↔ ¬ absent es b) := by
  cases es with
  | nil =>
    refine ⟨by simp [runs], by simp [runs], ?_⟩
    intro b
    simp [runs, absent]
  | cons x t =>
    have hs2 := List.pairwise_cons.1 hs
    obtain ⟨i1, i2, i3⟩ := runs_from_spec t x.start x.end_ (hv x (List.mem_cons_self _ _))
      hs2.2 (fun y hy => hv y (List.mem_cons_of_mem _ hy)) hs2.1
    refine ⟨fun r hr => (i1 r hr).2, i2, ?_⟩
    intro b
    show (∃ r ∈ runs_from t x.start x.end_, r.1 ≤ b ∧ b ≤ r.2) ↔ _
    rw [i3 b]
    unfold absent
    push_neg
    constructor
    · rintro (h | ⟨y, hy, h⟩)
      · exact ⟨x, List.mem_cons_self _ _, h⟩
      · exact ⟨y, List.mem_cons_of_mem _ hy, h⟩
    · rintro ⟨y, hy, h⟩
      rcases List.mem_cons.1 hy with rfl | hy
      · exact Or.inl h
      · exact Or.inr ⟨y, hy, h⟩

/-- The callbacks of `meta_iterate` for the entries `es` after an open run,
and the last callback, are the calls of `func` for the runs. -/
theorem feed_runs {α : Type} (func : Int → Int → α → Int × α) :
    ∀ (es : List metadata_data_t) (s e : Int) (arg : α), 0 ≤ e →
    (∀ x ∈ es, 0 ≤ x.end_) →
    feed_end func (feed func es s e arg) = call_runs func (runs_from es s e) arg
  | [], s, e, arg, he, _ => by
    have h1 : feed func [] s e arg = (none, s, e, arg) := rfl
    have h2 : call_runs func (runs_from [] s e) arg = func s e arg := by
      simp [runs_from, call_runs]
    rw [h1, h2]
    unfold feed_end
    simp only
    rw [if_neg (by omega)]
  | x :: t, s, e, arg, he, hv => by
    have hx := hv x (List.mem_cons_self _ _)
    have hvt : ∀ y ∈ t, 0 ≤ y.end_ := fun y hy => hv y (List.mem_cons_of_mem _ hy)
    by_cases hadj : e + 1 = x.start
    · have h1 : feed func (x :: t) s e arg = feed func t s x.end_ arg := by
        simp only [feed]
        rw [if_pos (show e ≥ 0 from he), if_pos hadj]
      have h2 : runs_from (x :: t) s e = runs_from t s x.end_ := by
        simp only [runs_from]
        rw [if_pos hadj]
      rw [h1, h2]
      exact feed_runs func t s x.end_ arg hx hvt
    · have h2 : runs_from (x :: t) s e = (s, e) :: runs_from t x.start x.end_ := by
        simp only [runs_from]
        rw [if_neg hadj]
      rw [h2]
      by_cases hneg : (func s e arg).1 < 0
      · have h1 : feed func (x :: t) s e arg =
            (some (func s e arg).1, s, e, (func s e arg).2) := by
          simp only [feed]
          rw [if_pos (show e ≥ 0 from he), if_neg hadj, if_pos hneg]
        have h3 : call_runs func ((s, e) :: runs_from t x.start x.end_) arg = func s e arg := by
          simp only [call_runs]
          rw [if_pos (Or.inl hneg)]
        rw [h1, h3]
        rfl
      · have h1 : feed func (x :: t) s e arg =
            feed func t x.start x.end_ (func s e arg).2 := by
          simp only [feed]
          rw [if_pos (show e ≥ 0 from he), if_neg hadj, if_neg hneg]
        have h3 : call_runs func ((s, e) :: runs_from t x.start x.end_) arg =
            call_runs func (runs_from t x.start x.end_) (func s e arg).2 := by
          simp only [call_runs]
          rw [if_neg (by
            rintro (h | h)
            · exact hneg h
            · exact runs_from_ne_nil _ _ _ h)]
        rw [h1, h3]
        exact feed_runs func t x.start x.end_ (func s e arg).2 hx hvt

/-- What `meta_iterate` comes to for the entries `es` is the calls of `func`
for their runs. -/
theorem feed_all_runs {α : Type} (func : Int → Int → α → Int × α)
    (es : List metadata_data_t) (arg : α) (hv : ∀ x ∈ es, 0 ≤ x.end_) :
    feed_all func es arg = call_runs func (runs es) arg := by
  have h0 : feed_all func es arg = feed_end func (feed func es (-1) (-1) arg) := rfl
  rw [h0]
  cases es with
  | nil =>
    have h1 : feed func [] (-1) (-1) arg = (none, -1, -1, arg) := rfl
    rw [h1]
    rfl
  | cons x t =>
    have h := feed_runs func t x.start x.end_ arg (hv x (List.mem_cons_self _ _))
      (fun y hy => hv y (List.mem_cons_of_mem _ hy))
    have hf : feed func (x :: t) (-1) (-1) arg = feed func t x.start x.end_ arg := by
      simp only [feed]
      rw [if_neg (by norm_num)]
    rw [hf]
    exact h

/-- C23: for a sparse image in use, whose index satisfies the invariants,
there are spans `rs`, each from a block to a block not before it, in
ascending order with at least one block between two of them, that hold the
blocks of the index and no other block - the maximal runs of present blocks,
whatever the entries and the metadata blocks they come from - such that the
value of `meta_iterate` and the state it leaves behind `arg` are those of one
call of `func` for each span in order, stopped at the first call whose value
is negative, with that value. -/
theorem meta_iterate_calls_runs {α : Type} (func : Int → Int → α → Int × α) (arg : α)
    {img : image_t} {blks : List mblk} {data : Int → List Nat} (hr : Rep img blks data) :
    ∃ rs : List (Int × Int),
      (∀ r ∈ rs, r.1 ≤ r.2) ∧
      rs.Pairwise (fun a c => a.2 + 1 < c.1) ∧
      (∀ b, (∃ r ∈ rs, r.1 ≤ b ∧ b ≤ r.2) ↔ ¬ absent (all_ents blks) b) ∧
      (meta_iterate img func arg).1 = (call_runs func rs arg).1 ∧
      (meta_iterate img func arg).2.1 = (call_runs func rs arg).2 := by
  have hg := hr.rep0.good
  obtain ⟨r1, r2, r3⟩ := runs_spec (all_ents blks) hg.sorted
    (fun x hx => (hg.range x hx).2.1)
  obtain ⟨m1, m2, -, -⟩ := meta_iterate_spec func arg hr
  have hf := feed_all_runs func (all_ents blks) arg (fun x hx => by
    have := hg.range x hx
    omega)
  refine ⟨runs (all_ents blks), r1, r2, r3, ?_, ?_⟩
  · rw [m1, hf]
  · rw [m2, hf]

theorem meta_iterate_calls_runs_witness :
    ∃ img blks data, run (new_image 512 1124 0) sample_ops = some img ∧ Rep img blks data ∧
      ∃ rs : List (Int × Int),
        (∀ r ∈ rs, r.1 ≤ r.2) ∧
        rs.Pairwise (fun a c => a.2 + 1 < c.1) ∧
        (∀ b, (∃ r ∈ rs, r.1 ≤ b ∧ b ≤ r.2) ↔ ¬ absent (all_ents blks) b) ∧
        (meta_iterate img note_span []).1 = (call_runs note_span rs []).1 ∧
        (meta_iterate img note_span []).2.1 = (call_runs note_span rs []).2 := by
  obtain ⟨-, h2⟩ := Holds.create 512 1124 0 (by norm_num) (by norm_num) (by norm_num)
    (by norm_num) (by norm_num) (by norm_num)
  obtain ⟨img, h3, ⟨blks, data, hr, -⟩, -⟩ := Holds.after_run sample_ops h2 sample_ops_valid
  exact ⟨img, blks, data, h3, hr, meta_iterate_calls_runs note_span [] hr⟩

/-! ## The split of a full metadata block by `add_new_block` -/

/-- The insertion at the label `extend_block`, with the index it leaves: the
entry of the block stands between the entries before it and those after it of
the cached metadata block. -/
theorem extend_block_shape {img : image_t} {blks : List mblk} {front : Int}
    {data : Int → List Nat} (hr : Rep0 img blks front data)
    {pre : List mblk} {B : mblk} {post : List mblk} (hb : blks = pre ++ B :: post)
    (hsum : img.summary = some pre.length) (hms : img.metadata_summary = blks.map mblk.summ)
    (hroom : (B.ents.length : Int) < img.header.meta_size)
    (hempty : ∀ C ∈ blks, C.ents = [] → C = B)
    {b : Int} (hb0 : 0 ≤ b) (hb1 : b < img.header.total_blocks)
    (hlt : ∀ e ∈ all_ents pre, e.end_ < b) (hgt : ∀ e ∈ all_ents post, b < e.start)
    (hab : absent B.ents b) :
    (extend_block img b front).1 = front ∧
    ∃ l1 l2 data1, B.ents = l1 ++ l2 ∧ (∀ e ∈ l1, e.end_ < b) ∧ (∀ e ∈ l2, b < e.start) ∧
      Rep (extend_block img b front).2
        (pre ++ B.with_ents (l1 ++ { start := b, end_ := b, pos := front } :: l2) :: post)
        data1 ∧
      (extend_block img b front).2.header = { img.header with data_end := front + img.header.block_size, blocks_present := img.header.blocks_present + 1 } ∧
      (∀ b1, b1 ≠ b → data1 b1 = data b1) := by
  have hs := hr.static
  have hg := hr.good
  obtain ⟨pre2, B2, post2, hb2, hl2, hc, hd, hn⟩ := hr.cache _ hsum
  obtain ⟨-, rfl, -⟩ := decomp_unique (hb.symm.trans hb2) hl2.symm
  have hB : B ∈ blks := by rw [hb]; simp
  have hsorted : B.ents.Pairwise (fun a c => a.end_ < c.start) := by
    have := hg.sorted
    rw [hb, all_ents_append, all_ents_cons] at this
    exact (List.pairwise_append.mp (List.pairwise_append.mp this).2.1).1
  have hrange : ∀ e ∈ B.ents, e.start ≤ e.end_ := fun e he =>
    (hg.range e (mem_all_ents.mpr ⟨B, hB, he⟩)).2.1
  have hmdl : B.ents.length < img.metadata_data.length := by
    have := hr.md_len
    omega
  obtain ⟨l1, l2, cs, he, e3, e4, hlen, hins⟩ :=
    insert_entry_eq img b front B.ents hc hd hmdl hsorted hrange hab
  have hlen1 : (l1 ++ ({ start := b, end_ := b, pos := front } : metadata_data_t) :: l2).length =
      B.ents.length + 1 := by rw [he]; simp; omega
  have hscr : (insert_entry img b front).fd.script = [] := by
    rw [hins]; exact hr.ondisk.script
  obtain ⟨f1, f2, f3, f4, f5, f6, f7, f8, f9, f10, f11, f12, f13, f14⟩ :=
    extend_file_fields (insert_entry img b front) front hscr
  have hext : extend_block img b front = extend_file (insert_entry img b front) front := rfl
  rw [hext]
  refine ⟨f1, ?_⟩
  have key := Rep.after_insert (extend_file (insert_entry img b front) front).2
    (B.with_ents (l1 ++ { start := b, end_ := b, pos := front } :: l2)) cs
    hr hb hsum hms hempty hb0 hb1 hlt hgt he e3 e4
    rfl rfl rfl rfl rfl
    (by show ((l1 ++ _ :: l2).length : Int) ≤ _; rw [hlen1]; push_cast; omega)
    (by rw [f3, hins]) (by rw [f4, hins]) (by rw [f2, hins])
    (by rw [f5, hins]; rfl) (by rw [f5, hins]; exact hlen)
    (by rw [f6, hins]; exact hsum) (by rw [f7, hins]; exact hn)
    (by rw [f8, hins]; show (B.ents.length : Int) + 1 = ((l1 ++ _ :: l2).length : Int)
        rw [hlen1]; push_cast; rfl)
    (by
      rw [f9, hins]
      show set_cached_span img _ _ = _
      unfold set_cached_span
      rw [hsum]
      simp only
      rw [hms, hb, set_summ, summ_at_map]
      simp [mblk.summ, mblk.with_ents, hlen1])
    (by rw [f12]) (by rw [f13, hins]) (by
      intro q l h
      rw [f14 q l (by rw [hins]; exact h), hins])
    (by rw [f10, hins]) f11
  refine ⟨l1, l2, _, he, e3, e4, key.1, by rw [f2, hins], ?_⟩
  intro b1 h
  exact Function.update_noteq h _ _

/-- The first step of `add_new_block` leaves the image alone when no entry of
the index that ends just before the block has the end of the data as the
position that would follow its data. -/
theorem try_extend_none {img : image_t} {blks : List mblk} {data : Int → List Nat}
    (hr : Rep img blks data) {b : Int}
    (hnx : ∀ e ∈ all_ents blks, e.end_ + 1 = b →
      block_position e b img.header.block_size ≠ img.header.data_end) :
    try_extend img b = (0, img) := by
  have h0 := hr.rep0
  cases hsum : img.summary with
  | none =>
    unfold try_extend
    rw [hsum]
  | some s =>
    obtain ⟨pre, B, post, hb, hl, hc, hd, hn⟩ := h0.cache s hsum
    have hB : B ∈ blks := by rw [hb]; simp
    unfold try_extend
    rw [hsum]
    simp only
    split
    · unfold extend_metadata
      rw [hc, Int.toNat_ofNat]
      have hmd : img.metadata_data = [] ++ B.ents ++ img.metadata_data.drop B.ents.length := by
        conv_lhs => rw [← List.take_append_drop B.ents.length img.metadata_data, hd]
        simp
      rcases extend_metadata_loop_spec img b img.header.data_end B.ents [] _ hmd with
        h | ⟨A, e, C, i1, i2, i3, -⟩
      · exact h
      · exfalso
        exact hnx e (mem_all_ents.mpr ⟨B, hB, by rw [i1]; simp⟩) i2 i3.symm
    · rfl

/-- The metadata block that holds the place of a block: the first one whose
last block is not before it. -/
theorem seek_unique {bs ms tb front bp : Int} {blks : List mblk}
    (hg : Good bs ms tb front bp blks) (hfull : ∀ B ∈ blks, B.ents ≠ []) {b : Int}
    {pre pre1 : List mblk} {B B1 : mblk} {post post1 : List mblk}
    (h : blks = pre ++ B :: post) (h1 : blks = pre1 ++ B1 :: post1)
    (hlt : ∀ e ∈ all_ents pre, e.end_ < b) (hle : b ≤ B.last)
    (hlt1 : ∀ e ∈ all_ents pre1, e.end_ < b) (hseek : b ≤ B1.last ∨ post1 = []) :
    pre1 = pre ∧ B1 = B ∧ post1 = post := by
  have hBm : B ∈ blks := by rw [h]; simp
  have hB1m : B1 ∈ blks := by rw [h1]; simp
  have hBl : B.last = (data_at B.ents (B.ents.length - 1)).end_ :=
    (hg.span B hBm (hfull B hBm)).2
  have hB1l : B1.last = (data_at B1.ents (B1.ents.length - 1)).end_ :=
    (hg.span B1 hB1m (hfull B1 hB1m)).2
  have hlen : pre1.length = pre.length := by
    rcases lt_trichotomy pre1.length pre.length with hlt2 | heq | hgt2
    · exfalso
      -- the block `B1` is one of `pre`
      have hB1pre : B1 ∈ pre := by
        have e1 : (pre ++ B :: post)[pre1.length]? = some B1 := by
          rw [← h, h1, List.getElem?_append_right (le_refl _)]
          simp
        rw [List.getElem?_append_left hlt2] at e1
        exact List.getElem?_mem e1
      have hl := hlt _ (mem_all_ents.mpr ⟨B1, hB1pre, last_mem (hfull B1 hB1m)⟩)
      rcases hseek with hs | hs
      · rw [hB1l] at hs
        omega
      · have e2 := congrArg List.length (h.symm.trans h1)
        rw [hs] at e2
        simp at e2
        omega
    · exact heq
    · exfalso
      have hBpre : B ∈ pre1 := by
        have e1 : (pre1 ++ B1 :: post1)[pre.length]? = some B := by
          rw [← h1, h, List.getElem?_append_right (le_refl _)]
          simp
        rw [List.getElem?_append_left hgt2] at e1
        exact List.getElem?_mem e1
      have hl := hlt1 _ (mem_all_ents.mpr ⟨B, hBpre, last_mem (hfull B hBm)⟩)
      rw [hBl] at hle
      omega
  exact decomp_unique (h1.symm.trans h) hlen

/-- The entries of an index are entries of the index after a split of the
block `B` in which an entry is added to one of the halves. -/
theorem split_keeps_entries {pre post : List mblk} {B B1 N : mblk}
    {l1 l2 : List metadata_data_t} {x : metadata_data_t} {k : Nat}
    (h : (B.ents.take k = l1 ++ l2 ∧ B1.ents = l1 ++ x :: l2 ∧ N.ents = B.ents.drop k) ∨
      (B.ents.drop k = l1 ++ l2 ∧ B1.ents = B.ents.take k ∧ N.ents = l1 ++ x :: l2))
    {bs b1 p : Int} (hp : present (all_ents (pre ++ B :: post)) bs b1 p) :
    present (all_ents (pre ++ B1 :: N :: post)) bs b1 p := by
  obtain ⟨e, he, h1, h2, h3⟩ := hp
  refine ⟨e, ?_, h1, h2, h3⟩
  simp only [all_ents_append, all_ents_cons, List.mem_append] at he ⊢
  rcases he with he | he | he
  · exact Or.inl he
  · right
    rw [← List.take_append_drop k B.ents, List.mem_append] at he
    rcases h with ⟨a1, a2, a3⟩ | ⟨a1, a2, a3⟩
    · rw [a2, a3]
      rcases he with he | he
      · rw [a1, List.mem_append] at he
        left
        rcases he with he | he
        · exact List.mem_append_left _ he
        · exact List.mem_append_right _ (List.mem_cons_of_mem _ he)
      · exact Or.inr (Or.inl he)
    · rw [a2, a3]
      rcases he with he | he
      · exact Or.inl he
      · rw [a1, List.mem_append] at he
        right
        left
        rcases he with he | he
        · exact List.mem_append_left _ he
        · exact List.mem_append_right _ (List.mem_cons_of_mem _ he)
  · exact Or.inr (Or.inr (Or.inr he))

/-- The branch of `add_new_block` that splits a full metadata block, with the
index it leaves. -/
theorem split_block_shape {img : image_t} {blks : List mblk} {data : Int → List Nat}
    (hr : Rep img blks data) {pre : List mblk} {B : mblk} {post : List mblk}
    (hb : blks = pre ++ B :: post) (hsum : img.summary = some pre.length)
    (hms : img.metadata_summary = blks.map mblk.summ)
    (hfullB : (B.ents.length : Int) = img.header.meta_size)
    {b : Int} (hb0 : 0 ≤ b) (hb1 : b < img.header.total_blocks)
    (hab : absent (all_ents blks) b)
    (hlt : ∀ e ∈ all_ents pre, e.end_ < b) (hle : b ≤ B.last) :
    SplitShape img.header pre B post data b
      (split_block img pre.length b img.header.data_end) := by
  have h0 := hr.rep0
  have hs := h0.static
  have hg := h0.good
  have hB : B ∈ blks := by rw [hb]; simp
  obtain ⟨pre2, B2, post2, hb2, hl2, hc, hd, hn⟩ := h0.cache _ hsum
  obtain ⟨-, rfl, -⟩ := decomp_unique (hb.symm.trans hb2) hl2.symm
  have hne := hr.full B hB
  have hms20 := meta_size_ge hs
  have hlen20 : 20 ≤ B.ents.length := by omega
  obtain ⟨B1, N, W2, e1, e2, ep1, ep2, hsb, hW2, hs2, hms2, hh2, hhas2, hmd2⟩ :=
    split_state hr hb hsum hms hfullB b
  rw [hsb]
  have hE1 : B1.ents.length = B.ents.length / 2 := by rw [e1, List.length_take]; omega
  have hE2 : N.ents.length = B.ents.length - B.ents.length / 2 := by
    rw [e2, List.length_drop]
  have hE12 : B1.ents ++ N.ents = B.ents := by rw [e1, e2, List.take_append_drop]
  have hsortB : B.ents.Pairwise (fun a c => a.end_ < c.start) := by
    have := hg.sorted
    rw [hb, all_ents_append, all_ents_cons] at this
    exact (List.pairwise_append.mp (List.pairwise_append.mp this).2.1).1
  have hrangeB : ∀ e ∈ B.ents, e.start ≤ e.end_ := fun e he =>
    (hg.range e (mem_all_ents.mpr ⟨B, hB, he⟩)).2.1
  have hmemB : ∀ e, e ∈ B1.ents ∨ e ∈ N.ents → e ∈ B.ents := by
    intro e he
    rw [← hE12]
    exact List.mem_append.mpr he
  have habB : absent B.ents b := fun e he => hab e (mem_all_ents.mpr ⟨B, hB, he⟩)
  have hord := block_order (hb ▸ hg) hne
  have hneN : N.ents ≠ [] := by
    intro h
    rw [h] at hE2
    simp at hE2
    omega
  have hne1 : B1.ents ≠ [] := by
    intro h
    rw [h] at hE1
    simp at hE1
    omega
  have hfirstN : data_at W2.metadata_data (B.ents.length / 2) = data_at N.ents 0 := by
    rw [hmd2, data_at_of_take hd (by omega), e2, data_at_drop]
    rfl
  have hfirstB : data_at B.ents (B.ents.length / 2) = data_at N.ents 0 := by
    rw [e2, data_at_drop]
    rfl
  have hfN : data_at N.ents 0 ∈ N.ents := first_mem hneN
  have hsortN : N.ents.Pairwise (fun a c => a.end_ < c.start) := by
    rw [← hE12] at hsortB
    exact (List.pairwise_append.mp hsortB).2.1
  have hcross : ∀ x ∈ B1.ents, ∀ y ∈ N.ents, x.end_ < y.start := by
    rw [← hE12] at hsortB
    exact (List.pairwise_append.mp hsortB).2.2
  have full1 : ∀ X ∈ pre ++ B1 :: N :: post, X.ents ≠ [] := by
    intro X hX
    rcases List.mem_append.mp hX with h | h
    · exact hr.full X (by rw [hb]; exact List.mem_append_left _ h)
    · rcases List.mem_cons.mp h with rfl | h
      · exact hne1
      · rcases List.mem_cons.mp h with rfl | h
        · exact hneN
        · exact hr.full X (by rw [hb]; exact List.mem_append_right _ (List.mem_cons_of_mem _ h))
  have hgtpost : ∀ e ∈ all_ents post, b < e.start := by
    intro e he
    have := hord.2 e he
    omega
  have hnB1 : B1.next = img.header.data_end := by
    have := linked_decomp (show linked_to (pre ++ B1 :: (N :: post)) 0 from hW2.good.linked)
    rw [this]
    exact ep2
  have hnN : N.next = B.next := by
    have h1 := linked_decomp (show linked_to ((pre ++ [B1]) ++ N :: post) 0 by
      have := hW2.good.linked
      simpa using this)
    have h2 := linked_decomp (show linked_to (pre ++ B :: post) 0 from hb ▸ hg.linked)
    rw [h1, h2]
  rw [hfirstN]
  by_cases hcase : (data_at N.ents 0).end_ < b
  · rw [if_pos hcase]
    have hfront := front_lt_of_full hW2 full1
    obtain ⟨img3, er, hr3, hs3, hh3, hms3, -, -, -, -, -⟩ :=
      read_metadata_spec hW2 full1 hfront hms2
        (show _ = (pre ++ [B1]) ++ N :: post by simp)
    have hl1 : (pre ++ [B1]).length = pre.length + 1 := by simp
    rw [hl1] at er
    rw [er]
    simp only [one_ne_zero, if_false]
    have key := extend_block_shape hr3 (show _ = (pre ++ [B1]) ++ N :: post by simp) hs3
      (by rw [hms3, hms2])
      (by rw [hh3, hh2, hE2]; omega)
      (fun C hC hCe => absurd hCe (full1 C hC)) hb0 (by rw [hh3, hh2]; exact hb1)
      (by
        intro e he
        rw [all_ents_append] at he
        rcases List.mem_append.mp he with h | h
        · exact hlt e h
        · simp only [all_ents_cons, all_ents_nil, List.append_nil] at h
          have := hcross e h _ hfN
          have := hrangeB _ (hmemB _ (Or.inr hfN))
          omega)
      hgtpost (fun e he => habB e (hmemB e (Or.inr he)))
    obtain ⟨k1, l1, l2, data1, k2, k3, k4, k5, k6, k7⟩ := key
    have hh : img3.header = img.header := by rw [hh3, hh2]
    rw [hh] at k6
    have hsh : (B.ents.take (B.ents.length / 2) = l1 ++ l2 ∧
          B1.ents = l1 ++ { start := b, end_ := b, pos := img.header.data_end + img.header.block_size } :: l2 ∧
          (N.with_ents (l1 ++ { start := b, end_ := b, pos := img.header.data_end + img.header.block_size } :: l2)).ents = B.ents.drop (B.ents.length / 2)) ∨
        (B.ents.drop (B.ents.length / 2) = l1 ++ l2 ∧
          B1.ents = B.ents.take (B.ents.length / 2) ∧
          (N.with_ents (l1 ++ { start := b, end_ := b, pos := img.header.data_end + img.header.block_size } :: l2)).ents = l1 ++ { start := b, end_ := b, pos := img.header.data_end + img.header.block_size } :: l2) :=
      Or.inr ⟨by rw [← e2]; exact k2, e1, rfl⟩
    refine ⟨k1, B1, N.with_ents (l1 ++ { start := b, end_ := b, pos := img.header.data_end + img.header.block_size } :: l2), l1, l2, data1, ?_, ep1, ep2, hnB1, hnN, k3, k4,
      Or.inr ⟨by rw [hfirstB]; exact hcase, by rw [← e2]; exact k2, e1, rfl⟩, k6, k7,
      fun b1 p hp => split_keeps_entries hsh hp⟩
    simpa using k5
  · rw [if_neg hcase]
    have hbN : b < (data_at N.ents 0).start := by
      have := habB _ (hmemB _ (Or.inr hfN))
      omega
    have key := extend_block_shape hW2 (show _ = pre ++ B1 :: (N :: post) from rfl) hs2 hms2
      (by rw [hh2, hE1]; omega)
      (fun C hC hCe => absurd hCe (full1 C hC)) hb0 (by rw [hh2]; exact hb1) hlt
      (by
        intro e he
        rw [all_ents_cons] at he
        rcases List.mem_append.mp he with h | h
        · have := (ents_bounds hsortN (fun x hx => hrangeB x (hmemB x (Or.inr hx))) h).1
          omega
        · exact hgtpost e h)
      (fun e he => habB e (hmemB e (Or.inl he)))
    obtain ⟨k1, l1, l2, data1, k2, k3, k4, k5, k6, k7⟩ := key
    rw [hh2] at k6
    have hsh : (B.ents.take (B.ents.length / 2) = l1 ++ l2 ∧
          (B1.with_ents (l1 ++ { start := b, end_ := b, pos := img.header.data_end + img.header.block_size } :: l2)).ents = l1 ++ { start := b, end_ := b, pos := img.header.data_end + img.header.block_size } :: l2 ∧
          N.ents = B.ents.drop (B.ents.length / 2)) ∨
        (B.ents.drop (B.ents.length / 2) = l1 ++ l2 ∧
          (B1.with_ents (l1 ++ { start := b, end_ := b, pos := img.header.data_end + img.header.block_size } :: l2)).ents = B.ents.take (B.ents.length / 2) ∧
          N.ents = l1 ++ { start := b, end_ := b, pos := img.header.data_end + img.header.block_size } :: l2) :=
      Or.inl ⟨by rw [← e1]; exact k2, rfl, e2⟩
    exact ⟨k1, B1.with_ents (l1 ++ { start := b, end_ := b, pos := img.header.data_end + img.header.block_size } :: l2), N, l1, l2, data1, k5, ep1, ep2, hnB1, hnN, k3, k4,
      Or.inl ⟨by rw [hfirstB]; exact hbN, by rw [← e1]; exact k2, rfl, e2⟩, k6, k7,
      fun b1 p hp => split_keeps_entries hsh hp⟩

/-- The code of `add_new_block` after the attempt to extend the cached
metadata block, for a block whose place is in a full metadata block. -/
theorem add_new_entry_shape {img : image_t} {blks : List mblk} {data : Int → List Nat}
    (hr : Rep img blks data) {pre : List mblk} {B : mblk} {post : List mblk}
    (hb : blks = pre ++ B :: post)
    (hfullB : (B.ents.length : Int) = img.header.meta_size)
    {b : Int} (hb0 : 0 ≤ b) (hb1 : b < img.header.total_blocks)
    (hab : absent (all_ents blks) b)
    (hlt : ∀ e ∈ all_ents pre, e.end_ < b) (hle : b ≤ B.last) :
    SplitShape img.header pre B post data b (add_new_entry img b img.header.data_end) := by
  obtain ⟨img1, e1, hr1, hs1, hh1, hsm1, hmd1, hc1, hfl1, hn1, hfd1, hfh1⟩ := load_summary hr
  unfold add_new_entry
  rw [e1]
  simp only [one_ne_zero, if_false]
  have hbne : blks ≠ [] := by
    rw [hb]
    simp
  have hemp : img1.metadata_summary ≠ [] := by
    rw [hs1, hb]
    simp
  rw [if_neg hemp]
  obtain ⟨pre0, suf, hb0', hw, hlt0, hsuf⟩ := walk_start_spec hr1 hs1 b
  obtain ⟨pre1, B1, post1, hbd, hsk, hlt1, hseek⟩ := seek_summary_spec hr1.rep0.good hr1.full b
    suf pre0 img1.metadata_summary.length hb0' (hsuf hbne) (by rw [hs1, hb0']; simp) hlt0
  obtain ⟨rfl, rfl, rfl⟩ := seek_unique hr1.rep0.good hr1.full hb hbd hlt hle hlt1 hseek
  rw [hw]
  rw [hs1] at hsk ⊢
  rw [hsk]
  obtain ⟨f, ew, hr2, s1, s2⟩ := write_metadata_spec hr1.rep0
  rw [hs1] at ew
  rw [ew]
  simp only [one_ne_zero, if_false]
  rw [← hs1] at ew ⊢
  obtain ⟨img3, er, hr3, hs3, hh3, hms3, hc3, hd3, -, -, hz3⟩ :=
    read_metadata_spec hr2 hr1.full hr1.front_lt hs1 hbd
  rw [er]
  simp only [one_ne_zero, if_false]
  have hh3' : img3.header = img1.header := hh3
  have hms3' : img3.metadata_summary = blks.map mblk.summ := by rw [hms3]; exact hs1
  have hrep3 : Rep img3 blks data := by
    refine hr1.of_rep0 hr3 hh3' ?_
    have a1 := s2 (by rw [hr1.size_eq])
    have a2 := hz3 (by rw [a1, hr1.size_eq])
    rw [a2]
    exact a1
  have hB : B1 ∈ blks := by rw [hbd]; simp
  have hh : img3.header = img.header := by rw [hh3', hh1]
  have hde : img.header.data_end = img3.header.data_end := by rw [hh]
  rw [hde]
  have hroom : ¬ img3.count < img3.header.meta_size := by
    rw [hc3, hh, hfullB]
    omega
  rw [if_neg hroom]
  have hat : summ_at img3.metadata_summary pre1.length = B1.summ := by
    rw [hms3', hbd, summ_at_map]
  have hlast : B1.summ.last = B1.last := rfl
  unfold add_to_full
  rw [hat, hlast]
  rw [if_neg (by
    rintro ⟨h1, -⟩
    omega)]
  rw [if_neg (show ¬ b > B1.last by omega)]
  have key := split_block_shape hrep3 hbd hs3 hms3' (by rw [hh]; exact hfullB) hb0
    (by rw [hh]; exact hb1) hab hlt hle
  rw [hh] at key
  rw [hh]
  exact key

/-- The values of the fields of the image of `full_image_state`: one metadata
block of 20 entries, the cached one, which is full. -/
theorem full_image_state_eq :
    full_image_state = some (20, some 0, 20, [{ pos := 512, first := 0, last := 180 }], 11264) := by
  rfl

theorem tens_and_five_valid : ∀ o ∈ [op.write tens_and_five], valid_op 512 102400 o := by
  intro o ho
  simp only [List.mem_singleton] at ho
  rw [ho]
  intro blk hblk
  simp only [tens_and_five, List.mem_append, List.mem_map, List.mem_range,
    List.mem_singleton] at hblk
  rcases hblk with ⟨k, hk, rfl⟩ | rfl
  · refine ⟨by show (0 : Int) ≤ 10 * (k : Int); omega, ?_, ?_⟩
    · show 10 * (k : Int) < (102400 + 512 - 1) / 512
      norm_num
      omega
    · show ((List.replicate 512 1).length : Int) = 512
      rw [List.length_replicate]
      rfl
  · refine ⟨by norm_num, by norm_num, ?_⟩
    show ((List.replicate 512 1).length : Int) = 512
    rw [List.length_replicate]
    rfl

/-- The blocks 6 and 7 are not among those that `tens_and_five` writes. -/
theorem tens_and_five_misses (b : Int) (hb : b = 6 ∨ b = 7) :
    b ∉ write_set [op.write tens_and_five] := by
  simp only [write_set, tens_and_five, Finset.union_empty, List.mem_toFinset, List.map_append,
    List.map_map, List.mem_append, List.mem_map, List.mem_range, Function.comp,
    List.map_cons, List.map_nil, List.mem_singleton]
  rintro (⟨k, -, hk⟩ | h)
  · rcases hb with rfl | rfl <;> omega
  · rcases hb with rfl | rfl <;> omega

/-- C26, as amended: when the place of a block `b` that an image in use does
not hold is in a metadata block `B` that is full - `B` holds `meta_size`
entries, the entries of the metadata blocks before it end before `b`, and `b`
is not beyond its last block - and no entry ends just before `b` with the end
of the data as the position after its data (`extend_metadata` would extend
such an entry), then `add_new_block` splits `B`, as `SplitShape` says: the
first half of the entries, `B.ents.length / 2` of them, stays in the metadata
block at the position of `B`, the others go to a new metadata block at the old
end of the data, which the first names as its next block and which names what
`B` named; the entry of `b` alone is put in its place by order in the first
half when `b` is before the first entry of the second half, and in the second
half otherwise; the data of `b` get the block after the new metadata block,
which is the value returned; and the blocks that the image held keep their
positions and their data. -/
theorem add_new_block_splits_full_block {img : image_t} {blks : List mblk}
    {data : Int → List Nat} (hr : Rep img blks data) {pre : List mblk} {B : mblk}
    {post : List mblk} (hb : blks = pre ++ B :: post)
    (hfullB : (B.ents.length : Int) = img.header.meta_size)
    {b : Int} (hb0 : 0 ≤ b) (hb1 : b < img.header.total_blocks)
    (hab : absent (all_ents blks) b)
    (hlt : ∀ e ∈ all_ents pre, e.end_ < b) (hle : b ≤ B.last)
    (hnx : ∀ e ∈ all_ents blks, e.end_ + 1 = b →
      block_position e b img.header.block_size ≠ img.header.data_end) :
    SplitShape img.header pre B post data b (add_new_block img b) := by
  unfold add_new_block
  rw [try_extend_none hr hnx]
  simp only [ne_eq, not_true_eq_false, if_false]
  exact add_new_entry_shape hr hb hfullB hb0 hb1 hab hlt hle

theorem add_new_block_splits_full_block_witness :
    ∃ img blks data B, run (new_image 512 102400 0) [op.write tens_and_five] = some img ∧
      Rep img blks data ∧ blks = [] ++ B :: [] ∧
      (B.ents.length : Int) = img.header.meta_size ∧ 7 ≤ B.last ∧
      SplitShape img.header [] B [] data 7 (add_new_block img 7) := by
  obtain ⟨-, h2⟩ := Holds.create 512 102400 0 (by norm_num) (by norm_num) (by norm_num)
    (by norm_num) (by norm_num) (by norm_num)
  obtain ⟨img, h3, hh, -⟩ := Holds.after_run [op.write tens_and_five] h2 tens_and_five_valid
  have hst := full_image_state_eq
  unfold full_image_state at hst
  rw [h3] at hst
  simp only [Option.map_some', Option.some.injEq, Prod.mk.injEq] at hst
  obtain ⟨q1, q2, q3, q4, q5⟩ := hst
  obtain ⟨blks, data, hr, hbs, hts, hw1, hw2⟩ := hh
  obtain ⟨pre, B, post, hb, hl, hc, hd, hn⟩ := hr.rep0.cache 0 q2
  have hpre : pre = [] := List.length_eq_zero.mp hl
  subst hpre
  have hms : img.metadata_summary = blks.map mblk.summ := by
    rcases hr.rep0.summ with h | h
    · exact h
    · rw [h.2] at q2
      cases q2
  rw [q4, hb] at hms
  simp only [List.nil_append, List.map_cons, List.cons.injEq] at hms
  obtain ⟨hsB, hpost⟩ := hms
  have hpost2 : post = [] := List.map_eq_nil_iff.mp hpost.symm
  subst hpost2
  have hlast : B.last = 180 := by
    have := congrArg metadata_summary_t.last hsB
    exact this.symm
  have hfull : (B.ents.length : Int) = img.header.meta_size := by rw [← hc, q3, q1]
  have hab : ∀ b : Int, b = 6 ∨ b = 7 → absent (all_ents blks) b := by
    intro b hb67
    rw [← hw1, written_none]
    exact ⟨rfl, tens_and_five_misses b hb67⟩
  have hb1 : (7 : Int) < img.header.total_blocks := by
    rw [total_blocks_eq hr.rep0.static, hbs, hts]
    norm_num
  refine ⟨img, blks, data, B, h3, hr, hb, hfull, by rw [hlast]; norm_num, ?_⟩
  exact add_new_block_splits_full_block hr hb hfull (by norm_num) hb1 (hab 7 (Or.inr rfl))
    (by intro e he; simp [all_ents] at he) (by rw [hlast]; norm_num)
    (by
      intro e he h6
      exfalso
      have hr6 := hr.rep0.good.range e he
      exact hab 6 (Or.inl rfl) e he ⟨by omega, by omega⟩)

set_option maxRecDepth 1000000 in
/-- C26 as stated does not hold: in a new sparse image of 200 blocks of 512
bytes after the writes `tens_and_five`, the one metadata block is full (20
entries, `meta_size` is 20) and block 6 is not beyond its last block 180, but
`add_new_block` for block 6 does not split it: `extend_metadata` makes the
entry of block 5, whose data end at the end of the data 11264, the entry of
the blocks 5 to 6, the value returned is 11264 and not one block after a new
metadata block, and the image still has one metadata block of 20 entries. -/
theorem full_block_extended_not_split :
    full_image_state =
        some (20, some 0, 20, [{ pos := 512, first := 0, last := 180 }], 11264) ∧
      extended_full_block = some (11264, 20, 1, 5, 6, 10752) := by
  exact ⟨rfl, rfl⟩

/-! ## Sparse images as the layers of a sequence -/

/-- The function `meta_has_block` on an image in use: the image stays in use
with the same index, and the answer is 0 for a block that the index does not
hold and 1 for a block that it holds. -/
theorem meta_has_block_spec {img : image_t} {blks : List mblk} {data : Int → List Nat}
    (hr : Rep img blks data) (b : Int) :
    Rep (meta_has_block img b).2 blks data ∧
    (absent (all_ents blks) b → (meta_has_block img b).1 = 0) ∧
    (¬ absent (all_ents blks) b → (meta_has_block img b).1 = 1) := by
  obtain ⟨p, img1, e, hr1, -, -, hcase⟩ := meta_block_position_spec hr b
  have hbs := hr.rep0.static.bs_min
  unfold meta_has_block
  rw [e]
  simp only
  rcases hcase with ⟨hp, ha⟩ | hp
  · subst hp
    rw [if_neg (by norm_num), if_pos rfl]
    exact ⟨hr1, fun _ => rfl, fun h => absurd ha h⟩
  · have hpos := (present_pos hr hp).1
    have hna : ¬ absent (all_ents blks) b := by
      intro ha
      obtain ⟨x, hx, h1, h2, -⟩ := hp
      exact ha x hx ⟨h1, h2⟩
    rw [if_neg (by omega), if_neg (by omega)]
    exact ⟨hr1, fun h => absurd h hna, fun _ => rfl⟩

theorem has_block_of_sparse {d : device_t image_t} (hb : d.has_block = some meta_has_block)
    (b : Int) :
    (ddb_device_has_block d b).1 = (meta_has_block d.state b).1 ∧
    (ddb_device_has_block d b).2.has_block = some meta_has_block ∧
    (ddb_device_has_block d b).2.state = (meta_has_block d.state b).2 := by
  unfold ddb_device_has_block
  rw [hb]
  exact ⟨rfl, rfl, rfl⟩

/-- A device whose `has_block` is `meta_has_block`, on an image in use, stays
so after calls of `ddb_device_has_block`, with the same index. -/
theorem sparse_after_has_block {blks : List mblk} {data : Int → List Nat} :
    ∀ (bs : List Int) (d : device_t image_t), d.has_block = some meta_has_block →
      Rep d.state blks data →
      (after_has_block d bs).has_block = some meta_has_block ∧
        Rep (after_has_block d bs).state blks data
  | [], _, hb, hr => ⟨hb, hr⟩
  | b :: bs, d, hb, hr => by
    obtain ⟨-, h2, h3⟩ := has_block_of_sparse hb b
    have hr1 := (meta_has_block_spec hr b).1
    rw [← h3] at hr1
    exact sparse_after_has_block bs (ddb_device_has_block d b).2 h2 hr1

/-- The answers of `ddb_device_has_block` of a sparse image in use do not
depend on the calls of `ddb_device_has_block` made before: they are 1 for the
blocks that the index holds and 0 for the others. -/
theorem sparse_device_stable (sha : List Nat → List Nat) {img : image_t} {blks : List mblk}
    {data : Int → List Nat} (hr : Rep img blks data) :
    stable_has_block (sparse_device sha img) := by
  intro bs b
  have hb0 : (sparse_device sha img).has_block = some meta_has_block := rfl
  obtain ⟨hb1, hr1⟩ := sparse_after_has_block bs (sparse_device sha img) hb0
    (show Rep (sparse_device sha img).state blks data from hr)
  rw [(has_block_of_sparse hb1 b).1, (has_block_of_sparse hb0 b).1]
  obtain ⟨-, a1, a2⟩ := meta_has_block_spec hr1 b
  obtain ⟨-, c1, c2⟩ := meta_has_block_spec
    (show Rep (sparse_device sha img).state blks data from hr) b
  by_cases ha : absent (all_ents blks) b
  · rw [a1 ha, c1 ha]
  · rw [a2 ha, c2 ha]

theorem image_read_length : ∀ (blocks : List ddb_block_t) (img : image_t) (zf : Bool),
    (image_read img blocks zf).1.2.length = blocks.length
  | [], _, _ => rfl
  | blk :: rest, img, zf => by
    have ih := image_read_length rest (image_read_block img blk zf).2 zf
    show ((image_read_block img blk zf).1 ::
      (image_read (image_read_block img blk zf).2 rest zf).1.2).length = _
    rw [List.length_cons, ih, List.length_cons]

theorem image_read_sums_length (sha : List Nat → List Nat) :
    ∀ (blocks : List ddb_block_t) (img : image_t) (zf : Bool),
      (image_read_sums sha img blocks zf).1.2.length = blocks.length
  | [], _, _ => rfl
  | blk :: rest, img, zf => by
    have ih := image_read_sums_length sha rest (image_sum_block sha img blk zf).2 zf
    show ((image_sum_block sha img blk zf).1 ::
      (image_read_sums sha (image_sum_block sha img blk zf).2 rest zf).1.2).length = _
    rw [List.length_cons, ih, List.length_cons]

/-- A read of a sparse image leaves as many blocks in the array as it was
given. -/
theorem sparse_device_keeps_length (sha : List Nat → List Nat) (img : image_t) :
    keeps_length (sparse_device sha img) := by
  intro s blocks flags
  show (image_read_flags sha s blocks flags).1.2.length = blocks.length
  unfold image_read_flags
  split
  · exact image_read_sums_length sha blocks s _
  · exact image_read_length blocks s _

/-- A device without the operation `has_block` answers 1 whatever calls were
made before. -/
theorem stable_of_no_has_block {σ : Type} {d : device_t σ} (h : d.has_block = none) :
    stable_has_block d := by
  have key : ∀ (bs : List Int) (d1 : device_t σ), d1.has_block = none →
      after_has_block d1 bs = d1 := by
    intro bs
    induction bs with
    | nil => intro d1 _; rfl
    | cons b bs ih =>
      intro d1 h1
      have e : (ddb_device_has_block d1 b).2 = d1 := by
        unfold ddb_device_has_block
        rw [h1]
      show after_has_block (ddb_device_has_block d1 b).2 bs = d1
      rw [e]
      exact ih d1 h1
  intro bs b
  rw [key bs d h]

theorem incr_ops_valid : ∀ o ∈ incr_ops, valid_op 512 1124 o := by
  intro o ho
  simp only [incr_ops, List.mem_singleton] at ho
  rw [ho]
  intro blk hblk
  simp only [List.mem_singleton] at hblk
  rw [hblk]
  refine ⟨by norm_num, by norm_num, ?_⟩
  show ((List.replicate 512 5).length : Int) = 512
  rw [List.length_replicate]
  rfl

set_option maxRecDepth 1000000 in
/-- The read of the blocks 0, 1 and 2 of the sequence of `two_layers_read`:
block 2, which both images hold, comes from the incremental, block 1 from the
full image, and block 0, which no image holds, is read from the full image as
zeros. -/
theorem two_layers_read_eq :
    two_layers_read = some (3, [(0, 1, [0, 0]), (1, 1, [8, 8]), (2, 1, [5, 5])]) := by
  rfl

theorem dir_read_newest_layer_witness :
    ∃ full incr, run (new_image 512 1124 0) sample_ops = some full ∧
      run (new_image 512 1124 0) incr_ops = some incr ∧
      (dir_read (two_layers full incr) zero_batch DDB_READ_BLOCK).2.1.length =
        zero_batch.length ∧
      (∀ (p : Nat) (blk : ddb_block_t), zero_batch[p]? = some blk →
        ∃ (d : device_t image_t) (j : Nat),
          newest (two_layers full incr).devs blk.block (two_layers full incr).devs.length <
            (two_layers full incr).devs.length ∧
          (who_has_all zero_batch (two_layers full incr).devs).2[
            newest (two_layers full incr).devs blk.block
              (two_layers full incr).devs.length]? = some d ∧
          (source_of (newest_all (two_layers full incr).devs zero_batch)
            (newest (two_layers full incr).devs blk.block
              (two_layers full incr).devs.length))[j]? = some p ∧
          ((source_of (newest_all (two_layers full incr).devs zero_batch)
            (newest (two_layers full incr).devs blk.block
              (two_layers full incr).devs.length)).map (block_at zero_batch))[j]? =
            some blk ∧
          block_at (dir_read (two_layers full incr) zero_batch DDB_READ_BLOCK).2.1 p =
            block_at (ddb_device_read_multi d
              ((source_of (newest_all (two_layers full incr).devs zero_batch)
                (newest (two_layers full incr).devs blk.block
                  (two_layers full incr).devs.length)).map (block_at zero_batch))
              DDB_READ_BLOCK).1.2 j) := by
  obtain ⟨-, h2⟩ := Holds.create 512 1124 0 (by norm_num) (by norm_num) (by norm_num)
    (by norm_num) (by norm_num) (by norm_num)
  obtain ⟨full, f1, ⟨blks0, data0, hr0, -⟩, -⟩ := Holds.after_run sample_ops h2 sample_ops_valid
  obtain ⟨incr, i1, ⟨blks1, data1, hr1, -⟩, -⟩ := Holds.after_run incr_ops h2 incr_ops_valid
  have hs : ∀ d ∈ (two_layers full incr).devs, stable_has_block d := by
    intro d hd
    simp only [two_layers, List.mem_cons, List.mem_singleton, List.not_mem_nil, or_false] at hd
    rcases hd with h | h
    · rw [h]; exact sparse_device_stable id hr0
    · rw [h]; exact sparse_device_stable id hr1
  have hl : ∀ d ∈ (two_layers full incr).devs, keeps_length d := by
    intro d hd
    simp only [two_layers, List.mem_cons, List.mem_singleton, List.not_mem_nil, or_false] at hd
    rcases hd with h | h
    · rw [h]; exact sparse_device_keeps_length id full
    · rw [h]; exact sparse_device_keeps_length id incr
  have key := dir_read_newest_layer (two_layers full incr) zero_batch DDB_READ_BLOCK
    (by simp [two_layers]) rfl hs hl
  exact ⟨full, incr, f1, i1, key.1, key.2.2.2.1⟩

/-! ## Lists whose count or whose ranges `add_range` leaves wrong -/

set_option maxRecDepth 1000000 in
/-- On the calls of the unit test, whose sums stay within `off_t`, `add_range`
with the sums of `off_t` does what `add_range` with the sums of the integers
does. -/
theorem add_all64_unit_test :
    add_all64 ddb_blocklist_new [(42, 99), (3, 16), (135, 142), (17, 41), (100, 134)] =
      add_all ddb_blocklist_new [(42, 99), (3, 16), (135, 142), (17, 41), (100, 134)] := by
  rfl

set_option maxRecDepth 1000000 in
/-- C2 (defect in `add_range`): after `ddb_blocklist_add` of the blocks 0 and
5 and then of the range from 0 to `2 ^ 63 - 1`, the greatest `off_t`, all of
which return 0, the ranges visited are `[0, 2 ^ 63 - 1]` and `[5, 5]`, which
are not canonical: the second starts inside the first.  The last call extends
`[0, 0]` to `[0, 2 ^ 63 - 1]`, and the loop
`while (range->next && range->next->start <= range->end + 1)` that is to
swallow `[5, 5]` stops at once, the sum `range->end + 1` leaving the range of
`off_t` and wrapping to `-2 ^ 63`. -/
theorem add_leaves_overlapping_ranges :
    ∃ L, add_all64 ddb_blocklist_new [(0, 0), (5, 5), (0, 2 ^ 63 - 1)] = Res.ok L ∧
      ddb_blocklist_iterate L = Res.ok [(0, 2 ^ 63 - 1), (5, 5)] ∧
      ¬ canonical [(0, 2 ^ 63 - 1), (5, 5)] ∧
      wrap64 (2 ^ 63 - 1 + 1) = -2 ^ 63 := by
  refine ⟨_, rfl, by rfl, ?_, by rfl⟩
  intro h
  have h2 := h.2
  simp at h2

/-- A call of `ddb_blocklist_add` that returns a fault: after the calls for
10, 20, 15, 5 and 6 to 9, which leave the ranges `[5, 10]`, `[15, 15]` and
`[20, 20]`, the `prev` of `[20, 20]` (cell 1) is still the cell 0 of the range
`[10, 10]`, which the last call released when it joined it to `[5, 9]`; the
call for 17 links the new range before `[20, 20]` through that `prev`, and
writes to the released cell. -/
theorem add_follows_released_prev :
    ∃ L, add_all ddb_blocklist_new [(10, 10), (20, 20), (15, 15), (5, 5), (6, 9)] = Res.ok L ∧
      ddb_blocklist_iterate L = Res.ok [(5, 10), (15, 15), (20, 20)] ∧
      deref L.mem 1 = Res.ok { next := none, prev := some 0, start := 20, end_ := 20 } ∧
      L.mem[0]? = some none ∧
      ddb_blocklist_add L 17 17 = Res.fault :=
  ⟨_, rfl, rfl, rfl, rfl, rfl⟩

set_option maxRecDepth 1000000 in
/-- C7 (defect in `add_range`, the one of C3): the list that
`ddb_blocklist_add` leaves after the calls for 10, 5 and 7 has the canonical
ranges `[7, 7]` and `[10, 10]` and the count 3; `ddb_blocklist_save` of it
returns 0, and `ddb_blocklist_load` on the bytes written returns a list with
the same ranges and the count 2, not the count of the list saved.  The stream
holds the ranges only, and `ddb_blocklist_load` counts the blocks of the
ranges it reads. -/
theorem load_of_save_changes_count :
    ∃ S bytes L, add_all ddb_blocklist_new [(10, 10), (5, 5), (7, 7)] = Res.ok S ∧
      ddb_blocklist_iterate S = Res.ok [(7, 7), (10, 10)] ∧
      canonical [(7, 7), (10, 10)] ∧ ddb_blocklist_count S = 3 ∧
      ddb_blocklist_save S = Res.ok (0, bytes) ∧
      ddb_blocklist_load bytes = Res.ok (loaded.list L []) ∧
      ddb_blocklist_iterate L = Res.ok [(7, 7), (10, 10)] ∧ ddb_blocklist_count L = 2 :=
  ⟨_, _, _, rfl, rfl, by simp [canonical], rfl, rfl, by rfl, by rfl, by rfl⟩

set_option maxRecDepth 1000000 in
/-- C8 (defect in `add_range`, the one of C3): the list that
`ddb_blocklist_add` leaves after the calls for 10, 5 and 7 has the canonical
ranges `[7, 7]` and `[10, 10]` and the count 3; `ddb_blocklist_print` of it
returns 0 and writes the lines `7` and `10`, and `ddb_blocklist_read` on this
text returns a list with the same ranges and the count 2, not the count of the
list printed. -/
theorem read_of_print_changes_count :
    ∃ S text L, add_all ddb_blocklist_new [(10, 10), (5, 5), (7, 7)] = Res.ok S ∧
      ddb_blocklist_iterate S = Res.ok [(7, 7), (10, 10)] ∧
      canonical [(7, 7), (10, 10)] ∧ ddb_blocklist_count S = 3 ∧
      ddb_blocklist_print S = Res.ok (0, text) ∧
      text = ['7', nl, '1', '0', nl] ∧
      ddb_blocklist_read text = Res.ok (loaded.list L []) ∧
      ddb_blocklist_iterate L = Res.ok [(7, 7), (10, 10)] ∧ ddb_blocklist_count L = 2 :=
  ⟨_, _, _, rfl, rfl, by simp [canonical], rfl, rfl, by rfl, by rfl, by rfl, by rfl⟩

end Ddb
